import Mathlib

/-!
# In-memory piece cache (libtorrent-go `memory_storage`, 1.2.x adapter)

Shallow embedding of `src/upgrade_1.2.x/libtorrent-go/memory_storage.hpp`.

* C++ `int` / `std::int64_t` values are `Int`; the sentinel `-1` is kept.
* `std::vector<T>` is `List T`; `v[i]` is `List.getD v i.toNat default` and an
  assignment to `v[i]` is `List.set`.  An index outside the vector is undefined
  behaviour in the source; the theorems assume valid indices.
* `boost::dynamic_bitset<>` is `List Bool`: `size()` is the length, `empty()` is
  `size() == 0`, `test(i)` reads position `i`, `reset()` clears every bit.
* `std::chrono::steady_clock::now()` is a monotone clock: the state carries the
  last reading `clock` and the list `ticks` of the advances the clock makes
  before each of the next readings (an advance may be `0`).
* The mutexes and the logging output are not modelled (sequential semantics).
-/

namespace libtorrent

/-- Priority value `dont_download` of the host library. -/
def dont_download : Nat := 0

/-- Priority value `default_priority` of the host library. -/
def default_priority : Nat := 4

/-- Operations the cache issues on the external picker. -/
inductive picker_call where
  | reset_piece_deadline (piece : Int)
  | set_piece_priority (piece : Int) (prio : Nat)
  | we_dont_have (piece : Int)
deriving DecidableEq, Repr

/-- Modelled from the spec: the external picker behind `m_handle` and `t`
(spec section 6, *Picker*), which is host-library code.  It keeps one priority
per piece; `calls` records the operations issued on it, oldest first. -/
structure torrent where
  priorities : List Nat
  calls : List picker_call
deriving DecidableEq, Repr

/-- Modelled from the spec: the query `current_priority(piece)` of the picker. -/
def torrent.piece_priority (t : torrent) (index : Int) : Nat :=
  if index < 0 ∨ (t.priorities.length : Int) ≤ index then dont_download
  else t.priorities.getD index.toNat dont_download

/-- Modelled from the spec: `reset_deadline(piece)` of the picker. -/
def torrent.reset_piece_deadline (t : torrent) (piece : Int) : torrent :=
  { t with calls := t.calls ++ [picker_call.reset_piece_deadline piece] }

/-- Modelled from the spec: `set_priority(piece, prio)` of the picker. -/
def torrent.set_piece_priority (t : torrent) (piece : Int) (prio : Nat) : torrent :=
  { priorities := if 0 ≤ piece then t.priorities.set piece.toNat prio else t.priorities
    calls := t.calls ++ [picker_call.set_piece_priority piece prio] }

/-- Modelled from the spec: `mark_not_have(piece)` of the picker. -/
def torrent.we_dont_have (t : torrent) (piece : Int) : torrent :=
  { t with calls := t.calls ++ [picker_call.we_dont_have piece] }

/-- The record `memory_piece`. -/
structure memory_piece where
  index : Int
  length : Int
  size : Int
  bi : Int
  is_completed : Bool
  is_read : Bool
deriving DecidableEq, Repr, Inhabited

/-- Constructor `memory_piece(i, len)`. -/
def memory_piece.mk_new (i len : Int) : memory_piece :=
  { index := i, length := len, size := 0, bi := -1, is_completed := false, is_read := false }

/-- Method `memory_piece::is_buffered`. -/
def memory_piece.is_buffered (p : memory_piece) : Bool := p.bi != -1

/-- Method `memory_piece::reset`. -/
def memory_piece.reset (p : memory_piece) : memory_piece :=
  { p with bi := -1, is_completed := false, is_read := false, size := 0 }

/-- The record `memory_buffer`; `accessed` is a reading of the steady clock. -/
structure memory_buffer where
  index : Int
  length : Int
  buffer : List Nat
  pi : Int
  is_used : Bool
  accessed : Nat
deriving DecidableEq, Repr, Inhabited

/-- Constructor `memory_buffer(idx, len)`, given the reading of `now()`. -/
def memory_buffer.mk_new (idx len : Int) (t : Nat) : memory_buffer :=
  { index := idx, length := len, buffer := List.replicate len.toNat 0, pi := -1,
    is_used := false, accessed := t }

/-- Method `memory_buffer::is_assigned`. -/
def memory_buffer.is_assigned (b : memory_buffer) : Bool := b.pi != -1

/-- Method `memory_buffer::reset`, given the reading of `now()`. -/
def memory_buffer.reset (b : memory_buffer) (t : Nat) : memory_buffer :=
  { b with is_used := false, pi := -1, accessed := t,
           buffer := List.replicate b.buffer.length 0 }

/-- The object `memory_storage` together with the steady clock it reads. -/
structure memory_storage where
  reader_pieces : List Bool
  reserved_pieces : List Bool
  lookbehind_pieces : List Bool
  capacity : Int
  piece_count : Int
  piece_length : Int
  pieces : List memory_piece
  buffer_size : Int
  buffer_limit : Int
  buffer_used : Int
  buffer_reserved : Int
  buffers : List memory_buffer
  m_handle : Option torrent
  is_initialized : Bool
  is_reading : Bool
  clock : Nat
  ticks : List Nat
deriving DecidableEq, Repr

/-- The free function `now()`: the clock advances by the next pending amount and
is read. -/
def now (s : memory_storage) : Nat × memory_storage :=
  let t := s.clock + s.ticks.headD 0
  (t, { s with clock := t, ticks := s.ticks.tail })

/-- The call `Bitset::test(i)`. -/
def bitset_test (bs : List Bool) (i : Int) : Bool := bs.getD i.toNat false

/-- The call `Bitset::reset()`: every bit cleared, the size kept. -/
def bitset_reset (bs : List Bool) : List Bool := List.replicate bs.length false

/-- The call `Bitset::set(i)`. -/
def bitset_set (bs : List Bool) (i : Int) : List Bool := bs.set i.toNat true

/-- The call `Bitset::empty()`: the bitset has no positions at all. -/
def bitset_empty (bs : List Bool) : Bool := bs.isEmpty

/-- The call `Bitset::count()`. -/
def bitset_count (bs : List Bool) : Nat := bs.count true

/-- The expression `ceil(static_cast<double>(capacity) / piece_length)` for a
positive `piece_length`, as an exact quotient (the conversion to `double` is
exact for capacities below `2^53`). -/
def ceil_div (capacity piece_length : Int) : Int := -((-capacity) / piece_length)

/-- Read access `pieces[i]`. -/
def memory_storage.piece_at (s : memory_storage) (i : Int) : memory_piece :=
  s.pieces.getD i.toNat default

/-- Read access `buffers[i]`. -/
def memory_storage.buffer_at (s : memory_storage) (i : Int) : memory_buffer :=
  s.buffers.getD i.toNat default

/-- Assignment to `pieces[i]`. -/
def memory_storage.set_piece (s : memory_storage) (i : Int) (p : memory_piece) :
    memory_storage :=
  { s with pieces := s.pieces.set i.toNat p }

/-- Assignment to `buffers[i]`. -/
def memory_storage.set_buffer (s : memory_storage) (i : Int) (b : memory_buffer) :
    memory_storage :=
  { s with buffers := s.buffers.set i.toNat b }

/-- The loop of the constructor and of `set_memory_size` that appends the
buffers `from, from+1, ...` (`count` of them), each stamped with `now()`. -/
def push_buffers : Nat → Int → memory_storage → memory_storage
  | 0, _, s => s
  | k + 1, i, s =>
    let r := now s
    push_buffers k (i + 1)
      { r.2 with buffers := r.2.buffers ++ [memory_buffer.mk_new i r.2.piece_length r.1] }

/-- The constructor `memory_storage(fs, info)`: `memory_size` is the global
capacity setting, `num_pieces`, `piece_length` and `piece_size` come from the
torrent info; `clock` and `ticks` are the steady clock at construction. -/
def memory_storage.construct (memory_size num_pieces piece_length : Int)
    (piece_size : Int → Int) (clock : Nat) (ticks : List Nat) : memory_storage :=
  let buffer_size0 := ceil_div memory_size piece_length + 2
  let buffer_size := if buffer_size0 > num_pieces then num_pieces else buffer_size0
  let s0 : memory_storage :=
    { reader_pieces := []
      reserved_pieces := []
      lookbehind_pieces := []
      capacity := memory_size
      piece_count := num_pieces
      piece_length := piece_length
      pieces := (List.range num_pieces.toNat).map
        (fun (i : Nat) => memory_piece.mk_new (i : Int) (piece_size (i : Int)))
      buffer_size := buffer_size
      buffer_limit := buffer_size
      buffer_used := 0
      buffer_reserved := 0
      buffers := []
      m_handle := none
      is_initialized := false
      is_reading := false
      clock := clock
      ticks := ticks }
  let s1 := push_buffers buffer_size.toNat 0 s0
  { s1 with
    reader_pieces := List.replicate (num_pieces + 10).toNat false
    reserved_pieces := List.replicate (num_pieces + 10).toNat false
    lookbehind_pieces := List.replicate (num_pieces + 10).toNat false
    is_initialized := true }

/-- Method `set_memory_size`. -/
def memory_storage.set_memory_size (s : memory_storage) (sz : Int) : memory_storage :=
  if sz ≤ s.capacity then s
  else
    let prev_buffer_size := s.buffer_size
    let buffer_size0 := ceil_div sz s.piece_length + 2
    let buffer_size := if buffer_size0 > s.piece_count then s.piece_count else buffer_size0
    let s1 := { s with capacity := sz, buffer_size := buffer_size, buffer_limit := buffer_size }
    if prev_buffer_size = buffer_size then s1
    else push_buffers (buffer_size - prev_buffer_size).toNat prev_buffer_size s1

/-- Method `set_torrent_handle`: binds the picker (`m_handle` and `t`). -/
def memory_storage.set_torrent_handle (s : memory_storage) (h : torrent) : memory_storage :=
  { s with m_handle := some h }

/-- Method `is_reserved`. -/
def memory_storage.is_reserved (s : memory_storage) (index : Int) : Bool :=
  if !s.is_initialized || decide (index < 0) || decide (index ≥ s.piece_count) then false
  else bitset_test s.reserved_pieces index

/-- Method `is_lookbehind_protected`. -/
def memory_storage.is_lookbehind_protected (s : memory_storage) (index : Int) : Bool :=
  if !s.is_initialized || decide (index < 0) || decide (index ≥ s.piece_count) then false
  else bitset_test s.lookbehind_pieces index

/-- Method `is_readered`: the picker does not give the piece `dont_download`. -/
def memory_storage.is_readered (s : memory_storage) (index : Int) : Bool :=
  if !s.is_initialized then false
  else match s.m_handle with
    | none => true
    | some h => h.piece_priority index != dont_download

/-- Method `restore_piece`. -/
def memory_storage.restore_piece (s : memory_storage) (pi : Int) : memory_storage :=
  match s.m_handle with
  | none => s
  | some h =>
    let h1 := h.reset_piece_deadline pi
    let h2 := h1.set_piece_priority pi dont_download
    let h3 := h2.we_dont_have pi
    { s with m_handle := some h3 }

/-- Method `remove_piece`. -/
def memory_storage.remove_piece (s : memory_storage) (bi : Int) : memory_storage :=
  let pi := (s.buffer_at bi).pi
  let r := now s
  let s1 := r.2.set_buffer bi ((r.2.buffer_at bi).reset r.1)
  let s2 := { s1 with buffer_used := s1.buffer_used - 1 }
  if pi ≠ -1 ∧ pi < s2.piece_count then
    (s2.set_piece pi (s2.piece_at pi).reset).restore_piece pi
  else s2

/-- The scan of `find_last_buffer` over the slots, with the running `bi` and
`minTime`. -/
def find_last_scan (s : memory_storage) (pi : Int) (check_read : Bool) :
    List memory_buffer → Int → Nat → Int
  | [], bi, _ => bi
  | b :: rest, bi, minTime =>
    if b.is_used && b.is_assigned
        && !s.is_reserved b.pi
        && !s.is_lookbehind_protected b.pi
        && b.pi != pi
        && (!check_read || !s.is_readered b.pi)
        && decide (b.accessed < minTime) then
      find_last_scan s pi check_read rest b.index b.accessed
    else
      find_last_scan s pi check_read rest bi minTime

/-- Method `find_last_buffer`: the slot found (or `-1`) and the state after the
clock was read. -/
def memory_storage.find_last_buffer (s : memory_storage) (pi : Int) (check_read : Bool) :
    Int × memory_storage :=
  let r := now s
  (find_last_scan r.2 pi check_read r.2.buffers (-1) r.1, r.2)

/-- One pass through the body of the `while` loop of `trim`: the slot evicted in
this pass (`none` when the loop is left by `break`) and the state after it. -/
def memory_storage.trim_body (s : memory_storage) (pi : Int) : Option Int × memory_storage :=
  let r1 := if !bitset_empty s.reader_pieces then s.find_last_buffer pi true else (-1, s)
  if r1.1 ≠ -1 then (some r1.1, r1.2.remove_piece r1.1)
  else
    let r2 := r1.2.find_last_buffer pi false
    if r2.1 ≠ -1 then (some r2.1, r2.2.remove_piece r2.1)
    else (none, r2.2)

/-- The `while (buffer_used >= buffer_limit)` loop of `trim`, run for at most
`fuel` passes. -/
def trim_loop : Nat → memory_storage → Int → memory_storage
  | 0, s, _ => s
  | fuel + 1, s, pi =>
    if s.buffer_used ≥ s.buffer_limit then
      match s.trim_body pi with
      | (some _, s1) => trim_loop fuel s1 pi
      | (none, s1) => s1
    else s

/-- Method `trim`.  Every pass that does not leave the loop frees a slot that
was in use, so `buffers.length + 1` passes are enough (`trim_fuel_enough`). -/
def memory_storage.trim (s : memory_storage) (pi : Int) : memory_storage :=
  if s.capacity < 0 ∨ s.buffer_used < s.buffer_limit then s
  else trim_loop (s.buffers.length + 1) s pi

/-- The allocation loop of `get_buffer`: the first `i < buffer_size` whose slot
is not in use. -/
def memory_storage.find_free (s : memory_storage) : Option Nat :=
  (List.range s.buffer_size.toNat).find? (fun i => !(s.buffer_at (i : Int)).is_used)

/-- Method `get_buffer(&pieces[pidx], is_write)`. -/
def memory_storage.get_buffer (s : memory_storage) (pidx : Int) (is_write : Bool) :
    Bool × memory_storage :=
  let p := s.piece_at pidx
  if p.is_buffered then (true, s)
  else if !is_write then (p.is_buffered, s)
  else if s.is_reading && !s.is_readered p.index then (false, s.restore_piece p.index)
  else
    match s.find_free with
    | none => (p.is_buffered, s)
    | some i =>
      let r := now s
      let b := r.2.buffer_at (i : Int)
      let s1 := r.2.set_buffer (i : Int) { b with is_used := true, pi := p.index, accessed := r.1 }
      let s2 := s1.set_piece pidx { p with bi := b.index }
      let s3 :=
        if bitset_test s2.reserved_pieces p.index || bitset_test s2.lookbehind_pieces p.index then
          { s2 with buffer_limit := s2.buffer_limit - 1 }
        else
          { s2 with buffer_used := s2.buffer_used + 1 }
      ((s3.piece_at pidx).is_buffered, s3)

/-- Method `get_read_buffer`. -/
def memory_storage.get_read_buffer (s : memory_storage) (pidx : Int) : Bool × memory_storage :=
  s.get_buffer pidx false

/-- Method `get_write_buffer`. -/
def memory_storage.get_write_buffer (s : memory_storage) (pidx : Int) : Bool × memory_storage :=
  s.get_buffer pidx true

/-- The call `memcpy(&dst[off], src, n)` on a vector. -/
def memcpy_into (dst : List Nat) (off : Nat) (src : List Nat) (n : Nat) : List Nat :=
  dst.take off ++ src.take n ++ dst.drop (off + n)

/-- The copy loop of `writev` over the incoming spans: the slot contents and the
byte count `n` after the loop. -/
def writev_loop (length : Int) : List (List Nat) → List Nat → Int → Int → List Nat × Int
  | [], data, _, n => (data, n)
  | buf :: rest, data, file_offset, n =>
    let to_copy := min (length - file_offset) (buf.length : Int)
    writev_loop length rest (memcpy_into data file_offset.toNat buf to_copy.toNat)
      (file_offset + to_copy) (n + to_copy)

/-- Method `writev`: the return value and the state after the call. -/
def memory_storage.writev (s : memory_storage) (bufs : List (List Nat)) (piece : Int)
    (offset : Int) : Int × memory_storage :=
  if !s.is_initialized then (0, s)
  else
    let g := s.get_write_buffer piece
    if !g.1 then (0, g.2)
    else
      let s1 := g.2
      let p := s1.piece_at piece
      let b := s1.buffer_at p.bi
      let w := writev_loop p.length bufs b.buffer offset 0
      let s2 := s1.set_buffer p.bi { b with buffer := w.1 }
      let s3 := s2.set_piece piece { p with size := p.size + w.2 }
      let r := now s3
      let s4 := r.2.set_buffer p.bi { r.2.buffer_at p.bi with accessed := r.1 }
      let s5 := if s4.buffer_used ≥ s4.buffer_limit then s4.trim piece else s4
      (w.2, s5)

/-- The copy loop of `readv` over the destination spans: the spans after the
copies (in reverse order) and the byte count `n`. -/
def readv_loop (data : List Nat) : List (List Nat) → Int → Int → List (List Nat) →
    List (List Nat) × Int
  | [], _, n, out => (out.reverse, n)
  | buf :: rest, file_offset, n, out =>
    let to_copy := min ((data.length : Int) - file_offset) (buf.length : Int)
    readv_loop data rest (file_offset + to_copy) (n + to_copy)
      (memcpy_into buf 0 (data.drop file_offset.toNat) to_copy.toNat :: out)

/-- Method `readv`: the return value, the destination spans after the call and
the state after the call. -/
def memory_storage.readv (s : memory_storage) (bufs : List (List Nat)) (piece : Int)
    (offset : Int) : Int × List (List Nat) × memory_storage :=
  if !s.is_initialized then (0, bufs, s)
  else
    let g := s.get_read_buffer piece
    if !g.1 then (0, bufs, g.2)
    else
      let s1 := g.2
      let p := s1.piece_at piece
      let b := s1.buffer_at p.bi
      let rd := readv_loop b.buffer bufs offset 0 []
      let s2 :=
        if p.is_completed && decide (offset + rd.2 ≥ p.size) then
          s1.set_piece piece { p with is_read := true }
        else s1
      let r := now s2
      let s3 := r.2.set_buffer p.bi { r.2.buffer_at p.bi with accessed := r.1 }
      (rd.2, rd.1, s3)

/-- Method `read` (the simple read of the streaming reader): the return value,
`read_buf` after the call and the state after the call. -/
def memory_storage.read (s : memory_storage) (read_buf : List Nat) (size : Int) (piece : Int)
    (offset : Int) : Int × List Nat × memory_storage :=
  if !s.is_initialized then (0, read_buf, s)
  else
    let s0 := { s with is_reading := true }
    let g := s0.get_read_buffer piece
    if !g.1 then (-1, read_buf, g.2.restore_piece piece)
    else
      let s1 := g.2
      let p := s1.piece_at piece
      if p.size < p.length then (-1, read_buf, s1.restore_piece piece)
      else
        let b := s1.buffer_at p.bi
        let available0 := (b.buffer.length : Int) - offset
        if available0 ≤ 0 then (0, read_buf, s1)
        else
          let available := if available0 > size then size else available0
          let out := memcpy_into read_buf 0 (b.buffer.drop offset.toNat) available.toNat
          let s2 :=
            if p.is_completed && decide (offset + available ≥ p.size) then
              s1.set_piece piece { p with is_read := true }
            else s1
          let r := now s2
          let s3 := r.2.set_buffer p.bi { r.2.buffer_at p.bi with accessed := r.1 }
          (size, out, s3)

/-- The loop `for (int piece : piece_list) if (0 <= piece < piece_count) bits.set(piece)`. -/
def set_pieces (piece_count : Int) : List Int → List Bool → List Bool
  | [], bits => bits
  | piece :: rest, bits =>
    if piece ≥ 0 ∧ piece < piece_count then set_pieces piece_count rest (bitset_set bits piece)
    else set_pieces piece_count rest bits

/-- The counter of `update_reserved_pieces`: one increment per accepted list entry. -/
def count_pieces (piece_count : Int) : List Int → Int → Int
  | [], n => n
  | piece :: rest, n =>
    if piece ≥ 0 ∧ piece < piece_count then count_pieces piece_count rest (n + 1)
    else count_pieces piece_count rest n

/-- Method `update_reader_pieces`. -/
def memory_storage.update_reader_pieces (s : memory_storage) (piece_list : List Int) :
    memory_storage :=
  if !s.is_initialized then s
  else { s with reader_pieces := set_pieces s.piece_count piece_list (bitset_reset s.reader_pieces) }

/-- Method `update_reserved_pieces`. -/
def memory_storage.update_reserved_pieces (s : memory_storage) (piece_list : List Int) :
    memory_storage :=
  if !s.is_initialized then s
  else
    { s with
      buffer_reserved := count_pieces s.piece_count piece_list 0
      reserved_pieces := set_pieces s.piece_count piece_list (bitset_reset s.reserved_pieces) }

/-- Method `set_lookbehind_pieces`. -/
def memory_storage.set_lookbehind_pieces (s : memory_storage) (piece_list : List Int) :
    memory_storage :=
  if !s.is_initialized then s
  else
    { s with
      lookbehind_pieces := set_pieces s.piece_count piece_list (bitset_reset s.lookbehind_pieces) }

/-- Method `clear_lookbehind`. -/
def memory_storage.clear_lookbehind (s : memory_storage) : memory_storage :=
  if !s.is_initialized then s
  else { s with lookbehind_pieces := bitset_reset s.lookbehind_pieces }

end libtorrent

namespace libtorrent

/-! ## The operations as a transition system -/

/-- The calls the engine, the application and the environment make on the cache.
`picker_priorities` is the host library changing piece priorities on its own,
`clock_ticks` fixes how the steady clock advances before its next readings. -/
inductive op where
  | writev (bufs : List (List Nat)) (piece offset : Int)
  | readv (bufs : List (List Nat)) (piece offset : Int)
  | read (read_buf : List Nat) (size piece offset : Int)
  | update_reader_pieces (piece_list : List Int)
  | update_reserved_pieces (piece_list : List Int)
  | set_lookbehind_pieces (piece_list : List Int)
  | clear_lookbehind
  | set_memory_size (sz : Int)
  | set_torrent_handle (h : torrent)
  | picker_priorities (prios : List Nat)
  | clock_ticks (ticks : List Nat)

/-- The arguments for which the source has defined behaviour: the piece index
addresses `pieces`, and the offset lies inside the piece (write) or inside the
slot (read). -/
def op.pre (s : memory_storage) : op → Prop
  | op.writev _ piece offset =>
    0 ≤ piece ∧ piece < s.piece_count ∧ 0 ≤ offset ∧ offset ≤ (s.piece_at piece).length
  | op.readv _ piece offset =>
    0 ≤ piece ∧ piece < s.piece_count ∧ 0 ≤ offset ∧ offset ≤ s.piece_length
  | op.read read_buf size piece offset =>
    0 ≤ piece ∧ piece < s.piece_count ∧ 0 ≤ offset ∧ 0 ≤ size ∧ size ≤ (read_buf.length : Int)
  | _ => True

/-- The state after a call. -/
def op.run (s : memory_storage) : op → memory_storage
  | op.writev bufs piece offset => (s.writev bufs piece offset).2
  | op.readv bufs piece offset => (s.readv bufs piece offset).2.2
  | op.read read_buf size piece offset => (s.read read_buf size piece offset).2.2
  | op.update_reader_pieces l => s.update_reader_pieces l
  | op.update_reserved_pieces l => s.update_reserved_pieces l
  | op.set_lookbehind_pieces l => s.set_lookbehind_pieces l
  | op.clear_lookbehind => s.clear_lookbehind
  | op.set_memory_size sz => s.set_memory_size sz
  | op.set_torrent_handle h => s.set_torrent_handle h
  | op.picker_priorities prios =>
    { s with m_handle := s.m_handle.map (fun h => { h with priorities := prios }) }
  | op.clock_ticks ticks => { s with ticks := ticks }

/-- The states the cache can be in: built by the constructor from a
non-negative capacity, a positive piece length and a file layout whose piece
sizes lie between `0` and the piece length, then driven by any sequence of
calls. -/
inductive reachable : memory_storage → Prop
  | construct (memory_size num_pieces piece_length : Int) (piece_size : Int → Int)
      (clock : Nat) (ticks : List Nat)
      (hcap : 0 ≤ memory_size) (hlen : 0 < piece_length) (hnum : 0 ≤ num_pieces)
      (hsize : ∀ i : Int, 0 ≤ i → i < num_pieces →
        0 ≤ piece_size i ∧ piece_size i ≤ piece_length) :
      reachable (memory_storage.construct memory_size num_pieces piece_length piece_size
        clock ticks)
  | step (s : memory_storage) (o : op) (hs : reachable s) (hpre : o.pre s) :
      reachable (o.run s)

/-- The number of slots with `is_used` set. -/
def memory_storage.in_use (s : memory_storage) : Nat :=
  s.buffers.countP (fun b => b.is_used)

/-- The structural invariant of the cache. -/
structure wf (s : memory_storage) : Prop where
  init : s.is_initialized = true
  plen : 0 < s.piece_length
  pieces_len : (s.pieces.length : Int) = s.piece_count
  buffers_len : (s.buffers.length : Int) = s.buffer_size
  size_le : s.buffer_size ≤ s.piece_count ∧
    s.buffer_size ≤ ceil_div s.capacity s.piece_length + 2
  limit_le : s.buffer_limit ≤ s.buffer_size
  quota : s.buffer_used + s.buffer_size ≤ s.buffer_limit + (s.in_use : Int)
  reader_len : (s.reader_pieces.length : Int) = s.piece_count + 10
  reserved_len : (s.reserved_pieces.length : Int) = s.piece_count + 10
  lookbehind_len : (s.lookbehind_pieces.length : Int) = s.piece_count + 10
  buf : ∀ i : Int, 0 ≤ i → i < s.buffer_size →
    (s.buffer_at i).index = i ∧
    ((s.buffer_at i).buffer.length : Int) = s.piece_length ∧
    ((s.buffer_at i).is_used = true ↔ (s.buffer_at i).pi ≠ -1) ∧
    ((s.buffer_at i).pi ≠ -1 →
      0 ≤ (s.buffer_at i).pi ∧ (s.buffer_at i).pi < s.piece_count ∧
      (s.piece_at (s.buffer_at i).pi).bi = i)
  pc : ∀ p : Int, 0 ≤ p → p < s.piece_count →
    (s.piece_at p).index = p ∧
    0 ≤ (s.piece_at p).length ∧ (s.piece_at p).length ≤ s.piece_length ∧
    ((s.piece_at p).bi ≠ -1 →
      0 ≤ (s.piece_at p).bi ∧ (s.piece_at p).bi < s.buffer_size ∧
      (s.buffer_at (s.piece_at p).bi).pi = p)

/-- The test `find_last_buffer` applies to a slot, apart from the comparison of
timestamps: in use, assigned, piece not reserved, not lookbehind-protected,
different from the caller, and not readered when `check_read` is set. -/
def eligible (s : memory_storage) (pi : Int) (check_read : Bool) (b : memory_buffer) : Bool :=
  b.is_used && b.is_assigned
    && !s.is_reserved b.pi
    && !s.is_lookbehind_protected b.pi
    && b.pi != pi
    && (!check_read || !s.is_readered b.pi)

/-! ## Concrete scenarios -/

/-- Scenario 1 of the spec: capacity 16 bytes, 4 pieces of length 4, the clock
at 0 and advancing by 1 before each reading. -/
def scenario1 : memory_storage :=
  memory_storage.construct 16 4 4 (fun _ => 4) 0 [1, 1, 1, 1, 1, 1, 1, 1, 1, 1, 1, 1]

/-- The pieces the loop of `trim` evicts, in order: in each pass that finds a
victim slot `bi`, the piece `buffers[bi].pi` that `remove_piece` resets. -/
def trim_loop_evicted : Nat → memory_storage → Int → List Int
  | 0, _, _ => []
  | fuel + 1, s, pi =>
    if s.buffer_used ≥ s.buffer_limit then
      match s.trim_body pi with
      | (some bi, s1) => (s.buffer_at bi).pi :: trim_loop_evicted fuel s1 pi
      | (none, _) => []
    else []

/-- The pieces a call `trim(pi)` evicts, in order. -/
def memory_storage.trim_evicted (s : memory_storage) (pi : Int) : List Int :=
  if s.capacity < 0 ∨ s.buffer_used < s.buffer_limit then []
  else trim_loop_evicted (s.buffers.length + 1) s pi

/-- A pool of two slots over three pieces with piece 1 reserved, on a clock
that stands still while pieces 0 and 1 are written (so the trim after the
second write finds no slot older than its reading) and advances afterwards. -/
def scenario3 : memory_storage :=
  op.run (op.run (op.run (op.run
    (memory_storage.construct 0 3 4 (fun _ => 4) 0 [])
    (op.update_reserved_pieces [1]))
    (op.writev [[1, 2, 3, 4]] 0 0))
    (op.writev [[5, 6, 7, 8]] 1 0))
    (op.clock_ticks [1, 1, 1, 1])

/-- The part of `writev` between the allocation and the trim, run on the state
`g` that `get_write_buffer` left: the copy loop, `pieces[piece].size += n` and
the new timestamp of the slot. -/
def memory_storage.writev_store (g : memory_storage) (bufs : List (List Nat)) (piece : Int)
    (offset : Int) : Int × memory_storage :=
  let p := g.piece_at piece
  let b := g.buffer_at p.bi
  let w := writev_loop p.length bufs b.buffer offset 0
  let s2 := g.set_buffer p.bi { b with buffer := w.1 }
  let s3 := s2.set_piece piece { p with size := p.size + w.2 }
  let r := now s3
  (w.2, r.2.set_buffer p.bi { r.2.buffer_at p.bi with accessed := r.1 })

/-- A pool of three slots over four pieces with a picker bound and no reader
piece set: pieces 0 and 1 are written in this order on an advancing clock, then
the picker gives piece 1 the priority `dont_download`. -/
def scenario5 : memory_storage :=
  op.run (op.run (op.run (op.run
    (memory_storage.construct 4 4 4 (fun _ => 4) 0 [1, 1, 1, 1, 1, 1, 1, 1, 1, 1, 1, 1, 1, 1])
    (op.set_torrent_handle { priorities := [4, 4, 4, 4], calls := [] }))
    (op.writev [[1, 2, 3, 4]] 0 0))
    (op.writev [[5, 6, 7, 8]] 1 0))
    (op.picker_priorities [4, 0, 4, 4])

/-- The state in which the write of piece 2 to `scenario5` calls `trim(2)`. -/
def scenario5_trim : memory_storage :=
  ((scenario5.get_buffer 2 true).2.writev_store [[9, 10, 11, 12]] 2 0).2

/-- A pool of three slots over four pieces with a picker bound that gives
piece 1 the priority `dont_download`; piece 0 is written at clock reading 1,
piece 1 at reading 2, and the clock then stands still. -/
def scenario6 : memory_storage :=
  op.run (op.run (op.run
    (memory_storage.construct 4 4 4 (fun _ => 4) 0 [0, 0, 0, 1, 0, 1, 0])
    (op.set_torrent_handle { priorities := [4, 0, 4, 4], calls := [] }))
    (op.writev [[1, 2, 3, 4]] 0 0))
    (op.writev [[5, 6, 7, 8]] 1 0)

/-- The state in which the write of piece 2 to `scenario6` calls `trim(2)`. -/
def scenario6_trim : memory_storage :=
  ((scenario6.get_buffer 2 true).2.writev_store [[9, 10, 11, 12]] 2 0).2

/-- Scenario 4 of the spec: ten pieces, `reader_pieces = {5, 6, 7}`, a picker
bound that gives the pieces 5, 6, 7 a download priority and every other piece
`dont_download`, and a first `read` (a miss on piece 5) after which the cache is
serving reader traffic. -/
def scenario4 : memory_storage :=
  op.run (op.run (op.run
    (memory_storage.construct 16 10 4 (fun _ => 4) 0 [1, 1, 1, 1, 1, 1, 1, 1, 1, 1, 1, 1])
    (op.set_torrent_handle { priorities := [0, 0, 0, 0, 0, 4, 4, 4, 0, 0], calls := [] }))
    (op.update_reader_pieces [5, 6, 7]))
    (op.read [0, 0, 0, 0] 4 5 0)

/-- A pool of two slots over three pieces, both slots taken by the reserved
pieces 0 and 1, with a picker bound that gives piece 2 `dont_download`; no
`read` has been made, so the cache is not serving reader traffic. -/
def scenario7 : memory_storage :=
  op.run (op.run (op.run (op.run
    (memory_storage.construct 0 3 4 (fun _ => 4) 0 [1, 1, 1, 1, 1, 1, 1, 1, 1, 1, 1, 1])
    (op.set_torrent_handle { priorities := [4, 4, 0], calls := [] }))
    (op.update_reserved_pieces [0, 1]))
    (op.writev [[1, 2, 3, 4]] 0 0))
    (op.writev [[5, 6, 7, 8]] 1 0)

/-- Scenario 4 of the spec with a picker that gives every piece the default
priority: `reader_pieces = {5, 6, 7}`, the cache is serving reader traffic, and
piece 2 is outside `reader_pieces` but readered. -/
def scenario8 : memory_storage :=
  op.run (op.run (op.run
    (memory_storage.construct 16 10 4 (fun _ => 4) 0 [1, 1, 1, 1, 1, 1, 1, 1, 1, 1, 1, 1])
    (op.set_torrent_handle { priorities := [4, 4, 4, 4, 4, 4, 4, 4, 4, 4], calls := [] }))
    (op.update_reader_pieces [5, 6, 7]))
    (op.read [0, 0, 0, 0] 4 5 0)

/-! ## Lookbehind queries -/

/-- Method `is_lookbehind_available`. -/
def memory_storage.is_lookbehind_available (s : memory_storage) (piece : Int) : Bool :=
  if !s.is_initialized || decide (piece < 0) || decide (piece ≥ s.piece_count) then false
  else if !bitset_test s.lookbehind_pieces piece then false
  else decide ((s.piece_at piece).bi ≥ 0)

/-- Method `get_lookbehind_available_count`: the loop over `i < piece_count`
counts the pieces whose lookbehind bit is set and whose `bi` is not negative. -/
def memory_storage.get_lookbehind_available_count (s : memory_storage) : Int :=
  if !s.is_initialized then 0
  else
    ((List.range s.piece_count.toNat).countP (fun (i : Nat) =>
      bitset_test s.lookbehind_pieces (i : Int) && decide ((s.piece_at (i : Int)).bi ≥ 0)) : Nat)

/-- Method `get_lookbehind_protected_count`. -/
def memory_storage.get_lookbehind_protected_count (s : memory_storage) : Int :=
  if !s.is_initialized then 0
  else (bitset_count s.lookbehind_pieces : Nat)

/-- Method `get_lookbehind_memory_used`. -/
def memory_storage.get_lookbehind_memory_used (s : memory_storage) : Int :=
  s.get_lookbehind_available_count * s.piece_length

/-! ## The 2.0.x adapter (`memory_disk_io.hpp`) -/

namespace memory_disk_io

/-- The record `memory_storage` of `memory_disk_io.hpp` together with the steady
clock it reads.  The maps `m_file_data` and `m_access_times` are lists of
key/value pairs in key order; `m_files` is the file layout, given as the list
of the piece sizes `piece_size(0)`, `piece_size(1)`, and so on. -/
structure memory_storage where
  m_file_data : List (Int × List Nat)
  m_files : List Int
  m_piece_length : Int
  m_num_pieces : Int
  reader_pieces : List Bool
  reserved_pieces : List Bool
  lookbehind_pieces : List Bool
  capacity : Int
  buffer_limit : Int
  buffer_used : Int
  m_access_times : List (Int × Nat)
  clock : Nat
  ticks : List Nat
deriving DecidableEq, Repr

/-- The constructor `memory_storage(storage_params const& p)` of the 2.0.x
adapter: `memory_disk_memory_size` is the global capacity setting, `files`,
`piece_length` and `num_pieces` come from `p.files`. -/
def memory_storage.construct (memory_disk_memory_size : Int) (files : List Int)
    (piece_length num_pieces : Int) (clock : Nat) (ticks : List Nat) : memory_storage :=
  let capacity := memory_disk_memory_size
  let buffer_limit :=
    if capacity > 0 then
      let limit0 := ceil_div capacity piece_length + 2
      if limit0 > num_pieces then num_pieces else limit0
    else num_pieces
  { m_file_data := []
    m_files := files
    m_piece_length := piece_length
    m_num_pieces := num_pieces
    reader_pieces := List.replicate (num_pieces + 10).toNat false
    reserved_pieces := List.replicate (num_pieces + 10).toNat false
    lookbehind_pieces := List.replicate (num_pieces + 10).toNat false
    capacity := capacity
    buffer_limit := buffer_limit
    buffer_used := 0
    m_access_times := []
    clock := clock
    ticks := ticks }

end memory_disk_io

/-! ## More scenarios -/

/-- Scenario 2 of the spec: capacity 8 bytes, 4 pieces of length 4, no picker
bound, the clock advancing by 1 before each reading; pieces 0, 1, 2, 3 are
written in this order with 4 bytes each. -/
def scenario15 : memory_storage :=
  op.run (op.run (op.run (op.run
    (memory_storage.construct 8 4 4 (fun _ => 4) 0 (List.replicate 40 1))
    (op.writev [[1, 2, 3, 4]] 0 0))
    (op.writev [[5, 6, 7, 8]] 1 0))
    (op.writev [[9, 10, 11, 12]] 2 0))
    (op.writev [[13, 14, 15, 16]] 3 0)

/-- Scenario 3 of the spec before its writes: capacity 0 over 4 pieces of
length 4 (two slots, `buffer_limit = 2`), piece 0 reserved, the clock advancing
by 1 before each reading. -/
def scenario16 : memory_storage :=
  op.run (memory_storage.construct 0 4 4 (fun _ => 4) 0 (List.replicate 40 1))
    (op.update_reserved_pieces [0])

/-- Scenario 5 of the spec: 4 pieces of length 4, `set_lookbehind_pieces({0, 1, 2})`,
then only pieces 0 and 2 are written. -/
def scenario17 : memory_storage :=
  op.run (op.run (op.run
    (memory_storage.construct 16 4 4 (fun _ => 4) 0 (List.replicate 40 1))
    (op.set_lookbehind_pieces [0, 1, 2]))
    (op.writev [[1, 2, 3, 4]] 0 0))
    (op.writev [[9, 10, 11, 12]] 2 0)

/-- Scenario 1 with a picker bound and only the first two bytes of piece 0
written. -/
def scenario20 : memory_storage :=
  op.run (op.run scenario1
    (op.set_torrent_handle { priorities := [4, 4, 4, 4], calls := [] }))
    (op.writev [[65, 66]] 0 0)

/-- The three protection bit-sets of a state together with its piece count. -/
def memory_storage.protection (s : memory_storage) : List Bool × List Bool × List Bool × Int :=
  (s.reader_pieces, s.reserved_pieces, s.lookbehind_pieces, s.piece_count)

/-- No protection bit-set has a bit set at an index from `piece_count` on. -/
def bits_in_range (s : memory_storage) : Prop :=
  ∀ i : Int, s.piece_count ≤ i →
    bitset_test s.reader_pieces i = false ∧ bitset_test s.reserved_pieces i = false ∧
    bitset_test s.lookbehind_pieces i = false

/-- A pool of four slots over four pieces with piece 0 reserved and piece 1
lookbehind-protected; pieces 0, 1 and 2 are written in this order. -/
def scenario19 : memory_storage :=
  op.run (op.run (op.run (op.run (op.run
    (memory_storage.construct 16 4 4 (fun _ => 4) 0 (List.replicate 40 1))
    (op.update_reserved_pieces [0]))
    (op.set_lookbehind_pieces [1]))
    (op.writev [[1, 2, 3, 4]] 0 0))
    (op.writev [[5, 6, 7, 8]] 1 0))
    (op.writev [[9, 10, 11, 12]] 2 0)

/-- Scenario 1 after piece 0 was written in full with the bytes `[1, 2, 3, 4]`. -/
def scenario21 : memory_storage :=
  op.run scenario1 (op.writev [[1, 2, 3, 4]] 0 0)

/-- The state of `scenario21` after the same four bytes were written to piece 0
a second time. -/
def scenario27 : memory_storage :=
  op.run scenario21 (op.writev [[1, 2, 3, 4]] 0 0)

/-- No piece record has `is_completed` or `is_read` set. -/
def never_completed (s : memory_storage) : Prop :=
  ∀ p ∈ s.pieces, p.is_completed = false ∧ p.is_read = false

/-- The state of `scenario21` (piece 0 written in full) after a `readv` of the
whole of piece 0. -/
def scenario28 : memory_storage :=
  op.run scenario21 (op.readv [[0, 0, 0, 0]] 0 0)

/-- The number of in-use slots whose piece is in neither `reserved_pieces` nor
`lookbehind_pieces`. -/
def memory_storage.unprotected_in_use (s : memory_storage) : Nat :=
  s.buffers.countP (fun b =>
    b.is_used && !(bitset_test s.reserved_pieces b.pi || bitset_test s.lookbehind_pieces b.pi))

/-- The calls that replace `reserved_pieces` or `lookbehind_pieces`. -/
def op.is_protection_update : op → Bool
  | op.update_reserved_pieces _ => true
  | op.set_lookbehind_pieces _ => true
  | op.clear_lookbehind => true
  | _ => false

/-- The states the cache can be in when `reserved_pieces` and
`lookbehind_pieces` are only replaced while no slot is in use. -/
inductive reachable_settled : memory_storage → Prop
  | construct (memory_size num_pieces piece_length : Int) (piece_size : Int → Int)
      (clock : Nat) (ticks : List Nat)
      (hcap : 0 ≤ memory_size) (hlen : 0 < piece_length) (hnum : 0 ≤ num_pieces)
      (hsize : ∀ i : Int, 0 ≤ i → i < num_pieces →
        0 ≤ piece_size i ∧ piece_size i ≤ piece_length) :
      reachable_settled (memory_storage.construct memory_size num_pieces piece_length piece_size
        clock ticks)
  | step (s : memory_storage) (o : op) (hs : reachable_settled s) (hpre : o.pre s)
      (hq : o.is_protection_update = true → s.in_use = 0) :
      reachable_settled (o.run s)

/-- The state of `scenario21` (piece 0 resident, `buffer_used = 1`) after
`update_reserved_pieces({0})`. -/
def scenario26 : memory_storage :=
  op.run scenario21 (op.update_reserved_pieces [0])

/-! ## The 2.0.x adapter: operations -/

namespace memory_disk_io

/-- The lookup `m.find(k)` in a `std::map`, given as a list of key/value pairs
in key order. -/
def map_find {α : Type} (m : List (Int × α)) (k : Int) : Option α :=
  (m.find? (fun kv => kv.1 == k)).map (fun kv => kv.2)

/-- The assignment `m[k] = v` in a `std::map`: the value of an existing key is
replaced, a new key is inserted at its place in key order. -/
def map_insert {α : Type} : List (Int × α) → Int → α → List (Int × α)
  | [], k, v => [(k, v)]
  | (k1, v1) :: rest, k, v =>
    if k < k1 then (k, v) :: (k1, v1) :: rest
    else if k = k1 then (k, v) :: rest
    else (k1, v1) :: map_insert rest k v

/-- The call `m.erase(k)` on a `std::map`. -/
def map_erase {α : Type} (m : List (Int × α)) (k : Int) : List (Int × α) :=
  m.filter (fun kv => kv.1 != k)

/-- The error codes the adapter sets (`boost::asio::error::eof`). -/
inductive errc where
  | eof
deriving DecidableEq, Repr

/-- The values of `operation_t` the adapter sets. -/
inductive operation_t where
  | unknown
  | file_read
deriving DecidableEq, Repr

/-- The record `storage_error`; `ec = none` is the cleared error code. -/
structure storage_error where
  ec : Option errc
  operation : operation_t
deriving DecidableEq, Repr

/-- The record `peer_request`. -/
structure peer_request where
  piece : Int
  start : Int
  length : Int
deriving DecidableEq, Repr

/-- The free function `now()` of the 2.0.x adapter. -/
def now (s : memory_storage) : Nat × memory_storage :=
  let t := s.clock + s.ticks.headD 0
  (t, { s with clock := t, ticks := s.ticks.tail })

/-- The call `m_files.piece_size(piece)`. -/
def memory_storage.piece_size (s : memory_storage) (piece : Int) : Int :=
  s.m_files.getD piece.toNat 0

/-- Method `readv` (a `const` method): the span returned and `ec` after the
call. -/
def memory_storage.readv (s : memory_storage) (r : peer_request) (ec : storage_error) :
    List Nat × storage_error :=
  match map_find s.m_file_data r.piece with
  | none => ([], { ec with operation := operation_t.file_read, ec := some errc.eof })
  | some data =>
    if (data.length : Int) ≤ r.start then
      ([], { ec with operation := operation_t.file_read, ec := some errc.eof })
    else
      let size := min r.length ((data.length : Int) - r.start)
      ((data.drop r.start.toNat).take size.toNat, ec)

/-- Method `has_piece`. -/
def memory_storage.has_piece (s : memory_storage) (piece : Int) : Bool :=
  (map_find s.m_file_data piece).isSome

/-- Method `remove_piece`. -/
def memory_storage.remove_piece (s : memory_storage) (piece : Int) : memory_storage :=
  match map_find s.m_file_data piece with
  | some _ =>
    { s with
      m_file_data := map_erase s.m_file_data piece
      m_access_times := map_erase s.m_access_times piece
      buffer_used := s.buffer_used - 1 }
  | none => s

/-- The `for` loop of `trim` over `m_access_times`, with the running
`oldest_piece` and `oldest_time`. -/
def trim_scan (s : memory_storage) (current_piece : Int) :
    List (Int × Nat) → Int → Nat → Int
  | [], oldest_piece, _ => oldest_piece
  | kv :: rest, oldest_piece, oldest_time =>
    if kv.1 = current_piece then trim_scan s current_piece rest oldest_piece oldest_time
    else if kv.1 < s.m_num_pieces ∧
        (bitset_test s.reserved_pieces kv.1 || bitset_test s.lookbehind_pieces kv.1) = true then
      trim_scan s current_piece rest oldest_piece oldest_time
    else if kv.2 < oldest_time then trim_scan s current_piece rest kv.1 kv.2
    else trim_scan s current_piece rest oldest_piece oldest_time

/-- Method `trim`, run for at most `fuel` passes of its `while` loop: `none`
when the loop is still running after `fuel` passes. -/
def memory_storage.trim : Nat → memory_storage → Int → Option memory_storage
  | 0, s, _ => if s.buffer_used ≥ s.buffer_limit then none else some s
  | fuel + 1, s, current_piece =>
    if s.buffer_used ≥ s.buffer_limit then
      let r := now s
      let oldest_piece := trim_scan r.2 current_piece r.2.m_access_times (-1) r.1
      if oldest_piece = -1 then some r.2
      else memory_storage.trim fuel (r.2.remove_piece oldest_piece) current_piece
    else some s

/-- The call `data.resize(n)` on a vector of bytes. -/
def resize (data : List Nat) (n : Nat) : List Nat :=
  data.take n ++ List.replicate (n - data.length) 0

/-- The state after the expression `m_file_data[piece]`: a piece without an
entry gets an empty vector. -/
def memory_storage.file_data_entry (s : memory_storage) (piece : Int) : memory_storage :=
  match map_find s.m_file_data piece with
  | some _ => s
  | none => { s with m_file_data := map_insert s.m_file_data piece [] }

/-- Method `writev`, with `fuel` passes allowed to the `trim` it may call:
`none` when that `trim` is still running after `fuel` passes. -/
def memory_storage.writev (fuel : Nat) (s : memory_storage) (b : List Nat) (piece : Int)
    (offset : Int) : Option memory_storage :=
  let s1 := s.file_data_entry piece
  let data := (map_find s1.m_file_data piece).getD []
  let after_alloc : Option (memory_storage × List Nat) :=
    if data.isEmpty then
      let trimmed :=
        if s1.capacity > 0 ∧ s1.buffer_used ≥ s1.buffer_limit then
          memory_storage.trim fuel s1 piece
        else some s1
      trimmed.map (fun s2 =>
        ({ s2 with buffer_used := s2.buffer_used + 1 },
          resize ((map_find s2.m_file_data piece).getD []) (s2.piece_size piece).toNat))
    else some (s1, data)
  after_alloc.map (fun sd =>
    let required_size := offset + (b.length : Int)
    let data1 := if (sd.2.length : Int) < required_size then resize sd.2 required_size.toNat
      else sd.2
    let data2 := memcpy_into data1 offset.toNat b b.length
    let s3 := { sd.1 with m_file_data := map_insert sd.1.m_file_data piece data2 }
    let r := now s3
    { r.2 with m_access_times := map_insert r.2.m_access_times piece r.1 })

/-- The statement `m_file_data.clear()` of `async_release_files` and of
`async_delete_files`. -/
def memory_storage.release_files (s : memory_storage) : memory_storage :=
  { s with m_file_data := [] }

/-- The states of the 2.0.x cache reached from construction by `writev` calls
that return, `remove_piece` (`async_clear_piece`), the clearing of
`m_file_data` (`async_release_files`, `async_delete_files`) and the passing of
time. -/
inductive reachable : memory_storage → Prop
  | construct (memory_disk_memory_size : Int) (files : List Int) (piece_length num_pieces : Int)
      (clock : Nat) (ticks : List Nat) :
      reachable (memory_storage.construct memory_disk_memory_size files piece_length num_pieces
        clock ticks)
  | writev (s t : memory_storage) (fuel : Nat) (b : List Nat) (piece offset : Int)
      (hs : reachable s) (hp : 0 ≤ piece) (ho : 0 ≤ offset)
      (hw : memory_storage.writev fuel s b piece offset = some t) : reachable t
  | remove_piece (s : memory_storage) (piece : Int) (hs : reachable s) :
      reachable (s.remove_piece piece)
  | release_files (s : memory_storage) (hs : reachable s) : reachable s.release_files
  | clock_ticks (s : memory_storage) (ticks : List Nat) (hs : reachable s) :
      reachable { s with ticks := ticks }

/-- Every piece with an access time has data. -/
def consistent (s : memory_storage) : Prop :=
  ∀ kv ∈ s.m_access_times, (map_find s.m_file_data kv.1).isSome = true

/-- Two pieces of length 4 with capacity 4 (`buffer_limit = 2`), the clock
advancing by 1 before each reading: pieces 0 and 1 are written, then
`async_release_files` clears `m_file_data`. -/
def scenario25 : memory_storage :=
  (((((memory_storage.construct 4 [4, 4] 4 2 0 (List.replicate 40 1)).writev 0
    [1, 2, 3, 4] 0 0).getD (memory_storage.construct 4 [4, 4] 4 2 0 [])).writev 0
    [5, 6, 7, 8] 1 0).getD (memory_storage.construct 4 [4, 4] 4 2 0 [])).release_files

end memory_disk_io

namespace memory_disk_io

/-- Two pieces of length 4 held without a quota (capacity 0); piece 0 holds the
bytes `[1, 2, 3, 4]`. -/
def scenario22 : memory_storage :=
  ((memory_storage.construct 0 [4, 4] 4 2 0 (List.replicate 40 1)).writev 0
    [1, 2, 3, 4] 0 0).getD (memory_storage.construct 0 [4, 4] 4 2 0 [])

end memory_disk_io

/-! ## Runs without `set_memory_size` -/

/-- Whether the call is `set_memory_size`. -/
def op.is_set_memory_size : op → Bool
  | op.set_memory_size _ => true
  | _ => false

/-- The states the cache can be in when `set_memory_size` is never called after
construction. -/
inductive reachable_unresized : memory_storage → Prop
  | construct (memory_size num_pieces piece_length : Int) (piece_size : Int → Int)
      (clock : Nat) (ticks : List Nat)
      (hcap : 0 ≤ memory_size) (hlen : 0 < piece_length) (hnum : 0 ≤ num_pieces)
      (hsize : ∀ i : Int, 0 ≤ i → i < num_pieces →
        0 ≤ piece_size i ∧ piece_size i ≤ piece_length) :
      reachable_unresized (memory_storage.construct memory_size num_pieces piece_length
        piece_size clock ticks)
  | step (s : memory_storage) (o : op) (hs : reachable_unresized s) (hpre : o.pre s)
      (hq : o.is_set_memory_size = false) :
      reachable_unresized (o.run s)

/-- A pool of two slots over four pieces (capacity 0): the pieces 0 and 1 are
reserved, the first half of piece 0 and the whole of piece 1 are written, the
reservation is dropped, and the second half of piece 0 is written, which evicts
piece 1. -/
def scenario35 : memory_storage :=
  op.run (op.run (op.run (op.run (op.run
    (memory_storage.construct 0 4 4 (fun _ => 4) 0 (List.replicate 40 1))
    (op.update_reserved_pieces [0, 1]))
    (op.writev [[1, 2]] 0 0))
    (op.writev [[5, 6, 7, 8]] 1 0))
    (op.update_reserved_pieces []))
    (op.writev [[3, 4]] 0 2)

/-- The state of `scenario35` after piece 1 is reserved and written again, which
evicts piece 0. -/
def scenario35_limit : memory_storage :=
  op.run (op.run scenario35 (op.update_reserved_pieces [1])) (op.writev [[5, 6, 7, 8]] 1 0)

/-! ## The lookbehind methods of the daemon variant -/

namespace daemon

/-- The call `lt::bitfield::get_bit(i)`. -/
def get_bit (bs : List Bool) (i : Int) : Bool := bs.getD i.toNat false

/-- The call `lt::bitfield::set_bit(i)`. -/
def set_bit (bs : List Bool) (i : Int) : List Bool := bs.set i.toNat true

/-- The call `lt::bitfield::clear_bit(i)`. -/
def clear_bit (bs : List Bool) (i : Int) : List Bool := bs.set i.toNat false

/-- The call `lt::bitfield::resize(bits, val)`. -/
def resize (bs : List Bool) (bits : Int) (val : Bool) : List Bool :=
  bs.take bits.toNat ++ List.replicate (bits.toNat - bs.length) val

/-- The members of `memory_storage` that the lookbehind methods of the daemon
variant read and write. -/
structure memory_storage where
  m_reserved_pieces : List Bool
  m_lookbehind_pieces : List Bool
  m_num_pieces : Int
deriving DecidableEq, Repr

/-- The loop `for (i = 0; i < m_num_pieces && i < m_lookbehind_pieces.size(); i++)
if (m_lookbehind_pieces.get_bit(i)) m_reserved_pieces.clear_bit(i)`, over the
values `i` takes. -/
def clear_reservations (lookbehind : List Bool) : List Nat → List Bool → List Bool
  | [], reserved => reserved
  | i :: rest, reserved =>
    if get_bit lookbehind (i : Int) then
      clear_reservations lookbehind rest (clear_bit reserved (i : Int))
    else clear_reservations lookbehind rest reserved

/-- The loop `for (int p : pieces) if (p > max_piece) max_piece = p`. -/
def max_piece_loop : List Int → Int → Int
  | [], max_piece => max_piece
  | p :: rest, max_piece => max_piece_loop rest (if p > max_piece then p else max_piece)

/-- The loop of `set_lookbehind_pieces` that sets the bit of every accepted
piece in `m_lookbehind_pieces` (first component) and in `m_reserved_pieces`
(second component). -/
def set_loop (num_pieces : Int) : List Int → List Bool × List Bool → List Bool × List Bool
  | [], r => r
  | piece :: rest, r =>
    if piece ≥ 0 ∧ piece < num_pieces then
      set_loop num_pieces rest (set_bit r.1 piece, set_bit r.2 piece)
    else set_loop num_pieces rest r

/-- Method `set_lookbehind_pieces` of the daemon variant. -/
def memory_storage.set_lookbehind_pieces (s : memory_storage) (pieces : List Int) :
    memory_storage :=
  let reserved1 := clear_reservations s.m_lookbehind_pieces
    (List.range (min s.m_num_pieces (s.m_lookbehind_pieces.length : Int)).toNat)
    s.m_reserved_pieces
  let lookbehind1 : List Bool := []
  if pieces.isEmpty then
    { s with m_reserved_pieces := reserved1, m_lookbehind_pieces := lookbehind1 }
  else
    let max_piece := max_piece_loop pieces 0
    let lookbehind2 :=
      if max_piece ≥ (lookbehind1.length : Int) then resize lookbehind1 (max_piece + 1) false
      else lookbehind1
    let r := set_loop s.m_num_pieces pieces (lookbehind2, reserved1)
    { s with m_reserved_pieces := r.2, m_lookbehind_pieces := r.1 }

/-- Method `clear_lookbehind` of the daemon variant. -/
def memory_storage.clear_lookbehind (s : memory_storage) : memory_storage :=
  { s with
    m_reserved_pieces := clear_reservations s.m_lookbehind_pieces
      (List.range (min s.m_num_pieces (s.m_lookbehind_pieces.length : Int)).toNat)
      s.m_reserved_pieces
    m_lookbehind_pieces := [] }

/-- Four pieces, piece 0 reserved, no lookbehind piece. -/
def scenario33 : memory_storage :=
  { m_reserved_pieces := [true, false, false, false]
    m_lookbehind_pieces := []
    m_num_pieces := 4 }

end daemon

/-! ## Runs of calls -/

/-- The state after a sequence of calls, made in the order of the list. -/
def run_all (s : memory_storage) : List op → memory_storage
  | [] => s
  | o :: rest => run_all (o.run s) rest

/-- Every call of the sequence is made with arguments for which the source has
defined behaviour (`op.pre`), in the state in which it is made. -/
def pre_all (s : memory_storage) : List op → Prop
  | [] => True
  | o :: rest => o.pre s ∧ pre_all (o.run s) rest

/-- The number of in-use slots holding an unprotected piece that the protection
updates of the sequence have taken away (counted negatively when an update adds
some): for each `update_reserved_pieces`, `set_lookbehind_pieces` and
`clear_lookbehind` of the sequence, the count before the call minus the count
after it. -/
def protection_drift (s : memory_storage) : List op → Int
  | [] => 0
  | o :: rest =>
    (if o.is_protection_update then
        (s.unprotected_in_use : Int) - ((o.run s).unprotected_in_use : Int)
      else 0) + protection_drift (o.run s) rest

/-- No protection update of the sequence changes the protection of a piece that
holds a slot when the update is made. -/
def keeps_resident_protection (s : memory_storage) : List op → Prop
  | [] => True
  | o :: rest =>
    (o.is_protection_update = true → ∀ b ∈ s.buffers, b.is_used = true →
      (bitset_test (o.run s).reserved_pieces b.pi ||
          bitset_test (o.run s).lookbehind_pieces b.pi) =
        (bitset_test s.reserved_pieces b.pi || bitset_test s.lookbehind_pieces b.pi)) ∧
    keeps_resident_protection (o.run s) rest

/-- The number of bytes in a list of byte ranges `[start, end)`. -/
def ranges_total : List (Int × Int) → Int
  | [] => 0
  | r :: rest => (r.2 - r.1) + ranges_total rest

/-- Two byte ranges `[start, end)` share no byte: one of them is empty, or one
ends where the other starts or before. -/
def ranges_disjoint (r1 r2 : Int × Int) : Prop :=
  r1.2 ≤ r1.1 ∨ r2.2 ≤ r2.1 ∨ r1.2 ≤ r2.1 ∨ r2.2 ≤ r1.1

/-- The byte ranges `[offset, offset + n)` copied into piece `p` by the `writev`
calls of the sequence since the slot that `p` holds was allocated, `n` being the
value the call returned: the range of a `writev` on `p` is appended, and the
list is emptied whenever a call leaves `p` without a slot. `acc` holds the
ranges counted before the sequence. -/
def counted_ranges (p : Int) : memory_storage → List op → List (Int × Int) → List (Int × Int)
  | _, [], acc => acc
  | s, o :: rest, acc =>
    counted_ranges p (o.run s) rest
      (if ((o.run s).piece_at p).bi = -1 then []
        else
          match o with
          | op.writev bufs piece offset =>
            if piece = p then acc ++ [(offset, offset + (s.writev bufs piece offset).1)]
            else acc
          | _ => acc)

/-- The list `acc` accounts for `pieces[p].size`: the size is the number of bytes
in the ranges of `acc`, the list is empty when `p` holds no slot, and every
range lies within the piece. -/
def counted_in (s : memory_storage) (p : Int) (acc : List (Int × Int)) : Prop :=
  (s.piece_at p).size = ranges_total acc ∧
  ((s.piece_at p).bi = -1 → acc = []) ∧
  ∀ r ∈ acc, 0 ≤ r.1 ∧ r.1 ≤ r.2 ∧ r.2 ≤ (s.piece_at p).length

/-! ## Vectors -/

theorem getD_set_int {α : Type} (l : List α) (i j : Int) (x d : α)
    (hi : 0 ≤ i) (hil : i < (l.length : Int)) (hj : 0 ≤ j) :
    (l.set i.toNat x).getD j.toNat d = if j = i then x else l.getD j.toNat d := by
  have hi2 : i.toNat < l.length := by omega
  by_cases h : j = i
  · subst h
    simp [List.getD_eq_getElem?_getD, List.getElem?_set, hi2]
  · have hne : i.toNat ≠ j.toNat := by omega
    simp [List.getD_eq_getElem?_getD, List.getElem?_set, hne, h]

theorem countP_set_add {α : Type} (p : α → Bool) (l : List α) (i : Nat) (x d : α)
    (h : i < l.length) :
    (l.set i x).countP p + (if p (l.getD i d) then 1 else 0) =
      l.countP p + (if p x then 1 else 0) := by
  induction l generalizing i with
  | nil => simp at h
  | cons a t ih =>
    cases i with
    | zero =>
      simp only [List.set_cons_zero, List.countP_cons, List.getD_cons_zero]
      omega
    | succ k =>
      have hk : k < t.length := by simpa using h
      have := ih k hk
      simp only [List.set_cons_succ, List.countP_cons, List.getD_cons_succ]
      omega

/-! ## Accessors -/

theorem buffer_at_set_buffer (s : memory_storage) (i j : Int) (b : memory_buffer)
    (hi : 0 ≤ i) (hil : i < (s.buffers.length : Int)) (hj : 0 ≤ j) :
    (s.set_buffer i b).buffer_at j = if j = i then b else s.buffer_at j := by
  unfold memory_storage.set_buffer memory_storage.buffer_at
  exact getD_set_int s.buffers i j b default hi hil hj

theorem piece_at_set_piece (s : memory_storage) (i j : Int) (p : memory_piece)
    (hi : 0 ≤ i) (hil : i < (s.pieces.length : Int)) (hj : 0 ≤ j) :
    (s.set_piece i p).piece_at j = if j = i then p else s.piece_at j := by
  unfold memory_storage.set_piece memory_storage.piece_at
  exact getD_set_int s.pieces i j p default hi hil hj

theorem in_use_set_buffer (s : memory_storage) (i : Int) (b : memory_buffer)
    (hi : 0 ≤ i) (hil : i < (s.buffers.length : Int)) :
    (s.set_buffer i b).in_use + (if (s.buffer_at i).is_used then 1 else 0) =
      s.in_use + (if b.is_used then 1 else 0) := by
  unfold memory_storage.set_buffer memory_storage.buffer_at memory_storage.in_use
  have h : i.toNat < s.buffers.length := by omega
  exact countP_set_add (fun b => b.is_used) s.buffers i.toNat b default h

theorem in_use_le (s : memory_storage) : s.in_use ≤ s.buffers.length := by
  unfold memory_storage.in_use
  exact List.countP_le_length _

/-! ## Preservation of the invariant -/

/-- The invariant reads only the cache tables, not the picker, the clock or the
`is_reading` flag. -/
theorem wf_of_eq {s t : memory_storage} (h : wf s)
    (e1 : t.is_initialized = s.is_initialized) (e2 : t.piece_length = s.piece_length)
    (e3 : t.piece_count = s.piece_count) (e4 : t.pieces = s.pieces)
    (e5 : t.buffers = s.buffers) (e6 : t.buffer_size = s.buffer_size)
    (e7 : t.buffer_limit = s.buffer_limit) (e8 : t.buffer_used = s.buffer_used)
    (e9 : t.capacity = s.capacity) (e10 : t.reader_pieces.length = s.reader_pieces.length)
    (e11 : t.reserved_pieces.length = s.reserved_pieces.length)
    (e12 : t.lookbehind_pieces.length = s.lookbehind_pieces.length) : wf t := by
  obtain ⟨h1, h2, h3, h4, h5, h6, h7, h8, h9, h10, h11, h12⟩ := h
  simp only [memory_storage.in_use] at h7
  simp only [memory_storage.buffer_at, memory_storage.piece_at] at h11 h12
  refine ⟨?_, ?_, ?_, ?_, ?_, ?_, ?_, ?_, ?_, ?_, ?_, ?_⟩
  all_goals
    simp only [memory_storage.in_use, memory_storage.buffer_at, memory_storage.piece_at,
      e1, e2, e3, e4, e5, e6, e7, e8, e9, e10, e11, e12]
    assumption

theorem wf_now {s : memory_storage} (h : wf s) : wf (now s).2 :=
  wf_of_eq h rfl rfl rfl rfl rfl rfl rfl rfl rfl rfl rfl rfl

theorem wf_restore_piece {s : memory_storage} (h : wf s) (pi : Int) :
    wf (s.restore_piece pi) := by
  unfold memory_storage.restore_piece
  cases hm : s.m_handle with
  | none => simpa [hm] using h
  | some t => exact wf_of_eq h rfl rfl rfl rfl rfl rfl rfl rfl rfl rfl rfl rfl

/-- Rewriting a slot without touching its index, its size, its piece or its
in-use flag keeps the invariant. -/
theorem wf_set_buffer_same {s : memory_storage} (h : wf s) (i : Int) (b : memory_buffer)
    (hi : 0 ≤ i) (hil : i < s.buffer_size)
    (h1 : b.index = (s.buffer_at i).index)
    (h2 : b.buffer.length = (s.buffer_at i).buffer.length)
    (h3 : b.is_used = (s.buffer_at i).is_used)
    (h4 : b.pi = (s.buffer_at i).pi) : wf (s.set_buffer i b) := by
  have hlen := h.buffers_len
  have hil2 : i < (s.buffers.length : Int) := by omega
  have hu := in_use_set_buffer s i b hi hil2
  rw [h3] at hu
  have hu2 : (s.set_buffer i b).in_use = s.in_use := by omega
  refine ⟨h.init, h.plen, h.pieces_len, ?_, h.size_le, h.limit_le, ?_, h.reader_len,
    h.reserved_len, h.lookbehind_len, ?_, ?_⟩
  · show (((s.buffers.set i.toNat b).length : Nat) : Int) = s.buffer_size
    simpa using hlen
  · rw [hu2]; exact h.quota
  · intro j hj hjl
    have e := buffer_at_set_buffer s i j b hi hil2 hj
    have hb := h.buf j hj hjl
    show ((s.set_buffer i b).buffer_at j).index = j ∧ _
    rw [e]
    by_cases hji : j = i
    · subst hji
      simp only [if_true, h1, h2, h3, h4]
      exact hb
    · simp only [hji, if_false]
      exact hb
  · intro p hp hpl
    have hb := h.pc p hp hpl
    refine ⟨hb.1, hb.2.1, hb.2.2.1, ?_⟩
    intro hbi
    have hb2 := hb.2.2.2 hbi
    refine ⟨hb2.1, hb2.2.1, ?_⟩
    have e := buffer_at_set_buffer s i (s.piece_at p).bi b hi hil2 hb2.1
    show ((s.set_buffer i b).buffer_at (s.piece_at p).bi).pi = p
    rw [e]
    by_cases hji : (s.piece_at p).bi = i
    · simp only [hji, if_true, h4]
      rw [← hji]; exact hb2.2.2
    · simp only [hji, if_false]
      exact hb2.2.2

/-- Rewriting a piece record without touching its index, its length or its slot
keeps the invariant. -/
theorem wf_set_piece_same {s : memory_storage} (h : wf s) (i : Int) (p : memory_piece)
    (hi : 0 ≤ i) (hil : i < s.piece_count)
    (h1 : p.index = (s.piece_at i).index)
    (h2 : p.length = (s.piece_at i).length)
    (h3 : p.bi = (s.piece_at i).bi) : wf (s.set_piece i p) := by
  have hlen := h.pieces_len
  have hil2 : i < (s.pieces.length : Int) := by omega
  refine ⟨h.init, h.plen, ?_, h.buffers_len, h.size_le, h.limit_le, h.quota, h.reader_len,
    h.reserved_len, h.lookbehind_len, ?_, ?_⟩
  · show (((s.pieces.set i.toNat p).length : Nat) : Int) = s.piece_count
    simpa using hlen
  · intro j hj hjl
    have hb := h.buf j hj hjl
    refine ⟨hb.1, hb.2.1, hb.2.2.1, ?_⟩
    intro hpi
    have hb2 := hb.2.2.2 hpi
    refine ⟨hb2.1, hb2.2.1, ?_⟩
    have e := piece_at_set_piece s i (s.buffer_at j).pi p hi hil2 hb2.1
    show ((s.set_piece i p).piece_at (s.buffer_at j).pi).bi = j
    rw [e]
    by_cases hji : (s.buffer_at j).pi = i
    · simp only [hji, if_true, h3]
      rw [← hji]; exact hb2.2.2
    · simp only [hji, if_false]
      exact hb2.2.2
  · intro q hq hql
    have e := piece_at_set_piece s i q p hi hil2 hq
    have hb := h.pc q hq hql
    show ((s.set_piece i p).piece_at q).index = q ∧ _
    rw [e]
    by_cases hji : q = i
    · subst hji
      simp only [if_true, h1, h2, h3]
      exact hb
    · simp only [hji, if_false]
      exact hb

/-- Claiming a free slot `i` for an unbuffered piece `p` keeps the invariant,
whichever of the two counters pays for it. -/
theorem wf_alloc {s t : memory_storage} (h : wf s) (p i : Int) (b1 : memory_buffer)
    (q1 : memory_piece)
    (hp : 0 ≤ p) (hpl : p < s.piece_count) (hi : 0 ≤ i) (hil : i < s.buffer_size)
    (hfree : (s.buffer_at i).is_used = false) (hunbuf : (s.piece_at p).bi = -1)
    (e1 : t.is_initialized = s.is_initialized) (e2 : t.piece_length = s.piece_length)
    (e3 : t.piece_count = s.piece_count) (e6 : t.buffer_size = s.buffer_size)
    (e9 : t.capacity = s.capacity) (e10 : t.reader_pieces.length = s.reader_pieces.length)
    (e11 : t.reserved_pieces.length = s.reserved_pieces.length)
    (e12 : t.lookbehind_pieces.length = s.lookbehind_pieces.length)
    (eb : t.buffers = s.buffers.set i.toNat b1)
    (hb1 : b1.index = i) (hb2 : b1.buffer.length = (s.buffer_at i).buffer.length)
    (hb3 : b1.is_used = true) (hb4 : b1.pi = p)
    (ep : t.pieces = s.pieces.set p.toNat q1)
    (hq1 : q1.index = p) (hq2 : q1.length = (s.piece_at p).length) (hq3 : q1.bi = i)
    (hlim : t.buffer_limit ≤ s.buffer_limit)
    (hcnt : t.buffer_used + s.buffer_limit ≤ s.buffer_used + t.buffer_limit + 1) : wf t := by
  have hbl := h.buffers_len
  have hpcl := h.pieces_len
  have hil2 : i < (s.buffers.length : Int) := by omega
  have hpl2 : p < (s.pieces.length : Int) := by omega
  have hbat : ∀ j : Int, 0 ≤ j → t.buffer_at j = if j = i then b1 else s.buffer_at j := by
    intro j hj
    unfold memory_storage.buffer_at
    rw [eb]
    exact getD_set_int s.buffers i j b1 default hi hil2 hj
  have hpat : ∀ j : Int, 0 ≤ j → t.piece_at j = if j = p then q1 else s.piece_at j := by
    intro j hj
    unfold memory_storage.piece_at
    rw [ep]
    exact getD_set_int s.pieces p j q1 default hp hpl2 hj
  have hu : t.in_use = s.in_use + 1 := by
    have := countP_set_add (fun b => b.is_used) s.buffers i.toNat b1 default (by omega)
    have hf : (s.buffers.getD i.toNat default).is_used = false := hfree
    simp only [hf, hb3, if_true] at this
    unfold memory_storage.in_use
    rw [eb]
    simpa using this
  have hq := h.quota
  have hle := h.limit_le
  refine ⟨?_, ?_, ?_, ?_, ?_, ?_, ?_, ?_, ?_, ?_, ?_, ?_⟩
  · rw [e1]; exact h.init
  · rw [e2]; exact h.plen
  · rw [ep, e3]; simpa using hpcl
  · rw [eb, e6]; simpa using hbl
  · rw [e6, e9, e2, e3]; exact h.size_le
  · rw [e6]; omega
  · rw [e6, hu]; push_cast; omega
  · rw [e10, e3]; exact h.reader_len
  · rw [e11, e3]; exact h.reserved_len
  · rw [e12, e3]; exact h.lookbehind_len
  · intro j hj hjl
    rw [e6] at hjl
    rw [e2, e3, hbat j hj]
    have hb := h.buf j hj hjl
    by_cases hji : j = i
    · subst hji
      simp only [if_true, hb1, hb2, hb3, hb4]
      refine ⟨trivial, hb.2.1, ?_, ?_⟩
      · constructor
        · intro _ hc; omega
        · intro _; trivial
      · intro _
        refine ⟨hp, hpl, ?_⟩
        rw [hpat p hp]
        simp only [if_true, hq3]
    · simp only [hji, if_false]
      refine ⟨hb.1, hb.2.1, hb.2.2.1, ?_⟩
      intro hpi
      have hb2 := hb.2.2.2 hpi
      refine ⟨hb2.1, hb2.2.1, ?_⟩
      rw [hpat _ hb2.1]
      by_cases hpp : (s.buffer_at j).pi = p
      · exfalso
        have := hb2.2.2
        rw [hpp, hunbuf] at this
        omega
      · simp only [hpp, if_false]
        exact hb2.2.2
  · intro q hq0 hql
    rw [e3] at hql
    rw [e2, e6, hpat q hq0]
    have hc := h.pc q hq0 hql
    by_cases hqp : q = p
    · subst hqp
      simp only [if_true, hq1, hq2, hq3]
      refine ⟨trivial, hc.2.1, hc.2.2.1, ?_⟩
      intro _
      refine ⟨hi, hil, ?_⟩
      rw [hbat i hi]
      simp only [if_true, hb4]
    · simp only [hqp, if_false]
      refine ⟨hc.1, hc.2.1, hc.2.2.1, ?_⟩
      intro hbi
      have hc2 := hc.2.2.2 hbi
      refine ⟨hc2.1, hc2.2.1, ?_⟩
      rw [hbat _ hc2.1]
      by_cases hbb : (s.piece_at q).bi = i
      · exfalso
        have h1 := hc2.2.2
        rw [hbb] at h1
        have h2 := (h.buf i hi hil).2.2.1
        rw [hfree, h1] at h2
        have : q ≠ -1 := by omega
        exact absurd (h2.mpr this) (by simp)
      · simp only [hbb, if_false]
        exact hc2.2.2

/-- Releasing the in-use slot `i` and resetting the piece it holds keeps the
invariant. -/
theorem wf_evict {s t : memory_storage} (h : wf s) (i : Int) (b1 : memory_buffer)
    (q1 : memory_piece)
    (hi : 0 ≤ i) (hil : i < s.buffer_size)
    (hused : (s.buffer_at i).is_used = true)
    (e1 : t.is_initialized = s.is_initialized) (e2 : t.piece_length = s.piece_length)
    (e3 : t.piece_count = s.piece_count) (e6 : t.buffer_size = s.buffer_size)
    (e7 : t.buffer_limit = s.buffer_limit) (e8 : t.buffer_used = s.buffer_used - 1)
    (e9 : t.capacity = s.capacity) (e10 : t.reader_pieces.length = s.reader_pieces.length)
    (e11 : t.reserved_pieces.length = s.reserved_pieces.length)
    (e12 : t.lookbehind_pieces.length = s.lookbehind_pieces.length)
    (eb : t.buffers = s.buffers.set i.toNat b1)
    (hb1 : b1.index = i) (hb2 : b1.buffer.length = (s.buffer_at i).buffer.length)
    (hb3 : b1.is_used = false) (hb4 : b1.pi = -1)
    (ep : t.pieces = s.pieces.set (s.buffer_at i).pi.toNat q1)
    (hq1 : q1.index = (s.buffer_at i).pi)
    (hq2 : q1.length = (s.piece_at (s.buffer_at i).pi).length) (hq3 : q1.bi = -1) :
    wf t := by
  have hbl := h.buffers_len
  have hpcl := h.pieces_len
  have hbi := h.buf i hi hil
  have hpne : (s.buffer_at i).pi ≠ -1 := hbi.2.2.1.mp hused
  obtain ⟨hp, hpl, hback⟩ := hbi.2.2.2 hpne
  generalize hpdef : (s.buffer_at i).pi = p at *
  have hil2 : i < (s.buffers.length : Int) := by omega
  have hpl2 : p < (s.pieces.length : Int) := by omega
  have hbat : ∀ j : Int, 0 ≤ j → t.buffer_at j = if j = i then b1 else s.buffer_at j := by
    intro j hj
    unfold memory_storage.buffer_at
    rw [eb]
    exact getD_set_int s.buffers i j b1 default hi hil2 hj
  have hpat : ∀ j : Int, 0 ≤ j → t.piece_at j = if j = p then q1 else s.piece_at j := by
    intro j hj
    unfold memory_storage.piece_at
    rw [ep]
    exact getD_set_int s.pieces p j q1 default hp hpl2 hj
  have hu : t.in_use + 1 = s.in_use := by
    have := countP_set_add (fun b => b.is_used) s.buffers i.toNat b1 default (by omega)
    have hf : (s.buffers.getD i.toNat default).is_used = true := hused
    simp only [hf, hb3, if_true] at this
    unfold memory_storage.in_use
    rw [eb]
    simpa using this
  have hq := h.quota
  refine ⟨?_, ?_, ?_, ?_, ?_, ?_, ?_, ?_, ?_, ?_, ?_, ?_⟩
  · rw [e1]; exact h.init
  · rw [e2]; exact h.plen
  · rw [ep, e3]; simpa using hpcl
  · rw [eb, e6]; simpa using hbl
  · rw [e6, e9, e2, e3]; exact h.size_le
  · rw [e6, e7]; exact h.limit_le
  · rw [e6, e7, e8]; omega
  · rw [e10, e3]; exact h.reader_len
  · rw [e11, e3]; exact h.reserved_len
  · rw [e12, e3]; exact h.lookbehind_len
  · intro j hj hjl
    rw [e6] at hjl
    rw [e2, e3, hbat j hj]
    have hb := h.buf j hj hjl
    by_cases hji : j = i
    · subst hji
      simp only [if_true, hb1, hb2, hb3, hb4]
      refine ⟨trivial, hb.2.1, ?_, ?_⟩
      · simp
      · intro hc; exact absurd rfl hc
    · simp only [hji, if_false]
      refine ⟨hb.1, hb.2.1, hb.2.2.1, ?_⟩
      intro hpi
      have hb2 := hb.2.2.2 hpi
      refine ⟨hb2.1, hb2.2.1, ?_⟩
      rw [hpat _ hb2.1]
      by_cases hpp : (s.buffer_at j).pi = p
      · exfalso
        have := hb2.2.2
        rw [hpp, hback] at this
        exact hji this.symm
      · simp only [hpp, if_false]
        exact hb2.2.2
  · intro q hq0 hql
    rw [e3] at hql
    rw [e2, e6, hpat q hq0]
    have hc := h.pc q hq0 hql
    by_cases hqp : q = p
    · subst hqp
      simp only [if_true, hq1, hq2, hq3]
      refine ⟨trivial, hc.2.1, hc.2.2.1, ?_⟩
      intro hc; exact absurd rfl hc
    · simp only [hqp, if_false]
      refine ⟨hc.1, hc.2.1, hc.2.2.1, ?_⟩
      intro hbi
      have hc2 := hc.2.2.2 hbi
      refine ⟨hc2.1, hc2.2.1, ?_⟩
      rw [hbat _ hc2.1]
      by_cases hbb : (s.piece_at q).bi = i
      · exfalso
        have h1 := hc2.2.2
        rw [hbb, hpdef] at h1
        exact hqp h1.symm
      · simp only [hbb, if_false]
        exact hc2.2.2

/-! ## The victim search -/

theorem find_last_scan_cons (s : memory_storage) (pi : Int) (cr : Bool) (b : memory_buffer)
    (rest : List memory_buffer) (bi : Int) (t : Nat) :
    find_last_scan s pi cr (b :: rest) bi t =
      if eligible s pi cr b && decide (b.accessed < t) then
        find_last_scan s pi cr rest b.index b.accessed
      else find_last_scan s pi cr rest bi t := rfl

/-- What the scan returns: either no eligible slot is older than `t0` and the
running value is kept, or the result is the first slot of least timestamp among
the eligible slots older than `t0`. -/
theorem find_last_scan_spec (s : memory_storage) (pi : Int) (cr : Bool) :
    ∀ (l : List memory_buffer) (bi0 : Int) (t0 : Nat),
      (find_last_scan s pi cr l bi0 t0 = bi0 ∧
        ∀ c ∈ l, eligible s pi cr c = true → t0 ≤ c.accessed) ∨
      (∃ l1 b l2, l = l1 ++ b :: l2 ∧ eligible s pi cr b = true ∧ b.accessed < t0 ∧
        find_last_scan s pi cr l bi0 t0 = b.index ∧
        (∀ c ∈ l1, eligible s pi cr c = true → b.accessed < c.accessed) ∧
        (∀ c ∈ l2, eligible s pi cr c = true → b.accessed ≤ c.accessed)) := by
  intro l
  induction l with
  | nil =>
    intro bi0 t0
    left
    exact ⟨rfl, by intro c hc; simp at hc⟩
  | cons a rest ih =>
    intro bi0 t0
    rw [find_last_scan_cons]
    by_cases hc : (eligible s pi cr a && decide (a.accessed < t0)) = true
    · rw [if_pos hc]
      have hel : eligible s pi cr a = true := by
        simp only [Bool.and_eq_true] at hc; exact hc.1
      have hlt : a.accessed < t0 := by
        simp only [Bool.and_eq_true, decide_eq_true_eq] at hc; exact hc.2
      rcases ih a.index a.accessed with ⟨hr, hall⟩ | ⟨l1, b, l2, hl, hb, hbt, hr, h1, h2⟩
      · right
        exact ⟨[], a, rest, rfl, hel, hlt, hr, by intro c hc; simp at hc, hall⟩
      · right
        refine ⟨a :: l1, b, l2, by rw [hl]; rfl, hb, by omega, hr, ?_, h2⟩
        intro c hcm hce
        rcases List.mem_cons.mp hcm with rfl | hcm
        · exact hbt
        · exact h1 c hcm hce
    · rw [if_neg hc]
      have hno : eligible s pi cr a = true → t0 ≤ a.accessed := by
        intro hel
        by_contra hlt
        apply hc
        simp only [Bool.and_eq_true, decide_eq_true_eq]
        exact ⟨hel, by omega⟩
      rcases ih bi0 t0 with ⟨hr, hall⟩ | ⟨l1, b, l2, hl, hb, hbt, hr, h1, h2⟩
      · left
        refine ⟨hr, ?_⟩
        intro c hcm hce
        rcases List.mem_cons.mp hcm with rfl | hcm
        · exact hno hce
        · exact hall c hcm hce
      · right
        refine ⟨a :: l1, b, l2, by rw [hl]; rfl, hb, hbt, hr, ?_, h2⟩
        intro c hcm hce
        rcases List.mem_cons.mp hcm with rfl | hcm
        · have := hno hce; omega
        · exact h1 c hcm hce

theorem eligible_now (s : memory_storage) (pi : Int) (cr : Bool) (b : memory_buffer) :
    eligible (now s).2 pi cr b = eligible s pi cr b := rfl

/-- In a well-formed state a member of `buffers` sits at the position its
`index` names. -/
theorem wf_mem_buffer {s : memory_storage} (h : wf s) (b : memory_buffer)
    (hb : b ∈ s.buffers) : 0 ≤ b.index ∧ b.index < s.buffer_size ∧ s.buffer_at b.index = b := by
  obtain ⟨n, hn, rfl⟩ := List.getElem_of_mem hb
  have hbl := h.buffers_len
  have hat : s.buffer_at (n : Int) = s.buffers[n] := by
    unfold memory_storage.buffer_at
    simp [List.getD_eq_getElem?_getD, hn]
  have hw := h.buf (n : Int) (by omega) (by omega)
  rw [hat] at hw
  rw [hw.1]
  exact ⟨by omega, by omega, hat⟩

/-- The slot `find_last_buffer` returns, when it returns one, is a slot of the
pool that passes the eligibility test. -/
theorem find_last_buffer_victim {s : memory_storage} (h : wf s) (pi : Int) (cr : Bool)
    (hne : (s.find_last_buffer pi cr).1 ≠ -1) :
    0 ≤ (s.find_last_buffer pi cr).1 ∧ (s.find_last_buffer pi cr).1 < s.buffer_size ∧
      eligible s pi cr (s.buffer_at (s.find_last_buffer pi cr).1) = true := by
  have hspec := find_last_scan_spec (now s).2 pi cr (now s).2.buffers (-1) (now s).1
  have hdef : (s.find_last_buffer pi cr).1 =
      find_last_scan (now s).2 pi cr (now s).2.buffers (-1) (now s).1 := rfl
  rw [hdef] at hne ⊢
  rcases hspec with ⟨hr, _⟩ | ⟨l1, b, l2, hl, hb, _, hr, _, _⟩
  · exact absurd hr hne
  · rw [hr]
    have hmem : b ∈ s.buffers := by
      have : b ∈ (now s).2.buffers := by rw [hl]; simp
      exact this
    obtain ⟨h1, h2, h3⟩ := wf_mem_buffer h b hmem
    rw [h3]
    exact ⟨h1, h2, hb⟩

theorem find_last_buffer_state (s : memory_storage) (pi : Int) (cr : Bool) :
    (s.find_last_buffer pi cr).2 = (now s).2 := rfl

/-! ## Eviction -/

theorem wf_remove_piece {s : memory_storage} (h : wf s) (bi : Int)
    (hi : 0 ≤ bi) (hil : bi < s.buffer_size) (hused : (s.buffer_at bi).is_used = true) :
    wf (s.remove_piece bi) := by
  have hbi := h.buf bi hi hil
  have hpne : (s.buffer_at bi).pi ≠ -1 := hbi.2.2.1.mp hused
  obtain ⟨hp, hpl, _⟩ := hbi.2.2.2 hpne
  unfold memory_storage.remove_piece
  have hcond : (s.buffer_at bi).pi ≠ -1 ∧ (s.buffer_at bi).pi < s.piece_count := ⟨hpne, hpl⟩
  simp only []
  split
  · apply wf_restore_piece
    exact wf_evict h bi ((s.buffer_at bi).reset (now s).1)
      (s.piece_at (s.buffer_at bi).pi).reset
      hi hil hused rfl rfl rfl rfl rfl rfl rfl rfl rfl rfl rfl hbi.1
      (by simp [memory_buffer.reset]) rfl rfl rfl ((h.pc _ hp hpl).1) rfl rfl
  · rename_i hc
    exact absurd hcond hc

theorem eligible_used {s : memory_storage} {pi : Int} {cr : Bool} {b : memory_buffer}
    (h : eligible s pi cr b = true) : b.is_used = true := by
  unfold eligible at h
  simp only [Bool.and_eq_true] at h
  exact h.1.1.1.1.1

theorem wf_evict_found {s : memory_storage} (h : wf s) (pi : Int) (cr : Bool)
    (hne : (s.find_last_buffer pi cr).1 ≠ -1) :
    wf ((s.find_last_buffer pi cr).2.remove_piece (s.find_last_buffer pi cr).1) := by
  obtain ⟨h1, h2, h3⟩ := find_last_buffer_victim h pi cr hne
  exact wf_remove_piece (wf_now h) _ h1 h2 (eligible_used h3)

theorem wf_trim_body {s : memory_storage} (h : wf s) (pi : Int) : wf (s.trim_body pi).2 := by
  unfold memory_storage.trim_body
  by_cases he : bitset_empty s.reader_pieces = true
  · simp only [he, Bool.not_true, Bool.false_eq_true, if_false, ne_eq, not_true_eq_false]
    split
    · rename_i hne
      exact wf_evict_found h pi false hne
    · exact wf_now h
  · simp only [Bool.not_eq_true] at he
    simp only [he, Bool.not_false, if_true]
    split
    · rename_i hne
      exact wf_evict_found h pi true hne
    · split
      · rename_i hne
        exact wf_evict_found (wf_now h) pi false hne
      · exact wf_now (wf_now h)

theorem wf_trim_loop (pi : Int) : ∀ (fuel : Nat) (s : memory_storage), wf s →
    wf (trim_loop fuel s pi) := by
  intro fuel
  induction fuel with
  | zero => intro s h; exact h
  | succ n ih =>
    intro s h
    unfold trim_loop
    split
    · have hb := wf_trim_body h pi
      split
      · rename_i v s1 heq
        rw [heq] at hb
        exact ih s1 hb
      · rename_i s1 heq
        rw [heq] at hb
        exact hb
    · exact h

theorem wf_trim {s : memory_storage} (h : wf s) (pi : Int) : wf (s.trim pi) := by
  unfold memory_storage.trim
  split
  · exact h
  · exact wf_trim_loop pi _ s h

/-! ## Allocation -/

theorem find_free_some {s : memory_storage} {i : Nat} (h : s.find_free = some i) :
    (i : Int) < s.buffer_size ∧ (s.buffer_at (i : Int)).is_used = false := by
  unfold memory_storage.find_free at h
  have h1 := List.find?_some h
  have h2 := List.mem_of_find?_eq_some h
  rw [List.mem_range] at h2
  constructor
  · omega
  · simpa using h1

theorem wf_get_buffer {s : memory_storage} (h : wf s) (pidx : Int) (w : Bool)
    (hp : 0 ≤ pidx) (hpl : pidx < s.piece_count) : wf (s.get_buffer pidx w).2 := by
  unfold memory_storage.get_buffer
  simp only []
  split
  · exact h
  · rename_i hnb
    split
    · exact h
    · split
      · exact wf_restore_piece h _
      · split
        · exact h
        · rename_i i hfree
          obtain ⟨hil, hfr⟩ := find_free_some hfree
          have hpc := h.pc pidx hp hpl
          have hunbuf : (s.piece_at pidx).bi = -1 := by
            simpa [memory_piece.is_buffered] using hnb
          have hbuf := h.buf (i : Int) (by omega) hil
          split
          · refine wf_alloc h pidx (i : Int) _ _ hp hpl (by omega) hil hfr hunbuf
              rfl rfl rfl rfl rfl rfl rfl rfl rfl ?_ rfl rfl ?_ rfl ?_ rfl ?_ ?_ ?_
            · exact hbuf.1
            · exact hpc.1
            · exact hpc.1
            · exact hbuf.1
            · show s.buffer_limit - 1 ≤ s.buffer_limit
              omega
            · show s.buffer_used + s.buffer_limit ≤ s.buffer_used + (s.buffer_limit - 1) + 1
              omega
          · refine wf_alloc h pidx (i : Int) _ _ hp hpl (by omega) hil hfr hunbuf
              rfl rfl rfl rfl rfl rfl rfl rfl rfl ?_ rfl rfl ?_ rfl ?_ rfl ?_ ?_ ?_
            · exact hbuf.1
            · exact hpc.1
            · exact hpc.1
            · exact hbuf.1
            · show s.buffer_limit ≤ s.buffer_limit
              omega
            · show s.buffer_used + 1 + s.buffer_limit ≤ s.buffer_used + s.buffer_limit + 1
              omega

theorem restore_piece_frame (s : memory_storage) (pi : Int) :
    (s.restore_piece pi).pieces = s.pieces ∧ (s.restore_piece pi).buffers = s.buffers ∧
    (s.restore_piece pi).buffer_used = s.buffer_used ∧
    (s.restore_piece pi).buffer_limit = s.buffer_limit ∧
    (s.restore_piece pi).buffer_size = s.buffer_size ∧
    (s.restore_piece pi).piece_count = s.piece_count ∧
    (s.restore_piece pi).piece_length = s.piece_length ∧
    (s.restore_piece pi).capacity = s.capacity ∧
    (s.restore_piece pi).reader_pieces = s.reader_pieces ∧
    (s.restore_piece pi).reserved_pieces = s.reserved_pieces ∧
    (s.restore_piece pi).lookbehind_pieces = s.lookbehind_pieces ∧
    (s.restore_piece pi).buffer_reserved = s.buffer_reserved ∧
    (s.restore_piece pi).is_initialized = s.is_initialized ∧
    (s.restore_piece pi).is_reading = s.is_reading ∧
    (s.restore_piece pi).clock = s.clock ∧ (s.restore_piece pi).ticks = s.ticks := by
  unfold memory_storage.restore_piece
  cases s.m_handle <;> simp

/-- A call of `get_buffer` that reports success leaves the piece buffered. -/
theorem get_buffer_true (s : memory_storage) (pidx : Int) (w : Bool)
    (h : (s.get_buffer pidx w).1 = true) :
    ((s.get_buffer pidx w).2.piece_at pidx).is_buffered = true := by
  unfold memory_storage.get_buffer at h ⊢
  simp only [] at h ⊢
  split
  · rename_i hb; exact hb
  · rename_i hb
    rw [if_neg hb] at h
    split
    · rename_i hw; rw [if_pos hw] at h; exact h
    · rename_i hw
      rw [if_neg hw] at h
      split
      · rename_i hr; rw [if_pos hr] at h; simp at h
      · rename_i hr
        rw [if_neg hr] at h
        split
        · rename_i hf; rw [hf] at h; exact h
        · rename_i i hf
          rw [hf] at h
          exact h

/-- The call `get_buffer` changes no piece count, no piece length and no
piece's index or length. -/
theorem get_buffer_static {s : memory_storage} (h : wf s) (pidx : Int) (w : Bool)
    (hp : 0 ≤ pidx) (hpl : pidx < s.piece_count) :
    (s.get_buffer pidx w).2.piece_count = s.piece_count ∧
    (s.get_buffer pidx w).2.piece_length = s.piece_length ∧
    ∀ q : Int, 0 ≤ q →
      ((s.get_buffer pidx w).2.piece_at q).length = (s.piece_at q).length ∧
      ((s.get_buffer pidx w).2.piece_at q).size = (s.piece_at q).size := by
  have hlen := h.pieces_len
  unfold memory_storage.get_buffer
  simp only []
  split
  · exact ⟨rfl, rfl, fun q _ => ⟨rfl, rfl⟩⟩
  · split
    · exact ⟨rfl, rfl, fun q _ => ⟨rfl, rfl⟩⟩
    · split
      · have hf := restore_piece_frame s (s.piece_at pidx).index
        refine ⟨hf.2.2.2.2.2.1, hf.2.2.2.2.2.2.1, ?_⟩
        intro q _
        have e : (s.restore_piece (s.piece_at pidx).index).piece_at q = s.piece_at q :=
          congrArg (fun l => List.getD l q.toNat default) hf.1
        show ((s.restore_piece (s.piece_at pidx).index).piece_at q).length = _ ∧
          ((s.restore_piece (s.piece_at pidx).index).piece_at q).size = _
        rw [e]
        exact ⟨rfl, rfl⟩
      · split
        · exact ⟨rfl, rfl, fun q _ => ⟨rfl, rfl⟩⟩
        · have key : ∀ (p1 : memory_piece) (q : Int), 0 ≤ q →
              p1.length = (s.piece_at pidx).length → p1.size = (s.piece_at pidx).size →
              ((s.pieces.set pidx.toNat p1).getD q.toNat default).length = (s.piece_at q).length ∧
              ((s.pieces.set pidx.toNat p1).getD q.toNat default).size = (s.piece_at q).size := by
            intro p1 q hq h1 h2
            rw [getD_set_int s.pieces pidx q p1 default hp (by omega) hq]
            by_cases hqp : q = pidx
            · subst hqp; simp only [if_true]; exact ⟨h1, h2⟩
            · simp only [hqp, if_false]; exact ⟨rfl, rfl⟩
          split
          · exact ⟨rfl, rfl, fun q hq => key _ q hq rfl rfl⟩
          · exact ⟨rfl, rfl, fun q hq => key _ q hq rfl rfl⟩

/-! ## Writing and reading -/

theorem memcpy_into_length (dst src : List Nat) (off n : Nat)
    (h1 : off + n ≤ dst.length) (h2 : n ≤ src.length) :
    (memcpy_into dst off src n).length = dst.length := by
  unfold memcpy_into
  simp only [List.length_append, List.length_take, List.length_drop]
  omega

theorem writev_loop_length (len : Int) : ∀ (bufs : List (List Nat)) (data : List Nat)
    (fo n : Int), 0 ≤ fo → fo ≤ len → len ≤ (data.length : Int) →
    (writev_loop len bufs data fo n).1.length = data.length := by
  intro bufs
  induction bufs with
  | nil => intro data fo n _ _ _; rfl
  | cons buf rest ih =>
    intro data fo n h0 h1 h2
    unfold writev_loop
    simp only []
    have hm : (memcpy_into data fo.toNat buf
        (min (len - fo) (buf.length : Int)).toNat).length = data.length :=
      memcpy_into_length _ _ _ _ (by omega) (by omega)
    rw [ih _ _ _ (by omega) (by omega) (by omega), hm]

theorem wf_touch {s : memory_storage} (h : wf s) (i : Int) (hi : 0 ≤ i)
    (hil : i < s.buffer_size) (t : Nat) :
    wf (s.set_buffer i { s.buffer_at i with accessed := t }) :=
  wf_set_buffer_same h i _ hi hil rfl rfl rfl rfl

theorem is_buffered_iff (p : memory_piece) : p.is_buffered = true ↔ p.bi ≠ -1 := by
  unfold memory_piece.is_buffered
  simp

theorem wf_writev {s : memory_storage} (h : wf s) (bufs : List (List Nat)) (piece offset : Int)
    (hp : 0 ≤ piece) (hpl : piece < s.piece_count) (ho : 0 ≤ offset)
    (hol : offset ≤ (s.piece_at piece).length) : wf (s.writev bufs piece offset).2 := by
  have hg := wf_get_buffer h piece true hp hpl
  have hgt := get_buffer_true s piece true
  obtain ⟨hs1, hs2, hs3⟩ := get_buffer_static h piece true hp hpl
  have hlen := (hs3 piece hp).1
  unfold memory_storage.writev
  simp only [memory_storage.get_write_buffer]
  generalize s.get_buffer piece true = g at *
  split
  · exact h
  · split
    · exact hg
    · rename_i hg1
      have hg1t : g.1 = true := by
        cases hgv : g.1
        · simp [hgv] at hg1
        · rfl
      have hb := (is_buffered_iff _).mp (hgt hg1t)
      have hpc := hg.pc piece hp (by omega)
      obtain ⟨hb0, hbl, _⟩ := hpc.2.2.2 hb
      have hbuf := hg.buf _ hb0 hbl
      have hw : (writev_loop (g.2.piece_at piece).length bufs
          (g.2.buffer_at (g.2.piece_at piece).bi).buffer offset 0).1.length =
          (g.2.buffer_at (g.2.piece_at piece).bi).buffer.length :=
        writev_loop_length _ _ _ _ _ ho (by omega) (by have := hpc.2.2.1; omega)
      have w2 := wf_set_buffer_same hg (g.2.piece_at piece).bi
        { g.2.buffer_at (g.2.piece_at piece).bi with
          buffer := (writev_loop (g.2.piece_at piece).length bufs
            (g.2.buffer_at (g.2.piece_at piece).bi).buffer offset 0).1 }
        hb0 hbl rfl hw rfl rfl
      have w3 := wf_set_piece_same w2 piece
        { g.2.piece_at piece with
          size := (g.2.piece_at piece).size + (writev_loop (g.2.piece_at piece).length bufs
            (g.2.buffer_at (g.2.piece_at piece).bi).buffer offset 0).2 }
        hp (by show piece < g.2.piece_count; omega) rfl rfl rfl
      have w4 := wf_touch (wf_now w3) (g.2.piece_at piece).bi hb0 hbl
        (now ((g.2.set_buffer (g.2.piece_at piece).bi
          { g.2.buffer_at (g.2.piece_at piece).bi with
            buffer := (writev_loop (g.2.piece_at piece).length bufs
              (g.2.buffer_at (g.2.piece_at piece).bi).buffer offset 0).1 }).set_piece piece
          { g.2.piece_at piece with
            size := (g.2.piece_at piece).size + (writev_loop (g.2.piece_at piece).length bufs
              (g.2.buffer_at (g.2.piece_at piece).bi).buffer offset 0).2 })).1
      split
      · exact wf_trim w4 piece
      · exact w4

/-! ## Growing the pool -/

theorem ceil_div_mono (a b pl : Int) (hpl : 0 < pl) (hab : a ≤ b) :
    ceil_div a pl ≤ ceil_div b pl := by
  unfold ceil_div
  have : (-b) / pl ≤ (-a) / pl := Int.ediv_le_ediv hpl (by omega)
  omega

theorem ceil_div_nonneg (a pl : Int) (hpl : 0 < pl) (ha : 0 ≤ a) : 0 ≤ ceil_div a pl := by
  unfold ceil_div
  have h1 : (-a) / pl ≤ 0 / pl := Int.ediv_le_ediv hpl (by omega)
  simp at h1
  omega

/-- The slots `push_buffers` appends are fresh, and nothing else but the clock
changes. -/
theorem push_buffers_spec : ∀ (k : Nat) (i : Int) (s : memory_storage),
    ∃ L : List memory_buffer,
      (push_buffers k i s).buffers = s.buffers ++ L ∧ L.length = k ∧
      (∀ (j : Nat) (b : memory_buffer), L[j]? = some b →
        b.index = i + j ∧ b.buffer.length = s.piece_length.toNat ∧ b.pi = -1 ∧
          b.is_used = false ∧ b.length = s.piece_length) ∧
      (push_buffers k i s).pieces = s.pieces ∧
      (push_buffers k i s).piece_count = s.piece_count ∧
      (push_buffers k i s).piece_length = s.piece_length ∧
      (push_buffers k i s).capacity = s.capacity ∧
      (push_buffers k i s).buffer_size = s.buffer_size ∧
      (push_buffers k i s).buffer_limit = s.buffer_limit ∧
      (push_buffers k i s).buffer_used = s.buffer_used ∧
      (push_buffers k i s).buffer_reserved = s.buffer_reserved ∧
      (push_buffers k i s).reader_pieces = s.reader_pieces ∧
      (push_buffers k i s).reserved_pieces = s.reserved_pieces ∧
      (push_buffers k i s).lookbehind_pieces = s.lookbehind_pieces ∧
      (push_buffers k i s).m_handle = s.m_handle ∧
      (push_buffers k i s).is_initialized = s.is_initialized ∧
      (push_buffers k i s).is_reading = s.is_reading := by
  intro k
  induction k with
  | zero =>
    intro i s
    refine ⟨[], by simp [push_buffers], rfl, ?_, rfl, rfl, rfl, rfl, rfl, rfl, rfl, rfl, rfl, rfl,
      rfl, rfl, rfl, rfl⟩
    intro j b hb
    simp at hb
  | succ n ih =>
    intro i s
    obtain ⟨L, h1, h2, h3, h4, h5, h6, h7, h8, h9, h10, h11, h12, h13, h14, h15, h16, h17⟩ :=
      ih (i + 1) { (now s).2 with
        buffers := (now s).2.buffers ++ [memory_buffer.mk_new i (now s).2.piece_length (now s).1] }
    refine ⟨memory_buffer.mk_new i s.piece_length (now s).1 :: L, ?_, by simp [h2], ?_,
      h4, h5, h6, h7, h8, h9, h10, h11, h12, h13, h14, h15, h16, h17⟩
    · show (push_buffers n (i + 1) _).buffers = _
      rw [h1]
      show (s.buffers ++ [memory_buffer.mk_new i s.piece_length (now s).1]) ++ L = _
      simp
    · intro j b hb
      cases j with
      | zero =>
        simp only [List.getElem?_cons_zero, Option.some.injEq] at hb
        subst hb
        simp [memory_buffer.mk_new]
      | succ m =>
        simp only [List.getElem?_cons_succ] at hb
        have := h3 m b hb
        refine ⟨?_, this.2.1, this.2.2.1, this.2.2.2.1, this.2.2.2.2⟩
        rw [this.1]; push_cast; omega

/-- Raising the pool size from `buffer_size` to `newsize` by appending fresh
slots, with the limit set to the new size, keeps the invariant. -/
theorem wf_grow {s : memory_storage} (h : wf s) (newsize cap : Int)
    (hge : s.buffer_size ≤ newsize) (hle1 : newsize ≤ s.piece_count)
    (hle2 : newsize ≤ ceil_div cap s.piece_length + 2) :
    wf (push_buffers (newsize - s.buffer_size).toNat s.buffer_size
      { s with capacity := cap, buffer_size := newsize, buffer_limit := newsize }) := by
  obtain ⟨L, h1, h2, h3, h4, h5, h6, h7, h8, h9, h10, h11, h12, h13, h14, h15, h16, h17⟩ :=
    push_buffers_spec (newsize - s.buffer_size).toNat s.buffer_size
      { s with capacity := cap, buffer_size := newsize, buffer_limit := newsize }
  generalize push_buffers (newsize - s.buffer_size).toNat s.buffer_size
      { s with capacity := cap, buffer_size := newsize, buffer_limit := newsize } = t at *
  simp only [] at h1 h3 h4 h5 h6 h7 h8 h9 h10 h12 h13 h14 h16
  have hbl := h.buffers_len
  have hold : ∀ j : Int, 0 ≤ j → j < s.buffer_size → t.buffer_at j = s.buffer_at j := by
    intro j hj hjl
    unfold memory_storage.buffer_at
    rw [h1]
    have : j.toNat < s.buffers.length := by omega
    simp [List.getD_eq_getElem?_getD, List.getElem?_append_left this]
  have hnew : ∀ j : Int, s.buffer_size ≤ j → j < newsize →
      (t.buffer_at j).index = j ∧ ((t.buffer_at j).buffer.length : Int) = s.piece_length ∧
        (t.buffer_at j).pi = -1 ∧ (t.buffer_at j).is_used = false := by
    intro j hj hjl
    have hjn : j.toNat - s.buffers.length < L.length := by omega
    have hget : (s.buffers ++ L)[j.toNat]? = some L[j.toNat - s.buffers.length] := by
      rw [List.getElem?_append_right (by omega)]
      exact List.getElem?_eq_getElem hjn
    have hb := h3 (j.toNat - s.buffers.length) _ (List.getElem?_eq_getElem hjn)
    have hat : t.buffer_at j = L[j.toNat - s.buffers.length] := by
      unfold memory_storage.buffer_at
      rw [h1]
      simp [List.getD_eq_getElem?_getD, hget]
    rw [hat]
    have hpl := h.plen
    refine ⟨?_, ?_, hb.2.2.1, hb.2.2.2.1⟩
    · rw [hb.1]; omega
    · rw [hb.2.1]; omega
  have hpat : ∀ j : Int, t.piece_at j = s.piece_at j := by
    intro j
    unfold memory_storage.piece_at
    rw [h4]
  have hu : t.in_use = s.in_use := by
    unfold memory_storage.in_use
    rw [h1, List.countP_append]
    have : List.countP (fun b => b.is_used) L = 0 := by
      rw [List.countP_eq_zero]
      intro b hb
      obtain ⟨n, hn, rfl⟩ := List.getElem_of_mem hb
      have := h3 n _ (List.getElem?_eq_getElem hn)
      simp [this.2.2.2.1]
    omega
  have hq := h.quota
  have hlim := h.limit_le
  refine ⟨?_, ?_, ?_, ?_, ?_, ?_, ?_, ?_, ?_, ?_, ?_, ?_⟩
  · rw [h16]; exact h.init
  · rw [h6]; exact h.plen
  · rw [h4, h5]; exact h.pieces_len
  · rw [h1, h8]; simp only [List.length_append, h2]; push_cast; omega
  · rw [h8, h5, h6, h7]; exact ⟨hle1, hle2⟩
  · rw [h8, h9]
  · rw [h8, h9, h10, hu]; omega
  · rw [h12, h5]; exact h.reader_len
  · rw [h13, h5]; exact h.reserved_len
  · rw [h14, h5]; exact h.lookbehind_len
  · intro j hj hjl
    rw [h8] at hjl
    rw [h5, h6]
    by_cases hjo : j < s.buffer_size
    · rw [hold j hj hjo]
      have hb := h.buf j hj hjo
      refine ⟨hb.1, hb.2.1, hb.2.2.1, ?_⟩
      intro hpi
      rw [hpat]
      exact hb.2.2.2 hpi
    · obtain ⟨n1, n2, n3, n4⟩ := hnew j (by omega) hjl
      refine ⟨n1, n2, ?_, ?_⟩
      · rw [n3, n4]; simp
      · intro hc; exact absurd n3 hc
  · intro q hq0 hql
    rw [h5] at hql
    rw [h6, h8, hpat]
    have hc := h.pc q hq0 hql
    refine ⟨hc.1, hc.2.1, hc.2.2.1, ?_⟩
    intro hbi
    have hc2 := hc.2.2.2 hbi
    refine ⟨hc2.1, by omega, ?_⟩
    rw [hold _ hc2.1 hc2.2.1]
    exact hc2.2.2

theorem wf_set_memory_size {s : memory_storage} (h : wf s) (sz : Int) :
    wf (s.set_memory_size sz) := by
  unfold memory_storage.set_memory_size
  split
  · exact h
  · rename_i hsz
    have hmono := ceil_div_mono s.capacity sz s.piece_length h.plen (by omega)
    have hs := h.size_le
    simp only []
    have hgrow := fun n h1 h2 h3 => wf_grow h n sz h1 h2 h3
    split
    · rename_i hgt
      split
      · rename_i heq
        have := hgrow s.piece_count (by omega) (by omega) (by omega)
        have e : (s.piece_count - s.buffer_size).toNat = 0 := by omega
        rw [e] at this
        exact this
      · exact hgrow s.piece_count (by omega) (by omega) (by omega)
    · rename_i hgt
      split
      · rename_i heq
        have := hgrow (ceil_div sz s.piece_length + 2) (by omega) (by omega) (by omega)
        have e : (ceil_div sz s.piece_length + 2 - s.buffer_size).toNat = 0 := by omega
        rw [e] at this
        exact this
      · exact hgrow (ceil_div sz s.piece_length + 2) (by omega) (by omega) (by omega)

/-! ## Reads -/

theorem wf_mark_read {s : memory_storage} (h : wf s) (piece : Int) (hp : 0 ≤ piece)
    (hpl : piece < s.piece_count) :
    wf (s.set_piece piece { s.piece_at piece with is_read := true }) :=
  wf_set_piece_same h piece _ hp hpl rfl rfl rfl

theorem wf_readv {s : memory_storage} (h : wf s) (bufs : List (List Nat)) (piece offset : Int)
    (hp : 0 ≤ piece) (hpl : piece < s.piece_count) : wf (s.readv bufs piece offset).2.2 := by
  have hg := wf_get_buffer h piece false hp hpl
  have hgt := get_buffer_true s piece false
  obtain ⟨hs1, _, _⟩ := get_buffer_static h piece false hp hpl
  unfold memory_storage.readv
  simp only [memory_storage.get_read_buffer]
  split
  · exact h
  · split
    · exact hg
    · rename_i hg1
      have hg1t : (s.get_buffer piece false).1 = true := by
        cases hgv : (s.get_buffer piece false).1
        · simp [hgv] at hg1
        · rfl
      have hb := (is_buffered_iff _).mp (hgt hg1t)
      have hpc := hg.pc piece hp (by omega)
      obtain ⟨hb0, hbl, _⟩ := hpc.2.2.2 hb
      split
      · exact wf_touch (wf_now (wf_mark_read hg piece hp (by omega))) _ hb0 hbl _
      · exact wf_touch (wf_now hg) _ hb0 hbl _

theorem wf_read {s : memory_storage} (h : wf s) (read_buf : List Nat) (size piece offset : Int)
    (hp : 0 ≤ piece) (hpl : piece < s.piece_count) :
    wf (s.read read_buf size piece offset).2.2 := by
  have h0 : wf { s with is_reading := true } :=
    wf_of_eq h rfl rfl rfl rfl rfl rfl rfl rfl rfl rfl rfl rfl
  have hg := wf_get_buffer h0 piece false hp hpl
  have hgt := get_buffer_true { s with is_reading := true } piece false
  obtain ⟨hs1, _, _⟩ := get_buffer_static h0 piece false hp hpl
  unfold memory_storage.read
  simp only [memory_storage.get_read_buffer]
  split
  · exact h
  · split
    · exact wf_restore_piece hg _
    · rename_i hg1
      have hg1t : (memory_storage.get_buffer { s with is_reading := true } piece false).1
          = true := by
        cases hgv : (memory_storage.get_buffer { s with is_reading := true } piece false).1
        · simp [hgv] at hg1
        · rfl
      have hb := (is_buffered_iff _).mp (hgt hg1t)
      have hs1b : (memory_storage.get_buffer { s with is_reading := true } piece false).2.piece_count
          = s.piece_count := hs1
      have hpc := hg.pc piece hp (by omega)
      obtain ⟨hb0, hbl, _⟩ := hpc.2.2.2 hb
      split
      · exact wf_restore_piece hg _
      · split
        · exact hg
        · have hpl2 : piece <
              (memory_storage.get_buffer { s with is_reading := true } piece false).2.piece_count := by
            omega
          split_ifs
          all_goals
            first
            | exact wf_touch (wf_now (wf_mark_read hg piece hp hpl2)) _ hb0 hbl _
            | exact wf_touch (wf_now hg) _ hb0 hbl _

/-! ## Protection updates -/

theorem set_pieces_length (n : Int) : ∀ (l : List Int) (bits : List Bool),
    (set_pieces n l bits).length = bits.length := by
  intro l
  induction l with
  | nil => intro bits; rfl
  | cons a rest ih =>
    intro bits
    unfold set_pieces
    split
    · rw [ih]; simp [bitset_set]
    · rw [ih]

theorem bitset_reset_length (bits : List Bool) : (bitset_reset bits).length = bits.length := by
  simp [bitset_reset]

theorem wf_update_reader_pieces {s : memory_storage} (h : wf s) (l : List Int) :
    wf (s.update_reader_pieces l) := by
  unfold memory_storage.update_reader_pieces
  split
  · exact h
  · exact wf_of_eq h rfl rfl rfl rfl rfl rfl rfl rfl rfl
      (by simp [set_pieces_length, bitset_reset_length]) rfl rfl

theorem wf_update_reserved_pieces {s : memory_storage} (h : wf s) (l : List Int) :
    wf (s.update_reserved_pieces l) := by
  unfold memory_storage.update_reserved_pieces
  split
  · exact h
  · exact wf_of_eq h rfl rfl rfl rfl rfl rfl rfl rfl rfl rfl
      (by simp [set_pieces_length, bitset_reset_length]) rfl

theorem wf_set_lookbehind_pieces {s : memory_storage} (h : wf s) (l : List Int) :
    wf (s.set_lookbehind_pieces l) := by
  unfold memory_storage.set_lookbehind_pieces
  split
  · exact h
  · exact wf_of_eq h rfl rfl rfl rfl rfl rfl rfl rfl rfl rfl rfl
      (by simp [set_pieces_length, bitset_reset_length])

theorem wf_clear_lookbehind {s : memory_storage} (h : wf s) : wf s.clear_lookbehind := by
  unfold memory_storage.clear_lookbehind
  split
  · exact h
  · exact wf_of_eq h rfl rfl rfl rfl rfl rfl rfl rfl rfl rfl rfl
      (by simp [bitset_reset_length])

/-! ## Construction -/

theorem push_buffers_comm (A B C : List Bool) : ∀ (k : Nat) (i : Int) (s : memory_storage),
    push_buffers k i { s with reader_pieces := A, reserved_pieces := B, lookbehind_pieces := C,
                              is_initialized := true } =
      { push_buffers k i s with reader_pieces := A, reserved_pieces := B,
                                lookbehind_pieces := C, is_initialized := true } := by
  intro k
  induction k with
  | zero => intro i s; rfl
  | succ n ih =>
    intro i s
    exact ih (i + 1) { (now s).2 with
      buffers := (now s).2.buffers ++ [memory_buffer.mk_new i (now s).2.piece_length (now s).1] }

theorem wf_construct (memory_size num_pieces piece_length : Int) (piece_size : Int → Int)
    (clock : Nat) (ticks : List Nat)
    (hcap : 0 ≤ memory_size) (hlen : 0 < piece_length) (hnum : 0 ≤ num_pieces)
    (hsize : ∀ i : Int, 0 ≤ i → i < num_pieces →
      0 ≤ piece_size i ∧ piece_size i ≤ piece_length) :
    wf (memory_storage.construct memory_size num_pieces piece_length piece_size clock ticks) := by
  have hc0 := ceil_div_nonneg memory_size piece_length hlen hcap
  have hbase : wf
      { reader_pieces := List.replicate (num_pieces + 10).toNat false
        reserved_pieces := List.replicate (num_pieces + 10).toNat false
        lookbehind_pieces := List.replicate (num_pieces + 10).toNat false
        capacity := memory_size
        piece_count := num_pieces
        piece_length := piece_length
        pieces := (List.range num_pieces.toNat).map
          (fun (i : Nat) => memory_piece.mk_new (i : Int) (piece_size (i : Int)))
        buffer_size := 0
        buffer_limit := 0
        buffer_used := 0
        buffer_reserved := 0
        buffers := []
        m_handle := none
        is_initialized := true
        is_reading := false
        clock := clock
        ticks := ticks } := by
    refine ⟨rfl, hlen, ?_, rfl, ?_, ?_, ?_, ?_, ?_, ?_, ?_, ?_⟩
    · show (((List.range num_pieces.toNat).map _).length : Int) = num_pieces
      rw [List.length_map, List.length_range]
      omega
    · simp only []; constructor <;> omega
    · simp only []; omega
    · simp [memory_storage.in_use]
    · simp only [List.length_replicate]; omega
    · simp only [List.length_replicate]; omega
    · simp only [List.length_replicate]; omega
    · intro i h0 h1
      simp only [] at h1
      omega
    · intro q h0 h1
      simp only [] at h1
      have hq : q.toNat < num_pieces.toNat := by omega
      have hat : ((List.range num_pieces.toNat).map
          (fun (i : Nat) => memory_piece.mk_new (i : Int) (piece_size (i : Int)))).getD
          q.toNat default = memory_piece.mk_new q (piece_size q) := by
        simp only [List.getD_eq_getElem?_getD, List.getElem?_map]
        rw [List.getElem?_range hq]
        simp only [Option.map_some', Option.getD_some]
        have : ((q.toNat : Nat) : Int) = q := by omega
        rw [this]
      simp only [memory_storage.piece_at, hat]
      have := hsize q h0 h1
      simp only [memory_piece.mk_new]
      exact ⟨trivial, this.1, this.2, fun hc => absurd rfl hc⟩
  have hg := wf_grow hbase
    (if ceil_div memory_size piece_length + 2 > num_pieces then num_pieces
      else ceil_div memory_size piece_length + 2) memory_size
    (by simp only []; split <;> omega) (by simp only []; split <;> omega)
    (by simp only []; split <;> omega)
  simp only [sub_zero] at hg
  unfold memory_storage.construct
  simp only []
  have hcomm := push_buffers_comm (List.replicate (num_pieces + 10).toNat false)
    (List.replicate (num_pieces + 10).toNat false)
    (List.replicate (num_pieces + 10).toNat false)
    (if ceil_div memory_size piece_length + 2 > num_pieces then num_pieces
      else ceil_div memory_size piece_length + 2).toNat 0
    { reader_pieces := []
      reserved_pieces := []
      lookbehind_pieces := []
      capacity := memory_size
      piece_count := num_pieces
      piece_length := piece_length
      pieces := (List.range num_pieces.toNat).map
        (fun (i : Nat) => memory_piece.mk_new (i : Int) (piece_size (i : Int)))
      buffer_size := (if ceil_div memory_size piece_length + 2 > num_pieces then num_pieces
        else ceil_div memory_size piece_length + 2)
      buffer_limit := (if ceil_div memory_size piece_length + 2 > num_pieces then num_pieces
        else ceil_div memory_size piece_length + 2)
      buffer_used := 0
      buffer_reserved := 0
      buffers := []
      m_handle := none
      is_initialized := false
      is_reading := false
      clock := clock
      ticks := ticks }
  rw [← hcomm]
  exact hg

/-- Every reachable state satisfies the structural invariant. -/
theorem reachable_wf {s : memory_storage} (h : reachable s) : wf s := by
  induction h with
  | construct memory_size num_pieces piece_length piece_size clock ticks hcap hlen hnum hsize =>
    exact wf_construct memory_size num_pieces piece_length piece_size clock ticks hcap hlen hnum
      hsize
  | step s o _ hpre ih =>
    cases o with
    | writev bufs piece offset =>
      exact wf_writev ih bufs piece offset hpre.1 hpre.2.1 hpre.2.2.1 hpre.2.2.2
    | readv bufs piece offset => exact wf_readv ih bufs piece offset hpre.1 hpre.2.1
    | read read_buf size piece offset =>
      exact wf_read ih read_buf size piece offset hpre.1 hpre.2.1
    | update_reader_pieces l => exact wf_update_reader_pieces ih l
    | update_reserved_pieces l => exact wf_update_reserved_pieces ih l
    | set_lookbehind_pieces l => exact wf_set_lookbehind_pieces ih l
    | clear_lookbehind => exact wf_clear_lookbehind ih
    | set_memory_size sz => exact wf_set_memory_size ih sz
    | set_torrent_handle t => exact wf_of_eq ih rfl rfl rfl rfl rfl rfl rfl rfl rfl rfl rfl rfl
    | picker_priorities prios =>
      exact wf_of_eq ih rfl rfl rfl rfl rfl rfl rfl rfl rfl rfl rfl rfl
    | clock_ticks ticks => exact wf_of_eq ih rfl rfl rfl rfl rfl rfl rfl rfl rfl rfl rfl rfl

/-! ## Claims -/

theorem scenario1_reachable : reachable scenario1 :=
  reachable.construct 16 4 4 (fun _ => 4) 0 [1, 1, 1, 1, 1, 1, 1, 1, 1, 1, 1, 1]
    (by decide) (by decide) (by decide) (by intro i _ _; simp)

/-- C1: in every state reachable from construction by the public operations,
under any picker priorities and any monotone clock, `buffer_used ≤ buffer_limit`
holds in the state in which a `writev` call (with a piece index of the torrent
and an offset inside the piece) returns. -/
theorem writev_quota (s : memory_storage) (hs : reachable s) (bufs : List (List Nat))
    (piece offset : Int) (hp : 0 ≤ piece) (hpl : piece < s.piece_count) (ho : 0 ≤ offset)
    (hol : offset ≤ (s.piece_at piece).length) :
    (s.writev bufs piece offset).2.buffer_used ≤ (s.writev bufs piece offset).2.buffer_limit := by
  have h := wf_writev (reachable_wf hs) bufs piece offset hp hpl ho hol
  have h1 := h.quota
  have h2 := h.buffers_len
  have h3 := in_use_le (s.writev bufs piece offset).2
  omega

/-- Witness of C1: the first write of scenario 1. -/
theorem writev_quota_witness :
    (scenario1.writev [[65, 66, 67, 68]] 0 0).2.buffer_used ≤
      (scenario1.writev [[65, 66, 67, 68]] 0 0).2.buffer_limit :=
  writev_quota scenario1 scenario1_reachable [[65, 66, 67, 68]] 0 0 (by decide) (by decide)
    (by decide) (by decide)

/-- C2: in every reachable state, slot `b` holds piece `p` exactly when piece
`p` points at slot `b`; hence no two in-use slots hold the same piece and no two
buffered pieces point at the same slot. -/
theorem slot_piece_bijection (s : memory_storage) (hs : reachable s) :
    (∀ b p : Int, 0 ≤ b → b < s.buffer_size → 0 ≤ p → p < s.piece_count →
      ((s.buffer_at b).pi = p ↔ (s.piece_at p).bi = b)) ∧
    (∀ b c : Int, 0 ≤ b → b < s.buffer_size → 0 ≤ c → c < s.buffer_size →
      (s.buffer_at b).is_used = true → (s.buffer_at c).is_used = true →
      (s.buffer_at b).pi = (s.buffer_at c).pi → b = c) ∧
    (∀ p q : Int, 0 ≤ p → p < s.piece_count → 0 ≤ q → q < s.piece_count →
      (s.piece_at p).is_buffered = true → (s.piece_at p).bi = (s.piece_at q).bi → p = q) ∧
    (s.buffers.length : Int) = s.buffer_size ∧ (s.pieces.length : Int) = s.piece_count := by
  have h := reachable_wf hs
  refine ⟨?_, ?_, ?_, h.buffers_len, h.pieces_len⟩
  · intro b p hb hbl hp hpl
    constructor
    · intro e
      have := (h.buf b hb hbl).2.2.2 (by omega)
      rw [e] at this
      exact this.2.2
    · intro e
      have := (h.pc p hp hpl).2.2.2 (by omega)
      rw [e] at this
      exact this.2.2
  · intro b c hb hbl hc hcl ub uc e
    have hb1 := h.buf b hb hbl
    have hc1 := h.buf c hc hcl
    have b2 := (hb1.2.2.2 (hb1.2.2.1.mp ub)).2.2
    have c2 := (hc1.2.2.2 (hc1.2.2.1.mp uc)).2.2
    rw [e] at b2
    omega
  · intro p q hp hpl hq hql bp e
    have hp1 := h.pc p hp hpl
    have hq1 := h.pc q hq hql
    have bne : (s.piece_at p).bi ≠ -1 := (is_buffered_iff _).mp bp
    have p2 := (hp1.2.2.2 bne).2.2
    have q2 := (hq1.2.2.2 (by rw [← e]; exact bne)).2.2
    rw [e] at p2
    omega

/-- Witness of C2: the state of scenario 1 after its first write. -/
theorem slot_piece_bijection_witness :
    ((scenario1.writev [[65, 66, 67, 68]] 0 0).2.buffer_at 0).pi = 0 ∧
    ((scenario1.writev [[65, 66, 67, 68]] 0 0).2.piece_at 0).bi = 0 ∧
    (((scenario1.writev [[65, 66, 67, 68]] 0 0).2.buffer_at 0).pi = 0 ↔
      ((scenario1.writev [[65, 66, 67, 68]] 0 0).2.piece_at 0).bi = 0) :=
  ⟨by decide, by decide,
    (slot_piece_bijection _ (reachable.step scenario1 (op.writev [[65, 66, 67, 68]] 0 0)
      scenario1_reachable ⟨by decide, by decide, by decide, by decide⟩)).1 0 0
      (by decide) (by decide) (by decide) (by decide)⟩

/-- C9: `readv` on a piece with no slot assigned returns 0, leaves the
destination spans as they are and leaves the whole state unchanged (no slot is
allocated, no counter, bit-set, timestamp or picker call changes); so the state
after two successive misses equals the state after one. -/
theorem readv_miss (s : memory_storage) (bufs bufs2 : List (List Nat)) (piece offset offset2 : Int)
    (h : (s.piece_at piece).is_buffered = false) :
    s.readv bufs piece offset = (0, bufs, s) ∧
    (s.readv bufs piece offset).2.2.readv bufs2 piece offset2 = (0, bufs2, s) := by
  have key : ∀ (b : List (List Nat)) (o : Int), s.readv b piece o = (0, b, s) := by
    intro b o
    unfold memory_storage.readv memory_storage.get_read_buffer memory_storage.get_buffer
    simp [h]
  rw [key bufs offset]
  exact ⟨rfl, key bufs2 offset2⟩

/-- Witness of C9: a read of piece 2 of scenario 1, which was never written. -/
theorem readv_miss_witness :
    scenario1.readv [[0, 0, 0, 0]] 2 0 = (0, [[0, 0, 0, 0]], scenario1) ∧
    (scenario1.readv [[0, 0, 0, 0]] 2 0).2.2.readv [[0, 0]] 2 1 = (0, [[0, 0]], scenario1) :=
  readv_miss scenario1 [[0, 0, 0, 0]] [[0, 0]] 2 0 1 (by decide)

/-- C10: with a picker bound, `restore_piece(p)` appends to the picker's call
record exactly `reset_piece_deadline(p)`, `set_piece_priority(p, dont_download)`,
`we_dont_have(p)`, in this order; with no picker bound nothing happens; in both
cases every field of the cache other than the picker binding is unchanged. -/
theorem restore_piece_calls (s : memory_storage) (p : Int) :
    (s.restore_piece p).m_handle = s.m_handle.map (fun h =>
      { priorities := if 0 ≤ p then h.priorities.set p.toNat dont_download else h.priorities
        calls := h.calls ++ [picker_call.reset_piece_deadline p,
          picker_call.set_piece_priority p dont_download, picker_call.we_dont_have p] }) ∧
    (s.m_handle = none → s.restore_piece p = s) ∧
    s.restore_piece p = { s with m_handle := (s.restore_piece p).m_handle } := by
  rcases s with ⟨a1, a2, a3, a4, a5, a6, a7, a8, a9, a10, a11, a12, mh, a14, a15, a16, a17⟩
  cases mh with
  | none => exact ⟨rfl, fun _ => rfl, rfl⟩
  | some t =>
    refine ⟨?_, fun hc => by simp at hc, rfl⟩
    simp [memory_storage.restore_piece, torrent.reset_piece_deadline,
      torrent.set_piece_priority, torrent.we_dont_have]

/-- Witness of C10: no picker is bound in scenario 1. -/
theorem restore_piece_calls_witness : scenario1.restore_piece 2 = scenario1 :=
  (restore_piece_calls scenario1 2).2.1 (by decide)

/-! ## What eviction leaves alone -/

theorem piece_at_restore_piece (s : memory_storage) (p q : Int) :
    (s.restore_piece p).piece_at q = s.piece_at q :=
  congrArg (fun l => List.getD l q.toNat default) (restore_piece_frame s p).1

theorem buffer_at_restore_piece (s : memory_storage) (p q : Int) :
    (s.restore_piece p).buffer_at q = s.buffer_at q :=
  congrArg (fun l => List.getD l q.toNat default) (restore_piece_frame s p).2.1

theorem eligible_not_protected {s : memory_storage} {pi : Int} {cr : Bool} {b : memory_buffer}
    (h : eligible s pi cr b = true) :
    s.is_reserved b.pi = false ∧ s.is_lookbehind_protected b.pi = false ∧ b.pi ≠ pi := by
  unfold eligible at h
  simp only [Bool.and_eq_true, Bool.not_eq_true', bne_iff_ne, ne_eq] at h
  exact ⟨h.1.1.1.2, h.1.1.2, h.1.2⟩

/-- The fields `remove_piece` never writes. -/
theorem remove_piece_frame (s : memory_storage) (bi : Int) :
    (s.remove_piece bi).reader_pieces = s.reader_pieces ∧
    (s.remove_piece bi).reserved_pieces = s.reserved_pieces ∧
    (s.remove_piece bi).lookbehind_pieces = s.lookbehind_pieces ∧
    (s.remove_piece bi).is_initialized = s.is_initialized ∧
    (s.remove_piece bi).piece_count = s.piece_count ∧
    (s.remove_piece bi).buffer_size = s.buffer_size ∧
    (s.remove_piece bi).buffer_limit = s.buffer_limit ∧
    (s.remove_piece bi).buffer_used = s.buffer_used - 1 := by
  unfold memory_storage.remove_piece
  simp only []
  split
  · have hf := restore_piece_frame
      (memory_storage.set_piece
        { (now s).2.set_buffer bi (((now s).2.buffer_at bi).reset (now s).1) with
          buffer_used := ((now s).2.set_buffer bi
            (((now s).2.buffer_at bi).reset (now s).1)).buffer_used - 1 }
        (s.buffer_at bi).pi
        (memory_storage.piece_at
          { (now s).2.set_buffer bi (((now s).2.buffer_at bi).reset (now s).1) with
            buffer_used := ((now s).2.set_buffer bi
              (((now s).2.buffer_at bi).reset (now s).1)).buffer_used - 1 }
          (s.buffer_at bi).pi).reset)
      (s.buffer_at bi).pi
    obtain ⟨_, _, f3, f4, f5, f6, _, _, f9, f10, f11, _, f13, _, _, _⟩ := hf
    exact ⟨f9, f10, f11, f13, f6, f5, f4, f3⟩
  · exact ⟨rfl, rfl, rfl, rfl, rfl, rfl, rfl, rfl⟩

/-- Releasing slot `bi` leaves every piece other than the one it held, and the
slot of every such piece, exactly as they were. -/
theorem remove_piece_keeps {s : memory_storage} (h : wf s) (bi : Int)
    (hi : 0 ≤ bi) (hil : bi < s.buffer_size) (hused : (s.buffer_at bi).is_used = true)
    (q : Int) (hq : 0 ≤ q) (hql : q < s.piece_count) (hne : q ≠ (s.buffer_at bi).pi) :
    (s.remove_piece bi).piece_at q = s.piece_at q ∧
    ((s.piece_at q).bi ≠ -1 →
      (s.remove_piece bi).buffer_at (s.piece_at q).bi = s.buffer_at (s.piece_at q).bi) := by
  have hbi := h.buf bi hi hil
  have hpne : (s.buffer_at bi).pi ≠ -1 := hbi.2.2.1.mp hused
  obtain ⟨hp, hpl, _⟩ := hbi.2.2.2 hpne
  have hbl := h.buffers_len
  have hpcl := h.pieces_len
  have hcond : (s.buffer_at bi).pi ≠ -1 ∧ (s.buffer_at bi).pi < s.piece_count := ⟨hpne, hpl⟩
  unfold memory_storage.remove_piece
  simp only []
  split
  · rw [piece_at_restore_piece]
    constructor
    · have e := getD_set_int s.pieces (s.buffer_at bi).pi q
        (s.piece_at (s.buffer_at bi).pi).reset default hp (by omega) hq
      rw [if_neg hne] at e
      exact e
    · intro hb
      rw [buffer_at_restore_piece]
      obtain ⟨b0, b1, b2⟩ := (h.pc q hq hql).2.2.2 hb
      have e := getD_set_int s.buffers bi (s.piece_at q).bi
        ((s.buffer_at bi).reset (now s).1) default hi (by omega) b0
      have hne2 : (s.piece_at q).bi ≠ bi := by
        intro hc
        rw [hc] at b2
        exact hne b2.symm
      rw [if_neg hne2] at e
      exact e
  · rename_i hc
    exact absurd hcond hc

theorem evict_found_keeps {s : memory_storage} (h : wf s) (pi : Int) (cr : Bool)
    (hne : (s.find_last_buffer pi cr).1 ≠ -1)
    (q : Int) (hq : 0 ≤ q) (hql : q < s.piece_count)
    (hprot : s.is_reserved q = true ∨ s.is_lookbehind_protected q = true ∨ q = pi) :
    ((s.find_last_buffer pi cr).2.remove_piece (s.find_last_buffer pi cr).1).piece_at q =
      s.piece_at q ∧
    ((s.piece_at q).bi ≠ -1 →
      ((s.find_last_buffer pi cr).2.remove_piece (s.find_last_buffer pi cr).1).buffer_at
        (s.piece_at q).bi = s.buffer_at (s.piece_at q).bi) := by
  obtain ⟨h1, h2, h3⟩ := find_last_buffer_victim h pi cr hne
  obtain ⟨e1, e2, e3⟩ := eligible_not_protected h3
  have hqne : q ≠ (s.buffer_at (s.find_last_buffer pi cr).1).pi := by
    intro hc
    rw [← hc] at e1 e2 e3
    rcases hprot with hp | hp | hp
    · rw [hp] at e1; exact absurd e1 (by simp)
    · rw [hp] at e2; exact absurd e2 (by simp)
    · exact e3 hp
  exact remove_piece_keeps (wf_now h) _ h1 h2 (eligible_used h3) q hq hql hqne

/-- One pass of the loop of `trim` leaves every protected piece and the caller's
piece, and the slots they occupy, exactly as they were. -/
theorem trim_body_keeps {s : memory_storage} (h : wf s) (pi : Int)
    (q : Int) (hq : 0 ≤ q) (hql : q < s.piece_count)
    (hprot : s.is_reserved q = true ∨ s.is_lookbehind_protected q = true ∨ q = pi) :
    (s.trim_body pi).2.piece_at q = s.piece_at q ∧
    ((s.piece_at q).bi ≠ -1 →
      (s.trim_body pi).2.buffer_at (s.piece_at q).bi = s.buffer_at (s.piece_at q).bi) := by
  unfold memory_storage.trim_body
  by_cases he : bitset_empty s.reader_pieces = true
  · simp only [he, Bool.not_true, Bool.false_eq_true, if_false, ne_eq, not_true_eq_false]
    split
    · rename_i hne
      exact evict_found_keeps h pi false hne q hq hql hprot
    · exact ⟨rfl, fun _ => rfl⟩
  · simp only [Bool.not_eq_true] at he
    simp only [he, Bool.not_false, if_true]
    split
    · rename_i hne
      exact evict_found_keeps h pi true hne q hq hql hprot
    · split
      · rename_i hne
        exact evict_found_keeps (wf_now h) pi false hne q hq hql hprot
      · exact ⟨rfl, fun _ => rfl⟩

/-- The fields one pass of the loop of `trim` never writes. -/
theorem trim_body_frame (s : memory_storage) (pi : Int) :
    (s.trim_body pi).2.reader_pieces = s.reader_pieces ∧
    (s.trim_body pi).2.reserved_pieces = s.reserved_pieces ∧
    (s.trim_body pi).2.lookbehind_pieces = s.lookbehind_pieces ∧
    (s.trim_body pi).2.is_initialized = s.is_initialized ∧
    (s.trim_body pi).2.piece_count = s.piece_count ∧
    (s.trim_body pi).2.buffer_size = s.buffer_size ∧
    (s.trim_body pi).2.buffer_limit = s.buffer_limit := by
  have key : ∀ (t : memory_storage) (bi : Int),
      t.reader_pieces = s.reader_pieces → t.reserved_pieces = s.reserved_pieces →
      t.lookbehind_pieces = s.lookbehind_pieces → t.is_initialized = s.is_initialized →
      t.piece_count = s.piece_count → t.buffer_size = s.buffer_size →
      t.buffer_limit = s.buffer_limit →
      (t.remove_piece bi).reader_pieces = s.reader_pieces ∧
      (t.remove_piece bi).reserved_pieces = s.reserved_pieces ∧
      (t.remove_piece bi).lookbehind_pieces = s.lookbehind_pieces ∧
      (t.remove_piece bi).is_initialized = s.is_initialized ∧
      (t.remove_piece bi).piece_count = s.piece_count ∧
      (t.remove_piece bi).buffer_size = s.buffer_size ∧
      (t.remove_piece bi).buffer_limit = s.buffer_limit := by
    intro t bi e1 e2 e3 e4 e5 e6 e7
    obtain ⟨f1, f2, f3, f4, f5, f6, f7, _⟩ := remove_piece_frame t bi
    exact ⟨f1.trans e1, f2.trans e2, f3.trans e3, f4.trans e4, f5.trans e5, f6.trans e6,
      f7.trans e7⟩
  unfold memory_storage.trim_body
  by_cases he : bitset_empty s.reader_pieces = true
  · simp only [he, Bool.not_true, Bool.false_eq_true, if_false, ne_eq, not_true_eq_false]
    split
    · exact key _ _ rfl rfl rfl rfl rfl rfl rfl
    · exact ⟨rfl, rfl, rfl, rfl, rfl, rfl, rfl⟩
  · simp only [Bool.not_eq_true] at he
    simp only [he, Bool.not_false, if_true]
    split
    · exact key _ _ rfl rfl rfl rfl rfl rfl rfl
    · split
      · exact key _ _ rfl rfl rfl rfl rfl rfl rfl
      · exact ⟨rfl, rfl, rfl, rfl, rfl, rfl, rfl⟩

theorem is_reserved_congr {s t : memory_storage} (e1 : t.is_initialized = s.is_initialized)
    (e2 : t.piece_count = s.piece_count) (e3 : t.reserved_pieces = s.reserved_pieces)
    (q : Int) : t.is_reserved q = s.is_reserved q := by
  unfold memory_storage.is_reserved
  rw [e1, e2, e3]

theorem is_lookbehind_congr {s t : memory_storage} (e1 : t.is_initialized = s.is_initialized)
    (e2 : t.piece_count = s.piece_count) (e3 : t.lookbehind_pieces = s.lookbehind_pieces)
    (q : Int) : t.is_lookbehind_protected q = s.is_lookbehind_protected q := by
  unfold memory_storage.is_lookbehind_protected
  rw [e1, e2, e3]

theorem is_reserved_eq_test {s : memory_storage} (h : wf s) (q : Int) (hq : 0 ≤ q)
    (hql : q < s.piece_count) : s.is_reserved q = bitset_test s.reserved_pieces q := by
  unfold memory_storage.is_reserved
  have h1 : ¬ q < 0 := by omega
  have h2 : ¬ q ≥ s.piece_count := by omega
  simp [h.init, h1, h2]

theorem is_lookbehind_eq_test {s : memory_storage} (h : wf s) (q : Int) (hq : 0 ≤ q)
    (hql : q < s.piece_count) :
    s.is_lookbehind_protected q = bitset_test s.lookbehind_pieces q := by
  unfold memory_storage.is_lookbehind_protected
  have h1 : ¬ q < 0 := by omega
  have h2 : ¬ q ≥ s.piece_count := by omega
  simp [h.init, h1, h2]

/-- The slot a pass of the loop of `trim` evicts is a slot of the pool that
passes the eligibility test of one of the two tiers. -/
theorem trim_body_victim {s : memory_storage} (h : wf s) (pi bi : Int) (s1 : memory_storage)
    (heq : s.trim_body pi = (some bi, s1)) :
    0 ≤ bi ∧ bi < s.buffer_size ∧
      (eligible s pi true (s.buffer_at bi) = true ∨ eligible s pi false (s.buffer_at bi) = true) := by
  unfold memory_storage.trim_body at heq
  by_cases he : bitset_empty s.reader_pieces = true
  · simp only [he, Bool.not_true, Bool.false_eq_true, if_false, ne_eq, not_true_eq_false] at heq
    split at heq
    · rename_i hne
      obtain ⟨h1, h2, h3⟩ := find_last_buffer_victim h pi false hne
      simp only [Prod.mk.injEq, Option.some.injEq] at heq
      rw [← heq.1]
      exact ⟨h1, h2, Or.inr h3⟩
    · simp at heq
  · simp only [Bool.not_eq_true] at he
    simp only [he, Bool.not_false, if_true] at heq
    split at heq
    · rename_i hne
      obtain ⟨h1, h2, h3⟩ := find_last_buffer_victim h pi true hne
      simp only [Prod.mk.injEq, Option.some.injEq] at heq
      rw [← heq.1]
      exact ⟨h1, h2, Or.inl h3⟩
    · split at heq
      · rename_i hne
        obtain ⟨h1, h2, h3⟩ := find_last_buffer_victim (wf_now h) pi false hne
        simp only [Prod.mk.injEq, Option.some.injEq] at heq
        rw [← heq.1]
        exact ⟨h1, h2, Or.inr h3⟩
      · simp at heq

/-- Every piece the loop of `trim` evicts is a piece of the torrent that is
neither reserved nor lookbehind-protected and is not the caller's piece. -/
theorem trim_loop_evicted_spec (pi : Int) : ∀ (fuel : Nat) (s : memory_storage), wf s →
    ∀ p ∈ trim_loop_evicted fuel s pi,
      0 ≤ p ∧ p < s.piece_count ∧ bitset_test s.reserved_pieces p = false ∧
        bitset_test s.lookbehind_pieces p = false ∧ p ≠ pi := by
  intro fuel
  induction fuel with
  | zero => intro s _ p hp; simp [trim_loop_evicted] at hp
  | succ n ih =>
    intro s h p hp
    unfold trim_loop_evicted at hp
    split at hp
    · have hb := wf_trim_body h pi
      have hf := trim_body_frame s pi
      split at hp
      · rename_i bi s1 heq
        rw [heq] at hb hf
        simp only [] at hb hf
        rcases List.mem_cons.mp hp with rfl | hp
        · obtain ⟨v1, v2, v3⟩ := trim_body_victim h pi bi s1 heq
          have hbuf := h.buf bi v1 v2
          have hel : ∃ cr, eligible s pi cr (s.buffer_at bi) = true := by
            rcases v3 with v | v
            · exact ⟨true, v⟩
            · exact ⟨false, v⟩
          obtain ⟨cr, hel⟩ := hel
          obtain ⟨e1, e2, e3⟩ := eligible_not_protected hel
          have hu := eligible_used hel
          obtain ⟨p0, p1, _⟩ := hbuf.2.2.2 (hbuf.2.2.1.mp hu)
          rw [is_reserved_eq_test h _ p0 p1] at e1
          rw [is_lookbehind_eq_test h _ p0 p1] at e2
          exact ⟨p0, p1, e1, e2, e3⟩
        · have := ih s1 hb p hp
          rw [hf.2.1, hf.2.2.1, hf.2.2.2.2.1] at this
          exact this
      · simp at hp
    · simp at hp

/-- The loop of `trim` leaves every protected piece and the caller's piece, and
the slots they occupy, exactly as they were. -/
theorem trim_loop_keeps (pi : Int) : ∀ (fuel : Nat) (s : memory_storage), wf s →
    ∀ q : Int, 0 ≤ q → q < s.piece_count →
      (s.is_reserved q = true ∨ s.is_lookbehind_protected q = true ∨ q = pi) →
      (trim_loop fuel s pi).piece_at q = s.piece_at q ∧
      ((s.piece_at q).bi ≠ -1 →
        (trim_loop fuel s pi).buffer_at (s.piece_at q).bi = s.buffer_at (s.piece_at q).bi) := by
  intro fuel
  induction fuel with
  | zero => intro s _ q _ _ _; exact ⟨rfl, fun _ => rfl⟩
  | succ n ih =>
    intro s h q hq hql hprot
    unfold trim_loop
    split
    · have hb := wf_trim_body h pi
      have hf := trim_body_frame s pi
      have hk := trim_body_keeps h pi q hq hql hprot
      split
      · rename_i bi s1 heq
        rw [heq] at hb hf hk
        simp only [] at hb hf hk
        have hprot1 : s1.is_reserved q = true ∨ s1.is_lookbehind_protected q = true ∨ q = pi := by
          rw [is_reserved_congr hf.2.2.2.1 hf.2.2.2.2.1 hf.2.1,
            is_lookbehind_congr hf.2.2.2.1 hf.2.2.2.2.1 hf.2.2.1]
          exact hprot
        have := ih s1 hb q hq (by rw [hf.2.2.2.2.1]; exact hql) hprot1
        rw [hk.1] at this
        refine ⟨this.1, ?_⟩
        intro hbi
        rw [this.2 hbi]
        exact hk.2 hbi
      · rename_i s1 heq
        rw [heq] at hk
        exact hk
    · exact ⟨rfl, fun _ => rfl⟩

theorem scenario3_reachable : reachable scenario3 :=
  reachable.step _ (op.clock_ticks [1, 1, 1, 1])
    (reachable.step _ (op.writev [[5, 6, 7, 8]] 1 0)
      (reachable.step _ (op.writev [[1, 2, 3, 4]] 0 0)
        (reachable.step _ (op.update_reserved_pieces [1])
          (reachable.construct 0 3 4 (fun _ => 4) 0 [] (by decide) (by decide) (by decide)
            (by intro i _ _; simp))
          trivial)
        ⟨by decide, by decide, by decide, by decide⟩)
      ⟨by decide, by decide, by decide, by decide⟩)
    trivial

/-- The loop of `trim` writes none of the protection bit-sets. -/
theorem trim_loop_frame (pi : Int) : ∀ (fuel : Nat) (s : memory_storage),
    (trim_loop fuel s pi).reader_pieces = s.reader_pieces ∧
    (trim_loop fuel s pi).reserved_pieces = s.reserved_pieces ∧
    (trim_loop fuel s pi).lookbehind_pieces = s.lookbehind_pieces := by
  intro fuel
  induction fuel with
  | zero => intro s; exact ⟨rfl, rfl, rfl⟩
  | succ n ih =>
    intro s
    unfold trim_loop
    split
    · have hf := trim_body_frame s pi
      split
      · rename_i bi s1 heq
        rw [heq] at hf
        simp only [] at hf
        have := ih s1
        exact ⟨this.1.trans hf.1, this.2.1.trans hf.2.1, this.2.2.trans hf.2.2.1⟩
      · rename_i s1 heq
        rw [heq] at hf
        exact ⟨hf.1, hf.2.1, hf.2.2.1⟩
    · exact ⟨rfl, rfl, rfl⟩

/-- C3: in a state satisfying the structural invariant (every reachable state,
and the state in which `writev` calls `trim`), every piece that `trim(pi)`
evicts is a piece of the torrent that is in neither `reserved_pieces` nor
`lookbehind_pieces` and differs from `pi`; the protection bit-sets are the same
before and after the call, hence at each eviction; and every resident piece that
is reserved, lookbehind-protected or equal to `pi` keeps its record and its
slot, bytes included, across the call. -/
theorem trim_respects_protection (s : memory_storage) (h : wf s) (pi : Int) :
    (∀ p ∈ s.trim_evicted pi,
      0 ≤ p ∧ p < s.piece_count ∧ bitset_test s.reserved_pieces p = false ∧
        bitset_test s.lookbehind_pieces p = false ∧ p ≠ pi) ∧
    ((s.trim pi).reserved_pieces = s.reserved_pieces ∧
      (s.trim pi).lookbehind_pieces = s.lookbehind_pieces) ∧
    (∀ q : Int, 0 ≤ q → q < s.piece_count → (s.piece_at q).is_buffered = true →
      (bitset_test s.reserved_pieces q = true ∨ bitset_test s.lookbehind_pieces q = true ∨
        q = pi) →
      (s.trim pi).piece_at q = s.piece_at q ∧
      (s.trim pi).buffer_at (s.piece_at q).bi = s.buffer_at (s.piece_at q).bi) := by
  refine ⟨?_, ?_, ?_⟩
  · intro p hp
    unfold memory_storage.trim_evicted at hp
    split at hp
    · simp at hp
    · exact trim_loop_evicted_spec pi _ s h p hp
  · unfold memory_storage.trim
    split
    · exact ⟨rfl, rfl⟩
    · have := trim_loop_frame pi (s.buffers.length + 1) s
      exact ⟨this.2.1, this.2.2⟩
  · intro q hq hql hbuf hprot
    rw [← is_reserved_eq_test h q hq hql, ← is_lookbehind_eq_test h q hq hql] at hprot
    have hb : (s.piece_at q).bi ≠ -1 := (is_buffered_iff _).mp hbuf
    unfold memory_storage.trim
    split
    · exact ⟨rfl, rfl⟩
    · have := trim_loop_keeps pi (s.buffers.length + 1) s h q hq hql hprot
      exact ⟨this.1, this.2 hb⟩

/-- Witness of C3: in `scenario3` pieces 0 and 1 are resident and piece 1 is
reserved; `trim(1)` evicts piece 0 and nothing else. -/
theorem trim_respects_protection_witness :
    scenario3.trim_evicted 1 = [0] ∧
    (∀ p ∈ scenario3.trim_evicted 1,
      0 ≤ p ∧ p < scenario3.piece_count ∧ bitset_test scenario3.reserved_pieces p = false ∧
        bitset_test scenario3.lookbehind_pieces p = false ∧ p ≠ 1) :=
  ⟨by decide, (trim_respects_protection scenario3 (reachable_wf scenario3_reachable) 1).1⟩

/-! ## The copy loops -/

theorem memcpy_into_eq (dst src : List Nat) (off n : Nat) :
    memcpy_into dst off src n = dst.take off ++ src.take n ++ dst.drop (off + n) := rfl

theorem writev_loop_arith (len fo n : Int) (bl rl dl o r c : Nat) (h0 : 0 ≤ fo) (h1 : fo ≤ len)
    (h2 : len ≤ (dl : Int)) (ho : fo = o) (hr : len - fo = r)
    (hc : min (len - fo) (bl : Int) = c) :
    c = min r bl ∧ r - bl = r - c ∧
    o + c + min rl (r - c) = o + min (bl + rl) r ∧
    n + min (len - fo) (bl : Int) + min (rl : Int) (len - (fo + min (len - fo) (bl : Int))) =
        n + min ((bl : Int) + (rl : Int)) (len - fo) ∧
    (fo + min (len - fo) (bl : Int)).toNat = o + c ∧
    (len - (fo + min (len - fo) (bl : Int))).toNat = r - c ∧
    (min (len - fo) (bl : Int)).toNat = c ∧ fo.toNat = o ∧ (len - fo).toNat = r ∧
    0 ≤ fo + min (len - fo) (bl : Int) ∧ fo + min (len - fo) (bl : Int) ≤ len ∧
    o + c ≤ dl ∧ c ≤ bl ∧ o ≤ dl ∧ (r ≤ bl → c = r) ∧ (¬ r ≤ bl → c = bl ∧ bl ≤ r) := by
  refine ⟨?_, ?_, ?_, ?_, ?_, ?_, ?_, ?_, ?_, ?_, ?_, ?_, ?_, ?_, ?_, ?_⟩ <;> omega

/-- The copy loop of `writev`, started at `fo` inside a piece of length `len`:
the incoming bytes, clamped to `len - fo`, replace the slot contents from
position `fo` on, and their number is added to `n`. -/
theorem writev_loop_spec (len : Int) : ∀ (bufs : List (List Nat)) (data : List Nat)
    (fo n : Int), 0 ≤ fo → fo ≤ len → len ≤ (data.length : Int) →
    writev_loop len bufs data fo n =
      (data.take fo.toNat ++ bufs.flatten.take (len - fo).toNat ++
          data.drop (fo.toNat + min bufs.flatten.length (len - fo).toNat),
        n + min (bufs.flatten.length : Int) (len - fo)) := by
  intro bufs
  induction bufs with
  | nil =>
    intro data fo n h0 h1 h2
    have : min (0 : Int) (len - fo) = 0 := by omega
    simp [writev_loop, this]
  | cons buf rest ih =>
    intro data fo n h0 h1 h2
    unfold writev_loop
    simp only []
    obtain ⟨o, ho⟩ : ∃ o : Nat, fo = o := ⟨fo.toNat, by omega⟩
    obtain ⟨r, hr⟩ : ∃ r : Nat, len - fo = r := ⟨(len - fo).toNat, by omega⟩
    obtain ⟨c, hc⟩ : ∃ c : Nat, min (len - fo) (buf.length : Int) = c :=
      ⟨(min (len - fo) (buf.length : Int)).toNat, by omega⟩
    obtain ⟨_, t4, t5, t6, e1, e2, e3, e4, e5, i1, i2, m1, m2, m3, c1, c2⟩ :=
      writev_loop_arith len fo n buf.length rest.flatten.length data.length o r c h0 h1 h2 ho hr hc
    have t3 : buf.take r = buf.take c := by
      by_cases hrb : r ≤ buf.length
      · rw [c1 hrb]
      · rw [(c2 hrb).1, List.take_of_length_le (c2 hrb).2, List.take_of_length_le (le_refl _)]
    have hA : (data.take o).length = o := by
      rw [List.length_take]; exact Nat.min_eq_left m3
    have hX : (buf.take c).length = c := by
      rw [List.length_take]; exact Nat.min_eq_left m2
    have hAX : (data.take o ++ buf.take c).length = o + c := by
      rw [List.length_append, hA, hX]
    have t1 : (data.take o ++ buf.take c ++ data.drop (o + c)).take (o + c) =
        data.take o ++ buf.take c := List.take_left' hAX
    have t2 : ∀ m : Nat, (data.take o ++ buf.take c ++ data.drop (o + c)).drop (o + c + m) =
        data.drop (o + c + m) := by
      intro m
      have hd := @List.drop_append _ (data.take o ++ buf.take c) (data.drop (o + c)) m
      rw [hAX] at hd
      rw [hd, List.drop_drop]
    rw [e3, e4]
    have hml : (memcpy_into data o buf c).length = data.length :=
      memcpy_into_length _ _ _ _ m1 m2
    rw [ih _ _ _ i1 i2 (by rw [hml]; exact h2)]
    rw [e1, e2, e5, memcpy_into_eq]
    rw [t1, t2, List.flatten_cons, List.take_append_eq_append_take, t3, t4, List.length_append,
      t5]
    refine Prod.ext ?_ ?_
    · simp only [List.append_assoc]
    · simp only []
      push_cast
      exact t6

/-- The copy loop of `readv` when the destination spans fit into what is left of
the slot from `fo` on: the spans keep their sizes, together they hold the slot
contents from `fo` on, and their total size is added to `n`. -/
theorem readv_loop_spec (data : List Nat) : ∀ (bufs : List (List Nat)) (fo n : Int)
    (out : List (List Nat)), 0 ≤ fo → fo + (bufs.flatten.length : Int) ≤ (data.length : Int) →
    ∃ R : List (List Nat),
      (readv_loop data bufs fo n out).1 = out.reverse ++ R ∧
      R.flatten = (data.drop fo.toNat).take bufs.flatten.length ∧
      R.map List.length = bufs.map List.length ∧
      (readv_loop data bufs fo n out).2 = n + (bufs.flatten.length : Int) := by
  intro bufs
  induction bufs with
  | nil =>
    intro fo n out _ _
    exact ⟨[], by simp [readv_loop], by simp, rfl, by simp [readv_loop]⟩
  | cons buf rest ih =>
    intro fo n out h0 h1
    simp only [List.flatten_cons, List.length_append, Nat.cast_add] at h1
    unfold readv_loop
    simp only []
    have hc : min ((data.length : Int) - fo) (buf.length : Int) = (buf.length : Int) := by omega
    rw [hc]
    obtain ⟨R, r1, r2, r3, r4⟩ := ih (fo + buf.length) (n + buf.length)
      (memcpy_into buf 0 (data.drop fo.toNat) ((buf.length : Int)).toNat :: out)
      (by omega) (by omega)
    have hspan : memcpy_into buf 0 (data.drop fo.toNat) ((buf.length : Int)).toNat =
        (data.drop fo.toNat).take buf.length := by
      rw [memcpy_into_eq]
      simp
    refine ⟨(data.drop fo.toNat).take buf.length :: R, ?_, ?_, ?_, ?_⟩
    · rw [r1, hspan]
      simp
    · rw [List.flatten_cons, r2, List.flatten_cons, List.length_append, List.take_add,
        List.drop_drop]
      have : (fo + (buf.length : Int)).toNat = fo.toNat + buf.length := by omega
      rw [this]
    · rw [List.map_cons, List.map_cons, r3, List.length_take, List.length_drop]
      have : min buf.length (data.length - fo.toNat) = buf.length := by omega
      rw [this]
    · rw [r4, List.flatten_cons, List.length_append]
      push_cast
      omega

/-! ## The write path in two steps -/

theorem writev_eq (s : memory_storage) (bufs : List (List Nat)) (piece offset : Int) :
    s.writev bufs piece offset =
      if !s.is_initialized then (0, s)
      else if !(s.get_buffer piece true).1 then (0, (s.get_buffer piece true).2)
      else
        (((s.get_buffer piece true).2.writev_store bufs piece offset).1,
          if ((s.get_buffer piece true).2.writev_store bufs piece offset).2.buffer_used ≥
              ((s.get_buffer piece true).2.writev_store bufs piece offset).2.buffer_limit then
            ((s.get_buffer piece true).2.writev_store bufs piece offset).2.trim piece
          else ((s.get_buffer piece true).2.writev_store bufs piece offset).2) := rfl

theorem set_touch_buffer (g : memory_storage) (i piece : Int) (b : memory_buffer)
    (p : memory_piece) (hi : 0 ≤ i) (hil : i < (g.buffers.length : Int)) :
    (((now ((g.set_buffer i b).set_piece piece p)).2.set_buffer i
      { (now ((g.set_buffer i b).set_piece piece p)).2.buffer_at i with
        accessed := (now ((g.set_buffer i b).set_piece piece p)).1 }).buffer_at i).buffer =
      b.buffer := by
  have hl : i < (((now ((g.set_buffer i b).set_piece piece p)).2.buffers.length : Nat) : Int) := by
    show i < (((g.buffers.set i.toNat b).length : Nat) : Int)
    rw [List.length_set]; exact hil
  have a2 := buffer_at_set_buffer (now ((g.set_buffer i b).set_piece piece p)).2 i i
    { (now ((g.set_buffer i b).set_piece piece p)).2.buffer_at i with
      accessed := (now ((g.set_buffer i b).set_piece piece p)).1 } hi hl hi
  rw [if_pos rfl] at a2
  rw [a2]
  have a1 := buffer_at_set_buffer g i i b hi hil hi
  rw [if_pos rfl] at a1
  show ((g.set_buffer i b).buffer_at i).buffer = b.buffer
  rw [a1]

/-- What the store step of `writev` does to a buffered piece: the byte count is
that of the copy loop, the piece record gains that many bytes in `size`, the
slot holds the bytes the loop produced, and nothing else about the piece, the
slot, the counters or the bit-sets changes. -/
theorem writev_store_spec {g : memory_storage} (h : wf g) (bufs : List (List Nat))
    (piece offset : Int) (hp : 0 ≤ piece) (hpl : piece < g.piece_count)
    (hb : (g.piece_at piece).bi ≠ -1) (ho : 0 ≤ offset)
    (hol : offset ≤ (g.piece_at piece).length) :
    wf (g.writev_store bufs piece offset).2 ∧
    (g.writev_store bufs piece offset).1 =
      (writev_loop (g.piece_at piece).length bufs
        (g.buffer_at (g.piece_at piece).bi).buffer offset 0).2 ∧
    (g.writev_store bufs piece offset).2.piece_at piece =
      { g.piece_at piece with
        size := (g.piece_at piece).size + (writev_loop (g.piece_at piece).length bufs
          (g.buffer_at (g.piece_at piece).bi).buffer offset 0).2 } ∧
    ((g.writev_store bufs piece offset).2.buffer_at (g.piece_at piece).bi).buffer =
      (writev_loop (g.piece_at piece).length bufs
        (g.buffer_at (g.piece_at piece).bi).buffer offset 0).1 ∧
    (g.writev_store bufs piece offset).2.piece_count = g.piece_count ∧
    (g.writev_store bufs piece offset).2.is_initialized = g.is_initialized ∧
    (g.writev_store bufs piece offset).2.buffer_used = g.buffer_used ∧
    (g.writev_store bufs piece offset).2.buffer_limit = g.buffer_limit := by
  have hpc := h.pc piece hp hpl
  obtain ⟨hb0, hbl, _⟩ := hpc.2.2.2 hb
  have hbuf := h.buf _ hb0 hbl
  have hlen := h.buffers_len
  have hplen := h.pieces_len
  have hw : (writev_loop (g.piece_at piece).length bufs
      (g.buffer_at (g.piece_at piece).bi).buffer offset 0).1.length =
      (g.buffer_at (g.piece_at piece).bi).buffer.length :=
    writev_loop_length _ _ _ _ _ ho hol (by have := hpc.2.2.1; have := hbuf.2.1; omega)
  have w2 := wf_set_buffer_same h (g.piece_at piece).bi
    { g.buffer_at (g.piece_at piece).bi with
      buffer := (writev_loop (g.piece_at piece).length bufs
        (g.buffer_at (g.piece_at piece).bi).buffer offset 0).1 }
    hb0 hbl rfl hw rfl rfl
  have w3 := wf_set_piece_same w2 piece
    { g.piece_at piece with
      size := (g.piece_at piece).size + (writev_loop (g.piece_at piece).length bufs
        (g.buffer_at (g.piece_at piece).bi).buffer offset 0).2 }
    hp hpl rfl rfl rfl
  have w4 := wf_touch (wf_now w3) (g.piece_at piece).bi hb0 hbl
    (now ((g.set_buffer (g.piece_at piece).bi
      { g.buffer_at (g.piece_at piece).bi with
        buffer := (writev_loop (g.piece_at piece).length bufs
          (g.buffer_at (g.piece_at piece).bi).buffer offset 0).1 }).set_piece piece
      { g.piece_at piece with
        size := (g.piece_at piece).size + (writev_loop (g.piece_at piece).length bufs
          (g.buffer_at (g.piece_at piece).bi).buffer offset 0).2 })).1
  refine ⟨w4, rfl, ?_, ?_, rfl, rfl, rfl, rfl⟩
  · have e := getD_set_int g.pieces piece piece
      { g.piece_at piece with
        size := (g.piece_at piece).size + (writev_loop (g.piece_at piece).length bufs
          (g.buffer_at (g.piece_at piece).bi).buffer offset 0).2 } default hp (by omega) hp
    rw [if_pos rfl] at e
    exact e
  · exact set_touch_buffer g (g.piece_at piece).bi piece _ _ hb0 (by omega)

/-! ## Round trip -/

/-- A call of `get_buffer` that reports failure leaves the piece unbuffered. -/
theorem get_buffer_false (s : memory_storage) (pidx : Int) (w : Bool)
    (h : (s.get_buffer pidx w).1 = false) :
    ((s.get_buffer pidx w).2.piece_at pidx).is_buffered = false := by
  unfold memory_storage.get_buffer at h ⊢
  simp only [] at h ⊢
  split
  · rename_i hb; rw [if_pos hb] at h; simp at h
  · rename_i hb
    rw [if_neg hb] at h
    split
    · simpa using hb
    · rename_i hw
      rw [if_neg hw] at h
      split
      · rw [piece_at_restore_piece]; simpa using hb
      · rename_i hr
        rw [if_neg hr] at h
        split
        · simpa using hb
        · rename_i i hf
          rw [hf] at h
          exact h

theorem readv_unbuffered (s : memory_storage) (bufs : List (List Nat)) (piece offset : Int)
    (h : (s.piece_at piece).is_buffered = false) : s.readv bufs piece offset = (0, bufs, s) := by
  unfold memory_storage.readv memory_storage.get_read_buffer memory_storage.get_buffer
  simp [h]

/-- A `readv` of a buffered piece returns what its copy loop produces from the
bytes of the piece's slot. -/
theorem readv_hit (s : memory_storage) (bufs : List (List Nat)) (piece offset : Int)
    (hi : s.is_initialized = true) (h : (s.piece_at piece).is_buffered = true) :
    (s.readv bufs piece offset).1 =
      (readv_loop (s.buffer_at (s.piece_at piece).bi).buffer bufs offset 0 []).2 ∧
    (s.readv bufs piece offset).2.1 =
      (readv_loop (s.buffer_at (s.piece_at piece).bi).buffer bufs offset 0 []).1 := by
  unfold memory_storage.readv memory_storage.get_read_buffer memory_storage.get_buffer
  simp [hi, h]

/-- The call `trim(pi)` leaves the caller's piece and its slot as they were. -/
theorem trim_keeps_caller {s : memory_storage} (h : wf s) (pi : Int) (hp : 0 ≤ pi)
    (hpl : pi < s.piece_count) (hb : (s.piece_at pi).bi ≠ -1) :
    (s.trim pi).piece_at pi = s.piece_at pi ∧
    (s.trim pi).buffer_at (s.piece_at pi).bi = s.buffer_at (s.piece_at pi).bi := by
  unfold memory_storage.trim
  split
  · exact ⟨rfl, rfl⟩
  · have := trim_loop_keeps pi (s.buffers.length + 1) s h pi hp hpl (Or.inr (Or.inr rfl))
    exact ⟨this.1, this.2 hb⟩

/-- After a `writev` that obtained a slot, the piece is buffered in the same
slot as after the allocation, its `size` has grown by the byte count returned,
and the slot holds the bytes the copy loop produced. -/
theorem writev_success {s : memory_storage} (h : wf s) (bufs : List (List Nat))
    (piece offset : Int) (hp : 0 ≤ piece) (hpl : piece < s.piece_count) (ho : 0 ≤ offset)
    (hol : offset ≤ (s.piece_at piece).length) (hg : (s.get_buffer piece true).1 = true) :
    (s.writev bufs piece offset).1 =
      (writev_loop (s.piece_at piece).length bufs
        ((s.get_buffer piece true).2.buffer_at
          ((s.get_buffer piece true).2.piece_at piece).bi).buffer offset 0).2 ∧
    ((s.writev bufs piece offset).2.piece_at piece).bi =
      ((s.get_buffer piece true).2.piece_at piece).bi ∧
    ((s.get_buffer piece true).2.piece_at piece).bi ≠ -1 ∧
    ((s.writev bufs piece offset).2.piece_at piece).size =
      (s.piece_at piece).size + (s.writev bufs piece offset).1 ∧
    ((s.writev bufs piece offset).2.buffer_at
        ((s.get_buffer piece true).2.piece_at piece).bi).buffer =
      (writev_loop (s.piece_at piece).length bufs
        ((s.get_buffer piece true).2.buffer_at
          ((s.get_buffer piece true).2.piece_at piece).bi).buffer offset 0).1 ∧
    (((s.get_buffer piece true).2.buffer_at
      ((s.get_buffer piece true).2.piece_at piece).bi).buffer.length : Int) = s.piece_length := by
  have hG := wf_get_buffer h piece true hp hpl
  have hb := (is_buffered_iff _).mp (get_buffer_true s piece true hg)
  obtain ⟨hs1, hs2, hs3⟩ := get_buffer_static h piece true hp hpl
  obtain ⟨hl, hsz⟩ := hs3 piece hp
  have hpl' : piece < (s.get_buffer piece true).2.piece_count := by omega
  obtain ⟨w1, w2, w3, w4, w5, w6, w7, w8⟩ := writev_store_spec hG bufs piece offset hp hpl' hb ho
    (by omega)
  rw [hl] at w2 w3 w4
  have hbsame : (((s.get_buffer piece true).2.writev_store bufs piece offset).2.piece_at piece).bi
      = ((s.get_buffer piece true).2.piece_at piece).bi := by rw [w3]
  obtain ⟨b0, b1, _⟩ := (hG.pc piece hp hpl').2.2.2 hb
  have hblen := (hG.buf _ b0 b1).2.1
  rw [hs2] at hblen
  rw [writev_eq]
  have hi := h.init
  simp only [hi, hg, Bool.not_true, Bool.false_eq_true, if_false]
  rw [w2]
  split
  · have hk := trim_keeps_caller w1 piece hp (by omega) (by rw [hbsame]; exact hb)
    rw [hbsame] at hk
    refine ⟨rfl, ?_, hb, ?_, ?_, hblen⟩
    · rw [hk.1, w3]
    · rw [hk.1, w3, hsz]
    · rw [hk.2, w4]
  · refine ⟨rfl, ?_, hb, ?_, ?_, hblen⟩
    · rw [w3]
    · rw [w3, hsz]
    · rw [w4]

/-- C4: in every reachable state, if `writev` of spans holding as many bytes as
the piece is long, at offset 0, returns the piece length, then a `readv` of the
same piece at offset 0 made right after it into destination spans of the same
total size returns the piece length and leaves in the spans, whose sizes are
unchanged, exactly the bytes written. -/
theorem write_read_roundtrip (s : memory_storage) (hs : reachable s) (piece : Int)
    (hp : 0 ≤ piece) (hpl : piece < s.piece_count) (bufs dst : List (List Nat))
    (hlen : (bufs.flatten.length : Int) = (s.piece_at piece).length)
    (hdst : dst.flatten.length = bufs.flatten.length)
    (hret : (s.writev bufs piece 0).1 = (s.piece_at piece).length) :
    ((s.writev bufs piece 0).2.readv dst piece 0).1 = (s.piece_at piece).length ∧
    ((s.writev bufs piece 0).2.readv dst piece 0).2.1.flatten = bufs.flatten ∧
    ((s.writev bufs piece 0).2.readv dst piece 0).2.1.map List.length =
      dst.map List.length := by
  have h := reachable_wf hs
  have hpc := h.pc piece hp hpl
  have hw' := wf_writev h bufs piece 0 hp hpl (le_refl 0) hpc.2.1
  cases hg : (s.get_buffer piece true).1 with
  | false =>
    have hgf := get_buffer_false s piece true hg
    have hweq : s.writev bufs piece 0 = (0, (s.get_buffer piece true).2) := by
      rw [writev_eq]
      simp [h.init, hg]
    rw [hweq] at hret ⊢
    simp only [] at hret ⊢
    rw [readv_unbuffered _ dst piece 0 hgf]
    have hb0 : bufs.flatten.length = 0 := by omega
    have hd0 : dst.flatten.length = 0 := by omega
    refine ⟨hret, ?_, rfl⟩
    rw [List.length_eq_zero.mp hb0, List.length_eq_zero.mp hd0]
  | true =>
    obtain ⟨s1, s2, s3, _, s5, s6⟩ := writev_success h bufs piece 0 hp hpl (le_refl 0) hpc.2.1 hg
    have hbuf' : ((s.writev bufs piece 0).2.piece_at piece).is_buffered = true := by
      rw [is_buffered_iff, s2]; exact s3
    obtain ⟨r1, r2⟩ := readv_hit (s.writev bufs piece 0).2 dst piece 0 hw'.init hbuf'
    rw [r1, r2, s2, s5]
    have hspec := writev_loop_spec (s.piece_at piece).length bufs
      ((s.get_buffer piece true).2.buffer_at
        ((s.get_buffer piece true).2.piece_at piece).bi).buffer 0 0 (le_refl 0) hpc.2.1
      (by have := hpc.2.2.1; omega)
    rw [hspec]
    simp only [sub_zero, Int.toNat_zero, List.take_zero, List.nil_append, Nat.zero_add]
    have hL : ((s.piece_at piece).length).toNat = bufs.flatten.length := by omega
    rw [hL, List.take_of_length_le (le_refl _), Nat.min_self]
    obtain ⟨R, q1, q2, q3, q4⟩ := readv_loop_spec
      (bufs.flatten ++ List.drop bufs.flatten.length
        ((s.get_buffer piece true).2.buffer_at
          ((s.get_buffer piece true).2.piece_at piece).bi).buffer)
      dst 0 0 [] (le_refl 0)
      (by simp only [List.length_append, List.length_drop]; omega)
    rw [q1, q4]
    simp only [List.reverse_nil, List.nil_append]
    refine ⟨by omega, ?_, q3⟩
    rw [q2, hdst]
    simp

/-- Witness of C4: scenario 1 of the spec. Writing `[A,B,C,D]` to piece 0
returns 4 and leaves `buffer_used == 1`; the read that follows returns 4 and
delivers `[A,B,C,D]`. -/
theorem write_read_roundtrip_witness :
    (scenario1.writev [[65, 66, 67, 68]] 0 0).1 = 4 ∧
    (scenario1.writev [[65, 66, 67, 68]] 0 0).2.buffer_used = 1 ∧
    ((scenario1.writev [[65, 66, 67, 68]] 0 0).2.readv [[0, 0, 0, 0]] 0 0).1 = 4 ∧
    ((scenario1.writev [[65, 66, 67, 68]] 0 0).2.readv [[0, 0, 0, 0]] 0 0).2.1 =
      [[65, 66, 67, 68]] ∧
    ((scenario1.writev [[65, 66, 67, 68]] 0 0).2.readv [[0, 0, 0, 0]] 0 0).2.1.flatten =
      [[65, 66, 67, 68]].flatten :=
  ⟨by decide, by decide, by decide, by decide,
    (write_read_roundtrip scenario1 scenario1_reachable 0 (by decide) (by decide)
      [[65, 66, 67, 68]] [[0, 0, 0, 0]] (by decide) (by decide) (by decide)).2.1⟩

theorem scenario5_reachable : reachable scenario5 :=
  reachable.step _ (op.picker_priorities [4, 0, 4, 4])
    (reachable.step _ (op.writev [[5, 6, 7, 8]] 1 0)
      (reachable.step _ (op.writev [[1, 2, 3, 4]] 0 0)
        (reachable.step _ (op.set_torrent_handle { priorities := [4, 4, 4, 4], calls := [] })
          (reachable.construct 4 4 4 (fun _ => 4) 0 [1, 1, 1, 1, 1, 1, 1, 1, 1, 1, 1, 1, 1, 1]
            (by decide) (by decide) (by decide) (by intro i _ _; simp))
          trivial)
        ⟨by decide, by decide, by decide, by decide⟩)
      ⟨by decide, by decide, by decide, by decide⟩)
    trivial

/-- C5, the code at the failing input: `scenario5` is reachable, no bit of
`reader_pieces`, `reserved_pieces` or `lookbehind_pieces` is set, slots 0 and 1
are in use with slot 0 accessed before slot 1; the write of piece 2 calls
`trim(2)`, which evicts piece 1 from slot 1 and leaves the older slot 0 alone,
because the picker gives piece 1 the priority `dont_download` and the first
tier runs although no reader piece is set. -/
theorem trim_evicts_newer_slot :
    reachable scenario5 ∧
    bitset_count scenario5.reader_pieces = 0 ∧
    bitset_count scenario5.reserved_pieces = 0 ∧
    bitset_count scenario5.lookbehind_pieces = 0 ∧
    bitset_empty scenario5.reader_pieces = false ∧
    (scenario5.writev [[9, 10, 11, 12]] 2 0).2 = scenario5_trim.trim 2 ∧
    scenario5_trim.trim_evicted 2 = [1] ∧
    (scenario5_trim.buffer_at 0).is_used = true ∧ (scenario5_trim.buffer_at 0).pi = 0 ∧
    (scenario5_trim.buffer_at 1).is_used = true ∧ (scenario5_trim.buffer_at 1).pi = 1 ∧
    (scenario5_trim.buffer_at 0).accessed < (scenario5_trim.buffer_at 1).accessed ∧
    ((scenario5.writev [[9, 10, 11, 12]] 2 0).2.piece_at 1).is_buffered = false ∧
    ((scenario5.writev [[9, 10, 11, 12]] 2 0).2.piece_at 0).is_buffered = true :=
  ⟨scenario5_reachable, by decide, by decide, by decide, by decide, by decide, by decide,
    by decide, by decide, by decide, by decide, by decide, by decide, by decide⟩

theorem scenario6_reachable : reachable scenario6 :=
  reachable.step _ (op.writev [[5, 6, 7, 8]] 1 0)
    (reachable.step _ (op.writev [[1, 2, 3, 4]] 0 0)
      (reachable.step _ (op.set_torrent_handle { priorities := [4, 0, 4, 4], calls := [] })
        (reachable.construct 4 4 4 (fun _ => 4) 0 [0, 0, 0, 1, 0, 1, 0]
          (by decide) (by decide) (by decide) (by intro i _ _; simp))
        trivial)
      ⟨by decide, by decide, by decide, by decide⟩)
    ⟨by decide, by decide, by decide, by decide⟩

/-- Counterexample to C6 as stated: `scenario6` is reachable; when the write of
piece 2 calls `trim(2)`, slot 1 is in use and holds piece 1, which is
unprotected, differs from 2 and is not readered, yet the pass evicts slot 0,
whose piece 0 is readered: slot 1 was last accessed at the very clock reading
the first-tier search takes, so the search does not see it. -/
theorem tier1_candidate_skipped :
    reachable scenario6 ∧
    (scenario6.writev [[9, 10, 11, 12]] 2 0).2 = scenario6_trim.trim 2 ∧
    scenario6_trim.buffer_used ≥ scenario6_trim.buffer_limit ∧
    (scenario6_trim.buffer_at 1).is_used = true ∧ (scenario6_trim.buffer_at 1).pi = 1 ∧
    scenario6_trim.is_reserved 1 = false ∧ scenario6_trim.is_lookbehind_protected 1 = false ∧
    scenario6_trim.is_readered 1 = false ∧
    (scenario6_trim.trim_body 2).1 = some 0 ∧ (scenario6_trim.buffer_at 0).pi = 0 ∧
    scenario6_trim.is_readered 0 = true ∧
    (scenario6_trim.buffer_at 1).accessed = (now scenario6_trim).1 :=
  ⟨scenario6_reachable, by decide, by decide, by decide, by decide, by decide, by decide,
    by decide, by decide, by decide, by decide, by decide⟩

theorem eligible_not_readered {s : memory_storage} {pi : Int} {b : memory_buffer}
    (h : eligible s pi true b = true) : s.is_readered b.pi = false := by
  unfold eligible at h
  simp only [Bool.and_eq_true, Bool.not_true, Bool.false_or, Bool.not_eq_true'] at h
  exact h.2

theorem buffer_at_mem {s : memory_storage} (i : Int) (hi : 0 ≤ i)
    (hil : i < (s.buffers.length : Int)) : s.buffer_at i ∈ s.buffers := by
  unfold memory_storage.buffer_at
  have h : i.toNat < s.buffers.length := by omega
  rw [List.getD_eq_getElem?_getD, List.getElem?_eq_getElem h]
  exact List.getElem_mem h

/-- When an eligible not-readered slot older than the reading of the first-tier
search exists, the pass evicts a slot found by the first tier. -/
theorem tier1_finds {s : memory_storage} (h : wf s) (pi : Int) (i : Int) (hi : 0 ≤ i)
    (hil : i < s.buffer_size) (hel : eligible s pi true (s.buffer_at i) = true)
    (hacc : (s.buffer_at i).accessed < (now s).1) :
    (s.trim_body pi).1 = some (s.find_last_buffer pi true).1 ∧
    0 ≤ (s.find_last_buffer pi true).1 ∧ (s.find_last_buffer pi true).1 < s.buffer_size ∧
    eligible s pi true (s.buffer_at (s.find_last_buffer pi true).1) = true := by
  have hbl := h.buffers_len
  have hmem := buffer_at_mem (s := s) i hi (by omega)
  have hne : (s.find_last_buffer pi true).1 ≠ -1 := by
    have hspec := find_last_scan_spec (now s).2 pi true (now s).2.buffers (-1) (now s).1
    have hdef : (s.find_last_buffer pi true).1 =
        find_last_scan (now s).2 pi true (now s).2.buffers (-1) (now s).1 := rfl
    rcases hspec with ⟨_, hall⟩ | ⟨l1, b, l2, hl, hb, _, hr, _, _⟩
    · have := hall (s.buffer_at i) hmem hel
      omega
    · rw [hdef, hr]
      have hbm : b ∈ s.buffers := by
        have : b ∈ (now s).2.buffers := by rw [hl]; simp
        exact this
      have := (wf_mem_buffer h b hbm).1
      omega
  obtain ⟨v1, v2, v3⟩ := find_last_buffer_victim h pi true hne
  refine ⟨?_, v1, v2, v3⟩
  have hrl := h.reader_len
  have hpl := h.pieces_len
  have hemp : bitset_empty s.reader_pieces = false := by
    unfold bitset_empty
    cases hr : s.reader_pieces with
    | nil => rw [hr] at hrl; simp at hrl; omega
    | cons a t => rfl
  unfold memory_storage.trim_body
  simp only [hemp, Bool.not_false, if_true]
  rw [if_pos hne]

/-- C6 as amended: in a state satisfying the structural invariant, if some
in-use slot whose last access is earlier than the clock reading of the
first-tier search holds a piece that is unprotected, different from `pi` and not
readered, then the pass of `trim(pi)` evicts a slot whose piece is not readered;
hence a pass that evicts a readered piece has no such candidate. -/
theorem tier1_preferred (s : memory_storage) (h : wf s) (pi : Int) :
    (∀ i : Int, 0 ≤ i → i < s.buffer_size → eligible s pi true (s.buffer_at i) = true →
      (s.buffer_at i).accessed < (now s).1 →
      ∃ bi : Int, (s.trim_body pi).1 = some bi ∧ 0 ≤ bi ∧ bi < s.buffer_size ∧
        s.is_readered (s.buffer_at bi).pi = false) ∧
    (∀ bi : Int, (s.trim_body pi).1 = some bi → s.is_readered (s.buffer_at bi).pi = true →
      ∀ i : Int, 0 ≤ i → i < s.buffer_size → eligible s pi true (s.buffer_at i) = true →
        (now s).1 ≤ (s.buffer_at i).accessed) := by
  constructor
  · intro i hi hil hel hacc
    obtain ⟨t1, t2, t3, t4⟩ := tier1_finds h pi i hi hil hel hacc
    exact ⟨_, t1, t2, t3, eligible_not_readered t4⟩
  · intro bi hbi hrd i hi hil hel
    by_contra hlt
    obtain ⟨t1, _, _, t4⟩ := tier1_finds h pi i hi hil hel (by omega)
    rw [t1] at hbi
    simp only [Option.some.injEq] at hbi
    rw [hbi] at t4
    have := eligible_not_readered t4
    rw [this] at hrd
    exact absurd hrd (by simp)

theorem scenario5_trim_wf : wf scenario5_trim :=
  (writev_store_spec
    (wf_get_buffer (reachable_wf scenario5_reachable) 2 true (by decide) (by decide))
    [[9, 10, 11, 12]] 2 0 (by decide) (by decide) (by decide) (by decide) (by decide)).1

/-- Witness of C6 as amended: the pass of `trim(2)` in `scenario5_trim`, where
piece 1 in slot 1 is the not-readered candidate, evicts slot 1. -/
theorem tier1_preferred_witness :
    (scenario5_trim.trim_body 2).1 = some 1 ∧
    ∃ bi : Int, (scenario5_trim.trim_body 2).1 = some bi ∧ 0 ≤ bi ∧
      bi < scenario5_trim.buffer_size ∧
      scenario5_trim.is_readered (scenario5_trim.buffer_at bi).pi = false :=
  ⟨by decide,
    (tier1_preferred scenario5_trim scenario5_trim_wf 2).1 1 (by decide) (by decide) (by decide) (by decide)⟩

/-! ## Refused writes -/

/-- The reader-window refusal: a write for an unbuffered piece that is not
readered, made while the cache is serving reader traffic, does nothing but call
`restore_piece` on the piece and return 0. -/
theorem writev_refused {s : memory_storage} (h : wf s) (bufs : List (List Nat))
    (piece offset : Int) (hp : 0 ≤ piece) (hpl : piece < s.piece_count)
    (hnb : (s.piece_at piece).is_buffered = false) (hr : s.is_reading = true)
    (hnr : s.is_readered piece = false) :
    s.writev bufs piece offset = (0, s.restore_piece piece) := by
  have hidx := (h.pc piece hp hpl).1
  unfold memory_storage.writev memory_storage.get_write_buffer memory_storage.get_buffer
  simp [h.init, hnb, hr, hidx, hnr]

theorem scenario4_reachable : reachable scenario4 :=
  reachable.step _ (op.read [0, 0, 0, 0] 4 5 0)
    (reachable.step _ (op.update_reader_pieces [5, 6, 7])
      (reachable.step _
        (op.set_torrent_handle { priorities := [0, 0, 0, 0, 0, 4, 4, 4, 0, 0], calls := [] })
        (reachable.construct 16 10 4 (fun _ => 4) 0 [1, 1, 1, 1, 1, 1, 1, 1, 1, 1, 1, 1]
          (by decide) (by decide) (by decide) (by intro i _ _; simp))
        trivial)
      trivial)
    ⟨by decide, by decide, by decide, by decide, by decide⟩

theorem scenario7_reachable : reachable scenario7 :=
  reachable.step _ (op.writev [[5, 6, 7, 8]] 1 0)
    (reachable.step _ (op.writev [[1, 2, 3, 4]] 0 0)
      (reachable.step _ (op.update_reserved_pieces [0, 1])
        (reachable.step _ (op.set_torrent_handle { priorities := [4, 4, 0], calls := [] })
          (reachable.construct 0 3 4 (fun _ => 4) 0 [1, 1, 1, 1, 1, 1, 1, 1, 1, 1, 1, 1]
            (by decide) (by decide) (by decide) (by intro i _ _; simp))
          trivial)
        trivial)
      ⟨by decide, by decide, by decide, by decide⟩)
    ⟨by decide, by decide, by decide, by decide⟩

theorem scenario8_reachable : reachable scenario8 :=
  reachable.step _ (op.read [0, 0, 0, 0] 4 5 0)
    (reachable.step _ (op.update_reader_pieces [5, 6, 7])
      (reachable.step _
        (op.set_torrent_handle { priorities := [4, 4, 4, 4, 4, 4, 4, 4, 4, 4], calls := [] })
        (reachable.construct 16 10 4 (fun _ => 4) 0 [1, 1, 1, 1, 1, 1, 1, 1, 1, 1, 1, 1]
          (by decide) (by decide) (by decide) (by intro i _ _; simp))
        trivial)
      trivial)
    ⟨by decide, by decide, by decide, by decide, by decide⟩

/-- Counterexample to C7 as stated: `scenario7` is reachable with a picker
bound; piece 2 is outside the reader window (no bit of `reader_pieces` is set
and the picker gives it `dont_download`); the write of piece 2 finds no free
slot and returns zero bytes, and it performs no picker call at all: the state is
unchanged. -/
theorem full_pool_refusal_without_restore :
    reachable scenario7 ∧
    scenario7.m_handle = some { priorities := [4, 4, 0], calls := [] } ∧
    bitset_test scenario7.reader_pieces 2 = false ∧
    scenario7.is_readered 2 = false ∧
    (scenario7.piece_at 2).is_buffered = false ∧
    scenario7.find_free = none ∧
    (scenario7.writev [[9, 9, 9, 9]] 2 0).1 = 0 ∧
    (scenario7.writev [[9, 9, 9, 9]] 2 0).2 = scenario7 :=
  ⟨scenario7_reachable, by decide, by decide, by decide, by decide, by decide, by decide,
    by decide⟩

/-- C7 as amended: in a reachable state with a picker bound, a `writev` for a
piece that has no slot, made while the cache is serving reader traffic
(`is_reading`) and the piece is not readered (the picker gives it
`dont_download`), returns zero bytes and adds to the picker's call record exactly
the three operations of one `restore_piece` on that piece. -/
theorem writev_refusal_restores_once (s : memory_storage) (hs : reachable s) (t : torrent)
    (ht : s.m_handle = some t) (bufs : List (List Nat)) (piece offset : Int)
    (hp : 0 ≤ piece) (hpl : piece < s.piece_count)
    (hnb : (s.piece_at piece).is_buffered = false) (hr : s.is_reading = true)
    (hnr : s.is_readered piece = false) :
    (s.writev bufs piece offset).1 = 0 ∧
    (s.writev bufs piece offset).2.m_handle.map torrent.calls =
      some (t.calls ++ [picker_call.reset_piece_deadline piece,
        picker_call.set_piece_priority piece dont_download,
        picker_call.we_dont_have piece]) := by
  rw [writev_refused (reachable_wf hs) bufs piece offset hp hpl hnb hr hnr]
  refine ⟨rfl, ?_⟩
  unfold memory_storage.restore_piece
  simp [ht, torrent.reset_piece_deadline, torrent.set_piece_priority, torrent.we_dont_have]

/-- Witness of C7 as amended: the write of piece 2 in scenario 4. -/
theorem writev_refusal_restores_once_witness :
    (scenario4.writev [[1, 2, 3, 4]] 2 0).1 = 0 ∧
    (scenario4.writev [[1, 2, 3, 4]] 2 0).2.m_handle.map torrent.calls =
      some ([picker_call.reset_piece_deadline 5, picker_call.set_piece_priority 5 0,
          picker_call.we_dont_have 5] ++
        [picker_call.reset_piece_deadline 2, picker_call.set_piece_priority 2 dont_download,
          picker_call.we_dont_have 2]) :=
  writev_refusal_restores_once scenario4 scenario4_reachable
    { priorities := [0, 0, 0, 0, 0, 0, 4, 4, 0, 0],
      calls := [picker_call.reset_piece_deadline 5, picker_call.set_piece_priority 5 0,
        picker_call.we_dont_have 5] }
    (by decide) [[1, 2, 3, 4]] 2 0 (by decide) (by decide) (by decide) (by decide) (by decide)

/-- Counterexample to C8 as stated: `scenario8` is reachable and serving reader
traffic with `reader_pieces = {5, 6, 7}`; piece 2 is not resident and not in
`reader_pieces`, yet the write of piece 2 is not refused: it returns 4 bytes,
raises `buffer_used` from 0 to 1, takes slot 0 and performs no picker call. -/
theorem write_outside_reader_pieces_allocates :
    reachable scenario8 ∧ scenario8.is_reading = true ∧
    bitset_test scenario8.reader_pieces 5 = true ∧
    bitset_test scenario8.reader_pieces 6 = true ∧
    bitset_test scenario8.reader_pieces 7 = true ∧
    bitset_count scenario8.reader_pieces = 3 ∧
    bitset_test scenario8.reader_pieces 2 = false ∧
    (scenario8.piece_at 2).is_buffered = false ∧
    scenario8.buffer_used = 0 ∧
    (scenario8.writev [[1, 2, 3, 4]] 2 0).1 = 4 ∧
    (scenario8.writev [[1, 2, 3, 4]] 2 0).2.buffer_used = 1 ∧
    ((scenario8.writev [[1, 2, 3, 4]] 2 0).2.buffer_at 0).pi = 2 ∧
    (scenario8.writev [[1, 2, 3, 4]] 2 0).2.m_handle = scenario8.m_handle :=
  ⟨scenario8_reachable, by decide, by decide, by decide, by decide, by decide, by decide,
    by decide, by decide, by decide, by decide, by decide, by decide⟩

/-- C8 as amended: in a reachable state, whenever the cache is serving reader
traffic and a piece that has no slot is not readered (a picker is bound and
gives it `dont_download`; the bits of `reader_pieces` are not consulted), a
`writev` for that piece does nothing but invoke `restore_piece` on it: it
returns zero bytes and leaves `buffer_used`, `buffer_limit`, every slot and
every piece record unchanged. -/
theorem writev_refusal_frame (s : memory_storage) (hs : reachable s) (bufs : List (List Nat))
    (piece offset : Int) (hp : 0 ≤ piece) (hpl : piece < s.piece_count)
    (hnb : (s.piece_at piece).is_buffered = false) (hr : s.is_reading = true)
    (hnr : s.is_readered piece = false) :
    s.writev bufs piece offset = (0, s.restore_piece piece) ∧
    (s.writev bufs piece offset).2.buffer_used = s.buffer_used ∧
    (s.writev bufs piece offset).2.buffer_limit = s.buffer_limit ∧
    (s.writev bufs piece offset).2.buffers = s.buffers ∧
    (s.writev bufs piece offset).2.pieces = s.pieces := by
  have e := writev_refused (reachable_wf hs) bufs piece offset hp hpl hnb hr hnr
  have f := restore_piece_frame s piece
  rw [e]
  exact ⟨rfl, f.2.2.1, f.2.2.2.1, f.2.1, f.1⟩

/-- Witness of C8 as amended: scenario 4 of the spec, `reader_pieces = {5, 6, 7}`
and a write for piece 2 with `is_readered(2) = false`. -/
theorem writev_refusal_frame_witness :
    scenario4.writev [[1, 2, 3, 4]] 2 0 = (0, scenario4.restore_piece 2) ∧
    (scenario4.writev [[1, 2, 3, 4]] 2 0).2.buffer_used = scenario4.buffer_used ∧
    (scenario4.writev [[1, 2, 3, 4]] 2 0).2.buffer_limit = scenario4.buffer_limit ∧
    (scenario4.writev [[1, 2, 3, 4]] 2 0).2.buffers = scenario4.buffers ∧
    (scenario4.writev [[1, 2, 3, 4]] 2 0).2.pieces = scenario4.pieces :=
  writev_refusal_frame scenario4 scenario4_reachable [[1, 2, 3, 4]] 2 0 (by decide) (by decide)
    (by decide) (by decide) (by decide)

/-! ## The fuel of the trim loop -/

theorem remove_piece_in_use {s : memory_storage} (h : wf s) (bi : Int)
    (hi : 0 ≤ bi) (hil : bi < s.buffer_size) (hused : (s.buffer_at bi).is_used = true) :
    (s.remove_piece bi).in_use + 1 = s.in_use := by
  have hbl := h.buffers_len
  have hu := in_use_set_buffer s bi ((s.buffer_at bi).reset (now s).1) hi (by omega)
  rw [hused] at hu
  simp only [memory_buffer.reset, if_true, Bool.false_eq_true, if_false, Nat.add_zero] at hu
  have key : ∀ t : memory_storage,
      t.buffers = s.buffers.set bi.toNat ((s.buffer_at bi).reset (now s).1) →
      t.in_use + 1 = s.in_use := by
    intro t ht
    unfold memory_storage.in_use
    rw [ht]
    exact hu
  unfold memory_storage.remove_piece
  simp only []
  split
  · apply key
    rw [(restore_piece_frame _ _).2.1]
    rfl
  · exact key _ rfl

/-- A pass of the loop of `trim` that evicts a slot lowers the number of slots
in use by one. -/
theorem trim_body_in_use {s : memory_storage} (h : wf s) (pi bi : Int) (s1 : memory_storage)
    (heq : s.trim_body pi = (some bi, s1)) : s1.in_use + 1 = s.in_use := by
  have key : ∀ (t : memory_storage) (cr : Bool), wf t → t.in_use = s.in_use →
      (t.find_last_buffer pi cr).1 ≠ -1 →
      ((t.find_last_buffer pi cr).2.remove_piece (t.find_last_buffer pi cr).1).in_use + 1 =
        s.in_use := by
    intro t cr ht hin hne
    obtain ⟨h1, h2, h3⟩ := find_last_buffer_victim ht pi cr hne
    rw [← hin]
    exact remove_piece_in_use (wf_now ht) _ h1 h2 (eligible_used h3)
  unfold memory_storage.trim_body at heq
  by_cases he : bitset_empty s.reader_pieces = true
  · simp only [he, Bool.not_true, Bool.false_eq_true, if_false, ne_eq, not_true_eq_false] at heq
    split at heq
    · rename_i hne
      simp only [Prod.mk.injEq, Option.some.injEq] at heq
      rw [← heq.2]
      exact key s false h rfl hne
    · simp at heq
  · simp only [Bool.not_eq_true] at he
    simp only [he, Bool.not_false, if_true] at heq
    split at heq
    · rename_i hne
      simp only [Prod.mk.injEq, Option.some.injEq] at heq
      rw [← heq.2]
      exact key s true h rfl hne
    · split at heq
      · rename_i hne
        simp only [Prod.mk.injEq, Option.some.injEq] at heq
        rw [← heq.2]
        exact key (now s).2 false (wf_now h) rfl hne
      · simp at heq

/-- Once the fuel exceeds the number of slots in use, more fuel does not change
what the loop of `trim` computes: the loop is left by its condition or by
`break`, never by running out of fuel. -/
theorem trim_loop_fuel (pi : Int) : ∀ (n : Nat) (s : memory_storage), wf s → s.in_use < n →
    ∀ k : Nat, trim_loop (n + k) s pi = trim_loop n s pi := by
  intro n
  induction n with
  | zero => intro s _ hlt; omega
  | succ m ih =>
    intro s h hlt k
    have e : m + 1 + k = (m + k) + 1 := by omega
    rw [e]
    unfold trim_loop
    split
    · have hb := wf_trim_body h pi
      split
      · rename_i bi s1 heq
        rw [heq] at hb
        have hin := trim_body_in_use h pi bi s1 heq
        exact ih s1 hb (by omega) k
      · rfl
    · rfl

/-- The fuel `buffers.length + 1` that `trim` gives its loop is enough. -/
theorem trim_fuel_enough {s : memory_storage} (h : wf s) (pi : Int) (k : Nat) :
    trim_loop (s.buffers.length + 1 + k) s pi = trim_loop (s.buffers.length + 1) s pi :=
  trim_loop_fuel pi (s.buffers.length + 1) s h (by have := in_use_le s; omega) k

/-! ## Pool sizing -/

/-- The quotient `ceil_div` is the ceiling of the rational quotient. -/
theorem ceil_div_eq_ceil (c pl : Int) (hpl : 0 < pl) :
    ceil_div c pl = Int.ceil ((c : ℚ) / (pl : ℚ)) := by
  unfold ceil_div
  symm
  rw [Int.ceil_eq_iff]
  have hq : (0 : ℚ) < (pl : ℚ) := by exact_mod_cast hpl
  have h1 := Int.emod_add_ediv (-c) pl
  have h2 := Int.emod_nonneg (-c) (ne_of_gt hpl)
  have h3 := Int.emod_lt_of_pos (-c) hpl
  have hle : c ≤ -(-c / pl) * pl := by nlinarith
  have hlt : (-(-c / pl) - 1) * pl < c := by nlinarith
  constructor
  · rw [lt_div_iff₀ hq]
    exact_mod_cast hlt
  · rw [div_le_iff₀ hq]
    exact_mod_cast hle

theorem construct_fields (C N pl : Int) (piece_size : Int → Int) (clock : Nat)
    (ticks : List Nat) :
    (memory_storage.construct C N pl piece_size clock ticks).buffer_size =
      (if ceil_div C pl + 2 > N then N else ceil_div C pl + 2) ∧
    (memory_storage.construct C N pl piece_size clock ticks).buffer_limit =
      (if ceil_div C pl + 2 > N then N else ceil_div C pl + 2) ∧
    (memory_storage.construct C N pl piece_size clock ticks).buffers.length =
      (if ceil_div C pl + 2 > N then N else ceil_div C pl + 2).toNat ∧
    (∀ b ∈ (memory_storage.construct C N pl piece_size clock ticks).buffers,
      b.pi = -1 ∧ b.is_used = false) ∧
    (memory_storage.construct C N pl piece_size clock ticks).capacity = C ∧
    (memory_storage.construct C N pl piece_size clock ticks).piece_count = N ∧
    (memory_storage.construct C N pl piece_size clock ticks).piece_length = pl := by
  obtain ⟨L, h1, h2, h3, h4, h5, h6, h7, h8, h9, h10, h11, h12, h13, h14, h15, h16, h17⟩ :=
    push_buffers_spec (if ceil_div C pl + 2 > N then N else ceil_div C pl + 2).toNat 0
      { reader_pieces := []
        reserved_pieces := []
        lookbehind_pieces := []
        capacity := C
        piece_count := N
        piece_length := pl
        pieces := (List.range N.toNat).map
          (fun (i : Nat) => memory_piece.mk_new (i : Int) (piece_size (i : Int)))
        buffer_size := (if ceil_div C pl + 2 > N then N else ceil_div C pl + 2)
        buffer_limit := (if ceil_div C pl + 2 > N then N else ceil_div C pl + 2)
        buffer_used := 0
        buffer_reserved := 0
        buffers := []
        m_handle := none
        is_initialized := false
        is_reading := false
        clock := clock
        ticks := ticks }
  simp only [List.nil_append] at h1
  refine ⟨h8, h9, ?_, ?_, h7, h5, h6⟩
  · show (push_buffers _ 0 _).buffers.length = _
    rw [h1, h2]
  · intro b hb
    have hb' : b ∈ L := by rw [← h1]; exact hb
    obtain ⟨n, hn, rfl⟩ := List.getElem_of_mem hb'
    have := h3 n _ (List.getElem?_eq_getElem hn)
    exact ⟨this.2.2.1, this.2.2.2.1⟩

theorem grow_fields (s : memory_storage) (sz n : Int) :
    (if s.buffer_size = n then
        { s with capacity := sz, buffer_size := n, buffer_limit := n }
      else push_buffers (n - s.buffer_size).toNat s.buffer_size
        { s with capacity := sz, buffer_size := n, buffer_limit := n }).buffer_size = n ∧
    (if s.buffer_size = n then
        { s with capacity := sz, buffer_size := n, buffer_limit := n }
      else push_buffers (n - s.buffer_size).toNat s.buffer_size
        { s with capacity := sz, buffer_size := n, buffer_limit := n }).buffer_limit = n ∧
    (if s.buffer_size = n then
        { s with capacity := sz, buffer_size := n, buffer_limit := n }
      else push_buffers (n - s.buffer_size).toNat s.buffer_size
        { s with capacity := sz, buffer_size := n, buffer_limit := n }).capacity = sz ∧
    (if s.buffer_size = n then
        { s with capacity := sz, buffer_size := n, buffer_limit := n }
      else push_buffers (n - s.buffer_size).toNat s.buffer_size
        { s with capacity := sz, buffer_size := n, buffer_limit := n }).pieces = s.pieces ∧
    (if s.buffer_size = n then
        { s with capacity := sz, buffer_size := n, buffer_limit := n }
      else push_buffers (n - s.buffer_size).toNat s.buffer_size
        { s with capacity := sz, buffer_size := n, buffer_limit := n }).piece_count =
      s.piece_count ∧
    ∃ L : List memory_buffer,
      (if s.buffer_size = n then
          { s with capacity := sz, buffer_size := n, buffer_limit := n }
        else push_buffers (n - s.buffer_size).toNat s.buffer_size
          { s with capacity := sz, buffer_size := n, buffer_limit := n }).buffers =
        s.buffers ++ L ∧
      ∀ b ∈ L, b.pi = -1 ∧ b.is_used = false := by
  split
  · exact ⟨rfl, rfl, rfl, rfl, rfl, [], by simp, by simp⟩
  · obtain ⟨L, h1, h2, h3, h4, h5, h6, h7, h8, h9, h10, h11, h12, h13, h14, h15, h16, h17⟩ :=
      push_buffers_spec (n - s.buffer_size).toNat s.buffer_size
        { s with capacity := sz, buffer_size := n, buffer_limit := n }
    refine ⟨h8, h9, h7, h4, h5, L, h1, ?_⟩
    intro b hb
    obtain ⟨k, hk, rfl⟩ := List.getElem_of_mem hb
    have := h3 k _ (List.getElem?_eq_getElem hk)
    exact ⟨this.2.2.1, this.2.2.2.1⟩

theorem set_memory_size_fields (s : memory_storage) (sz : Int) (hsz : s.capacity < sz) :
    (s.set_memory_size sz).buffer_size =
      (if ceil_div sz s.piece_length + 2 > s.piece_count then s.piece_count
        else ceil_div sz s.piece_length + 2) ∧
    (s.set_memory_size sz).buffer_limit =
      (if ceil_div sz s.piece_length + 2 > s.piece_count then s.piece_count
        else ceil_div sz s.piece_length + 2) ∧
    (s.set_memory_size sz).capacity = sz ∧
    (s.set_memory_size sz).pieces = s.pieces ∧
    (s.set_memory_size sz).piece_count = s.piece_count ∧
    ∃ L : List memory_buffer, (s.set_memory_size sz).buffers = s.buffers ++ L ∧
      ∀ b ∈ L, b.pi = -1 ∧ b.is_used = false := by
  unfold memory_storage.set_memory_size
  rw [if_neg (by omega)]
  exact grow_fields s sz _

theorem ite_gt_eq_min (a b : Int) : (if a > b then b else a) = min a b := by
  split <;> omega

/-- C11: for every capacity `C ≥ 0`, piece length `pl > 0` and piece count
`N ≥ 0` the constructor yields `buffer_limit = buffer_size = min(ceil(C / pl) + 2, N)`
with exactly that many slots, all unassigned and not in use, and
`set_memory_size(sz)` with `sz` above the capacity sets
`buffer_limit = buffer_size = min(ceil(sz / pl) + 2, N)`; the ceiling is that of
the exact quotient. -/
theorem buffer_limit_formula (C N pl : Int) (piece_size : Int → Int) (clock : Nat)
    (ticks : List Nat) (hC : 0 ≤ C) (hpl : 0 < pl) (hN : 0 ≤ N)
    (s : memory_storage) (sz : Int) (hsz : s.capacity < sz) (hspl : 0 < s.piece_length) :
    ((memory_storage.construct C N pl piece_size clock ticks).buffer_limit =
        min (Int.ceil ((C : ℚ) / (pl : ℚ)) + 2) N ∧
      (memory_storage.construct C N pl piece_size clock ticks).buffer_size =
        min (Int.ceil ((C : ℚ) / (pl : ℚ)) + 2) N ∧
      ((memory_storage.construct C N pl piece_size clock ticks).buffers.length : Int) =
        min (Int.ceil ((C : ℚ) / (pl : ℚ)) + 2) N ∧
      ∀ b ∈ (memory_storage.construct C N pl piece_size clock ticks).buffers,
        b.pi = -1 ∧ b.is_assigned = false ∧ b.is_used = false) ∧
    ((s.set_memory_size sz).buffer_limit =
        min (Int.ceil ((sz : ℚ) / (s.piece_length : ℚ)) + 2) s.piece_count ∧
      (s.set_memory_size sz).buffer_size =
        min (Int.ceil ((sz : ℚ) / (s.piece_length : ℚ)) + 2) s.piece_count) := by
  obtain ⟨c1, c2, c3, c4, _, _, _⟩ := construct_fields C N pl piece_size clock ticks
  obtain ⟨m1, m2, _, _, _, _⟩ := set_memory_size_fields s sz hsz
  rw [ite_gt_eq_min] at c1 c2 c3 m1 m2
  rw [← ceil_div_eq_ceil C pl hpl, ← ceil_div_eq_ceil sz s.piece_length hspl]
  have h0 := ceil_div_nonneg C pl hpl hC
  refine ⟨⟨c2, c1, ?_, ?_⟩, m2, m1⟩
  · rw [c3]; omega
  · intro b hb
    have := c4 b hb
    exact ⟨this.1, by simp [memory_buffer.is_assigned, this.1], this.2⟩

/-- Witness of C11: construction with capacity 16 over 4 pieces of length 4
gives `min(4 + 2, 4) = 4` slots; raising the capacity of a pool built with
capacity 0 over 10 pieces to 9 gives `min(3 + 2, 10) = 5`. -/
theorem buffer_limit_formula_witness :
    scenario1.buffer_limit = 4 ∧ scenario1.buffers.length = 4 ∧
    ((memory_storage.construct 0 10 4 (fun _ => 4) 0 []).set_memory_size 9).buffer_limit = 5 ∧
    ((memory_storage.construct 0 10 4 (fun _ => 4) 0 []).set_memory_size 9).buffers.length = 5 ∧
    ((memory_storage.construct 0 10 4 (fun _ => 4) 0 []).set_memory_size 9).buffer_limit =
      min (Int.ceil (((9 : Int) : ℚ) /
        (((memory_storage.construct 0 10 4 (fun _ => 4) 0 []).piece_length : Int) : ℚ)) + 2)
        (memory_storage.construct 0 10 4 (fun _ => 4) 0 []).piece_count :=
  ⟨by decide, by decide, by decide, by decide,
    (buffer_limit_formula 16 4 4 (fun _ => 4) 0 [] (by decide) (by decide) (by decide)
      (memory_storage.construct 0 10 4 (fun _ => 4) 0 []) 9 (by decide) (by decide)).2.1⟩

/-- Counterexample to C12 as stated: the 1.2.x constructor with capacity 0 over
4 pieces gives `buffer_limit == 2`, not 4. -/
theorem capacity_zero_gives_two_slots :
    (memory_storage.construct 0 4 4 (fun _ => 4) 0 []).buffer_limit = 2 ∧
    (memory_storage.construct 0 4 4 (fun _ => 4) 0 []).piece_count = 4 ∧
    (memory_storage.construct 0 4 4 (fun _ => 4) 0 []).capacity = 0 ∧
    (memory_storage.construct 0 4 4 (fun _ => 4) 0 []).buffer_limit ≠
      (memory_storage.construct 0 4 4 (fun _ => 4) 0 []).piece_count :=
  ⟨by decide, by decide, by decide, by decide⟩

/-- C12 as amended: with capacity 0 over `N` pieces the 2.0.x constructor gives
`buffer_limit == N` for every `N`, and the 1.2.x constructor gives
`buffer_limit == min(2, N)`, which is `N` exactly when `N ≤ 2`. -/
theorem capacity_zero_limit (N pl : Int) (files : List Int) (piece_size : Int → Int)
    (clock : Nat) (ticks : List Nat) :
    (memory_disk_io.memory_storage.construct 0 files pl N clock ticks).buffer_limit = N ∧
    (memory_storage.construct 0 N pl piece_size clock ticks).buffer_limit = min 2 N ∧
    ((memory_storage.construct 0 N pl piece_size clock ticks).buffer_limit = N ↔ N ≤ 2) := by
  have h := (construct_fields 0 N pl piece_size clock ticks).2.1
  have hz : ceil_div 0 pl = 0 := by simp [ceil_div]
  rw [hz, ite_gt_eq_min] at h
  refine ⟨by simp [memory_disk_io.memory_storage.construct], ?_, ?_⟩
  · rw [h]; simp
  · rw [h]; omega

/-- C13: in every reachable state `set_memory_size(sz)` with `sz ≤ capacity`
leaves the whole state unchanged; with `sz > capacity` the new slot vector is
the old one followed by appended slots, so no slot is removed and every old
slot keeps its piece, in-use flag, bytes and timestamp; every piece record is
unchanged; every appended slot is unassigned and not in use; and the slot count
`buffer_size` does not decrease and equals the length of the vector. -/
theorem set_memory_size_frame (s : memory_storage) (hs : reachable s) (sz : Int) :
    (sz ≤ s.capacity → s.set_memory_size sz = s) ∧
    (s.capacity < sz →
      (∃ L : List memory_buffer, (s.set_memory_size sz).buffers = s.buffers ++ L ∧
        ∀ b ∈ L, b.pi = -1 ∧ b.is_assigned = false ∧ b.is_used = false) ∧
      (s.set_memory_size sz).pieces = s.pieces ∧
      s.buffers.length ≤ (s.set_memory_size sz).buffers.length ∧
      s.buffer_size ≤ (s.set_memory_size sz).buffer_size ∧
      ((s.set_memory_size sz).buffers.length : Int) = (s.set_memory_size sz).buffer_size) := by
  have h := reachable_wf hs
  constructor
  · intro hle
    unfold memory_storage.set_memory_size
    rw [if_pos hle]
  · intro hlt
    obtain ⟨m1, _, _, m4, _, L, m6, m7⟩ := set_memory_size_fields s sz hlt
    have hw := wf_set_memory_size h sz
    have hmono := ceil_div_mono s.capacity sz s.piece_length h.plen (by omega)
    have hsl := h.size_le
    refine ⟨⟨L, m6, ?_⟩, m4, ?_, ?_, hw.buffers_len⟩
    · intro b hb
      have := m7 b hb
      exact ⟨this.1, by simp [memory_buffer.is_assigned, this.1], this.2⟩
    · rw [m6, List.length_append]; omega
    · rw [m1]; split <;> omega

/-- Witness of C13: raising the capacity of a pool built with capacity 0 over 10
pieces from 0 to 9 appends three fresh slots to the two existing ones. -/
theorem set_memory_size_frame_witness :
    ((memory_storage.construct 0 10 4 (fun _ => 4) 0 []).set_memory_size 9).buffers.length = 5 ∧
    ((memory_storage.construct 0 10 4 (fun _ => 4) 0 []).set_memory_size 0) =
      memory_storage.construct 0 10 4 (fun _ => 4) 0 [] :=
  ⟨by decide,
    (set_memory_size_frame (memory_storage.construct 0 10 4 (fun _ => 4) 0 [])
      (reachable.construct 0 10 4 (fun _ => 4) 0 [] (by decide) (by decide) (by decide)
        (by intro i _ _; simp)) 0).1 (by decide)⟩

theorem get_buffer_buffered (s : memory_storage) (pidx : Int) (w : Bool)
    (h : (s.piece_at pidx).is_buffered = true) : s.get_buffer pidx w = (true, s) := by
  unfold memory_storage.get_buffer
  simp [h]

/-- C20: the simple `read` on a resident piece whose `size` is below its
`length` returns `-1`, leaves `read_buf` as it was, and changes the state only
by setting `is_reading` and by one `restore_piece` on that piece. -/
theorem read_partial_refused (s : memory_storage) (read_buf : List Nat)
    (size piece offset : Int) (hi : s.is_initialized = true)
    (hb : (s.piece_at piece).is_buffered = true)
    (hlt : (s.piece_at piece).size < (s.piece_at piece).length) :
    s.read read_buf size piece offset =
      (-1, read_buf, memory_storage.restore_piece { s with is_reading := true } piece) := by
  have hb' : (memory_storage.piece_at { s with is_reading := true } piece).is_buffered = true := hb
  have hlt' : (memory_storage.piece_at { s with is_reading := true } piece).size <
      (memory_storage.piece_at { s with is_reading := true } piece).length := hlt
  unfold memory_storage.read memory_storage.get_read_buffer
  simp only []
  rw [get_buffer_buffered _ piece false hb', if_neg (by simp [hi]), if_neg (by simp),
    if_pos hlt']

/-- Witness of C20: after two of the four bytes of piece 0 were written to
`scenario20`, the simple read of piece 0 returns `-1`, leaves the destination
as it was and records one `restore_piece(0)` on the picker. -/
theorem read_partial_refused_witness :
    (scenario20.read [0, 0, 0, 0] 4 0 0).1 = -1 ∧
    (scenario20.read [0, 0, 0, 0] 4 0 0).2.1 = [0, 0, 0, 0] ∧
    (scenario20.read [0, 0, 0, 0] 4 0 0).2.2.m_handle.map torrent.calls =
      some [picker_call.reset_piece_deadline 0, picker_call.set_piece_priority 0 0,
        picker_call.we_dont_have 0] ∧
    scenario20.read [0, 0, 0, 0] 4 0 0 =
      (-1, [0, 0, 0, 0], memory_storage.restore_piece { scenario20 with is_reading := true } 0) :=
  ⟨by decide, by decide, by decide,
    read_partial_refused scenario20 [0, 0, 0, 0] 4 0 0 (by decide) (by decide) (by decide)⟩

theorem scenario15_reachable : reachable scenario15 :=
  reachable.step _ (op.writev [[13, 14, 15, 16]] 3 0)
    (reachable.step _ (op.writev [[9, 10, 11, 12]] 2 0)
      (reachable.step _ (op.writev [[5, 6, 7, 8]] 1 0)
        (reachable.step _ (op.writev [[1, 2, 3, 4]] 0 0)
          (reachable.construct 8 4 4 (fun _ => 4) 0 (List.replicate 40 1)
            (by decide) (by decide) (by decide) (by intro i _ _; simp))
          ⟨by decide, by decide, by decide, by decide⟩)
        ⟨by decide, by decide, by decide, by decide⟩)
      ⟨by decide, by decide, by decide, by decide⟩)
    ⟨by decide, by decide, by decide, by decide⟩

theorem scenario16_reachable : reachable scenario16 :=
  reachable.step _ (op.update_reserved_pieces [0])
    (reachable.construct 0 4 4 (fun _ => 4) 0 (List.replicate 40 1)
      (by decide) (by decide) (by decide) (by intro i _ _; simp))
    trivial

theorem scenario20_reachable : reachable scenario20 :=
  reachable.step _ (op.writev [[65, 66]] 0 0)
    (reachable.step _ (op.set_torrent_handle { priorities := [4, 4, 4, 4], calls := [] })
      scenario1_reachable trivial)
    ⟨by decide, by decide, by decide, by decide⟩

/-- The three parts of a spliced vector: a prefix of length `o`, a middle of
length `n` and the rest. -/
theorem splice_parts (A X B : List Nat) (o n : Nat) (hA : A.length = o) (hX : X.length = n) :
    ((A ++ X ++ B).drop o).take n = X ∧ (A ++ X ++ B).take o = A ∧
    (A ++ X ++ B).drop (o + n) = B := by
  subst hA; subst hX
  refine ⟨?_, ?_, ?_⟩
  · rw [List.append_assoc, List.drop_left, List.take_left]
  · rw [List.append_assoc, List.take_left]
  · rw [← List.length_append, List.drop_left]

theorem take_min_length (X : List Nat) (k : Nat) :
    X.take k = X.take (min X.length k) ∧ (X.take (min X.length k)).length = min X.length k := by
  constructor
  · rcases Nat.le_total X.length k with h | h
    · rw [Nat.min_eq_left h, List.take_of_length_le h, List.take_length]
    · rw [Nat.min_eq_right h]
  · rw [List.length_take]; omega

theorem clamp_arith (T : Nat) (L o dl : Int) (ho : 0 ≤ o) (hol : o ≤ L) (hd : L ≤ dl) :
    (min (T : Int) (L - o)).toNat = min T (L - o).toNat ∧ o.toNat ≤ dl.toNat ∧
    ((dl.toNat : Nat) : Int) = dl := by
  refine ⟨?_, ?_, ?_⟩ <;> omega

/-- C14: in every reachable state, for a piece `p` of length `L`, an offset `o`
with `0 ≤ o ≤ L` and spans holding `T` bytes in all, a `writev` that obtains a
slot returns `n = min(T, L - o)`; afterwards the slot of the piece holds the
first `n` incoming bytes at positions `o .. o+n`, its bytes before `o` and from
`o+n` on are those it held when the slot was obtained, and `pieces[p].size` has
grown by exactly `n`. -/
theorem writev_clamped_copy (s : memory_storage) (hs : reachable s) (bufs : List (List Nat))
    (piece offset : Int) (hp : 0 ≤ piece) (hpl : piece < s.piece_count) (ho : 0 ≤ offset)
    (hol : offset ≤ (s.piece_at piece).length) (hg : (s.get_buffer piece true).1 = true) :
    (s.writev bufs piece offset).1 =
      min (bufs.flatten.length : Int) ((s.piece_at piece).length - offset) ∧
    ((((s.writev bufs piece offset).2.buffer_at
        ((s.writev bufs piece offset).2.piece_at piece).bi).buffer.drop offset.toNat).take
        (s.writev bufs piece offset).1.toNat =
      bufs.flatten.take (s.writev bufs piece offset).1.toNat) ∧
    (((s.writev bufs piece offset).2.buffer_at
        ((s.writev bufs piece offset).2.piece_at piece).bi).buffer.take offset.toNat =
      ((s.get_buffer piece true).2.buffer_at
        ((s.get_buffer piece true).2.piece_at piece).bi).buffer.take offset.toNat) ∧
    (((s.writev bufs piece offset).2.buffer_at
        ((s.writev bufs piece offset).2.piece_at piece).bi).buffer.drop
        (offset.toNat + (s.writev bufs piece offset).1.toNat) =
      ((s.get_buffer piece true).2.buffer_at
        ((s.get_buffer piece true).2.piece_at piece).bi).buffer.drop
        (offset.toNat + (s.writev bufs piece offset).1.toNat)) ∧
    ((s.writev bufs piece offset).2.piece_at piece).size =
      (s.piece_at piece).size +
        min (bufs.flatten.length : Int) ((s.piece_at piece).length - offset) := by
  have h := reachable_wf hs
  obtain ⟨w1, w2, _, w4, w5, w6⟩ := writev_success h bufs piece offset hp hpl ho hol hg
  have hL := (h.pc piece hp hpl).2.2.1
  generalize hold : ((s.get_buffer piece true).2.buffer_at
    ((s.get_buffer piece true).2.piece_at piece).bi).buffer = old at w1 w5 w6 ⊢
  have hspec := writev_loop_spec (s.piece_at piece).length bufs old offset 0 ho hol
    (by rw [w6]; exact hL)
  rw [hspec] at w1 w5
  simp only [zero_add] at w1 w5
  rw [w2, w5, w4, w1]
  obtain ⟨a1, a2, a3⟩ := clamp_arith bufs.flatten.length (s.piece_at piece).length offset
    (old.length : Int) ho hol (by rw [w6]; exact hL)
  obtain ⟨t1, t2⟩ := take_min_length bufs.flatten ((s.piece_at piece).length - offset).toNat
  rw [a1, t1]
  have hA : (old.take offset.toNat).length = offset.toNat := by
    rw [List.length_take]
    have : offset.toNat ≤ old.length := by simpa using a2
    omega
  obtain ⟨p1, p2, p3⟩ := splice_parts (old.take offset.toNat)
    (bufs.flatten.take (min bufs.flatten.length ((s.piece_at piece).length - offset).toNat))
    (old.drop (offset.toNat +
      min bufs.flatten.length ((s.piece_at piece).length - offset).toNat)) _ _ hA t2
  exact ⟨rfl, p1, p2, p3, rfl⟩

/-- Witness of C14: in scenario 1, six bytes in two spans written to piece 0
(length 4) at offset 2 are clamped to two bytes: the call returns 2, the slot
holds `[0, 0, 1, 2]` and the size of the piece is 2. -/
theorem writev_clamped_copy_witness :
    reachable scenario1 ∧ (scenario1.get_buffer 0 true).1 = true ∧
    (scenario1.writev [[1, 2, 3], [4, 5, 6]] 0 2).1 = 2 ∧
    ((scenario1.writev [[1, 2, 3], [4, 5, 6]] 0 2).2.piece_at 0).size = 2 ∧
    ((scenario1.writev [[1, 2, 3], [4, 5, 6]] 0 2).2.buffer_at
      ((scenario1.writev [[1, 2, 3], [4, 5, 6]] 0 2).2.piece_at 0).bi).buffer = [0, 0, 1, 2] :=
  ⟨scenario1_reachable, by decide,
    (writev_clamped_copy scenario1 scenario1_reachable [[1, 2, 3], [4, 5, 6]] 0 2
      (by decide) (by decide) (by decide) (by decide) (by decide)).1.trans (by decide),
    (writev_clamped_copy scenario1 scenario1_reachable [[1, 2, 3], [4, 5, 6]] 0 2
      (by decide) (by decide) (by decide) (by decide) (by decide)).2.2.2.2.trans (by decide),
    by decide⟩

/-- Counterexample to C15 as stated: after the four writes the cache holds
three pieces, not four, and piece 0 is no longer resident, so a further write
to piece 0 has to allocate a slot. -/
theorem four_writes_leave_three_resident :
    reachable scenario15 ∧ scenario15.buffer_limit = 4 ∧ scenario15.buffer_used = 3 ∧
    (scenario15.piece_at 0).is_buffered = false ∧
    scenario15.find_free = some 0 ∧
    (scenario15.writev [[1, 2, 3, 4]] 0 0).2.buffers ≠ scenario15.buffers :=
  ⟨scenario15_reachable, by decide, by decide, by decide, by decide, by decide⟩

/-- C15 as amended: with piece length 4, four pieces and capacity 8 the
constructor gives `buffer_limit = 4`; after writing pieces 0, 1, 2, 3 in order
with four bytes each, on an advancing clock and with no picker bound, the
fourth write has trimmed: `buffer_used = 3`, pieces 1, 2 and 3 are resident in
slots 1, 2 and 3 and piece 0 is not resident. A further write of four bytes to
piece 0 returns 4, allocates the free slot 0 and evicts piece 1. -/
theorem four_writes_then_rewrite :
    (memory_storage.construct 8 4 4 (fun _ => 4) 0 (List.replicate 40 1)).buffer_limit = 4 ∧
    scenario15.buffer_limit = 4 ∧ scenario15.buffer_used = 3 ∧
    (scenario15.piece_at 0).bi = -1 ∧ (scenario15.piece_at 1).bi = 1 ∧
    (scenario15.piece_at 2).bi = 2 ∧ (scenario15.piece_at 3).bi = 3 ∧
    (scenario15.writev [[1, 2, 3, 4]] 0 0).1 = 4 ∧
    ((scenario15.writev [[1, 2, 3, 4]] 0 0).2.piece_at 0).bi = 0 ∧
    ((scenario15.writev [[1, 2, 3, 4]] 0 0).2.piece_at 1).bi = -1 ∧
    ((scenario15.writev [[1, 2, 3, 4]] 0 0).2.piece_at 2).bi = 2 ∧
    ((scenario15.writev [[1, 2, 3, 4]] 0 0).2.piece_at 3).bi = 3 ∧
    (scenario15.writev [[1, 2, 3, 4]] 0 0).2.buffer_used = 3 := by
  refine ⟨?_, ?_, ?_, ?_, ?_, ?_, ?_, ?_, ?_, ?_, ?_, ?_, ?_⟩ <;> decide

theorem scenario19_reachable : reachable scenario19 :=
  reachable.step _ (op.writev [[9, 10, 11, 12]] 2 0)
    (reachable.step _ (op.writev [[5, 6, 7, 8]] 1 0)
      (reachable.step _ (op.writev [[1, 2, 3, 4]] 0 0)
        (reachable.step _ (op.set_lookbehind_pieces [1])
          (reachable.step _ (op.update_reserved_pieces [0])
            (reachable.construct 16 4 4 (fun _ => 4) 0 (List.replicate 40 1)
              (by decide) (by decide) (by decide) (by intro i _ _; simp))
            trivial)
          trivial)
        ⟨by decide, by decide, by decide, by decide⟩)
      ⟨by decide, by decide, by decide, by decide⟩)
    ⟨by decide, by decide, by decide, by decide⟩

/-- The eligibility test of the last tier of `trim` on the slot of a resident
piece other than the caller: it fails exactly when the piece has its bit in
`reserved_pieces` or in `lookbehind_pieces`. -/
theorem eligible_resident {s : memory_storage} (h : wf s) (p pi : Int) (hp : 0 ≤ p)
    (hpl : p < s.piece_count) (hb : (s.piece_at p).is_buffered = true) (hne : p ≠ pi) :
    eligible s pi false (s.buffer_at (s.piece_at p).bi) = false ↔
      (bitset_test s.reserved_pieces p = true ∨ bitset_test s.lookbehind_pieces p = true) := by
  have hbi := (is_buffered_iff _).mp hb
  obtain ⟨b0, b1, b2⟩ := (h.pc p hp hpl).2.2.2 hbi
  have hbuf := h.buf _ b0 b1
  have hpne : (s.buffer_at (s.piece_at p).bi).pi ≠ -1 := by rw [b2]; omega
  have hused := hbuf.2.2.1.mpr hpne
  have hr := is_reserved_eq_test h p hp hpl
  have hl := is_lookbehind_eq_test h p hp hpl
  unfold eligible memory_buffer.is_assigned
  rw [hused, b2, hr, hl]
  have e1 : (p != -1) = true := by simp; omega
  have e2 : (p != pi) = true := by simp [hne]
  rw [e1, e2]
  cases bitset_test s.reserved_pieces p <;> cases bitset_test s.lookbehind_pieces p <;> simp

/-- C19: in every reachable state, `set_lookbehind_pieces` and `clear_lookbehind`
leave `reserved_pieces`, `buffer_reserved` and `reader_pieces` as they were,
`update_reserved_pieces` leaves `lookbehind_pieces` as it was, and the slot of a
resident piece other than the one being written fails the eligibility test of
the last tier of `trim` exactly when the piece is in `reserved_pieces` or in
`lookbehind_pieces`. -/
theorem protection_sets_independent (s : memory_storage) (hs : reachable s) (l : List Int) :
    ((s.set_lookbehind_pieces l).reserved_pieces = s.reserved_pieces ∧
      (s.set_lookbehind_pieces l).buffer_reserved = s.buffer_reserved ∧
      (s.set_lookbehind_pieces l).reader_pieces = s.reader_pieces) ∧
    (s.clear_lookbehind.reserved_pieces = s.reserved_pieces ∧
      s.clear_lookbehind.buffer_reserved = s.buffer_reserved ∧
      s.clear_lookbehind.reader_pieces = s.reader_pieces) ∧
    (s.update_reserved_pieces l).lookbehind_pieces = s.lookbehind_pieces ∧
    ∀ p pi : Int, 0 ≤ p → p < s.piece_count → (s.piece_at p).is_buffered = true → p ≠ pi →
      (eligible s pi false (s.buffer_at (s.piece_at p).bi) = false ↔
        (bitset_test s.reserved_pieces p = true ∨ bitset_test s.lookbehind_pieces p = true)) := by
  have h := reachable_wf hs
  refine ⟨?_, ?_, ?_, fun p pi hp hpl hb hne => eligible_resident h p pi hp hpl hb hne⟩
  · unfold memory_storage.set_lookbehind_pieces
    split <;> exact ⟨rfl, rfl, rfl⟩
  · unfold memory_storage.clear_lookbehind
    split <;> exact ⟨rfl, rfl, rfl⟩
  · unfold memory_storage.update_reserved_pieces
    split <;> rfl

/-- Witness of C19: in `scenario19` piece 0 is reserved, piece 1 is
lookbehind-protected and pieces 0, 1, 2 are resident. Replacing the lookbehind
list by `[3]` leaves `reserved_pieces` as it was, and for a write of piece 3 the
slots of pieces 0 and 1 fail the eligibility test while the slot of piece 2
passes it. -/
theorem protection_sets_independent_witness :
    reachable scenario19 ∧
    (scenario19.set_lookbehind_pieces [3]).reserved_pieces = scenario19.reserved_pieces ∧
    (eligible scenario19 3 false (scenario19.buffer_at (scenario19.piece_at 0).bi) = false ↔
      (bitset_test scenario19.reserved_pieces 0 = true ∨
        bitset_test scenario19.lookbehind_pieces 0 = true)) ∧
    eligible scenario19 3 false (scenario19.buffer_at (scenario19.piece_at 0).bi) = false ∧
    eligible scenario19 3 false (scenario19.buffer_at (scenario19.piece_at 1).bi) = false ∧
    eligible scenario19 3 false (scenario19.buffer_at (scenario19.piece_at 2).bi) = true :=
  ⟨scenario19_reachable,
    (protection_sets_independent scenario19 scenario19_reachable [3]).1.1,
    (protection_sets_independent scenario19 scenario19_reachable [3]).2.2.2 0 3
      (by decide) (by decide) (by decide) (by decide),
    by decide, by decide, by decide⟩

theorem getD_replicate_false (n k : Nat) : (List.replicate n false).getD k false = false := by
  rw [List.getD_eq_getElem?_getD]
  by_cases h : k < n
  · simp [List.getElem?_replicate, h]
  · simp [List.getElem?_replicate, h]

theorem getD_set_true (bits : List Bool) (a k : Nat) :
    (bits.set a true).getD k false = true ↔
      bits.getD k false = true ∨ (a = k ∧ k < bits.length) := by
  rw [List.getD_eq_getElem?_getD, List.getD_eq_getElem?_getD, List.getElem?_set]
  by_cases hak : a = k
  · subst hak
    by_cases hl : a < bits.length
    · simp [hl]
    · have : bits[a]? = none := List.getElem?_eq_none (by omega)
      simp [hl, this]
  · simp [hak]

/-- The bits after the loop of a protection setter: those set before, and those
of the accepted list entries that address the bit-set. -/
theorem set_pieces_getD (N : Int) : ∀ (l : List Int) (bits : List Bool) (k : Nat),
    (set_pieces N l bits).getD k false = true ↔
      bits.getD k false = true ∨ (k < bits.length ∧ (k : Int) < N ∧ (k : Int) ∈ l) := by
  intro l
  induction l with
  | nil => intro bits k; simp [set_pieces]
  | cons a rest ih =>
    intro bits k
    unfold set_pieces
    split
    · rename_i ha
      rw [ih, bitset_set, getD_set_true, List.length_set, List.mem_cons]
      constructor
      · rintro ((h | ⟨h1, h2⟩) | ⟨h1, h2, h3⟩)
        · exact Or.inl h
        · exact Or.inr ⟨h2, by omega, Or.inl (by omega)⟩
        · exact Or.inr ⟨h1, h2, Or.inr h3⟩
      · rintro (h | ⟨h1, h2, h3 | h3⟩)
        · exact Or.inl (Or.inl h)
        · exact Or.inl (Or.inr ⟨by omega, h1⟩)
        · exact Or.inr ⟨h1, h2, h3⟩
    · rename_i ha
      rw [ih, List.mem_cons]
      constructor
      · rintro (h | ⟨h1, h2, h3⟩)
        · exact Or.inl h
        · exact Or.inr ⟨h1, h2, Or.inr h3⟩
      · rintro (h | ⟨h1, h2, h3 | h3⟩)
        · exact Or.inl h
        · exact absurd ⟨by omega, by omega⟩ ha
        · exact Or.inr ⟨h1, h2, h3⟩

/-- A protection bit-set of `N + 10` positions rebuilt from a list holds, at a
non-negative index, exactly the list entries below `N`. -/
theorem set_pieces_reset_test (N : Int) (l : List Int) (bits : List Bool)
    (hlen : (bits.length : Int) = N + 10) (i : Int) (hi : 0 ≤ i) :
    bitset_test (set_pieces N l (bitset_reset bits)) i = true ↔ i ∈ l ∧ i < N := by
  unfold bitset_test
  rw [set_pieces_getD, bitset_reset, getD_replicate_false, List.length_replicate]
  have hc : ((i.toNat : Nat) : Int) = i := by omega
  rw [hc]
  constructor
  · rintro (h | ⟨_, h2, h3⟩)
    · exact absurd h (by simp)
    · exact ⟨h3, h2⟩
  · rintro ⟨h1, h2⟩
    exact Or.inr ⟨by omega, h2, h1⟩

/-! ## The protection bit-sets under the calls of the engine -/

theorem protection_set_buffer (s : memory_storage) (i : Int) (b : memory_buffer) :
    (s.set_buffer i b).protection = s.protection := rfl

theorem protection_set_piece (s : memory_storage) (i : Int) (p : memory_piece) :
    (s.set_piece i p).protection = s.protection := rfl

theorem protection_now (s : memory_storage) : (now s).2.protection = s.protection := rfl

theorem protection_writev_store (g : memory_storage) (bufs : List (List Nat))
    (piece offset : Int) : (g.writev_store bufs piece offset).2.protection = g.protection := by
  unfold memory_storage.writev_store
  simp only []
  rw [protection_set_buffer, protection_now, protection_set_piece, protection_set_buffer]

theorem protection_restore_piece (s : memory_storage) (pi : Int) :
    (s.restore_piece pi).protection = s.protection := by
  obtain ⟨_, _, _, _, _, f6, _, _, f9, f10, f11, _⟩ := restore_piece_frame s pi
  unfold memory_storage.protection
  rw [f6, f9, f10, f11]

theorem protection_trim_body (s : memory_storage) (pi : Int) :
    (s.trim_body pi).2.protection = s.protection := by
  obtain ⟨f1, f2, f3, _, f5, _⟩ := trim_body_frame s pi
  unfold memory_storage.protection
  rw [f1, f2, f3, f5]

theorem protection_trim_loop (pi : Int) : ∀ (fuel : Nat) (s : memory_storage),
    (trim_loop fuel s pi).protection = s.protection := by
  intro fuel
  induction fuel with
  | zero => intro s; rfl
  | succ n ih =>
    intro s
    unfold trim_loop
    split
    · have hf := protection_trim_body s pi
      split
      · rename_i bi s1 heq
        rw [heq] at hf
        exact (ih s1).trans hf
      · rename_i s1 heq
        rw [heq] at hf
        exact hf
    · rfl

theorem protection_trim (s : memory_storage) (pi : Int) :
    (s.trim pi).protection = s.protection := by
  unfold memory_storage.trim
  split
  · rfl
  · exact protection_trim_loop pi _ s

theorem protection_get_buffer (s : memory_storage) (pidx : Int) (w : Bool) :
    (s.get_buffer pidx w).2.protection = s.protection := by
  unfold memory_storage.get_buffer
  simp only []
  split
  · rfl
  · split
    · rfl
    · split
      · exact protection_restore_piece s _
      · split
        · rfl
        · split <;> rfl

theorem protection_writev (s : memory_storage) (bufs : List (List Nat)) (piece offset : Int) :
    (s.writev bufs piece offset).2.protection = s.protection := by
  rw [writev_eq]
  split
  · rfl
  · split
    · exact protection_get_buffer s piece true
    · have hst := protection_writev_store (s.get_buffer piece true).2 bufs piece offset
      simp only []
      split
      · exact (protection_trim _ piece).trans (hst.trans (protection_get_buffer s piece true))
      · exact hst.trans (protection_get_buffer s piece true)

theorem protection_readv (s : memory_storage) (bufs : List (List Nat)) (piece offset : Int) :
    (s.readv bufs piece offset).2.2.protection = s.protection := by
  have hg := protection_get_buffer s piece false
  unfold memory_storage.readv memory_storage.get_read_buffer
  simp only []
  split
  · rfl
  · split
    · exact hg
    · split
      · rw [protection_set_buffer, protection_now, protection_set_piece]
        exact hg
      · rw [protection_set_buffer, protection_now]
        exact hg

theorem protection_read (s : memory_storage) (read_buf : List Nat) (size piece offset : Int) :
    (s.read read_buf size piece offset).2.2.protection = s.protection := by
  have hg : ((memory_storage.get_buffer { s with is_reading := true } piece false).2).protection =
      s.protection := protection_get_buffer { s with is_reading := true } piece false
  unfold memory_storage.read memory_storage.get_read_buffer
  simp only []
  split_ifs
  all_goals first
    | rfl
    | exact hg
    | exact (protection_restore_piece _ piece).trans hg

theorem protection_grow (s : memory_storage) (sz n : Int) :
    (if s.buffer_size = n then
        { s with capacity := sz, buffer_size := n, buffer_limit := n }
      else push_buffers (n - s.buffer_size).toNat s.buffer_size
        { s with capacity := sz, buffer_size := n, buffer_limit := n }).protection =
      s.protection := by
  split
  · rfl
  · obtain ⟨L, _, _, _, _, h5, _, _, _, _, _, _, h12, h13, h14, _⟩ :=
      push_buffers_spec (n - s.buffer_size).toNat s.buffer_size
        { s with capacity := sz, buffer_size := n, buffer_limit := n }
    unfold memory_storage.protection
    rw [h5, h12, h13, h14]

theorem protection_set_memory_size (s : memory_storage) (sz : Int) :
    (s.set_memory_size sz).protection = s.protection := by
  unfold memory_storage.set_memory_size
  by_cases h : sz ≤ s.capacity
  · rw [if_pos h]
  · rw [if_neg h]
    exact protection_grow s sz _

theorem bits_in_range_of_protection {s t : memory_storage} (h : t.protection = s.protection)
    (hs : bits_in_range s) : bits_in_range t := by
  unfold memory_storage.protection at h
  simp only [Prod.mk.injEq] at h
  obtain ⟨h1, h2, h3, h4⟩ := h
  unfold bits_in_range
  rw [h1, h2, h3, h4]
  exact hs

theorem set_pieces_reset_out (N : Int) (l : List Int) (bits : List Bool) (i : Int)
    (hi : N ≤ i) :
    bitset_test (set_pieces N l (bitset_reset bits)) i = false := by
  cases hb : bitset_test (set_pieces N l (bitset_reset bits)) i
  · rfl
  · unfold bitset_test at hb
    rw [set_pieces_getD, bitset_reset, getD_replicate_false] at hb
    rcases hb with hb | ⟨_, h2, _⟩
    · exact absurd hb (by simp)
    · omega

theorem bitset_reset_test (bits : List Bool) (i : Int) :
    bitset_test (bitset_reset bits) i = false := by
  unfold bitset_test bitset_reset
  exact getD_replicate_false _ _

/-- In every reachable state no protection bit-set has a bit set at an index
from `piece_count` on. -/
theorem reachable_bits_in_range {s : memory_storage} (h : reachable s) : bits_in_range s := by
  induction h with
  | construct memory_size num_pieces piece_length piece_size clock ticks hcap hlen hnum hsize =>
    intro i _
    unfold memory_storage.construct bitset_test
    simp only []
    exact ⟨getD_replicate_false _ _, getD_replicate_false _ _, getD_replicate_false _ _⟩
  | step s o hs hpre ih =>
    have hw := reachable_wf hs
    cases o with
    | writev bufs piece offset =>
      exact bits_in_range_of_protection (protection_writev s bufs piece offset) ih
    | readv bufs piece offset =>
      exact bits_in_range_of_protection (protection_readv s bufs piece offset) ih
    | read read_buf size piece offset =>
      exact bits_in_range_of_protection (protection_read s read_buf size piece offset) ih
    | update_reader_pieces l =>
      show bits_in_range (s.update_reader_pieces l)
      unfold memory_storage.update_reader_pieces
      rw [if_neg (by simp [hw.init])]
      intro i hi
      have hi2 : s.piece_count ≤ i := hi
      exact ⟨set_pieces_reset_out _ l _ i hi2, (ih i hi2).2.1, (ih i hi2).2.2⟩
    | update_reserved_pieces l =>
      show bits_in_range (s.update_reserved_pieces l)
      unfold memory_storage.update_reserved_pieces
      rw [if_neg (by simp [hw.init])]
      intro i hi
      have hi2 : s.piece_count ≤ i := hi
      exact ⟨(ih i hi2).1, set_pieces_reset_out _ l _ i hi2, (ih i hi2).2.2⟩
    | set_lookbehind_pieces l =>
      show bits_in_range (s.set_lookbehind_pieces l)
      unfold memory_storage.set_lookbehind_pieces
      rw [if_neg (by simp [hw.init])]
      intro i hi
      have hi2 : s.piece_count ≤ i := hi
      exact ⟨(ih i hi2).1, (ih i hi2).2.1, set_pieces_reset_out _ l _ i hi2⟩
    | clear_lookbehind =>
      show bits_in_range s.clear_lookbehind
      unfold memory_storage.clear_lookbehind
      rw [if_neg (by simp [hw.init])]
      intro i hi
      have hi2 : s.piece_count ≤ i := hi
      exact ⟨(ih i hi2).1, (ih i hi2).2.1, bitset_reset_test _ i⟩
    | set_memory_size sz =>
      exact bits_in_range_of_protection (protection_set_memory_size s sz) ih
    | set_torrent_handle t => exact ih
    | picker_priorities prios => exact ih
    | clock_ticks ticks => exact ih

/-- C18: in every reachable state with `N` pieces, after
`update_reader_pieces(l)`, `update_reserved_pieces(l)` or
`set_lookbehind_pieces(l)` the bit-set of the call has, at an index `i ≥ 0`, its
bit set exactly when `i` is an entry of `l` with `i < N` (so earlier members not
in `l` are gone and entries outside `[0, N)` are dropped); and in every
reachable state none of the three bit-sets has a bit set at an index `≥ N`. -/
theorem protection_lists_exact (s : memory_storage) (hs : reachable s) (l : List Int) :
    (∀ i : Int, 0 ≤ i →
      (bitset_test (s.update_reader_pieces l).reader_pieces i = true ↔
        i ∈ l ∧ i < s.piece_count)) ∧
    (∀ i : Int, 0 ≤ i →
      (bitset_test (s.update_reserved_pieces l).reserved_pieces i = true ↔
        i ∈ l ∧ i < s.piece_count)) ∧
    (∀ i : Int, 0 ≤ i →
      (bitset_test (s.set_lookbehind_pieces l).lookbehind_pieces i = true ↔
        i ∈ l ∧ i < s.piece_count)) ∧
    (∀ i : Int, s.piece_count ≤ i →
      bitset_test s.reader_pieces i = false ∧ bitset_test s.reserved_pieces i = false ∧
      bitset_test s.lookbehind_pieces i = false) := by
  have hw := reachable_wf hs
  refine ⟨?_, ?_, ?_, reachable_bits_in_range hs⟩
  · intro i hi
    unfold memory_storage.update_reader_pieces
    rw [if_neg (by simp [hw.init])]
    exact set_pieces_reset_test _ l _ hw.reader_len i hi
  · intro i hi
    unfold memory_storage.update_reserved_pieces
    rw [if_neg (by simp [hw.init])]
    exact set_pieces_reset_test _ l _ hw.reserved_len i hi
  · intro i hi
    unfold memory_storage.set_lookbehind_pieces
    rw [if_neg (by simp [hw.init])]
    exact set_pieces_reset_test _ l _ hw.lookbehind_len i hi

/-- Witness of C18: over the four pieces of `scenario19`, where piece 0 is
reserved, `update_reserved_pieces([1, 7, -2, 3, 1])` leaves exactly the bits 1
and 3 set. -/
theorem protection_lists_exact_witness :
    reachable scenario19 ∧ bitset_test scenario19.reserved_pieces 0 = true ∧
    (bitset_test (scenario19.update_reserved_pieces [1, 7, -2, 3, 1]).reserved_pieces 3 = true ↔
      (3 : Int) ∈ [1, 7, -2, 3, 1] ∧ (3 : Int) < scenario19.piece_count) ∧
    (scenario19.update_reserved_pieces [1, 7, -2, 3, 1]).reserved_pieces =
      [false, true, false, true, false, false, false, false, false, false, false, false,
        false, false] :=
  ⟨scenario19_reachable, by decide,
    (protection_lists_exact scenario19 scenario19_reachable [1, 7, -2, 3, 1]).2.1 3 (by decide),
    by decide⟩

theorem scenario17_reachable : reachable scenario17 :=
  reachable.step _ (op.writev [[9, 10, 11, 12]] 2 0)
    (reachable.step _ (op.writev [[1, 2, 3, 4]] 0 0)
      (reachable.step _ (op.set_lookbehind_pieces [0, 1, 2])
        (reachable.construct 16 4 4 (fun _ => 4) 0 (List.replicate 40 1)
          (by decide) (by decide) (by decide) (by intro i _ _; simp))
        trivial)
      ⟨by decide, by decide, by decide, by decide⟩)
    ⟨by decide, by decide, by decide, by decide⟩

theorem range_map_getD (bits : List Bool) :
    (List.range bits.length).map (fun k => bits.getD k false) = bits := by
  apply List.ext_getElem
  · simp
  · intro n h1 h2
    simp [List.getD_eq_getElem?_getD, List.getElem?_eq_getElem h2]

theorem bitset_count_range (bits : List Bool) :
    bitset_count bits = (List.range bits.length).countP (fun k => bits.getD k false) := by
  unfold bitset_count
  conv_lhs => rw [← range_map_getD bits]
  rw [List.count, List.countP_map]
  congr 1
  funext k
  simp

/-- Counting the positions below `n` that pass a test gives the length of any
duplicate-free list of non-negative indices with the same members. -/
theorem countP_range_eq_length (n : Nat) (P : Nat → Bool) (D : List Int) (hnd : D.Nodup)
    (hnn : ∀ i ∈ D, 0 ≤ i) (hmem : ∀ k : Nat, (k < n ∧ P k = true) ↔ (k : Int) ∈ D) :
    (List.range n).countP P = D.length := by
  rw [List.countP_eq_length_filter, ← List.length_map D Int.toNat]
  apply List.Perm.length_eq
  rw [List.perm_ext_iff_of_nodup ((List.nodup_range n).filter _)]
  · intro k
    rw [List.mem_filter, List.mem_range, hmem k, List.mem_map]
    constructor
    · intro h
      exact ⟨(k : Int), h, by simp⟩
    · rintro ⟨i, hi, rfl⟩
      have := hnn i hi
      rw [Int.toNat_of_nonneg this]
      exact hi
  · apply List.Nodup.map_on _ hnd
    intro a ha b hb hab
    have := hnn a ha
    have := hnn b hb
    omega

theorem set_lookbehind_pieces_idem (s : memory_storage) (l : List Int) :
    (s.set_lookbehind_pieces l).lookbehind_pieces =
      ((s.set_lookbehind_pieces l).set_lookbehind_pieces l).lookbehind_pieces := by
  unfold memory_storage.set_lookbehind_pieces
  by_cases hi : s.is_initialized = true
  · simp only [hi, Bool.not_true, Bool.false_eq_true, if_false]
    unfold bitset_reset
    rw [set_pieces_length, List.length_replicate]
  · simp [hi]

/-- The three lookbehind statistics of a reachable state whose lookbehind
bit-set is the one `set_lookbehind_pieces(l)` builds. -/
theorem lookbehind_statistics_of_bits (s : memory_storage) (hs : reachable s) (l : List Int)
    (hl : s.lookbehind_pieces = (s.set_lookbehind_pieces l).lookbehind_pieces) :
    s.get_lookbehind_protected_count =
      (((l.filter (fun i => decide (0 ≤ i ∧ i < s.piece_count))).dedup.length : Nat) : Int) ∧
    s.get_lookbehind_available_count =
      ((((l.filter (fun i => decide (0 ≤ i ∧ i < s.piece_count))).dedup.filter
        (fun i => (s.piece_at i).is_buffered)).length : Nat) : Int) ∧
    s.get_lookbehind_memory_used = s.get_lookbehind_available_count * s.piece_length := by
  have hw := reachable_wf hs
  have hinit := hw.init
  have hlen := hw.lookbehind_len
  have hN : 0 ≤ s.piece_count := by have := hw.pieces_len; omega
  have hbits : ∀ k : Nat, s.lookbehind_pieces.getD k false = true ↔
      ((k : Int) < s.piece_count ∧ (k : Int) ∈ l) := by
    intro k
    have h1 : (s.set_lookbehind_pieces l).lookbehind_pieces =
        set_pieces s.piece_count l (bitset_reset s.lookbehind_pieces) := by
      unfold memory_storage.set_lookbehind_pieces
      rw [if_neg (by simp [hinit])]
    rw [h1] at hl
    constructor
    · intro h
      rw [hl, set_pieces_getD, bitset_reset, getD_replicate_false] at h
      rcases h with h | ⟨_, h2, h3⟩
      · exact absurd h (by simp)
      · exact ⟨h2, h3⟩
    · rintro ⟨h2, h3⟩
      rw [hl, set_pieces_getD, bitset_reset, getD_replicate_false, List.length_replicate]
      exact Or.inr ⟨by omega, h2, h3⟩
  refine ⟨?_, ?_, rfl⟩
  · unfold memory_storage.get_lookbehind_protected_count
    rw [if_neg (by simp [hinit]), bitset_count_range]
    congr 1
    apply countP_range_eq_length _ _ _ (List.nodup_dedup _)
    · intro i hi
      rw [List.mem_dedup, List.mem_filter] at hi
      have := hi.2
      simp only [decide_eq_true_eq] at this
      exact this.1
    · intro k
      rw [List.mem_dedup, List.mem_filter, hbits k]
      simp only [decide_eq_true_eq]
      constructor
      · rintro ⟨_, h2, h3⟩
        exact ⟨h3, by omega, h2⟩
      · rintro ⟨h3, _, h2⟩
        exact ⟨by omega, h2, h3⟩
  · unfold memory_storage.get_lookbehind_available_count
    rw [if_neg (by simp [hinit])]
    congr 1
    apply countP_range_eq_length _ _ _ ((List.nodup_dedup _).filter _)
    · intro i hi
      rw [List.mem_filter, List.mem_dedup, List.mem_filter] at hi
      have := hi.1.2
      simp only [decide_eq_true_eq] at this
      exact this.1
    · intro k
      rw [List.mem_filter, List.mem_dedup, List.mem_filter]
      have ht : bitset_test s.lookbehind_pieces (k : Int) = s.lookbehind_pieces.getD k false := by
        simp [bitset_test]
      rw [Bool.and_eq_true, ht, hbits k, is_buffered_iff]
      simp only [decide_eq_true_eq]
      constructor
      · rintro ⟨hk, ⟨h2, h3⟩, hb⟩
        exact ⟨⟨h3, by omega, h2⟩, by omega⟩
      · rintro ⟨⟨h3, _, h2⟩, hb⟩
        have := ((hw.pc (k : Int) (by omega) h2).2.2.2 hb).1
        exact ⟨by omega, ⟨h2, h3⟩, by omega⟩

/-- C17: for every reachable state `s` with `N` pieces and every list `l`, in
the state right after `set_lookbehind_pieces(l)`, and in every reachable state
whose lookbehind bit-set is still the one that call builds,
`get_lookbehind_protected_count()` is the number of distinct entries of `l`
lying in `[0, N)`, `get_lookbehind_available_count()` is the number of those
whose piece has a slot assigned, and `get_lookbehind_memory_used()` is the
available count times `piece_length`. -/
theorem lookbehind_statistics (s : memory_storage) (hs : reachable s) (l : List Int) :
    ((s.set_lookbehind_pieces l).get_lookbehind_protected_count =
        (((l.filter (fun i => decide (0 ≤ i ∧ i < s.piece_count))).dedup.length : Nat) : Int) ∧
      (s.set_lookbehind_pieces l).get_lookbehind_available_count =
        ((((l.filter (fun i => decide (0 ≤ i ∧ i < s.piece_count))).dedup.filter
          (fun i => ((s.set_lookbehind_pieces l).piece_at i).is_buffered)).length : Nat) : Int) ∧
      (s.set_lookbehind_pieces l).get_lookbehind_memory_used =
        (s.set_lookbehind_pieces l).get_lookbehind_available_count * s.piece_length) ∧
    (s.lookbehind_pieces = (s.set_lookbehind_pieces l).lookbehind_pieces →
      s.get_lookbehind_protected_count =
        (((l.filter (fun i => decide (0 ≤ i ∧ i < s.piece_count))).dedup.length : Nat) : Int) ∧
      s.get_lookbehind_available_count =
        ((((l.filter (fun i => decide (0 ≤ i ∧ i < s.piece_count))).dedup.filter
          (fun i => (s.piece_at i).is_buffered)).length : Nat) : Int) ∧
      s.get_lookbehind_memory_used = s.get_lookbehind_available_count * s.piece_length) := by
  refine ⟨?_, lookbehind_statistics_of_bits s hs l⟩
  have ht : reachable (s.set_lookbehind_pieces l) :=
    reachable.step s (op.set_lookbehind_pieces l) hs trivial
  have hpc : (s.set_lookbehind_pieces l).piece_count = s.piece_count := by
    unfold memory_storage.set_lookbehind_pieces
    split <;> rfl
  have hpl : (s.set_lookbehind_pieces l).piece_length = s.piece_length := by
    unfold memory_storage.set_lookbehind_pieces
    split <;> rfl
  have := lookbehind_statistics_of_bits (s.set_lookbehind_pieces l) ht l
    (set_lookbehind_pieces_idem s l)
  rw [hpc, hpl] at this
  exact this

/-- Witness of C17: scenario 5 of the spec. After `set_lookbehind_pieces({0, 1, 2})`
and the writes of pieces 0 and 2 the three statistics are 3, 2 and
`2 * piece_length`. -/
theorem lookbehind_statistics_witness :
    reachable scenario17 ∧
    scenario17.lookbehind_pieces = (scenario17.set_lookbehind_pieces [0, 1, 2]).lookbehind_pieces ∧
    scenario17.get_lookbehind_protected_count = 3 ∧
    scenario17.get_lookbehind_available_count = 2 ∧
    scenario17.get_lookbehind_memory_used = 2 * scenario17.piece_length :=
  ⟨scenario17_reachable, by decide,
    ((lookbehind_statistics scenario17 scenario17_reachable [0, 1, 2]).2 (by decide)).1.trans
      (by decide),
    ((lookbehind_statistics scenario17 scenario17_reachable [0, 1, 2]).2 (by decide)).2.1.trans
      (by decide),
    by decide⟩

theorem scenario21_reachable : reachable scenario21 :=
  reachable.step _ (op.writev [[1, 2, 3, 4]] 0 0) scenario1_reachable
    ⟨by decide, by decide, by decide, by decide⟩

theorem scenario27_reachable : reachable scenario27 :=
  reachable.step _ (op.writev [[1, 2, 3, 4]] 0 0) scenario21_reachable
    ⟨by decide, by decide, by decide, by decide⟩

/-- A hit of the simple `read`: the piece is resident and fully written and the
offset lies inside the slot. The call copies `min(size, capacity - offset)`
bytes of the slot to the start of `read_buf` and returns `size`. -/
theorem read_hit (s : memory_storage) (read_buf : List Nat) (size piece offset : Int)
    (hi : s.is_initialized = true) (hb : (s.piece_at piece).is_buffered = true)
    (hfull : (s.piece_at piece).length ≤ (s.piece_at piece).size)
    (hav : 0 < ((s.buffer_at (s.piece_at piece).bi).buffer.length : Int) - offset) :
    (s.read read_buf size piece offset).1 = size ∧
    (s.read read_buf size piece offset).2.1 =
      memcpy_into read_buf 0 ((s.buffer_at (s.piece_at piece).bi).buffer.drop offset.toNat)
        (min size (((s.buffer_at (s.piece_at piece).bi).buffer.length : Int) - offset)).toNat := by
  have hb' : (memory_storage.piece_at { s with is_reading := true } piece).is_buffered = true := hb
  have hfull' : ¬ (memory_storage.piece_at { s with is_reading := true } piece).size <
      (memory_storage.piece_at { s with is_reading := true } piece).length := by
    show ¬ (s.piece_at piece).size < (s.piece_at piece).length
    omega
  have hav' : ¬ ((memory_storage.buffer_at { s with is_reading := true }
      (memory_storage.piece_at { s with is_reading := true } piece).bi).buffer.length : Int) -
        offset ≤ 0 := by
    show ¬ ((s.buffer_at (s.piece_at piece).bi).buffer.length : Int) - offset ≤ 0
    omega
  unfold memory_storage.read memory_storage.get_read_buffer
  simp only []
  rw [get_buffer_buffered _ piece false hb', if_neg (by simp [hi]), if_neg (by simp),
    if_neg hfull', if_neg hav']
  refine ⟨rfl, ?_⟩
  show memcpy_into read_buf 0 ((s.buffer_at (s.piece_at piece).bi).buffer.drop offset.toNat)
      (if ((s.buffer_at (s.piece_at piece).bi).buffer.length : Int) - offset > size then size
        else ((s.buffer_at (s.piece_at piece).bi).buffer.length : Int) - offset).toNat = _
  congr 2
  split <;> omega

/-- C21, the divergence: in `scenario21` piece 0 is resident and fully written
(`size = length = 4`, slot of 4 bytes `[1, 2, 3, 4]`); `read(read_buf, 4, 0, 2)`
copies the two bytes `[3, 4]` that lie between offset 2 and the end of the slot,
leaves the rest of `read_buf` as it was, and returns 4, not 2. -/
theorem read_returns_request_size :
    reachable scenario21 ∧
    (scenario21.piece_at 0).is_buffered = true ∧
    (scenario21.piece_at 0).size = 4 ∧ (scenario21.piece_at 0).length = 4 ∧
    (scenario21.buffer_at (scenario21.piece_at 0).bi).buffer = [1, 2, 3, 4] ∧
    (scenario21.read [9, 9, 9, 9] 4 0 2).2.1 = [3, 4, 9, 9] ∧
    (scenario21.read [9, 9, 9, 9] 4 0 2).1 = 4 ∧
    (scenario21.read [9, 9, 9, 9] 4 0 2).1 ≠ min 4 (4 - 2) :=
  ⟨scenario21_reachable, by decide, by decide, by decide, by decide, by decide, by decide,
    by decide⟩

theorem readv_clamp_arith (dl fo n : Int) (bl rl : Nat) (h0 : 0 ≤ fo) (h1 : fo ≤ dl) :
    0 ≤ fo + min (dl - fo) (bl : Int) ∧ fo + min (dl - fo) (bl : Int) ≤ dl ∧
    n + min (dl - fo) (bl : Int) + min (rl : Int) (dl - (fo + min (dl - fo) (bl : Int))) =
      n + min ((bl : Int) + (rl : Int)) (dl - fo) := by
  refine ⟨?_, ?_, ?_⟩ <;> omega

/-- The byte count of the copy loop of `readv`, started at `fo` inside a slot:
the total size of the destination spans, clamped to the bytes of the slot from
`fo` on. -/
theorem readv_loop_count (data : List Nat) : ∀ (bufs : List (List Nat)) (fo n : Int)
    (out : List (List Nat)), 0 ≤ fo → fo ≤ (data.length : Int) →
    (readv_loop data bufs fo n out).2 =
      n + min (bufs.flatten.length : Int) ((data.length : Int) - fo) := by
  intro bufs
  induction bufs with
  | nil =>
    intro fo n out h0 h1
    have : min (0 : Int) ((data.length : Int) - fo) = 0 := by omega
    simp [readv_loop, this]
  | cons buf rest ih =>
    intro fo n out h0 h1
    unfold readv_loop
    simp only []
    obtain ⟨a1, a2, a3⟩ := readv_clamp_arith (data.length : Int) fo n buf.length
      rest.flatten.length h0 h1
    rw [ih _ _ _ a1 a2, List.flatten_cons, List.length_append, Nat.cast_add]
    exact a3

/-- Counterexample to C29 as stated: in `scenario20` piece 0 is resident with
`size = 2` of its 4 bytes written; `readv` at offset 0 into a span of 4 bytes
returns 4, more than `size - 0 = 2`, and delivers the two unwritten bytes of the
slot after the two written ones. -/
theorem readv_beyond_written :
    reachable scenario20 ∧ (scenario20.piece_at 0).is_buffered = true ∧
    (scenario20.piece_at 0).size = 2 ∧
    (scenario20.readv [[9, 9, 9, 9]] 0 0).1 = 4 ∧
    (scenario20.readv [[9, 9, 9, 9]] 0 0).2.1 = [[65, 66, 0, 0]] ∧
    ¬ (scenario20.readv [[9, 9, 9, 9]] 0 0).1 ≤ (scenario20.piece_at 0).size - 0 :=
  ⟨scenario20_reachable, by decide, by decide, by decide, by decide, by decide⟩

/-- C29 as amended: in every reachable state, for a resident piece `p` and an
offset `o` with `0 ≤ o ≤ piece_length`, `readv` returns
`min(T, piece_length - o)` bytes, where `T` is the total size of the
destination spans: it clamps at the capacity of the slot, whatever
`pieces[p].size` is. -/
theorem readv_clamps_to_slot (s : memory_storage) (hs : reachable s) (bufs : List (List Nat))
    (piece offset : Int) (hp : 0 ≤ piece) (hpl : piece < s.piece_count)
    (hb : (s.piece_at piece).is_buffered = true) (ho : 0 ≤ offset)
    (hol : offset ≤ s.piece_length) :
    (s.readv bufs piece offset).1 = min (bufs.flatten.length : Int) (s.piece_length - offset) := by
  have h := reachable_wf hs
  have hbi := (is_buffered_iff _).mp hb
  obtain ⟨b0, b1, _⟩ := (h.pc piece hp hpl).2.2.2 hbi
  have hlen := (h.buf _ b0 b1).2.1
  rw [(readv_hit s bufs piece offset h.init hb).1,
    readv_loop_count _ bufs offset 0 [] ho (by rw [hlen]; exact hol), hlen]
  omega

/-- Witness of C29 as amended: in `scenario20` (piece length 4, 2 bytes of
piece 0 written) a `readv` of piece 0 at offset 1 into spans of 2 and 3 bytes
returns `min(5, 4 - 1) = 3`. -/
theorem readv_clamps_to_slot_witness :
    reachable scenario20 ∧ (scenario20.piece_at 0).size = 2 ∧
    (scenario20.readv [[9, 9], [9, 9, 9]] 0 1).1 = 3 :=
  ⟨scenario20_reachable, by decide,
    (readv_clamps_to_slot scenario20 scenario20_reachable [[9, 9], [9, 9, 9]] 0 1
      (by decide) (by decide) (by decide) (by decide) (by decide)).trans (by decide)⟩

/-- After a `writev` that obtained a slot, the record of the piece is the one
the allocation left with `size` grown by the byte count of the copy loop. -/
theorem writev_piece_record {s : memory_storage} (h : wf s) (bufs : List (List Nat))
    (piece offset : Int) (hp : 0 ≤ piece) (hpl : piece < s.piece_count) (ho : 0 ≤ offset)
    (hol : offset ≤ (s.piece_at piece).length) (hg : (s.get_buffer piece true).1 = true) :
    ((s.writev bufs piece offset).2.piece_at piece).length = (s.piece_at piece).length ∧
    ((s.writev bufs piece offset).2.piece_at piece).is_completed =
      ((s.get_buffer piece true).2.piece_at piece).is_completed ∧
    ((s.writev bufs piece offset).2.piece_at piece).is_read =
      ((s.get_buffer piece true).2.piece_at piece).is_read := by
  have hG := wf_get_buffer h piece true hp hpl
  have hb := (is_buffered_iff _).mp (get_buffer_true s piece true hg)
  obtain ⟨hs1, hs2, hs3⟩ := get_buffer_static h piece true hp hpl
  obtain ⟨hl, hsz⟩ := hs3 piece hp
  have hpl' : piece < (s.get_buffer piece true).2.piece_count := by omega
  obtain ⟨w1, w2, w3, w4, w5, w6, w7, w8⟩ := writev_store_spec hG bufs piece offset hp hpl' hb ho
    (by omega)
  have hbsame : (((s.get_buffer piece true).2.writev_store bufs piece offset).2.piece_at piece).bi
      = ((s.get_buffer piece true).2.piece_at piece).bi := by rw [w3]
  rw [writev_eq]
  have hi := h.init
  simp only [hi, hg, Bool.not_true, Bool.false_eq_true, if_false]
  split
  · have hk := trim_keeps_caller w1 piece hp (by omega) (by rw [hbsame]; exact hb)
    rw [hk.1, w3]
    exact ⟨hl, rfl, rfl⟩
  · rw [w3]
    exact ⟨hl, rfl, rfl⟩

/-- A `writev` that obtained no slot leaves the length and the size of the piece
as they were. -/
theorem writev_refused_record {s : memory_storage} (h : wf s) (bufs : List (List Nat))
    (piece offset : Int) (hp : 0 ≤ piece) (hpl : piece < s.piece_count)
    (hg : (s.get_buffer piece true).1 = false) :
    ((s.writev bufs piece offset).2.piece_at piece).length = (s.piece_at piece).length ∧
    ((s.writev bufs piece offset).2.piece_at piece).size = (s.piece_at piece).size := by
  obtain ⟨_, _, hs3⟩ := get_buffer_static h piece true hp hpl
  rw [writev_eq]
  simp only [h.init, hg, Bool.not_true, Bool.false_eq_true, if_false, Bool.not_false, if_true]
  exact hs3 piece hp

/-- Counterexample to C27 as stated: writing the four bytes of piece 0 twice at
offset 0 leaves `pieces[0].size = 8` with `pieces[0].length = 4`. -/
theorem rewrite_exceeds_length :
    reachable scenario27 ∧ (scenario21.piece_at 0).size = 4 ∧
    (scenario27.piece_at 0).size = 8 ∧ (scenario27.piece_at 0).length = 4 ∧
    ¬ (scenario27.piece_at 0).size ≤ (scenario27.piece_at 0).length :=
  ⟨scenario27_reachable, by decide, by decide, by decide, by decide⟩

theorem scenario28_reachable : reachable scenario28 :=
  reachable.step _ (op.readv [[0, 0, 0, 0]] 0 0) scenario21_reachable
    ⟨by decide, by decide, by decide, by decide⟩

theorem never_completed_of_pieces {s t : memory_storage} (h : t.pieces = s.pieces)
    (hs : never_completed s) : never_completed t := by
  unfold never_completed
  rw [h]
  exact hs

theorem never_completed_piece_at {s : memory_storage} (hs : never_completed s) (i : Int) :
    (s.piece_at i).is_completed = false ∧ (s.piece_at i).is_read = false := by
  unfold memory_storage.piece_at
  rw [List.getD_eq_getElem?_getD]
  cases hg : s.pieces[i.toNat]? with
  | none => exact ⟨rfl, rfl⟩
  | some p => exact hs p (List.getElem?_mem hg)

theorem never_completed_set_piece {s : memory_storage} (hs : never_completed s) (i : Int)
    (q : memory_piece) (hq : q.is_completed = false ∧ q.is_read = false) :
    never_completed (s.set_piece i q) := by
  intro p hp
  rcases List.mem_or_eq_of_mem_set hp with h | h
  · exact hs p h
  · rw [h]; exact hq

theorem never_completed_restore_piece {s : memory_storage} (hs : never_completed s) (pi : Int) :
    never_completed (s.restore_piece pi) :=
  never_completed_of_pieces (restore_piece_frame s pi).1 hs

theorem never_completed_remove_piece {s : memory_storage} (hs : never_completed s) (bi : Int) :
    never_completed (s.remove_piece bi) := by
  unfold memory_storage.remove_piece
  simp only []
  split
  · apply never_completed_restore_piece
    apply never_completed_set_piece
    · exact never_completed_of_pieces rfl hs
    · exact ⟨rfl, rfl⟩
  · exact never_completed_of_pieces rfl hs

theorem never_completed_trim_body {s : memory_storage} (hs : never_completed s) (pi : Int) :
    never_completed (s.trim_body pi).2 := by
  have keyn : ∀ (t : memory_storage) (cr : Bool), never_completed t →
      never_completed (t.find_last_buffer pi cr).2 :=
    fun t cr ht => never_completed_of_pieces rfl ht
  have key : ∀ (t : memory_storage) (cr : Bool), never_completed t →
      never_completed ((t.find_last_buffer pi cr).2.remove_piece (t.find_last_buffer pi cr).1) :=
    fun t cr ht => never_completed_remove_piece (keyn t cr ht) _
  unfold memory_storage.trim_body
  by_cases he : bitset_empty s.reader_pieces = true
  · simp only [he, Bool.not_true, Bool.false_eq_true, if_false, ne_eq, not_true_eq_false]
    split
    · exact key s false hs
    · exact keyn s false hs
  · simp only [Bool.not_eq_true] at he
    simp only [he, Bool.not_false, if_true]
    split
    · exact key s true hs
    · split
      · exact key _ false (keyn s true hs)
      · exact keyn _ false (keyn s true hs)

theorem never_completed_trim_loop (pi : Int) : ∀ (fuel : Nat) (s : memory_storage),
    never_completed s → never_completed (trim_loop fuel s pi) := by
  intro fuel
  induction fuel with
  | zero => intro s hs; exact hs
  | succ n ih =>
    intro s hs
    unfold trim_loop
    split
    · have hb := never_completed_trim_body hs pi
      split
      · rename_i bi s1 heq
        rw [heq] at hb
        exact ih s1 hb
      · rename_i s1 heq
        rw [heq] at hb
        exact hb
    · exact hs

theorem never_completed_trim {s : memory_storage} (hs : never_completed s) (pi : Int) :
    never_completed (s.trim pi) := by
  unfold memory_storage.trim
  split
  · exact hs
  · exact never_completed_trim_loop pi _ s hs

theorem never_completed_get_buffer {s : memory_storage} (hs : never_completed s) (pidx : Int)
    (w : Bool) : never_completed (s.get_buffer pidx w).2 := by
  unfold memory_storage.get_buffer
  simp only []
  split
  · exact hs
  · split
    · exact hs
    · split
      · exact never_completed_restore_piece hs _
      · split
        · exact hs
        · have hq := never_completed_piece_at hs pidx
          split
          · exact never_completed_set_piece (never_completed_of_pieces rfl hs) pidx _ hq
          · exact never_completed_set_piece (never_completed_of_pieces rfl hs) pidx _ hq

theorem never_completed_writev_store {g : memory_storage} (hg : never_completed g)
    (bufs : List (List Nat)) (piece offset : Int) :
    never_completed (g.writev_store bufs piece offset).2 := by
  unfold memory_storage.writev_store
  simp only []
  apply never_completed_of_pieces (s := (g.set_buffer _ _).set_piece piece _) rfl
  exact never_completed_set_piece (never_completed_of_pieces rfl hg) piece _
    (never_completed_piece_at hg piece)

theorem never_completed_writev {s : memory_storage} (hs : never_completed s)
    (bufs : List (List Nat)) (piece offset : Int) :
    never_completed (s.writev bufs piece offset).2 := by
  have hg := never_completed_get_buffer hs piece true
  have hst := never_completed_writev_store hg bufs piece offset
  rw [writev_eq]
  split
  · exact hs
  · split
    · exact hg
    · simp only []
      split
      · exact never_completed_trim hst piece
      · exact hst

theorem never_completed_readv {s : memory_storage} (hs : never_completed s)
    (bufs : List (List Nat)) (piece offset : Int) :
    never_completed (s.readv bufs piece offset).2.2 := by
  have hg := never_completed_get_buffer hs piece false
  have hc := (never_completed_piece_at hg piece).1
  unfold memory_storage.readv memory_storage.get_read_buffer
  simp only []
  split
  · exact hs
  · split
    · exact hg
    · split
      · rename_i hcond
        rw [hc] at hcond
        simp at hcond
      · exact never_completed_of_pieces rfl hg

theorem never_completed_read {s : memory_storage} (hs : never_completed s)
    (read_buf : List Nat) (size piece offset : Int) :
    never_completed (s.read read_buf size piece offset).2.2 := by
  have h0 : never_completed { s with is_reading := true } := never_completed_of_pieces rfl hs
  have hg := never_completed_get_buffer h0 piece false
  have hc := (never_completed_piece_at hg piece).1
  unfold memory_storage.read memory_storage.get_read_buffer
  simp only [hc, Bool.false_and, Bool.false_eq_true, if_false]
  split_ifs
  all_goals first
    | exact hs
    | exact hg
    | exact never_completed_restore_piece hg _

theorem never_completed_set_memory_size {s : memory_storage} (hs : never_completed s)
    (sz : Int) : never_completed (s.set_memory_size sz) := by
  by_cases h : sz ≤ s.capacity
  · unfold memory_storage.set_memory_size
    rw [if_pos h]
    exact hs
  · exact never_completed_of_pieces (set_memory_size_fields s sz (by omega)).2.2.2.1 hs

theorem never_completed_construct (C N pl : Int) (piece_size : Int → Int) (clock : Nat)
    (ticks : List Nat) : never_completed (memory_storage.construct C N pl piece_size clock ticks) := by
  obtain ⟨L, _, _, _, h4, _⟩ :=
    push_buffers_spec (if ceil_div C pl + 2 > N then N else ceil_div C pl + 2).toNat 0
      { reader_pieces := []
        reserved_pieces := []
        lookbehind_pieces := []
        capacity := C
        piece_count := N
        piece_length := pl
        pieces := (List.range N.toNat).map
          (fun (i : Nat) => memory_piece.mk_new (i : Int) (piece_size (i : Int)))
        buffer_size := (if ceil_div C pl + 2 > N then N else ceil_div C pl + 2)
        buffer_limit := (if ceil_div C pl + 2 > N then N else ceil_div C pl + 2)
        buffer_used := 0
        buffer_reserved := 0
        buffers := []
        m_handle := none
        is_initialized := false
        is_reading := false
        clock := clock
        ticks := ticks }
  intro p hp
  have hp2 : p ∈ (List.range N.toNat).map
      (fun (i : Nat) => memory_piece.mk_new (i : Int) (piece_size (i : Int))) := by
    have hp1 : p ∈ (push_buffers (if ceil_div C pl + 2 > N then N else ceil_div C pl + 2).toNat 0
      { reader_pieces := []
        reserved_pieces := []
        lookbehind_pieces := []
        capacity := C
        piece_count := N
        piece_length := pl
        pieces := (List.range N.toNat).map
          (fun (i : Nat) => memory_piece.mk_new (i : Int) (piece_size (i : Int)))
        buffer_size := (if ceil_div C pl + 2 > N then N else ceil_div C pl + 2)
        buffer_limit := (if ceil_div C pl + 2 > N then N else ceil_div C pl + 2)
        buffer_used := 0
        buffer_reserved := 0
        buffers := []
        m_handle := none
        is_initialized := false
        is_reading := false
        clock := clock
        ticks := ticks }).pieces := hp
    rw [h4] at hp1
    exact hp1
  rw [List.mem_map] at hp2
  obtain ⟨i, _, rfl⟩ := hp2
  exact ⟨rfl, rfl⟩

/-- In every reachable state no piece record has `is_completed` or `is_read`
set. -/
theorem reachable_never_completed {s : memory_storage} (h : reachable s) :
    never_completed s := by
  induction h with
  | construct memory_size num_pieces piece_length piece_size clock ticks hcap hlen hnum hsize =>
    exact never_completed_construct _ _ _ _ _ _
  | step s o hs hpre ih =>
    cases o with
    | writev bufs piece offset => exact never_completed_writev ih bufs piece offset
    | readv bufs piece offset => exact never_completed_readv ih bufs piece offset
    | read read_buf size piece offset => exact never_completed_read ih read_buf size piece offset
    | update_reader_pieces l =>
      show never_completed (s.update_reader_pieces l)
      unfold memory_storage.update_reader_pieces
      split
      · exact ih
      · exact never_completed_of_pieces rfl ih
    | update_reserved_pieces l =>
      show never_completed (s.update_reserved_pieces l)
      unfold memory_storage.update_reserved_pieces
      split
      · exact ih
      · exact never_completed_of_pieces rfl ih
    | set_lookbehind_pieces l =>
      show never_completed (s.set_lookbehind_pieces l)
      unfold memory_storage.set_lookbehind_pieces
      split
      · exact ih
      · exact never_completed_of_pieces rfl ih
    | clear_lookbehind =>
      show never_completed s.clear_lookbehind
      unfold memory_storage.clear_lookbehind
      split
      · exact ih
      · exact never_completed_of_pieces rfl ih
    | set_memory_size sz => exact never_completed_set_memory_size ih sz
    | set_torrent_handle t => exact never_completed_of_pieces rfl ih
    | picker_priorities prios => exact never_completed_of_pieces rfl ih
    | clock_ticks ticks => exact never_completed_of_pieces rfl ih

/-- C28, the divergence: in every reachable state every piece record has
`is_completed = false` and `is_read = false`, whatever was written and read: no
operation sets `is_completed`, and `is_read` is only set behind a test of
`is_completed`. The same holds right after a `writev`, a `readv` and a `read`
made in that state. -/
theorem completed_never_set (s : memory_storage) (hs : reachable s) (p : Int) :
    ((s.piece_at p).is_completed = false ∧ (s.piece_at p).is_read = false) ∧
    (∀ (bufs : List (List Nat)) (piece offset : Int),
      ((s.writev bufs piece offset).2.piece_at p).is_completed = false ∧
      ((s.readv bufs piece offset).2.2.piece_at p).is_read = false) ∧
    (∀ (read_buf : List Nat) (size piece offset : Int),
      ((s.read read_buf size piece offset).2.2.piece_at p).is_read = false) := by
  have h := reachable_never_completed hs
  refine ⟨never_completed_piece_at h p, ?_, ?_⟩
  · intro bufs piece offset
    exact ⟨(never_completed_piece_at (never_completed_writev h bufs piece offset) p).1,
      (never_completed_piece_at (never_completed_readv h bufs piece offset) p).2⟩
  · intro read_buf size piece offset
    exact (never_completed_piece_at (never_completed_read h read_buf size piece offset) p).2

/-- Witness of C28: in `scenario28` piece 0 was written in full
(`size = length = 4`) and then read to its end by a `readv` that returned its 4
bytes; the piece is neither marked completed nor marked read. -/
theorem completed_never_set_witness :
    reachable scenario28 ∧
    (scenario21.piece_at 0).size = 4 ∧ (scenario21.piece_at 0).length = 4 ∧
    (scenario21.piece_at 0).is_completed = false ∧
    (scenario21.readv [[0, 0, 0, 0]] 0 0).1 = 4 ∧
    (scenario21.readv [[0, 0, 0, 0]] 0 0).2.1 = [[1, 2, 3, 4]] ∧
    ((scenario28.piece_at 0).is_completed = false ∧ (scenario28.piece_at 0).is_read = false) :=
  ⟨scenario28_reachable, by decide, by decide, by decide, by decide, by decide,
    (completed_never_set scenario28 scenario28_reachable 0).1⟩

theorem find_range_lowest (p : Nat → Bool) : ∀ (n i : Nat), i < n → p i = true →
    (∀ j : Nat, j < i → p j = false) → (List.range n).find? p = some i := by
  intro n
  induction n with
  | zero => intro i hi; omega
  | succ m ih =>
    intro i hi hp hlow
    rw [List.range_succ, List.find?_append]
    by_cases him : i < m
    · rw [ih i him hp hlow]; rfl
    · have hie : i = m := by omega
      subst hie
      have hnone : (List.range i).find? p = none := by
        rw [List.find?_eq_none]
        intro x hx
        rw [List.mem_range] at hx
        simp [hlow x hx]
      rw [hnone]
      simp [hp]

theorem find_range_none (p : Nat → Bool) (n : Nat) (h : ∀ j : Nat, j < n → p j = false) :
    (List.range n).find? p = none := by
  rw [List.find?_eq_none]
  intro x hx
  rw [List.mem_range] at hx
  simp [h x hx]

/-- The allocation scan finds the lowest-index slot that is not in use. -/
theorem find_free_lowest (s : memory_storage) (i : Int) (hi : 0 ≤ i) (hil : i < s.buffer_size)
    (hfree : (s.buffer_at i).is_used = false)
    (hlow : ∀ j : Int, 0 ≤ j → j < i → (s.buffer_at j).is_used = true) :
    s.find_free = some i.toNat := by
  unfold memory_storage.find_free
  apply find_range_lowest _ _ _ (by omega)
  · have : ((i.toNat : Nat) : Int) = i := by omega
    rw [this, hfree]; rfl
  · intro j hj
    rw [hlow (j : Int) (by omega) (by omega)]; rfl

theorem find_free_none (s : memory_storage)
    (h : ∀ j : Int, 0 ≤ j → j < s.buffer_size → (s.buffer_at j).is_used = true) :
    s.find_free = none := by
  unfold memory_storage.find_free
  apply find_range_none
  intro j hj
  rw [h (j : Int) (by omega) (by omega)]; rfl

/-- The allocation branch of `get_buffer`, for a piece without a slot that is
not refused, when the scan found slot `i`. -/
theorem get_buffer_alloc (s : memory_storage) (pidx : Int) (i : Nat)
    (hb : (s.piece_at pidx).is_buffered = false)
    (hr : ¬ (s.is_reading = true ∧ s.is_readered (s.piece_at pidx).index = false))
    (hf : s.find_free = some i) :
    (s.get_buffer pidx true).2.buffers =
      s.buffers.set i { s.buffer_at (i : Int) with
        is_used := true, pi := (s.piece_at pidx).index, accessed := (now s).1 } ∧
    (s.get_buffer pidx true).2.pieces =
      s.pieces.set pidx.toNat { s.piece_at pidx with bi := (s.buffer_at (i : Int)).index } ∧
    ((bitset_test s.reserved_pieces (s.piece_at pidx).index ||
        bitset_test s.lookbehind_pieces (s.piece_at pidx).index) = true →
      (s.get_buffer pidx true).2.buffer_limit = s.buffer_limit - 1 ∧
      (s.get_buffer pidx true).2.buffer_used = s.buffer_used) ∧
    ((bitset_test s.reserved_pieces (s.piece_at pidx).index ||
        bitset_test s.lookbehind_pieces (s.piece_at pidx).index) = false →
      (s.get_buffer pidx true).2.buffer_limit = s.buffer_limit ∧
      (s.get_buffer pidx true).2.buffer_used = s.buffer_used + 1) := by
  have hr2 : ¬ ((s.is_reading && !s.is_readered (s.piece_at pidx).index) = true) := by
    simpa using hr
  have hbuf : ∀ x : memory_buffer, s.buffers.set (i : Int).toNat x = s.buffers.set i x := by
    intro x
    rw [Int.toNat_natCast]
  unfold memory_storage.get_buffer
  simp only [hb, Bool.false_eq_true, if_false, Bool.not_true, hr2, hf]
  split
  · rename_i hc
    have hc2 : (bitset_test s.reserved_pieces (s.piece_at pidx).index ||
        bitset_test s.lookbehind_pieces (s.piece_at pidx).index) = true := hc
    refine ⟨hbuf _, rfl, fun _ => ⟨rfl, rfl⟩, fun h => absurd hc2 (by rw [h]; simp)⟩
  · rename_i hc
    have hc2 : ¬ (bitset_test s.reserved_pieces (s.piece_at pidx).index ||
        bitset_test s.lookbehind_pieces (s.piece_at pidx).index) = true := hc
    refine ⟨hbuf _, rfl, fun h => absurd h hc2, fun _ => ⟨rfl, rfl⟩⟩

theorem get_buffer_full (s : memory_storage) (pidx : Int)
    (hb : (s.piece_at pidx).is_buffered = false)
    (hr : ¬ (s.is_reading = true ∧ s.is_readered (s.piece_at pidx).index = false))
    (hf : s.find_free = none) : s.get_buffer pidx true = (false, s) := by
  have hr2 : ¬ ((s.is_reading && !s.is_readered (s.piece_at pidx).index) = true) := by
    simpa using hr
  unfold memory_storage.get_buffer
  simp only [hb, Bool.false_eq_true, if_false, Bool.not_true, hr2, hf]

/-- C30: in every reachable state, a write-mode `get_buffer` for a piece `p` of
the torrent returns true and changes nothing when `p` already has a slot; for a
piece without a slot that is not refused it returns false and changes nothing
when every slot is in use, and otherwise claims the lowest-index slot `i` that
is not in use (`is_used` set, `pi = p`, stamped with the clock reading,
`pieces[p].bi = i`, every other slot and piece record untouched) and returns
true, having decremented `buffer_limit` by 1 when `p` is in `reserved_pieces` or
`lookbehind_pieces` and incremented `buffer_used` by 1 otherwise. -/
theorem get_write_buffer_spec (s : memory_storage) (hs : reachable s) (p : Int) (hp : 0 ≤ p)
    (hpl : p < s.piece_count) :
    ((s.piece_at p).is_buffered = true → s.get_buffer p true = (true, s)) ∧
    ((s.piece_at p).is_buffered = false →
      ¬ (s.is_reading = true ∧ s.is_readered p = false) →
      ((∀ j : Int, 0 ≤ j → j < s.buffer_size → (s.buffer_at j).is_used = true) →
        s.get_buffer p true = (false, s)) ∧
      (∀ i : Int, 0 ≤ i → i < s.buffer_size → (s.buffer_at i).is_used = false →
        (∀ j : Int, 0 ≤ j → j < i → (s.buffer_at j).is_used = true) →
        (s.get_buffer p true).1 = true ∧
        (s.get_buffer p true).2.buffers =
          s.buffers.set i.toNat
            { s.buffer_at i with is_used := true, pi := p, accessed := (now s).1 } ∧
        (s.get_buffer p true).2.pieces = s.pieces.set p.toNat { s.piece_at p with bi := i } ∧
        ((bitset_test s.reserved_pieces p || bitset_test s.lookbehind_pieces p) = true →
          (s.get_buffer p true).2.buffer_limit = s.buffer_limit - 1 ∧
          (s.get_buffer p true).2.buffer_used = s.buffer_used) ∧
        ((bitset_test s.reserved_pieces p || bitset_test s.lookbehind_pieces p) = false →
          (s.get_buffer p true).2.buffer_limit = s.buffer_limit ∧
          (s.get_buffer p true).2.buffer_used = s.buffer_used + 1))) := by
  have h := reachable_wf hs
  have hidx := (h.pc p hp hpl).1
  refine ⟨fun hb => get_buffer_buffered s p true hb, fun hb hr => ⟨?_, ?_⟩⟩
  · intro hall
    exact get_buffer_full s p hb (by rw [hidx]; exact hr) (find_free_none s hall)
  · intro i hi hil hfree hlow
    have hf := find_free_lowest s i hi hil hfree hlow
    have hcast : ((i.toNat : Nat) : Int) = i := by omega
    obtain ⟨a1, a2, a3, a4⟩ := get_buffer_alloc s p i.toNat hb (by rw [hidx]; exact hr) hf
    rw [hcast, hidx] at a1
    rw [hidx] at a3 a4
    rw [hcast, (h.buf i hi hil).1] at a2
    refine ⟨?_, a1, a2, a3, a4⟩
    cases hg : (s.get_buffer p true).1
    · have hfalse := get_buffer_false s p true hg
      have hlen := h.pieces_len
      have hpa : (s.get_buffer p true).2.piece_at p = { s.piece_at p with bi := i } := by
        unfold memory_storage.piece_at
        rw [a2]
        have := getD_set_int s.pieces p p { s.piece_at p with bi := i } default hp (by omega) hp
        rw [if_pos rfl] at this
        exact this
      rw [hpa] at hfalse
      have : i ≠ -1 := by omega
      simp [memory_piece.is_buffered, this] at hfalse
    · rfl

/-- Witness of C30: in `scenario16` (two free slots, piece 0 reserved) the
write-mode `get_buffer` for piece 0 claims slot 0 and lowers `buffer_limit` from
2 to 1, leaving `buffer_used = 0`. -/
theorem get_write_buffer_spec_witness :
    reachable scenario16 ∧ (scenario16.get_buffer 0 true).1 = true ∧
    ((scenario16.get_buffer 0 true).2.piece_at 0).bi = 0 ∧
    ((scenario16.get_buffer 0 true).2.buffer_at 0).pi = 0 ∧
    scenario16.buffer_limit = 2 ∧
    (scenario16.get_buffer 0 true).2.buffer_limit = 1 ∧
    (scenario16.get_buffer 0 true).2.buffer_used = 0 :=
  ⟨scenario16_reachable,
    (((get_write_buffer_spec scenario16 scenario16_reachable 0 (by decide) (by decide)).2
      (by decide) (by decide)).2 0 (by decide) (by decide) (by decide)
      (by intro j h1 h2; omega)).1,
    by decide, by decide, by decide, by decide, by decide⟩

/-- A search of `find_last_buffer` that returns `-1` leaves no slot that passes
its eligibility test with a last access earlier than the clock reading it took,
which is the clock of the state it leaves. -/
theorem find_last_buffer_none {s : memory_storage} (h : wf s) (pi : Int) (cr : Bool)
    (hn : (s.find_last_buffer pi cr).1 = -1) :
    ∀ b ∈ (s.find_last_buffer pi cr).2.buffers,
      eligible (s.find_last_buffer pi cr).2 pi cr b = true →
        (s.find_last_buffer pi cr).2.clock ≤ b.accessed := by
  have hspec := find_last_scan_spec (now s).2 pi cr (now s).2.buffers (-1) (now s).1
  have hdef : (s.find_last_buffer pi cr).1 =
      find_last_scan (now s).2 pi cr (now s).2.buffers (-1) (now s).1 := rfl
  rw [hdef] at hn
  rcases hspec with ⟨_, hall⟩ | ⟨l1, b, l2, hl, hb, _, hr, _, _⟩
  · intro b hb hel
    exact hall b hb hel
  · rw [hr] at hn
    have hbm : b ∈ s.buffers := by
      have : b ∈ (now s).2.buffers := by rw [hl]; simp
      exact this
    have := (wf_mem_buffer h b hbm).1
    omega

/-- A pass of the loop of `trim` that leaves by `break` changes neither the
slots nor the counters, and leaves no slot that is in use, unprotected, holds a
piece other than `pi` and was last accessed before the current clock. -/
theorem trim_body_none {s : memory_storage} (h : wf s) (pi : Int) (s1 : memory_storage)
    (heq : s.trim_body pi = (none, s1)) :
    s1.buffers = s.buffers ∧ s1.buffer_used = s.buffer_used ∧
    s1.buffer_limit = s.buffer_limit ∧
    ∀ b ∈ s1.buffers, eligible s1 pi false b = true → s1.clock ≤ b.accessed := by
  unfold memory_storage.trim_body at heq
  by_cases he : bitset_empty s.reader_pieces = true
  · simp only [he, Bool.not_true, Bool.false_eq_true, if_false, ne_eq, not_true_eq_false] at heq
    split at heq
    · simp at heq
    · rename_i hne
      simp only [Prod.mk.injEq, true_and] at heq
      rw [← heq]
      exact ⟨rfl, rfl, rfl, find_last_buffer_none h pi false (by simpa using hne)⟩
  · simp only [Bool.not_eq_true] at he
    simp only [he, Bool.not_false, if_true] at heq
    split at heq
    · simp at heq
    · split at heq
      · simp at heq
      · rename_i hne
        simp only [Prod.mk.injEq, true_and] at heq
        rw [← heq]
        exact ⟨rfl, rfl, rfl,
          find_last_buffer_none (s := (s.find_last_buffer pi true).2) (wf_now h) pi false
            (by simpa using hne)⟩

/-- A pass of the loop of `trim` that evicts lowers `buffer_used` by one and
keeps `buffer_limit`. -/
theorem trim_body_some_counters (s : memory_storage) (pi bi : Int) (s1 : memory_storage)
    (heq : s.trim_body pi = (some bi, s1)) :
    s1.buffer_used = s.buffer_used - 1 ∧ s1.buffer_limit = s.buffer_limit := by
  have key : ∀ (t : memory_storage) (cr : Bool), t.buffer_used = s.buffer_used →
      t.buffer_limit = s.buffer_limit →
      ((t.find_last_buffer pi cr).2.remove_piece (t.find_last_buffer pi cr).1).buffer_used =
        s.buffer_used - 1 ∧
      ((t.find_last_buffer pi cr).2.remove_piece (t.find_last_buffer pi cr).1).buffer_limit =
        s.buffer_limit := by
    intro t cr e1 e2
    obtain ⟨_, _, _, _, _, _, f7, f8⟩ :=
      remove_piece_frame (t.find_last_buffer pi cr).2 (t.find_last_buffer pi cr).1
    rw [f7, f8]
    exact ⟨by rw [← e1]; rfl, by rw [← e2]; rfl⟩
  unfold memory_storage.trim_body at heq
  by_cases he : bitset_empty s.reader_pieces = true
  · simp only [he, Bool.not_true, Bool.false_eq_true, if_false, ne_eq, not_true_eq_false] at heq
    split at heq
    · simp only [Prod.mk.injEq, Option.some.injEq] at heq
      rw [← heq.2]
      exact key s false rfl rfl
    · simp at heq
  · simp only [Bool.not_eq_true] at he
    simp only [he, Bool.not_false, if_true] at heq
    split at heq
    · simp only [Prod.mk.injEq, Option.some.injEq] at heq
      rw [← heq.2]
      exact key s true rfl rfl
    · split at heq
      · simp only [Prod.mk.injEq, Option.some.injEq] at heq
        rw [← heq.2]
        exact key _ false rfl rfl
      · simp at heq

/-- The loop of `trim`: every eviction frees one slot that was in use and lowers
`buffer_used` by one; `buffer_limit` stays. -/
theorem trim_loop_count (pi : Int) : ∀ (fuel : Nat) (s : memory_storage), wf s →
    (trim_loop_evicted fuel s pi).length + (trim_loop fuel s pi).in_use = s.in_use ∧
    (trim_loop fuel s pi).buffer_used + ((trim_loop_evicted fuel s pi).length : Int) =
      s.buffer_used ∧
    (trim_loop fuel s pi).buffer_limit = s.buffer_limit := by
  intro fuel
  induction fuel with
  | zero => intro s _; simp [trim_loop, trim_loop_evicted]
  | succ n ih =>
    intro s h
    unfold trim_loop trim_loop_evicted
    split
    · have hb := wf_trim_body h pi
      split
      · rename_i bi s1 heq
        rw [heq] at hb
        have hin := trim_body_in_use h pi bi s1 heq
        obtain ⟨c1, c2⟩ := trim_body_some_counters s pi bi s1 heq
        obtain ⟨i1, i2, i3⟩ := ih s1 hb
        simp only [List.length_cons, Nat.cast_add, Nat.cast_one]
        refine ⟨by omega, by omega, by omega⟩
      · rename_i s1 heq
        obtain ⟨n1, n2, n3, _⟩ := trim_body_none h pi s1 heq
        have : s1.in_use = s.in_use := by
          unfold memory_storage.in_use
          rw [n1]
        simp only [List.length_nil, Nat.cast_zero]
        exact ⟨by omega, by omega, n3⟩
    · simp

/-- The loop of `trim`, given more passes than there are slots in use, stops in
a state that is under quota or has no eligible victim. -/
theorem trim_loop_exit (pi : Int) : ∀ (fuel : Nat) (s : memory_storage), wf s →
    s.in_use < fuel →
    (trim_loop fuel s pi).buffer_used < (trim_loop fuel s pi).buffer_limit ∨
    ∀ b ∈ (trim_loop fuel s pi).buffers,
      eligible (trim_loop fuel s pi) pi false b = true →
        (trim_loop fuel s pi).clock ≤ b.accessed := by
  intro fuel
  induction fuel with
  | zero => intro s _ hlt; omega
  | succ n ih =>
    intro s h hlt
    unfold trim_loop
    split
    · have hb := wf_trim_body h pi
      split
      · rename_i bi s1 heq
        rw [heq] at hb
        have hin := trim_body_in_use h pi bi s1 heq
        exact ih s1 hb (by omega)
      · rename_i s1 heq
        exact Or.inr (trim_body_none h pi s1 heq).2.2.2
    · rename_i hc
      exact Or.inl (by omega)

/-! ## The capacity under the calls of the engine -/

theorem capacity_restore_piece (s : memory_storage) (pi : Int) :
    (s.restore_piece pi).capacity = s.capacity :=
  (restore_piece_frame s pi).2.2.2.2.2.2.2.1

theorem capacity_remove_piece (s : memory_storage) (bi : Int) :
    (s.remove_piece bi).capacity = s.capacity := by
  unfold memory_storage.remove_piece
  simp only []
  split
  · rw [capacity_restore_piece]; rfl
  · rfl

theorem capacity_trim_body (s : memory_storage) (pi : Int) :
    (s.trim_body pi).2.capacity = s.capacity := by
  have key : ∀ (t : memory_storage) (cr : Bool), t.capacity = s.capacity →
      ((t.find_last_buffer pi cr).2.remove_piece (t.find_last_buffer pi cr).1).capacity =
        s.capacity := by
    intro t cr e
    rw [capacity_remove_piece]
    exact e
  unfold memory_storage.trim_body
  by_cases he : bitset_empty s.reader_pieces = true
  · simp only [he, Bool.not_true, Bool.false_eq_true, if_false, ne_eq, not_true_eq_false]
    split
    · exact key s false rfl
    · rfl
  · simp only [Bool.not_eq_true] at he
    simp only [he, Bool.not_false, if_true]
    split
    · exact key s true rfl
    · split
      · exact key _ false rfl
      · rfl

theorem capacity_trim_loop (pi : Int) : ∀ (fuel : Nat) (s : memory_storage),
    (trim_loop fuel s pi).capacity = s.capacity := by
  intro fuel
  induction fuel with
  | zero => intro s; rfl
  | succ n ih =>
    intro s
    unfold trim_loop
    split
    · have hf := capacity_trim_body s pi
      split
      · rename_i bi s1 heq
        rw [heq] at hf
        exact (ih s1).trans hf
      · rename_i s1 heq
        rw [heq] at hf
        exact hf
    · rfl

theorem capacity_trim (s : memory_storage) (pi : Int) : (s.trim pi).capacity = s.capacity := by
  unfold memory_storage.trim
  split
  · rfl
  · exact capacity_trim_loop pi _ s

theorem capacity_get_buffer (s : memory_storage) (pidx : Int) (w : Bool) :
    (s.get_buffer pidx w).2.capacity = s.capacity := by
  unfold memory_storage.get_buffer
  simp only []
  split
  · rfl
  · split
    · rfl
    · split
      · exact capacity_restore_piece s _
      · split
        · rfl
        · split <;> rfl

theorem capacity_writev (s : memory_storage) (bufs : List (List Nat)) (piece offset : Int) :
    (s.writev bufs piece offset).2.capacity = s.capacity := by
  have hst : ((s.get_buffer piece true).2.writev_store bufs piece offset).2.capacity =
      (s.get_buffer piece true).2.capacity := by
    unfold memory_storage.writev_store
    rfl
  rw [writev_eq]
  split
  · rfl
  · split
    · exact capacity_get_buffer s piece true
    · simp only []
      split
      · exact (capacity_trim _ piece).trans (hst.trans (capacity_get_buffer s piece true))
      · exact hst.trans (capacity_get_buffer s piece true)

theorem capacity_readv (s : memory_storage) (bufs : List (List Nat)) (piece offset : Int) :
    (s.readv bufs piece offset).2.2.capacity = s.capacity := by
  have hg := capacity_get_buffer s piece false
  unfold memory_storage.readv memory_storage.get_read_buffer
  simp only []
  split
  · rfl
  · split
    · exact hg
    · split
      · exact hg
      · exact hg

theorem capacity_read (s : memory_storage) (read_buf : List Nat) (size piece offset : Int) :
    (s.read read_buf size piece offset).2.2.capacity = s.capacity := by
  have hg : ((memory_storage.get_buffer { s with is_reading := true } piece false).2).capacity =
      s.capacity := capacity_get_buffer { s with is_reading := true } piece false
  unfold memory_storage.read memory_storage.get_read_buffer
  simp only []
  split_ifs
  all_goals first
    | rfl
    | exact hg
    | exact (capacity_restore_piece _ piece).trans hg

/-- In every reachable state the capacity is not negative. -/
theorem reachable_capacity_nonneg {s : memory_storage} (h : reachable s) : 0 ≤ s.capacity := by
  induction h with
  | construct memory_size num_pieces piece_length piece_size clock ticks hcap hlen hnum hsize =>
    rw [(construct_fields memory_size num_pieces piece_length piece_size clock ticks).2.2.2.2.1]
    exact hcap
  | step s o hs hpre ih =>
    cases o with
    | writev bufs piece offset =>
      show 0 ≤ (s.writev bufs piece offset).2.capacity
      rw [capacity_writev]; exact ih
    | readv bufs piece offset =>
      show 0 ≤ (s.readv bufs piece offset).2.2.capacity
      rw [capacity_readv]; exact ih
    | read read_buf size piece offset =>
      show 0 ≤ (s.read read_buf size piece offset).2.2.capacity
      rw [capacity_read]; exact ih
    | update_reader_pieces l =>
      show 0 ≤ (s.update_reader_pieces l).capacity
      unfold memory_storage.update_reader_pieces
      split <;> exact ih
    | update_reserved_pieces l =>
      show 0 ≤ (s.update_reserved_pieces l).capacity
      unfold memory_storage.update_reserved_pieces
      split <;> exact ih
    | set_lookbehind_pieces l =>
      show 0 ≤ (s.set_lookbehind_pieces l).capacity
      unfold memory_storage.set_lookbehind_pieces
      split <;> exact ih
    | clear_lookbehind =>
      show 0 ≤ s.clear_lookbehind.capacity
      unfold memory_storage.clear_lookbehind
      split <;> exact ih
    | set_memory_size sz =>
      show 0 ≤ (s.set_memory_size sz).capacity
      by_cases hc : sz ≤ s.capacity
      · unfold memory_storage.set_memory_size
        rw [if_pos hc]
        exact ih
      · rw [(set_memory_size_fields s sz (by omega)).2.2.1]
        omega
    | set_torrent_handle t => exact ih
    | picker_priorities prios => exact ih
    | clock_ticks ticks => exact ih

/-- C24: in every reachable state `trim(pi)` terminates: its loop is over after
at most `buffers.length + 1` passes, so allowing more passes changes nothing.
Every `remove_piece` lowers `buffer_used` by exactly 1, the number of evictions
is at most the number of slots in use at entry and is the amount by which
`buffer_used` has dropped on return, and on return either
`buffer_used < buffer_limit` or no slot is an eligible victim (in use,
unprotected, piece other than `pi`, last access earlier than the current
clock). -/
theorem trim_terminates (s : memory_storage) (hs : reachable s) (pi : Int) :
    (∀ k : Nat, trim_loop (s.buffers.length + 1 + k) s pi =
      trim_loop (s.buffers.length + 1) s pi) ∧
    (∀ (t : memory_storage) (bi : Int), (t.remove_piece bi).buffer_used = t.buffer_used - 1) ∧
    (s.trim_evicted pi).length ≤ s.in_use ∧
    (s.trim pi).buffer_used = s.buffer_used - ((s.trim_evicted pi).length : Int) ∧
    ((s.trim pi).buffer_used < (s.trim pi).buffer_limit ∨
      ∀ b ∈ (s.trim pi).buffers, eligible (s.trim pi) pi false b = true →
        (s.trim pi).clock ≤ b.accessed) := by
  have h := reachable_wf hs
  have hcap := reachable_capacity_nonneg hs
  have hlt : s.in_use < s.buffers.length + 1 := by have := in_use_le s; omega
  obtain ⟨c1, c2, _⟩ := trim_loop_count pi (s.buffers.length + 1) s h
  refine ⟨fun k => trim_fuel_enough h pi k,
    fun t bi => (remove_piece_frame t bi).2.2.2.2.2.2.2, ?_, ?_, ?_⟩
  · unfold memory_storage.trim_evicted
    split
    · simp
    · omega
  · unfold memory_storage.trim_evicted memory_storage.trim
    split
    · simp
    · omega
  · unfold memory_storage.trim
    split
    · rename_i hc
      exact Or.inl (by omega)
    · exact trim_loop_exit pi _ s h hlt

/-- Witness of C24: in `scenario3` two slots are in use and
`buffer_used = buffer_limit = 1`; `trim(1)` evicts piece 0 only and returns with
`buffer_used = 0`, below `buffer_limit`. -/
theorem trim_terminates_witness :
    reachable scenario3 ∧ scenario3.in_use = 2 ∧ scenario3.buffer_used = 1 ∧
    scenario3.buffer_limit = 1 ∧ scenario3.trim_evicted 1 = [0] ∧
    (scenario3.trim 1).buffer_used = 0 ∧
    (scenario3.trim_evicted 1).length ≤ scenario3.in_use ∧
    (scenario3.trim 1).buffer_used =
      scenario3.buffer_used - ((scenario3.trim_evicted 1).length : Int) :=
  ⟨scenario3_reachable, by decide, by decide, by decide, by decide, by decide,
    (trim_terminates scenario3 scenario3_reachable 1).2.2.1,
    (trim_terminates scenario3 scenario3_reachable 1).2.2.2.1⟩

theorem countP_set_same {α : Type} (p : α → Bool) (l : List α) (i : Nat) (x d : α)
    (h : i < l.length → p x = p (l.getD i d)) : (l.set i x).countP p = l.countP p := by
  by_cases hi : i < l.length
  · have := countP_set_add p l i x d hi
    rw [h hi] at this
    omega
  · rw [List.set_eq_of_length_le (by omega)]

/-- The count of unprotected in-use slots reads only the slots and the two
protection bit-sets. -/
theorem unprotected_of_eq {s t : memory_storage} (e1 : t.buffers = s.buffers)
    (e2 : t.reserved_pieces = s.reserved_pieces)
    (e3 : t.lookbehind_pieces = s.lookbehind_pieces) :
    t.unprotected_in_use = s.unprotected_in_use := by
  unfold memory_storage.unprotected_in_use
  rw [e1, e2, e3]

theorem unprotected_set_buffer_add (s : memory_storage) (i : Int) (b : memory_buffer)
    (hi : 0 ≤ i) (hil : i < (s.buffers.length : Int)) :
    (s.set_buffer i b).unprotected_in_use +
        (if ((s.buffer_at i).is_used && !(bitset_test s.reserved_pieces (s.buffer_at i).pi ||
          bitset_test s.lookbehind_pieces (s.buffer_at i).pi)) then 1 else 0) =
      s.unprotected_in_use +
        (if (b.is_used && !(bitset_test s.reserved_pieces b.pi ||
          bitset_test s.lookbehind_pieces b.pi)) then 1 else 0) := by
  have h : i.toNat < s.buffers.length := by omega
  exact countP_set_add (fun b => b.is_used && !(bitset_test s.reserved_pieces b.pi ||
    bitset_test s.lookbehind_pieces b.pi)) s.buffers i.toNat b default h

theorem unprotected_set_buffer_same (s : memory_storage) (i : Int) (b : memory_buffer)
    (h1 : b.is_used = (s.buffer_at i).is_used) (h2 : b.pi = (s.buffer_at i).pi) :
    (s.set_buffer i b).unprotected_in_use = s.unprotected_in_use := by
  apply countP_set_same (fun b => b.is_used && !(bitset_test s.reserved_pieces b.pi ||
    bitset_test s.lookbehind_pieces b.pi)) s.buffers i.toNat b default
  intro _
  show (b.is_used && !(bitset_test s.reserved_pieces b.pi ||
    bitset_test s.lookbehind_pieces b.pi)) = ((s.buffer_at i).is_used &&
    !(bitset_test s.reserved_pieces (s.buffer_at i).pi ||
      bitset_test s.lookbehind_pieces (s.buffer_at i).pi))
  rw [h1, h2]

theorem unprotected_le_in_use (s : memory_storage) : s.unprotected_in_use ≤ s.in_use := by
  unfold memory_storage.unprotected_in_use memory_storage.in_use
  apply List.countP_mono_left
  intro b _ hb
  simp only [Bool.and_eq_true] at hb
  exact hb.1

theorem get_buffer_read (s : memory_storage) (pidx : Int) :
    s.get_buffer pidx false = ((s.piece_at pidx).is_buffered, s) := by
  unfold memory_storage.get_buffer
  by_cases hb : (s.piece_at pidx).is_buffered = true
  · simp [hb]
  · simp [hb]

theorem get_buffer_refused (s : memory_storage) (pidx : Int)
    (hb : (s.piece_at pidx).is_buffered = false)
    (hr : (s.is_reading && !s.is_readered (s.piece_at pidx).index) = true) :
    s.get_buffer pidx true = (false, s.restore_piece (s.piece_at pidx).index) := by
  unfold memory_storage.get_buffer
  simp only [hb, Bool.false_eq_true, if_false, Bool.not_true, hr, if_true]

theorem remove_piece_buffers (s : memory_storage) (bi : Int) :
    (s.remove_piece bi).buffers = s.buffers.set bi.toNat ((s.buffer_at bi).reset (now s).1) := by
  unfold memory_storage.remove_piece
  simp only []
  split
  · rw [(restore_piece_frame _ _).2.1]
    rfl
  · rfl

/-- The allocation of `get_buffer` keeps `buffer_used` equal to the number of
unprotected in-use slots. -/
theorem used_get_buffer {s : memory_storage} (h : wf s) (pidx : Int) (w : Bool)
    (hJ : s.buffer_used = (s.unprotected_in_use : Int)) :
    (s.get_buffer pidx w).2.buffer_used = ((s.get_buffer pidx w).2.unprotected_in_use : Int) := by
  cases w with
  | false => rw [get_buffer_read]; exact hJ
  | true =>
    by_cases hb : (s.piece_at pidx).is_buffered = true
    · rw [get_buffer_buffered s pidx true hb]; exact hJ
    · simp only [Bool.not_eq_true] at hb
      by_cases hr : (s.is_reading && !s.is_readered (s.piece_at pidx).index) = true
      · rw [get_buffer_refused s pidx hb hr]
        obtain ⟨_, f2, f3, _, _, _, _, _, _, f10, f11, _⟩ :=
          restore_piece_frame s (s.piece_at pidx).index
        rw [f3, unprotected_of_eq f2 f10 f11]
        exact hJ
      · have hr2 : ¬ (s.is_reading = true ∧ s.is_readered (s.piece_at pidx).index = false) := by
          simpa using hr
        cases hf : s.find_free with
        | none => rw [get_buffer_full s pidx hb hr2 hf]; exact hJ
        | some i =>
          obtain ⟨a1, _, a3, a4⟩ := get_buffer_alloc s pidx i hb hr2 hf
          obtain ⟨hil, hfree⟩ := find_free_some hf
          have hbl := h.buffers_len
          have hprot := protection_get_buffer s pidx true
          unfold memory_storage.protection at hprot
          simp only [Prod.mk.injEq] at hprot
          have hu : (s.get_buffer pidx true).2.unprotected_in_use =
              (s.set_buffer (i : Int) { s.buffer_at (i : Int) with
                is_used := true, pi := (s.piece_at pidx).index,
                accessed := (now s).1 }).unprotected_in_use := by
            refine unprotected_of_eq (s := s.set_buffer (i : Int) { s.buffer_at (i : Int) with
                is_used := true, pi := (s.piece_at pidx).index,
                accessed := (now s).1 }) ?_ hprot.2.1 hprot.2.2.1
            rw [a1]
            show _ = s.buffers.set (i : Int).toNat _
            rw [Int.toNat_natCast]
          have hadd := unprotected_set_buffer_add s (i : Int) { s.buffer_at (i : Int) with
            is_used := true, pi := (s.piece_at pidx).index, accessed := (now s).1 }
            (by omega) (by omega)
          rw [hfree] at hadd
          simp only [Bool.false_and, Bool.false_eq_true, if_false, Nat.add_zero, Bool.true_and]
            at hadd
          rw [hu, hadd]
          cases hp : (bitset_test s.reserved_pieces (s.piece_at pidx).index ||
              bitset_test s.lookbehind_pieces (s.piece_at pidx).index)
          · rw [(a4 hp).2]
            simp
            omega
          · rw [(a3 hp).2]
            simp
            omega

/-- Evicting a slot that passes the eligibility test of `find_last_buffer`
keeps `buffer_used` equal to the number of unprotected in-use slots. -/
theorem used_remove_piece {s : memory_storage} (h : wf s) (pi bi : Int) (cr : Bool)
    (hi : 0 ≤ bi) (hil : bi < s.buffer_size)
    (hel : eligible s pi cr (s.buffer_at bi) = true)
    (hJ : s.buffer_used = (s.unprotected_in_use : Int)) :
    (s.remove_piece bi).buffer_used = ((s.remove_piece bi).unprotected_in_use : Int) := by
  have hbl := h.buffers_len
  have hused := eligible_used hel
  obtain ⟨hr, hl, _⟩ := eligible_not_protected hel
  have hbi := h.buf bi hi hil
  have hpne : (s.buffer_at bi).pi ≠ -1 := hbi.2.2.1.mp hused
  obtain ⟨hp, hpl, _⟩ := hbi.2.2.2 hpne
  rw [is_reserved_eq_test h _ hp hpl] at hr
  rw [is_lookbehind_eq_test h _ hp hpl] at hl
  obtain ⟨_, f2, f3, _, _, _, _, f8⟩ := remove_piece_frame s bi
  have hu : (s.remove_piece bi).unprotected_in_use =
      (s.set_buffer bi ((s.buffer_at bi).reset (now s).1)).unprotected_in_use :=
    unprotected_of_eq (s := s.set_buffer bi ((s.buffer_at bi).reset (now s).1))
      (remove_piece_buffers s bi) f2 f3
  have hadd := unprotected_set_buffer_add s bi ((s.buffer_at bi).reset (now s).1) hi (by omega)
  have hnew : ((s.buffer_at bi).reset (now s).1).is_used = false := rfl
  rw [hused, hr, hl, hnew] at hadd
  simp only [Bool.or_self, Bool.not_false, Bool.and_self, if_true,
    Bool.false_and, Bool.false_eq_true, if_false, Nat.add_zero] at hadd
  rw [hu, f8]
  omega

theorem used_trim_body {s : memory_storage} (h : wf s) (pi : Int)
    (hJ : s.buffer_used = (s.unprotected_in_use : Int)) :
    (s.trim_body pi).2.buffer_used = ((s.trim_body pi).2.unprotected_in_use : Int) := by
  have key : ∀ (t : memory_storage) (cr : Bool), wf t →
      t.buffer_used = (t.unprotected_in_use : Int) → (t.find_last_buffer pi cr).1 ≠ -1 →
      ((t.find_last_buffer pi cr).2.remove_piece (t.find_last_buffer pi cr).1).buffer_used =
        (((t.find_last_buffer pi cr).2.remove_piece
          (t.find_last_buffer pi cr).1).unprotected_in_use : Int) := by
    intro t cr ht hJt hne
    obtain ⟨h1, h2, h3⟩ := find_last_buffer_victim ht pi cr hne
    exact used_remove_piece (s := (now t).2) (wf_now ht) pi _ cr h1 h2 h3 hJt
  unfold memory_storage.trim_body
  by_cases he : bitset_empty s.reader_pieces = true
  · simp only [he, Bool.not_true, Bool.false_eq_true, if_false, ne_eq, not_true_eq_false]
    split
    · rename_i hne
      exact key s false h hJ hne
    · exact hJ
  · simp only [Bool.not_eq_true] at he
    simp only [he, Bool.not_false, if_true]
    split
    · rename_i hne
      exact key s true h hJ hne
    · split
      · rename_i hne
        exact key (now s).2 false (wf_now h) hJ hne
      · exact hJ

theorem used_trim_loop (pi : Int) : ∀ (fuel : Nat) (s : memory_storage), wf s →
    s.buffer_used = (s.unprotected_in_use : Int) →
    (trim_loop fuel s pi).buffer_used = ((trim_loop fuel s pi).unprotected_in_use : Int) := by
  intro fuel
  induction fuel with
  | zero => intro s _ hJ; exact hJ
  | succ n ih =>
    intro s h hJ
    unfold trim_loop
    split
    · have hb := wf_trim_body h pi
      have hu := used_trim_body h pi hJ
      split
      · rename_i bi s1 heq
        rw [heq] at hb hu
        exact ih s1 hb hu
      · rename_i s1 heq
        rw [heq] at hu
        exact hu
    · exact hJ

theorem used_trim {s : memory_storage} (h : wf s) (pi : Int)
    (hJ : s.buffer_used = (s.unprotected_in_use : Int)) :
    (s.trim pi).buffer_used = ((s.trim pi).unprotected_in_use : Int) := by
  unfold memory_storage.trim
  split
  · exact hJ
  · exact used_trim_loop pi _ s h hJ

theorem unprotected_touch (s : memory_storage) (i : Int) (t : Nat) :
    (s.set_buffer i { s.buffer_at i with accessed := t }).unprotected_in_use =
      s.unprotected_in_use :=
  unprotected_set_buffer_same s i _ rfl rfl

theorem used_writev_store {g : memory_storage}
    (hJ : g.buffer_used = (g.unprotected_in_use : Int)) (bufs : List (List Nat))
    (piece offset : Int) :
    (g.writev_store bufs piece offset).2.buffer_used =
      ((g.writev_store bufs piece offset).2.unprotected_in_use : Int) := by
  have e1 := unprotected_set_buffer_same g (g.piece_at piece).bi
    { g.buffer_at (g.piece_at piece).bi with
      buffer := (writev_loop (g.piece_at piece).length bufs
        (g.buffer_at (g.piece_at piece).bi).buffer offset 0).1 } rfl rfl
  have e2 := unprotected_touch
    (now ((g.set_buffer (g.piece_at piece).bi
      { g.buffer_at (g.piece_at piece).bi with
        buffer := (writev_loop (g.piece_at piece).length bufs
          (g.buffer_at (g.piece_at piece).bi).buffer offset 0).1 }).set_piece piece
      { g.piece_at piece with
        size := (g.piece_at piece).size + (writev_loop (g.piece_at piece).length bufs
          (g.buffer_at (g.piece_at piece).bi).buffer offset 0).2 })).2
    (g.piece_at piece).bi
    (now ((g.set_buffer (g.piece_at piece).bi
      { g.buffer_at (g.piece_at piece).bi with
        buffer := (writev_loop (g.piece_at piece).length bufs
          (g.buffer_at (g.piece_at piece).bi).buffer offset 0).1 }).set_piece piece
      { g.piece_at piece with
        size := (g.piece_at piece).size + (writev_loop (g.piece_at piece).length bufs
          (g.buffer_at (g.piece_at piece).bi).buffer offset 0).2 })).1
  have hun : (g.writev_store bufs piece offset).2.unprotected_in_use = g.unprotected_in_use :=
    e2.trans ((unprotected_of_eq rfl rfl rfl).trans e1)
  rw [hun]
  exact hJ

theorem used_writev {s : memory_storage} (h : wf s) (bufs : List (List Nat))
    (piece offset : Int) (hp : 0 ≤ piece) (hpl : piece < s.piece_count) (ho : 0 ≤ offset)
    (hol : offset ≤ (s.piece_at piece).length)
    (hJ : s.buffer_used = (s.unprotected_in_use : Int)) :
    (s.writev bufs piece offset).2.buffer_used =
      ((s.writev bufs piece offset).2.unprotected_in_use : Int) := by
  have hG := wf_get_buffer h piece true hp hpl
  have hg := used_get_buffer h piece true hJ
  have hst := used_writev_store hg bufs piece offset
  rw [writev_eq]
  split
  · exact hJ
  · split
    · exact hg
    · rename_i hg1
      have hg1t : (s.get_buffer piece true).1 = true := by
        cases hgv : (s.get_buffer piece true).1
        · simp [hgv] at hg1
        · rfl
      have hb := (is_buffered_iff _).mp (get_buffer_true s piece true hg1t)
      obtain ⟨_, _, hs3⟩ := get_buffer_static h piece true hp hpl
      have hpl' : piece < (s.get_buffer piece true).2.piece_count := by
        have := (get_buffer_static h piece true hp hpl).1
        omega
      have hw := (writev_store_spec hG bufs piece offset hp hpl' hb ho
        (by rw [(hs3 piece hp).1]; exact hol)).1
      simp only []
      split
      · exact used_trim hw piece hst
      · exact hst

theorem used_readv {s : memory_storage} (bufs : List (List Nat)) (piece offset : Int)
    (h : wf s) (hJ : s.buffer_used = (s.unprotected_in_use : Int)) :
    (s.readv bufs piece offset).2.2.buffer_used =
      ((s.readv bufs piece offset).2.2.unprotected_in_use : Int) := by
  have hg := used_get_buffer h piece false hJ
  unfold memory_storage.readv memory_storage.get_read_buffer
  simp only []
  split
  · exact hJ
  · split
    · exact hg
    · split
      · rw [unprotected_touch]
        exact hg
      · rw [unprotected_touch]
        exact hg

theorem used_read {s : memory_storage} (read_buf : List Nat) (size piece offset : Int)
    (h : wf s) (hJ : s.buffer_used = (s.unprotected_in_use : Int)) :
    (s.read read_buf size piece offset).2.2.buffer_used =
      ((s.read read_buf size piece offset).2.2.unprotected_in_use : Int) := by
  have h0 : wf { s with is_reading := true } :=
    wf_of_eq h rfl rfl rfl rfl rfl rfl rfl rfl rfl rfl rfl rfl
  have hJ0 : (({ s with is_reading := true } : memory_storage)).buffer_used =
      ((({ s with is_reading := true } : memory_storage)).unprotected_in_use : Int) := by
    rw [unprotected_of_eq (s := s) (t := { s with is_reading := true }) rfl rfl rfl]
    exact hJ
  have hg := used_get_buffer h0 piece false hJ0
  have hr : ((memory_storage.get_buffer { s with is_reading := true } piece false).2.restore_piece
      piece).buffer_used = (((memory_storage.get_buffer { s with is_reading := true } piece
        false).2.restore_piece piece).unprotected_in_use : Int) := by
    obtain ⟨_, f2, f3, _, _, _, _, _, _, f10, f11, _⟩ := restore_piece_frame
      (memory_storage.get_buffer { s with is_reading := true } piece false).2 piece
    rw [f3, unprotected_of_eq f2 f10 f11]
    exact hg
  unfold memory_storage.read memory_storage.get_read_buffer
  simp only []
  split
  · exact hJ
  · split
    · exact hr
    · split
      · exact hr
      · split
        · exact hg
        · split_ifs
          all_goals (rw [unprotected_touch]; exact hg)

theorem countP_unused_zero (p : memory_buffer → Bool) (L : List memory_buffer)
    (hp : ∀ b : memory_buffer, p b = true → b.is_used = true)
    (hL : ∀ (j : Nat) (b : memory_buffer), L[j]? = some b → b.is_used = false) :
    L.countP p = 0 := by
  rw [List.countP_eq_zero]
  intro b hb hpb
  obtain ⟨j, hj⟩ := List.getElem?_of_mem hb
  have := hL j b hj
  rw [hp b hpb] at this
  exact absurd this (by simp)

theorem used_push_buffers (k : Nat) (i : Int) (s : memory_storage)
    (hJ : s.buffer_used = (s.unprotected_in_use : Int)) :
    (push_buffers k i s).buffer_used = ((push_buffers k i s).unprotected_in_use : Int) := by
  obtain ⟨L, h1, _, h3, _, _, _, _, _, _, h10, _, _, h13, h14, _⟩ := push_buffers_spec k i s
  have hL : L.countP (fun b => b.is_used && !(bitset_test s.reserved_pieces b.pi ||
      bitset_test s.lookbehind_pieces b.pi)) = 0 := by
    apply countP_unused_zero
    · intro b hb
      simp only [Bool.and_eq_true] at hb
      exact hb.1
    · intro j b hj
      exact (h3 j b hj).2.2.2.1
  have hu : (push_buffers k i s).unprotected_in_use = s.unprotected_in_use := by
    unfold memory_storage.unprotected_in_use
    rw [h1, h13, h14, List.countP_append, hL]
    rfl
  rw [h10, hu]
  exact hJ

theorem used_set_memory_size {s : memory_storage} (sz : Int)
    (hJ : s.buffer_used = (s.unprotected_in_use : Int)) :
    (s.set_memory_size sz).buffer_used = ((s.set_memory_size sz).unprotected_in_use : Int) := by
  have key : ∀ n : Int,
      (if s.buffer_size = n then
          { s with capacity := sz, buffer_size := n, buffer_limit := n }
        else push_buffers (n - s.buffer_size).toNat s.buffer_size
          { s with capacity := sz, buffer_size := n, buffer_limit := n }).buffer_used =
      (((if s.buffer_size = n then
          { s with capacity := sz, buffer_size := n, buffer_limit := n }
        else push_buffers (n - s.buffer_size).toNat s.buffer_size
          { s with capacity := sz, buffer_size := n, buffer_limit := n }).unprotected_in_use :
            Nat) : Int) := by
    intro n
    have h0 : ({ s with capacity := sz, buffer_size := n, buffer_limit := n } :
        memory_storage).buffer_used =
        ((({ s with capacity := sz, buffer_size := n, buffer_limit := n } :
          memory_storage).unprotected_in_use : Nat) : Int) := by
      rw [unprotected_of_eq (s := s)
        (t := { s with capacity := sz, buffer_size := n, buffer_limit := n }) rfl rfl rfl]
      exact hJ
    split
    · exact h0
    · exact used_push_buffers _ _ _ h0
  unfold memory_storage.set_memory_size
  by_cases h : sz ≤ s.capacity
  · rw [if_pos h]; exact hJ
  · rw [if_neg h]
    exact key _

theorem used_construct (C N pl : Int) (piece_size : Int → Int) (clock : Nat)
    (ticks : List Nat) :
    (memory_storage.construct C N pl piece_size clock ticks).buffer_used =
      ((memory_storage.construct C N pl piece_size clock ticks).unprotected_in_use : Int) := by
  have h0 := used_push_buffers (if ceil_div C pl + 2 > N then N else ceil_div C pl + 2).toNat 0
      { reader_pieces := []
        reserved_pieces := []
        lookbehind_pieces := []
        capacity := C
        piece_count := N
        piece_length := pl
        pieces := (List.range N.toNat).map
          (fun (i : Nat) => memory_piece.mk_new (i : Int) (piece_size (i : Int)))
        buffer_size := (if ceil_div C pl + 2 > N then N else ceil_div C pl + 2)
        buffer_limit := (if ceil_div C pl + 2 > N then N else ceil_div C pl + 2)
        buffer_used := 0
        buffer_reserved := 0
        buffers := []
        m_handle := none
        is_initialized := false
        is_reading := false
        clock := clock
        ticks := ticks } (by simp [memory_storage.unprotected_in_use])
  have hb := (construct_fields C N pl piece_size clock ticks).2.2.2.1
  have hz : (memory_storage.construct C N pl piece_size clock ticks).unprotected_in_use = 0 := by
    unfold memory_storage.unprotected_in_use
    rw [List.countP_eq_zero]
    intro b hbm hpb
    simp only [Bool.and_eq_true] at hpb
    rw [(hb b hbm).2] at hpb
    exact absurd hpb.1 (by simp)
  rw [hz]
  have hle := unprotected_le_in_use
    (push_buffers (if ceil_div C pl + 2 > N then N else ceil_div C pl + 2).toNat 0
      { reader_pieces := []
        reserved_pieces := []
        lookbehind_pieces := []
        capacity := C
        piece_count := N
        piece_length := pl
        pieces := (List.range N.toNat).map
          (fun (i : Nat) => memory_piece.mk_new (i : Int) (piece_size (i : Int)))
        buffer_size := (if ceil_div C pl + 2 > N then N else ceil_div C pl + 2)
        buffer_limit := (if ceil_div C pl + 2 > N then N else ceil_div C pl + 2)
        buffer_used := 0
        buffer_reserved := 0
        buffers := []
        m_handle := none
        is_initialized := false
        is_reading := false
        clock := clock
        ticks := ticks })
  have hin : (memory_storage.construct C N pl piece_size clock ticks).in_use = 0 := by
    unfold memory_storage.in_use
    rw [List.countP_eq_zero]
    intro b hbm hpb
    rw [(hb b hbm).2] at hpb
    exact absurd hpb (by simp)
  have hin2 : (push_buffers (if ceil_div C pl + 2 > N then N else ceil_div C pl + 2).toNat 0
      { reader_pieces := []
        reserved_pieces := []
        lookbehind_pieces := []
        capacity := C
        piece_count := N
        piece_length := pl
        pieces := (List.range N.toNat).map
          (fun (i : Nat) => memory_piece.mk_new (i : Int) (piece_size (i : Int)))
        buffer_size := (if ceil_div C pl + 2 > N then N else ceil_div C pl + 2)
        buffer_limit := (if ceil_div C pl + 2 > N then N else ceil_div C pl + 2)
        buffer_used := 0
        buffer_reserved := 0
        buffers := []
        m_handle := none
        is_initialized := false
        is_reading := false
        clock := clock
        ticks := ticks }).in_use = 0 := hin
  have hu : (memory_storage.construct C N pl piece_size clock ticks).buffer_used =
      (push_buffers (if ceil_div C pl + 2 > N then N else ceil_div C pl + 2).toNat 0
      { reader_pieces := []
        reserved_pieces := []
        lookbehind_pieces := []
        capacity := C
        piece_count := N
        piece_length := pl
        pieces := (List.range N.toNat).map
          (fun (i : Nat) => memory_piece.mk_new (i : Int) (piece_size (i : Int)))
        buffer_size := (if ceil_div C pl + 2 > N then N else ceil_div C pl + 2)
        buffer_limit := (if ceil_div C pl + 2 > N then N else ceil_div C pl + 2)
        buffer_used := 0
        buffer_reserved := 0
        buffers := []
        m_handle := none
        is_initialized := false
        is_reading := false
        clock := clock
        ticks := ticks }).buffer_used := rfl
  rw [hu, h0]
  simp only [Nat.cast_eq_zero, CharP.cast_eq_zero]
  omega

theorem used_of_eq {s t : memory_storage} (e1 : t.buffers = s.buffers)
    (e2 : t.reserved_pieces = s.reserved_pieces)
    (e3 : t.lookbehind_pieces = s.lookbehind_pieces) (e4 : t.buffer_used = s.buffer_used)
    (hJ : s.buffer_used = (s.unprotected_in_use : Int)) :
    t.buffer_used = (t.unprotected_in_use : Int) := by
  rw [e4, unprotected_of_eq e1 e2 e3]
  exact hJ

theorem reachable_of_settled {s : memory_storage} (h : reachable_settled s) : reachable s := by
  induction h with
  | construct memory_size num_pieces piece_length piece_size clock ticks hcap hlen hnum hsize =>
    exact reachable.construct memory_size num_pieces piece_length piece_size clock ticks hcap
      hlen hnum hsize
  | step s o _ hpre _ ih => exact reachable.step s o ih hpre

/-- A state without a slot in use, brought to any protection bit-sets, has no
unprotected in-use slot. -/
theorem unprotected_zero {s t : memory_storage} (hb : t.buffers = s.buffers)
    (h0 : s.in_use = 0) : t.unprotected_in_use = 0 := by
  have h1 := unprotected_le_in_use t
  have h2 : t.in_use = s.in_use := by
    unfold memory_storage.in_use
    rw [hb]
  omega

theorem used_protection_update {s t : memory_storage} (hb : t.buffers = s.buffers)
    (hu : t.buffer_used = s.buffer_used) (h0 : s.in_use = 0)
    (hJ : s.buffer_used = (s.unprotected_in_use : Int)) :
    t.buffer_used = (t.unprotected_in_use : Int) := by
  have h1 := unprotected_zero (s := s) (t := s) rfl h0
  have h2 := unprotected_zero hb h0
  rw [hu, hJ, h1, h2]

/-- When the protection lists are only replaced while no slot is in use,
`buffer_used` is the number of in-use slots whose piece is unprotected. -/
theorem settled_used {s : memory_storage} (h : reachable_settled s) :
    s.buffer_used = (s.unprotected_in_use : Int) := by
  induction h with
  | construct memory_size num_pieces piece_length piece_size clock ticks hcap hlen hnum hsize =>
    exact used_construct _ _ _ _ _ _
  | step s o hs hpre hq ih =>
    have hw := reachable_wf (reachable_of_settled hs)
    cases o with
    | writev bufs piece offset =>
      exact used_writev hw bufs piece offset hpre.1 hpre.2.1 hpre.2.2.1 hpre.2.2.2 ih
    | readv bufs piece offset => exact used_readv bufs piece offset hw ih
    | read read_buf size piece offset => exact used_read read_buf size piece offset hw ih
    | update_reader_pieces l =>
      show (s.update_reader_pieces l).buffer_used =
        ((s.update_reader_pieces l).unprotected_in_use : Int)
      unfold memory_storage.update_reader_pieces
      split
      · exact ih
      · exact used_of_eq (s := s) rfl rfl rfl rfl ih
    | update_reserved_pieces l =>
      show (s.update_reserved_pieces l).buffer_used =
        ((s.update_reserved_pieces l).unprotected_in_use : Int)
      unfold memory_storage.update_reserved_pieces
      split
      · exact ih
      · exact used_protection_update (s := s) rfl rfl (hq rfl) ih
    | set_lookbehind_pieces l =>
      show (s.set_lookbehind_pieces l).buffer_used =
        ((s.set_lookbehind_pieces l).unprotected_in_use : Int)
      unfold memory_storage.set_lookbehind_pieces
      split
      · exact ih
      · exact used_protection_update (s := s) rfl rfl (hq rfl) ih
    | clear_lookbehind =>
      show s.clear_lookbehind.buffer_used = (s.clear_lookbehind.unprotected_in_use : Int)
      unfold memory_storage.clear_lookbehind
      split
      · exact ih
      · exact used_protection_update (s := s) rfl rfl (hq rfl) ih
    | set_memory_size sz => exact used_set_memory_size sz ih
    | set_torrent_handle t =>
      exact used_of_eq (s := s) rfl rfl rfl rfl ih
    | picker_priorities prios =>
      exact used_of_eq (s := s) rfl rfl rfl rfl ih
    | clock_ticks ticks =>
      exact used_of_eq (s := s) rfl rfl rfl rfl ih

theorem scenario26_reachable : reachable scenario26 :=
  reachable.step _ (op.update_reserved_pieces [0]) scenario21_reachable trivial

theorem scenario19_settled : reachable_settled scenario19 :=
  reachable_settled.step _ (op.writev [[9, 10, 11, 12]] 2 0)
    (reachable_settled.step _ (op.writev [[5, 6, 7, 8]] 1 0)
      (reachable_settled.step _ (op.writev [[1, 2, 3, 4]] 0 0)
        (reachable_settled.step _ (op.set_lookbehind_pieces [1])
          (reachable_settled.step _ (op.update_reserved_pieces [0])
            (reachable_settled.construct 16 4 4 (fun _ => 4) 0 (List.replicate 40 1)
              (by decide) (by decide) (by decide) (by intro i _ _; simp))
            trivial (by decide))
          trivial (by decide))
        ⟨by decide, by decide, by decide, by decide⟩ (by decide))
      ⟨by decide, by decide, by decide, by decide⟩ (by decide))
    ⟨by decide, by decide, by decide, by decide⟩ (by decide)

/-- Counterexample to C26 as stated: piece 0 is written (`buffer_used = 1`) and
then reserved by `update_reserved_pieces({0})`; in the state reached
`buffer_used` is still 1 while no in-use slot holds an unprotected piece. -/
theorem used_after_protection_update :
    reachable scenario26 ∧ scenario26.in_use = 1 ∧
    bitset_test scenario26.reserved_pieces 0 = true ∧
    scenario26.buffer_used = 1 ∧ scenario26.unprotected_in_use = 0 ∧
    scenario26.buffer_used ≠ (scenario26.unprotected_in_use : Int) :=
  ⟨scenario26_reachable, by decide, by decide, by decide, by decide, by decide⟩

namespace memory_disk_io

theorem map_find_insert_self {α : Type} (k : Int) (v : α) : ∀ m : List (Int × α),
    map_find (map_insert m k v) k = some v := by
  intro m
  induction m with
  | nil => simp [map_insert, map_find]
  | cons a rest ih =>
    obtain ⟨k1, v1⟩ := a
    unfold map_insert
    split
    · simp [map_find]
    · split
      · simp [map_find]
      · rename_i h1 h2
        have hne : (k1 == k) = false := by
          simp only [beq_eq_false_iff_ne, ne_eq]
          exact fun h => h2 h.symm
        unfold map_find at ih ⊢
        rw [List.find?_cons]
        simp only [hne]
        exact ih

theorem map_find_insert_ne {α : Type} (k j : Int) (v : α) (hjk : j ≠ k) :
    ∀ m : List (Int × α), map_find (map_insert m k v) j = map_find m j := by
  intro m
  induction m with
  | nil =>
    have : (k == j) = false := by
      simp only [beq_eq_false_iff_ne, ne_eq]
      exact fun h => hjk h.symm
    simp [map_insert, map_find, this]
  | cons a rest ih =>
    obtain ⟨k1, v1⟩ := a
    have hkj : (k == j) = false := by
      simp only [beq_eq_false_iff_ne, ne_eq]
      exact fun h => hjk h.symm
    unfold map_insert
    split
    · unfold map_find
      rw [List.find?_cons]
      simp only [hkj]
    · split
      · rename_i h1 h2
        subst h2
        unfold map_find
        rw [List.find?_cons, List.find?_cons]
        simp only [hkj]
      · unfold map_find at ih ⊢
        rw [List.find?_cons, List.find?_cons]
        cases hc : (k1 == j)
        · simp only []
          exact ih
        · rfl

theorem map_find_erase_ne {α : Type} (k j : Int) (hjk : j ≠ k) (m : List (Int × α)) :
    map_find (map_erase m k) j = map_find m j := by
  unfold map_find map_erase
  induction m with
  | nil => rfl
  | cons a rest ih =>
    rw [List.filter_cons]
    cases hc : (a.1 != k)
    · simp only [Bool.false_eq_true, if_false]
      rw [ih, List.find?_cons]
      have : (a.1 == j) = false := by
        simp only [bne_eq_false_iff_eq] at hc
        simp only [beq_eq_false_iff_ne, ne_eq]
        rw [hc]
        exact fun h => hjk h.symm
      simp only [this]
    · simp only [if_true]
      rw [List.find?_cons, List.find?_cons]
      cases hd : (a.1 == j)
      · simp only []
        exact ih
      · rfl

theorem readv_resident (s : memory_storage) (r : peer_request) (ec : storage_error)
    (data : List Nat) (h : map_find s.m_file_data r.piece = some data)
    (hlt : r.start < (data.length : Int)) :
    s.readv r ec =
      ((data.drop r.start.toNat).take (min r.length ((data.length : Int) - r.start)).toNat,
        ec) := by
  unfold memory_storage.readv
  rw [h]
  simp only [if_neg (not_le.mpr hlt)]

/-- C22: in the 2.0.x cache `readv(r, ec)` with `r.start ≥ 0` and `r.length ≥ 0`
returns an empty span and sets `ec` to end-of-file (operation `file_read`) when
the piece `r.piece` has no entry in `m_file_data` or its stored size is at most
`r.start`; otherwise it leaves `ec` as it was and returns the
`min(r.length, stored size - r.start)` bytes stored from offset `r.start` on.
Hence a call entered with a cleared `ec` reports end-of-file exactly in the
first case. `readv` is a `const` method: it returns no new state. -/
theorem readv_eof_or_bytes (s : memory_storage) (r : peer_request) (ec : storage_error)
    (hstart : 0 ≤ r.start) (hlen : 0 ≤ r.length) :
    ((map_find s.m_file_data r.piece = none ∨
        ∃ data, map_find s.m_file_data r.piece = some data ∧ (data.length : Int) ≤ r.start) →
      s.readv r ec = ([], { ec with operation := operation_t.file_read, ec := some errc.eof })) ∧
    (∀ data, map_find s.m_file_data r.piece = some data → r.start < (data.length : Int) →
      s.readv r ec =
        ((data.drop r.start.toNat).take (min r.length ((data.length : Int) - r.start)).toNat,
          ec) ∧
      (((s.readv r ec).1.length : Nat) : Int) = min r.length ((data.length : Int) - r.start)) ∧
    (ec.ec = none →
      ((s.readv r ec).2.ec = some errc.eof ↔
        (map_find s.m_file_data r.piece = none ∨
          ∃ data, map_find s.m_file_data r.piece = some data ∧
            (data.length : Int) ≤ r.start))) := by
  have hA : (map_find s.m_file_data r.piece = none ∨
        ∃ data, map_find s.m_file_data r.piece = some data ∧ (data.length : Int) ≤ r.start) →
      s.readv r ec =
        ([], { ec with operation := operation_t.file_read, ec := some errc.eof }) := by
    rintro (h | ⟨data, h, hle⟩)
    · unfold memory_storage.readv
      rw [h]
    · unfold memory_storage.readv
      rw [h]
      simp only [hle, if_true]
  have hB : ∀ data, map_find s.m_file_data r.piece = some data →
      r.start < (data.length : Int) →
      s.readv r ec =
        ((data.drop r.start.toNat).take (min r.length ((data.length : Int) - r.start)).toNat,
          ec) := fun data h hlt => readv_resident s r ec data h hlt
  refine ⟨hA, ?_, ?_⟩
  · intro data h hlt
    refine ⟨hB data h hlt, ?_⟩
    rw [hB data h hlt]
    simp only [List.length_take, List.length_drop]
    omega
  · intro hec
    constructor
    · intro he
      cases hf : map_find s.m_file_data r.piece with
      | none => exact Or.inl rfl
      | some data =>
        right
        refine ⟨data, rfl, ?_⟩
        by_contra hlt
        rw [hB data hf (by omega)] at he
        rw [hec] at he
        exact absurd he (by simp)
    · intro h
      rw [hA h]

/-- Witness of C22: in `scenario22` piece 0 holds `[1, 2, 3, 4]` and piece 1
has no data; a read of 2 bytes of piece 0 at offset 1 returns `[2, 3]` with `ec`
untouched, a read of 8 bytes at offset 1 returns the 3 bytes `[2, 3, 4]`, and
reads of piece 1 and of piece 0 at offset 4 report end-of-file. -/
theorem readv_eof_or_bytes_witness :
    scenario22.readv { piece := 0, start := 1, length := 2 }
        { ec := none, operation := operation_t.unknown } =
      ([2, 3], { ec := none, operation := operation_t.unknown }) ∧
    scenario22.readv { piece := 0, start := 1, length := 8 }
        { ec := none, operation := operation_t.unknown } =
      ([2, 3, 4], { ec := none, operation := operation_t.unknown }) ∧
    scenario22.readv { piece := 1, start := 0, length := 4 }
        { ec := none, operation := operation_t.unknown } =
      ([], { ec := some errc.eof, operation := operation_t.file_read }) ∧
    scenario22.readv { piece := 0, start := 4, length := 4 }
        { ec := none, operation := operation_t.unknown } =
      ([], { ec := some errc.eof, operation := operation_t.file_read }) :=
  ⟨((readv_eof_or_bytes scenario22 { piece := 0, start := 1, length := 2 }
      { ec := none, operation := operation_t.unknown } (by decide) (by decide)).2.1
      [1, 2, 3, 4] (by decide) (by decide)).1.trans (by decide),
    by decide, by decide, by decide⟩

end memory_disk_io

namespace memory_disk_io

theorem resize_length (data : List Nat) (n : Nat) : (resize data n).length = n := by
  unfold resize
  simp only [List.length_append, List.length_take, List.length_replicate]
  omega

theorem resize_arith (o : Int) (bl dl : Nat) (ho : 0 ≤ o) :
    (((if (dl : Int) < o + (bl : Int) then (o + (bl : Int)).toNat else dl) : Nat) : Int) ≥
      o + (bl : Int) ∧ o.toNat + bl ≤ (if (dl : Int) < o + (bl : Int) then (o + (bl : Int)).toNat
        else dl) := by
  split <;> constructor <;> omega

/-- A `writev` that returns leaves under the piece the bytes it held, grown to
at least `offset + |b|` bytes, with `b` copied in at `offset`. -/
theorem writev_file_data (fuel : Nat) (s t : memory_storage) (b : List Nat)
    (piece offset : Int) (ho : 0 ≤ offset)
    (h : memory_storage.writev fuel s b piece offset = some t) :
    ∃ data1 : List Nat, offset.toNat + b.length ≤ data1.length ∧
      map_find t.m_file_data piece = some (memcpy_into data1 offset.toNat b b.length) := by
  unfold memory_storage.writev at h
  simp only [Option.map_eq_some'] at h
  obtain ⟨sd, _, rfl⟩ := h
  refine ⟨if (sd.2.length : Int) < offset + (b.length : Int)
    then resize sd.2 (offset + (b.length : Int)).toNat else sd.2, ?_, ?_⟩
  · have := (resize_arith offset b.length sd.2.length ho).2
    split
    · rename_i hc
      rw [if_pos hc] at this
      rw [resize_length]
      exact this
    · rename_i hc
      rw [if_neg hc] at this
      exact this
  · exact map_find_insert_self piece _ _

/-- Reading back what `writev` stored: `|b|` bytes at `offset`. -/
theorem read_back (t : memory_storage) (b data1 : List Nat) (piece offset : Int)
    (ec : storage_error) (ho : 0 ≤ offset) (hb : b ≠ [])
    (hlen : offset.toNat + b.length ≤ data1.length)
    (hf : map_find t.m_file_data piece = some (memcpy_into data1 offset.toNat b b.length)) :
    t.readv { piece := piece, start := offset, length := (b.length : Int) } ec = (b, ec) := by
  have hbl : 0 < b.length := List.length_pos.mpr hb
  have hml : (memcpy_into data1 offset.toNat b b.length).length = data1.length :=
    memcpy_into_length data1 b offset.toNat b.length hlen (le_refl _)
  rw [readv_resident t { piece := piece, start := offset, length := (b.length : Int) } ec _ hf
    (by rw [hml]; show offset < (data1.length : Int); omega)]
  congr 1
  show ((memcpy_into data1 offset.toNat b b.length).drop offset.toNat).take
    (min (b.length : Int)
      (((memcpy_into data1 offset.toNat b b.length).length : Int) - offset)).toNat = b
  have hmin : (min (b.length : Int)
      (((memcpy_into data1 offset.toNat b b.length).length : Int) - offset)).toNat =
      b.length := by
    rw [hml]
    omega
  rw [hmin, memcpy_into_eq, List.take_length]
  have hA : (data1.take offset.toNat).length = offset.toNat := by
    rw [List.length_take]
    omega
  exact (splice_parts (data1.take offset.toNat) b (data1.drop (offset.toNat + b.length))
    offset.toNat b.length hA rfl).1

theorem trim_scan_result (s : memory_storage) (cp : Int) :
    ∀ (l : List (Int × Nat)) (init : Int) (t0 : Nat),
      trim_scan s cp l init t0 = init ∨ ∃ kv ∈ l, trim_scan s cp l init t0 = kv.1 := by
  intro l
  induction l with
  | nil => intro init t0; exact Or.inl rfl
  | cons a rest ih =>
    intro init t0
    have lift : ∀ (i : Int) (t : Nat),
        (trim_scan s cp rest i t = i ∨ ∃ kv ∈ rest, trim_scan s cp rest i t = kv.1) →
        (trim_scan s cp rest i t = i ∨
          ∃ kv ∈ a :: rest, trim_scan s cp rest i t = kv.1) := by
      rintro i t (h | ⟨kv, hm, h⟩)
      · exact Or.inl h
      · exact Or.inr ⟨kv, List.mem_cons_of_mem _ hm, h⟩
    unfold trim_scan
    split
    · exact lift _ _ (ih init t0)
    · split
      · exact lift _ _ (ih init t0)
      · split
        · rcases ih a.1 a.2 with h | ⟨kv, hm, h⟩
          · exact Or.inr ⟨a, List.mem_cons_self _ _, h⟩
          · exact Or.inr ⟨kv, List.mem_cons_of_mem _ hm, h⟩
        · exact lift _ _ (ih init t0)

theorem map_erase_length_lt {α : Type} (m : List (Int × α)) (kv : Int × α) (hm : kv ∈ m) :
    (map_erase m kv.1).length < m.length := by
  unfold map_erase
  induction m with
  | nil => simp at hm
  | cons a rest ih =>
    rw [List.filter_cons]
    rcases List.mem_cons.mp hm with h | h
    · subst h
      simp only [bne_self_eq_false, Bool.false_eq_true, if_false, List.length_cons]
      have := List.length_filter_le (fun x : Int × α => x.1 != kv.1) rest
      omega
    · have := ih h
      split
      · simp only [List.length_cons]
        omega
      · simp only [List.length_cons]
        omega

theorem mem_map_erase {α : Type} (m : List (Int × α)) (k : Int) (kv : Int × α)
    (h : kv ∈ map_erase m k) : kv ∈ m ∧ kv.1 ≠ k := by
  unfold map_erase at h
  rw [List.mem_filter] at h
  exact ⟨h.1, by simpa using h.2⟩

theorem consistent_remove_piece {s : memory_storage} (h : consistent s) (k : Int) :
    consistent (s.remove_piece k) := by
  unfold memory_storage.remove_piece
  split
  · intro kv hkv
    obtain ⟨h1, h2⟩ := mem_map_erase s.m_access_times k kv hkv
    show (map_find (map_erase s.m_file_data k) kv.1).isSome = true
    rw [map_find_erase_ne k kv.1 h2]
    exact h kv h1
  · exact h

/-- In a state where every piece with an access time has data, `trim` comes to
an end within `|m_access_times| + 1` passes, and leaves such a state. -/
theorem trim_total (cp : Int) : ∀ (fuel : Nat) (s : memory_storage), consistent s →
    s.m_access_times.length < fuel →
    ∃ t, memory_storage.trim fuel s cp = some t ∧ consistent t ∧
      t.m_access_times.length ≤ s.m_access_times.length := by
  intro fuel
  induction fuel with
  | zero => intro s _ hlt; omega
  | succ n ih =>
    intro s hc hlt
    unfold memory_storage.trim
    split
    · simp only []
      split
      · exact ⟨_, rfl, hc, le_refl _⟩
      · rename_i hne
        rcases trim_scan_result (now s).2 cp (now s).2.m_access_times (-1) (now s).1 with
          h | ⟨kv, hm, h⟩
        · exact absurd h hne
        · have hm2 : kv ∈ s.m_access_times := hm
          have hsome := hc kv hm2
          have hlen := map_erase_length_lt s.m_access_times kv hm2
          have hcr : consistent ((now s).2.remove_piece kv.1) :=
            consistent_remove_piece (s := (now s).2) hc kv.1
          have hlr : ((now s).2.remove_piece kv.1).m_access_times.length <
              s.m_access_times.length := by
            unfold memory_storage.remove_piece
            have hf : map_find (now s).2.m_file_data kv.1 = map_find s.m_file_data kv.1 := rfl
            cases hv : map_find s.m_file_data kv.1 with
            | none => rw [hv] at hsome; simp at hsome
            | some d =>
              rw [hf, hv]
              exact hlen
          rw [h]
          obtain ⟨t, ht, hct, hlt2⟩ := ih _ hcr (by omega)
          exact ⟨t, ht, hct, by omega⟩
    · exact ⟨s, rfl, hc, le_refl _⟩

/-- Allowing `trim` more passes than it needs changes nothing. -/
theorem trim_fuel_mono (cp : Int) : ∀ (fuel : Nat) (s t : memory_storage),
    memory_storage.trim fuel s cp = some t → ∀ k : Nat,
    memory_storage.trim (fuel + k) s cp = some t := by
  intro fuel
  induction fuel with
  | zero =>
    intro s t h k
    unfold memory_storage.trim at h
    split at h
    · simp at h
    · rename_i hc
      cases k with
      | zero => unfold memory_storage.trim; rw [if_neg hc]; exact h
      | succ j =>
        have e : 0 + (j + 1) = j + 1 := by omega
        rw [e]
        unfold memory_storage.trim
        rw [if_neg hc]
        exact h
  | succ n ih =>
    intro s t h k
    have e : n + 1 + k = (n + k) + 1 := by omega
    rw [e]
    unfold memory_storage.trim at h ⊢
    split
    · rename_i hc
      rw [if_pos hc] at h
      simp only [] at h ⊢
      split
      · rename_i ho
        rw [if_pos ho] at h
        exact h
      · rename_i ho
        rw [if_neg ho] at h
        exact ih _ t h k
    · rename_i hc
      rw [if_neg hc] at h
      exact h

theorem trim_consistent (cp : Int) : ∀ (fuel : Nat) (s t : memory_storage), consistent s →
    memory_storage.trim fuel s cp = some t → consistent t := by
  intro fuel
  induction fuel with
  | zero =>
    intro s t hc h
    unfold memory_storage.trim at h
    split at h
    · simp at h
    · simp only [Option.some.injEq] at h
      rw [← h]; exact hc
  | succ n ih =>
    intro s t hc h
    unfold memory_storage.trim at h
    split at h
    · simp only [] at h
      split at h
      · simp only [Option.some.injEq] at h
        rw [← h]; exact hc
      · exact ih _ t (consistent_remove_piece (s := (now s).2) hc _) h
    · simp only [Option.some.injEq] at h
      rw [← h]; exact hc

theorem mem_map_insert {α : Type} (k : Int) (v : α) (kv : Int × α) :
    ∀ m : List (Int × α), kv ∈ map_insert m k v → kv = (k, v) ∨ kv ∈ m := by
  intro m
  induction m with
  | nil =>
    intro h
    simp only [map_insert, List.mem_singleton] at h
    exact Or.inl h
  | cons a rest ih =>
    obtain ⟨k1, v1⟩ := a
    intro h
    unfold map_insert at h
    split at h
    · rcases List.mem_cons.mp h with h1 | h1
      · exact Or.inl h1
      · exact Or.inr h1
    · split at h
      · rcases List.mem_cons.mp h with h1 | h1
        · exact Or.inl h1
        · exact Or.inr (List.mem_cons_of_mem _ h1)
      · rcases List.mem_cons.mp h with h1 | h1
        · exact Or.inr (by rw [h1]; exact List.mem_cons_self _ _)
        · rcases ih h1 with h2 | h2
          · exact Or.inl h2
          · exact Or.inr (List.mem_cons_of_mem _ h2)

/-- Storing data and an access time for a piece keeps the state consistent. -/
theorem consistent_store {s t : memory_storage} (hc : consistent s) (piece : Int)
    (data : List Nat) (time : Nat)
    (hf : t.m_file_data = map_insert s.m_file_data piece data)
    (ha : t.m_access_times = map_insert s.m_access_times piece time) : consistent t := by
  intro kv hkv
  rw [ha] at hkv
  rw [hf]
  by_cases hk : kv.1 = piece
  · rw [hk, map_find_insert_self]; rfl
  · rw [map_find_insert_ne piece kv.1 _ hk]
    rcases mem_map_insert piece time kv _ hkv with h | h
    · rw [h] at hk
      exact absurd rfl hk
    · exact hc kv h

theorem consistent_insert_data {s : memory_storage} (hc : consistent s) (piece : Int)
    (data : List Nat) :
    consistent { s with m_file_data := map_insert s.m_file_data piece data } := by
  intro kv hkv
  show (map_find (map_insert s.m_file_data piece data) kv.1).isSome = true
  by_cases hk : kv.1 = piece
  · rw [hk, map_find_insert_self]; rfl
  · rw [map_find_insert_ne piece kv.1 _ hk]
    exact hc kv hkv

/-- The state in which `writev` reaches its `data.empty()` test. -/
theorem consistent_entry {s : memory_storage} (hc : consistent s) (piece : Int) :
    consistent (s.file_data_entry piece) := by
  unfold memory_storage.file_data_entry
  split
  · exact hc
  · exact consistent_insert_data hc piece []

theorem file_data_entry_access (s : memory_storage) (piece : Int) :
    (s.file_data_entry piece).m_access_times = s.m_access_times := by
  unfold memory_storage.file_data_entry
  split <;> rfl

theorem consistent_writev {s t : memory_storage} (hc : consistent s) (fuel : Nat)
    (b : List Nat) (piece offset : Int)
    (h : memory_storage.writev fuel s b piece offset = some t) : consistent t := by
  have he := consistent_entry hc piece
  unfold memory_storage.writev at h
  simp only [Option.map_eq_some'] at h
  obtain ⟨sd, hsd, rfl⟩ := h
  have hsd1 : consistent sd.1 := by
    split at hsd
    · simp only [Option.map_eq_some'] at hsd
      obtain ⟨s2, hs2, rfl⟩ := hsd
      have hs2c : consistent s2 := by
        split at hs2
        · exact trim_consistent piece fuel _ s2 he hs2
        · simp only [Option.some.injEq] at hs2
          rw [← hs2]; exact he
      exact hs2c
    · simp only [Option.some.injEq] at hsd
      rw [← hsd]; exact he
  exact consistent_store hsd1 piece _ _ rfl rfl

theorem writev_total {s : memory_storage} (hc : consistent s) (b : List Nat)
    (piece offset : Int) :
    ∃ t, memory_storage.writev (s.m_access_times.length + 1) s b piece offset = some t := by
  have he := consistent_entry hc piece
  have hlen : (s.file_data_entry piece).m_access_times.length < s.m_access_times.length + 1 := by
    rw [file_data_entry_access]
    exact Nat.lt_succ_self _
  obtain ⟨t2, ht2, _⟩ := trim_total piece (s.m_access_times.length + 1) _ he hlen
  rw [← Option.isSome_iff_exists]
  unfold memory_storage.writev
  simp only [Option.isSome_map']
  split
  · split
    · rw [ht2]; rfl
    · rfl
  · rfl

/-- Allowing the `trim` inside `writev` more passes than it needs changes
nothing. -/
theorem writev_fuel_mono (fuel : Nat) (s t : memory_storage) (b : List Nat)
    (piece offset : Int) (h : memory_storage.writev fuel s b piece offset = some t) (k : Nat) :
    memory_storage.writev (fuel + k) s b piece offset = some t := by
  unfold memory_storage.writev at h ⊢
  simp only [] at h ⊢
  by_cases hd : ((map_find (s.file_data_entry piece).m_file_data piece).getD []).isEmpty = true
  · rw [if_pos hd] at h ⊢
    by_cases hq : (s.file_data_entry piece).capacity > 0 ∧
        (s.file_data_entry piece).buffer_used ≥ (s.file_data_entry piece).buffer_limit
    · rw [if_pos hq] at h ⊢
      cases htr : memory_storage.trim fuel (s.file_data_entry piece) piece with
      | none => rw [htr] at h; simp at h
      | some t2 =>
        rw [trim_fuel_mono piece fuel _ t2 htr k]
        rw [htr] at h
        exact h
    · rw [if_neg hq] at h ⊢
      exact h
  · rw [if_neg hd] at h ⊢
    exact h

theorem consistent_construct (C : Int) (files : List Int) (pl N : Int) (clock : Nat)
    (ticks : List Nat) : consistent (memory_storage.construct C files pl N clock ticks) := by
  intro kv hkv
  simp [memory_storage.construct] at hkv

/-- C23: in the 2.0.x cache, for every piece, offset `≥ 0` and non-empty byte
span `b`: whenever `writev(b, piece, offset)` returns, a `readv` with
`r.piece = piece`, `r.start = offset`, `r.length = |b|` made in the state it
leaves returns exactly `b` and leaves `ec` untouched; and in a state where every
piece with an access time has data (the states reached from construction by
`writev` and `remove_piece`) the call does return, its `trim` needing at most
`|m_access_times| + 1` passes, and leaves such a state. -/
theorem write_then_read (s : memory_storage) (b : List Nat) (piece offset : Int)
    (ho : 0 ≤ offset) (hb : b ≠ []) :
    (∀ (fuel : Nat) (t : memory_storage) (ec : storage_error),
      memory_storage.writev fuel s b piece offset = some t →
      t.readv { piece := piece, start := offset, length := (b.length : Int) } ec = (b, ec)) ∧
    (consistent s →
      ∃ t, memory_storage.writev (s.m_access_times.length + 1) s b piece offset = some t ∧
        (∀ k : Nat,
          memory_storage.writev (s.m_access_times.length + 1 + k) s b piece offset = some t) ∧
        consistent t ∧
        ∀ ec : storage_error,
          t.readv { piece := piece, start := offset, length := (b.length : Int) } ec =
            (b, ec)) := by
  have key : ∀ (fuel : Nat) (t : memory_storage) (ec : storage_error),
      memory_storage.writev fuel s b piece offset = some t →
      t.readv { piece := piece, start := offset, length := (b.length : Int) } ec = (b, ec) := by
    intro fuel t ec h
    obtain ⟨data1, hlen, hf⟩ := writev_file_data fuel s t b piece offset ho h
    exact read_back t b data1 piece offset ec ho hb hlen hf
  refine ⟨key, fun hc => ?_⟩
  obtain ⟨t, ht⟩ := writev_total hc b piece offset
  exact ⟨t, ht, fun k => writev_fuel_mono _ s t b piece offset ht k,
    consistent_writev hc _ b piece offset ht, fun ec => key _ t ec ht⟩

theorem scenario22_consistent : consistent scenario22 := by
  unfold consistent
  decide

/-- Witness of C23: in `scenario22` (piece 0 resident, piece 1 not) writing
`[9, 8]` to piece 1 at offset 1 returns, and reading 2 bytes of piece 1 at
offset 1 afterwards gives `[9, 8]`. -/
theorem write_then_read_witness :
    consistent scenario22 ∧
    (∃ t, memory_storage.writev (scenario22.m_access_times.length + 1) scenario22 [9, 8] 1 1 =
        some t ∧
      (∀ k : Nat, memory_storage.writev (scenario22.m_access_times.length + 1 + k) scenario22
        [9, 8] 1 1 = some t) ∧
      consistent t ∧
      ∀ ec : storage_error,
        t.readv { piece := 1, start := 1, length := (([9, 8] : List Nat).length : Int) } ec =
          ([9, 8], ec)) ∧
    (memory_storage.writev 2 scenario22 [9, 8] 1 1).map
        (fun t => t.readv { piece := 1, start := 1, length := 2 }
          { ec := none, operation := operation_t.unknown }) =
      some ([9, 8], { ec := none, operation := operation_t.unknown }) :=
  ⟨scenario22_consistent,
    (write_then_read scenario22 [9, 8] 1 1 (by decide) (by decide)).2 scenario22_consistent,
    by decide⟩

end memory_disk_io

namespace memory_disk_io

/-- A state in which `trim(0)` never comes to an end: piece 1 has an access time
earlier than the next clock reading and no protection, so every pass picks it, but it has no
data, so `remove_piece(1)` changes nothing and `buffer_used` stays at or above
`buffer_limit`. -/
theorem trim_stuck : ∀ (fuel : Nat) (s : memory_storage),
    map_find s.m_file_data 1 = none → s.m_access_times = [(0, 1), (1, 2)] →
    2 < s.clock + s.ticks.headD 0 →
    s.buffer_limit ≤ s.buffer_used → s.m_num_pieces = 2 →
    bitset_test s.reserved_pieces 1 = false → bitset_test s.lookbehind_pieces 1 = false →
    memory_storage.trim fuel s 0 = none := by
  intro fuel
  induction fuel with
  | zero =>
    intro s _ _ _ hq _ _ _
    unfold memory_storage.trim
    rw [if_pos (by omega)]
  | succ n ih =>
    intro s hf ha hc hq hn hr hl
    have hge : 2 < (now s).1 := hc
    have hscan : trim_scan (now s).2 0 (now s).2.m_access_times (-1) (now s).1 = 1 := by
      have ha2 : (now s).2.m_access_times = [(0, 1), (1, 2)] := ha
      have hr2 : bitset_test (now s).2.reserved_pieces 1 = false := hr
      have hl2 : bitset_test (now s).2.lookbehind_pieces 1 = false := hl
      rw [ha2]
      unfold trim_scan
      simp only [if_true]
      unfold trim_scan
      simp only [hr2, hl2, Bool.or_self, Bool.false_eq_true, and_false, if_false,
        one_ne_zero]
      rw [if_pos (by omega)]
      rfl
    have hrm : (now s).2.remove_piece 1 = (now s).2 := by
      unfold memory_storage.remove_piece
      have : map_find (now s).2.m_file_data 1 = none := hf
      rw [this]
    unfold memory_storage.trim
    rw [if_pos (by omega)]
    simp only [hscan]
    rw [if_neg (by decide), hrm]
    have hnext : 2 < (now s).2.clock + (now s).2.ticks.headD 0 := by
      have : (now s).2.clock = (now s).1 := rfl
      omega
    exact ih (now s).2 hf ha hnext hq hn hr hl

theorem scenario25_reachable : reachable scenario25 :=
  reachable.release_files _
    (reachable.writev
      (((memory_storage.construct 4 [4, 4] 4 2 0 (List.replicate 40 1)).writev 0
        [1, 2, 3, 4] 0 0).getD (memory_storage.construct 4 [4, 4] 4 2 0 []))
      _ 0 [5, 6, 7, 8] 1 0
      (reachable.writev (memory_storage.construct 4 [4, 4] 4 2 0 (List.replicate 40 1))
        _ 0 [1, 2, 3, 4] 0 0
        (reachable.construct 4 [4, 4] 4 2 0 (List.replicate 40 1))
        (by decide) (by decide) (by decide))
      (by decide) (by decide) (by decide))

/-- C25, the divergence: `scenario25` is reached from construction by two
`writev` calls and `async_release_files`; it has `buffer_used = buffer_limit = 2`
and access times for the pieces 0 and 1 but no data. In it `trim(0)` is still
running after any number of passes, and so is the `writev` of piece 0 that calls
it. -/
theorem trim_loops_after_release :
    reachable scenario25 ∧
    scenario25.m_file_data = [] ∧ scenario25.m_access_times = [(0, 1), (1, 2)] ∧
    scenario25.buffer_used = 2 ∧ scenario25.buffer_limit = 2 ∧
    (∀ fuel : Nat, memory_storage.trim fuel scenario25 0 = none) ∧
    (∀ fuel : Nat, memory_storage.writev fuel scenario25 [9, 9, 9, 9] 0 0 = none) := by
  refine ⟨scenario25_reachable, by decide, by decide, by decide, by decide, ?_, ?_⟩
  · intro fuel
    exact trim_stuck fuel scenario25 (by decide) (by decide) (by decide) (by decide)
      (by decide) (by decide) (by decide)
  · intro fuel
    have ht := trim_stuck fuel (scenario25.file_data_entry 0) (by decide) (by decide)
      (by decide) (by decide) (by decide) (by decide) (by decide)
    unfold memory_storage.writev
    simp only []
    rw [if_pos (by decide), if_pos (by decide), ht]
    rfl

end memory_disk_io

/-! ## The effect of `remove_piece` -/

/-- The picker after one call of `restore_piece`: the three operations on the
piece are appended to its log, and the priority of the piece is zero. -/
theorem restore_piece_handle (s : memory_storage) (p : Int) :
    (s.restore_piece p).m_handle = s.m_handle.map (fun h =>
      { priorities := if 0 ≤ p then h.priorities.set p.toNat dont_download else h.priorities
        calls := h.calls ++ [picker_call.reset_piece_deadline p,
          picker_call.set_piece_priority p dont_download, picker_call.we_dont_have p] }) := by
  rcases s with ⟨a1, a2, a3, a4, a5, a6, a7, a8, a9, a10, a11, a12, mh, a14, a15, a16, a17⟩
  cases mh with
  | none => rfl
  | some t =>
    simp [memory_storage.restore_piece, torrent.reset_piece_deadline,
      torrent.set_piece_priority, torrent.we_dont_have]

/-- The piece table and the picker after `remove_piece` on a slot that holds a
piece of the torrent. -/
theorem remove_piece_pieces (s : memory_storage) (bi : Int)
    (hcond : (s.buffer_at bi).pi ≠ -1 ∧ (s.buffer_at bi).pi < s.piece_count) :
    (s.remove_piece bi).pieces =
        s.pieces.set (s.buffer_at bi).pi.toNat (s.piece_at (s.buffer_at bi).pi).reset ∧
      (s.remove_piece bi).m_handle = (s.restore_piece (s.buffer_at bi).pi).m_handle := by
  unfold memory_storage.remove_piece
  simp only []
  split
  · refine ⟨?_, ?_⟩
    · rw [(restore_piece_frame _ _).1]
      rfl
    · rw [restore_piece_handle, restore_piece_handle]
      rfl
  · rename_i hn
    exact absurd hcond hn

/-- Claim C32: `remove_piece(bi)` on an in-use slot of a reachable state, holding
piece `p`, leaves the slot with all bytes zero, no piece and `is_used` false,
leaves piece `p` with size 0, no slot, not completed and not read, issues the
three picker operations of one `restore_piece(p)` call, and changes no other
slot and no other piece. -/
theorem remove_piece_effect {s : memory_storage} (h : reachable s) (bi : Int)
    (hi : 0 ≤ bi) (hil : bi < s.buffer_size) (hused : (s.buffer_at bi).is_used = true) :
    ((s.remove_piece bi).buffer_at bi).buffer = List.replicate s.piece_length.toNat 0 ∧
    ((s.remove_piece bi).buffer_at bi).pi = -1 ∧
    ((s.remove_piece bi).buffer_at bi).is_used = false ∧
    ((s.remove_piece bi).piece_at (s.buffer_at bi).pi).size = 0 ∧
    ((s.remove_piece bi).piece_at (s.buffer_at bi).pi).bi = -1 ∧
    ((s.remove_piece bi).piece_at (s.buffer_at bi).pi).is_completed = false ∧
    ((s.remove_piece bi).piece_at (s.buffer_at bi).pi).is_read = false ∧
    (s.remove_piece bi).m_handle = s.m_handle.map (fun t =>
      { priorities := t.priorities.set (s.buffer_at bi).pi.toNat dont_download
        calls := t.calls ++ [picker_call.reset_piece_deadline (s.buffer_at bi).pi,
          picker_call.set_piece_priority (s.buffer_at bi).pi dont_download,
          picker_call.we_dont_have (s.buffer_at bi).pi] }) ∧
    (∀ j : Int, 0 ≤ j → j ≠ bi → (s.remove_piece bi).buffer_at j = s.buffer_at j) ∧
    (∀ q : Int, 0 ≤ q → q ≠ (s.buffer_at bi).pi →
      (s.remove_piece bi).piece_at q = s.piece_at q) := by
  have hw := reachable_wf h
  have hbi := hw.buf bi hi hil
  have hpne : (s.buffer_at bi).pi ≠ -1 := hbi.2.2.1.mp hused
  obtain ⟨hp, hpl, _⟩ := hbi.2.2.2 hpne
  have hbl := hw.buffers_len
  have hpcl := hw.pieces_len
  have hb := remove_piece_buffers s bi
  obtain ⟨hpc, hmh⟩ := remove_piece_pieces s bi ⟨hpne, hpl⟩
  have hbat : ∀ j : Int, 0 ≤ j → (s.remove_piece bi).buffer_at j =
      if j = bi then (s.buffer_at bi).reset (now s).1 else s.buffer_at j := by
    intro j hj
    unfold memory_storage.buffer_at
    rw [hb]
    exact getD_set_int s.buffers bi j _ default hi (by omega) hj
  have hpat : ∀ q : Int, 0 ≤ q → (s.remove_piece bi).piece_at q =
      if q = (s.buffer_at bi).pi then (s.piece_at (s.buffer_at bi).pi).reset
      else s.piece_at q := by
    intro q hq
    unfold memory_storage.piece_at
    rw [hpc]
    exact getD_set_int s.pieces (s.buffer_at bi).pi q _ default hp (by omega) hq
  have e1 := hbat bi hi
  rw [if_pos rfl] at e1
  have e2 := hpat (s.buffer_at bi).pi hp
  rw [if_pos rfl] at e2
  have hlen : (s.buffer_at bi).buffer.length = s.piece_length.toNat := by
    have := hbi.2.1
    omega
  refine ⟨?_, ?_, ?_, ?_, ?_, ?_, ?_, ?_, ?_, ?_⟩
  · rw [e1, ← hlen]
    rfl
  · rw [e1]
    rfl
  · rw [e1]
    rfl
  · rw [e2]
    rfl
  · rw [e2]
    rfl
  · rw [e2]
    rfl
  · rw [e2]
    rfl
  · rw [hmh, restore_piece_handle]
    simp only [if_pos hp]
  · intro j hj hne
    rw [hbat j hj, if_neg hne]
  · intro q hq hne
    rw [hpat q hq, if_neg hne]

/-- In `scenario5` slot 1 holds piece 1 with the bytes 5, 6, 7, 8: after
`remove_piece(1)` the slot is zeroed and free, and slot 0 still holds the
bytes 1, 2, 3, 4 of piece 0. -/
theorem remove_piece_effect_witness :
    (scenario5.buffer_at 1).buffer = [5, 6, 7, 8] ∧ (scenario5.buffer_at 1).pi = 1 ∧
    ((scenario5.remove_piece 1).buffer_at 1).buffer = [0, 0, 0, 0] ∧
    ((scenario5.remove_piece 1).buffer_at 1).is_used = false ∧
    ((scenario5.remove_piece 1).piece_at 1).size = 0 ∧
    ((scenario5.remove_piece 1).buffer_at 0).buffer = [1, 2, 3, 4] :=
  have h := remove_piece_effect scenario5_reachable 1 (by decide) (by decide) (by decide)
  ⟨by decide, by decide, h.1, h.2.2.1, h.2.2.2.1, by decide⟩

/-! ## The search of `find_last_buffer`, by slot index -/

theorem getD_append_cons {α : Type} (l1 l2 : List α) (b d : α) (n : Nat) :
    (n < l1.length → (l1 ++ b :: l2).getD n d ∈ l1) ∧
    (n = l1.length → (l1 ++ b :: l2).getD n d = b) ∧
    (l1.length < n → n < (l1 ++ b :: l2).length → (l1 ++ b :: l2).getD n d ∈ l2) := by
  refine ⟨?_, ?_, ?_⟩
  · intro hn
    rw [List.getD_eq_getElem?_getD, List.getElem?_append_left hn, List.getElem?_eq_getElem hn]
    exact List.getElem_mem hn
  · intro hn
    subst hn
    rw [List.getD_eq_getElem?_getD, List.getElem?_append_right (le_refl _)]
    simp
  · intro hn hlen
    rw [List.getD_eq_getElem?_getD, List.getElem?_append_right (by omega)]
    obtain ⟨k, hk⟩ : ∃ k, n - l1.length = k + 1 := ⟨n - l1.length - 1, by omega⟩
    rw [hk, List.getElem?_cons_succ]
    have hk2 : k < l2.length := by
      simp only [List.length_append, List.length_cons] at hlen
      omega
    rw [List.getElem?_eq_getElem hk2]
    exact List.getElem_mem hk2

/-- In a well-formed state, a slot that splits `buffers` sits at the index equal
to the number of slots before it; the slots of lower index are the ones before
it and the slots of higher index the ones after it. -/
theorem wf_split_index {s : memory_storage} (h : wf s) (l1 l2 : List memory_buffer)
    (b : memory_buffer) (hl : s.buffers = l1 ++ b :: l2) :
    b.index = (l1.length : Int) ∧ s.buffer_at b.index = b ∧
    (∀ j : Int, 0 ≤ j → j < b.index → s.buffer_at j ∈ l1) ∧
    (∀ j : Int, b.index < j → j < s.buffer_size → s.buffer_at j ∈ l2) := by
  have hbl := h.buffers_len
  have hlen : s.buffers.length = l1.length + (l2.length + 1) := by
    rw [hl]
    simp
  have hat : s.buffer_at (l1.length : Int) = b := by
    unfold memory_storage.buffer_at
    rw [hl]
    exact (getD_append_cons l1 l2 b default _).2.1 (by simp)
  have hidx : b.index = (l1.length : Int) := by
    have := (h.buf (l1.length : Int) (by omega) (by omega)).1
    rw [hat] at this
    exact this
  refine ⟨hidx, by rw [hidx]; exact hat, ?_, ?_⟩
  · intro j hj hjb
    unfold memory_storage.buffer_at
    rw [hl]
    exact (getD_append_cons l1 l2 b default _).1 (by omega)
  · intro j hjb hjs
    unfold memory_storage.buffer_at
    rw [hl]
    refine (getD_append_cons l1 l2 b default _).2.2 (by omega) ?_
    rw [← hl]
    omega

/-- Claim C31: in a reachable state `find_last_buffer(pi, check_read)` returns
-1 exactly when no eligible slot has a timestamp earlier than the clock reading
the call takes; otherwise it returns the index of an eligible slot with a
timestamp earlier than that reading, no later than the timestamp of every
eligible slot, and strictly earlier than the timestamp of every eligible slot
of lower index (the lowest index wins among equal timestamps). -/
theorem find_last_buffer_spec {s : memory_storage} (h : reachable s) (pi : Int) (cr : Bool) :
    ((s.find_last_buffer pi cr).1 = -1 ↔
      ∀ i : Int, 0 ≤ i → i < s.buffer_size → eligible s pi cr (s.buffer_at i) = true →
        (now s).1 ≤ (s.buffer_at i).accessed) ∧
    ((s.find_last_buffer pi cr).1 ≠ -1 →
      0 ≤ (s.find_last_buffer pi cr).1 ∧ (s.find_last_buffer pi cr).1 < s.buffer_size ∧
      eligible s pi cr (s.buffer_at (s.find_last_buffer pi cr).1) = true ∧
      (s.buffer_at (s.find_last_buffer pi cr).1).accessed < (now s).1 ∧
      ∀ j : Int, 0 ≤ j → j < s.buffer_size → eligible s pi cr (s.buffer_at j) = true →
        (s.buffer_at (s.find_last_buffer pi cr).1).accessed ≤ (s.buffer_at j).accessed ∧
        (j < (s.find_last_buffer pi cr).1 →
          (s.buffer_at (s.find_last_buffer pi cr).1).accessed < (s.buffer_at j).accessed)) := by
  have hw := reachable_wf h
  have hbl := hw.buffers_len
  have hspec := find_last_scan_spec (now s).2 pi cr (now s).2.buffers (-1) (now s).1
  have hdef : (s.find_last_buffer pi cr).1 =
      find_last_scan (now s).2 pi cr (now s).2.buffers (-1) (now s).1 := rfl
  rw [hdef]
  rcases hspec with ⟨hr, hall⟩ | ⟨l1, b, l2, hl, hb, hlt, hr, h1, h2⟩
  · refine ⟨⟨?_, fun _ => hr⟩, fun hne => absurd hr hne⟩
    intro _ i hi hil hel
    have hm : s.buffer_at i ∈ s.buffers := buffer_at_mem i hi (by omega)
    exact hall (s.buffer_at i) hm hel
  · have hl2 : s.buffers = l1 ++ b :: l2 := hl
    have hb2 : eligible s pi cr b = true := hb
    obtain ⟨hidx, hat, hlow, hhigh⟩ := wf_split_index hw l1 l2 b hl2
    have hlen : s.buffers.length = l1.length + (l2.length + 1) := by
      rw [hl2]
      simp
    have hb0 : 0 ≤ b.index := by omega
    have hbs : b.index < s.buffer_size := by omega
    rw [hr]
    refine ⟨⟨?_, ?_⟩, ?_⟩
    · intro hneg
      omega
    · intro hall
      have := hall b.index hb0 hbs (by rw [hat]; exact hb2)
      rw [hat] at this
      omega
    · intro _
      rw [hat]
      refine ⟨hb0, hbs, hb2, hlt, ?_⟩
      intro j hj hjs hel
      rcases lt_trichotomy j b.index with hjb | hjb | hjb
      · have hlt2 := h1 (s.buffer_at j) (hlow j hj hjb) hel
        exact ⟨le_of_lt hlt2, fun _ => hlt2⟩
      · rw [hjb, hat]
        exact ⟨le_refl _, fun hc => absurd hc (lt_irrefl _)⟩
      · have hle := h2 (s.buffer_at j) (hhigh j hjb hjs) hel
        exact ⟨hle, fun hc => absurd hc (not_lt.mpr (le_of_lt hjb))⟩

/-- In `scenario5` the slots 0 and 1 hold the pieces 0 and 1, stamped 5 and 7,
and the next clock reading is 8: the search on behalf of piece 2 returns slot
0, and the search on behalf of piece 0 returns slot 1. -/
theorem find_last_buffer_spec_witness :
    (scenario5.find_last_buffer 2 false).1 = 0 ∧
    (scenario5.find_last_buffer 0 false).1 = 1 ∧
    (scenario5.buffer_at (scenario5.find_last_buffer 2 false).1).accessed < (now scenario5).1 :=
  ⟨by decide, by decide,
    ((find_last_buffer_spec scenario5_reachable 2 false).2 (by decide)).2.2.2.1⟩

/-! ## The slots in use and the two counters -/

theorem in_use_of_eq {s t : memory_storage} (e : t.buffers = s.buffers) : t.in_use = s.in_use := by
  unfold memory_storage.in_use
  rw [e]

theorem in_use_set_buffer_same (s : memory_storage) (i : Int) (b : memory_buffer)
    (h1 : b.is_used = (s.buffer_at i).is_used) : (s.set_buffer i b).in_use = s.in_use := by
  apply countP_set_same (fun b => b.is_used) s.buffers i.toNat b default
  intro _
  exact h1

theorem in_use_touch (s : memory_storage) (i : Int) (t : Nat) :
    (s.set_buffer i { s.buffer_at i with accessed := t }).in_use = s.in_use :=
  in_use_set_buffer_same s i _ rfl

theorem balance_of_eq {s t : memory_storage} (e1 : t.buffers = s.buffers)
    (e2 : t.buffer_used = s.buffer_used) (e3 : t.buffer_size = s.buffer_size)
    (e4 : t.buffer_limit = s.buffer_limit)
    (hJ : (s.in_use : Int) = s.buffer_used + (s.buffer_size - s.buffer_limit)) :
    (t.in_use : Int) = t.buffer_used + (t.buffer_size - t.buffer_limit) := by
  rw [in_use_of_eq e1, e2, e3, e4]
  exact hJ

theorem buffer_size_get_buffer (s : memory_storage) (pidx : Int) (w : Bool) :
    (s.get_buffer pidx w).2.buffer_size = s.buffer_size := by
  unfold memory_storage.get_buffer
  simp only []
  split
  · rfl
  · split
    · rfl
    · split
      · exact (restore_piece_frame s _).2.2.2.2.1
      · split
        · rfl
        · split <;> rfl

/-- The allocation of `get_buffer` keeps the number of slots in use equal to
`buffer_used + (buffer_size - buffer_limit)`: the slot it takes is paid for
either by `buffer_used++` or by `buffer_limit--`. -/
theorem balance_get_buffer {s : memory_storage} (h : wf s) (pidx : Int) (w : Bool)
    (hJ : (s.in_use : Int) = s.buffer_used + (s.buffer_size - s.buffer_limit)) :
    ((s.get_buffer pidx w).2.in_use : Int) = (s.get_buffer pidx w).2.buffer_used +
      ((s.get_buffer pidx w).2.buffer_size - (s.get_buffer pidx w).2.buffer_limit) := by
  cases w with
  | false => rw [get_buffer_read]; exact hJ
  | true =>
    by_cases hb : (s.piece_at pidx).is_buffered = true
    · rw [get_buffer_buffered s pidx true hb]; exact hJ
    · simp only [Bool.not_eq_true] at hb
      by_cases hr : (s.is_reading && !s.is_readered (s.piece_at pidx).index) = true
      · rw [get_buffer_refused s pidx hb hr]
        obtain ⟨_, f2, f3, f4, f5, _⟩ := restore_piece_frame s (s.piece_at pidx).index
        exact balance_of_eq f2 f3 f5 f4 hJ
      · have hr2 : ¬ (s.is_reading = true ∧ s.is_readered (s.piece_at pidx).index = false) := by
          simpa using hr
        cases hf : s.find_free with
        | none => rw [get_buffer_full s pidx hb hr2 hf]; exact hJ
        | some i =>
          obtain ⟨a1, _, a3, a4⟩ := get_buffer_alloc s pidx i hb hr2 hf
          obtain ⟨hil, hfree⟩ := find_free_some hf
          have hbl := h.buffers_len
          have hsz := buffer_size_get_buffer s pidx true
          have hu : (s.get_buffer pidx true).2.in_use =
              (s.set_buffer (i : Int) { s.buffer_at (i : Int) with
                is_used := true, pi := (s.piece_at pidx).index,
                accessed := (now s).1 }).in_use := by
            refine in_use_of_eq (s := s.set_buffer (i : Int) { s.buffer_at (i : Int) with
                is_used := true, pi := (s.piece_at pidx).index,
                accessed := (now s).1 }) ?_
            rw [a1]
            show _ = s.buffers.set (i : Int).toNat _
            rw [Int.toNat_natCast]
          have hadd := in_use_set_buffer s (i : Int) { s.buffer_at (i : Int) with
            is_used := true, pi := (s.piece_at pidx).index, accessed := (now s).1 }
            (by omega) (by omega)
          rw [hfree] at hadd
          simp only [Bool.false_eq_true, if_false, Nat.add_zero, if_true] at hadd
          rw [hu, hadd, hsz]
          cases hp : (bitset_test s.reserved_pieces (s.piece_at pidx).index ||
              bitset_test s.lookbehind_pieces (s.piece_at pidx).index)
          · rw [(a4 hp).1, (a4 hp).2]
            push_cast
            omega
          · rw [(a3 hp).1, (a3 hp).2]
            push_cast
            omega

theorem balance_trim_loop (pi : Int) : ∀ (fuel : Nat) (s : memory_storage), wf s →
    (s.in_use : Int) = s.buffer_used + (s.buffer_size - s.buffer_limit) →
    ((trim_loop fuel s pi).in_use : Int) = (trim_loop fuel s pi).buffer_used +
      ((trim_loop fuel s pi).buffer_size - (trim_loop fuel s pi).buffer_limit) := by
  intro fuel
  induction fuel with
  | zero => intro s _ hJ; exact hJ
  | succ n ih =>
    intro s h hJ
    unfold trim_loop
    split
    · have hb := wf_trim_body h pi
      have hsz := (trim_body_frame s pi).2.2.2.2.2.1
      split
      · rename_i bi s1 heq
        rw [heq] at hb hsz
        have hin := trim_body_in_use h pi bi s1 heq
        obtain ⟨c1, c2⟩ := trim_body_some_counters s pi bi s1 heq
        have hsz1 : s1.buffer_size = s.buffer_size := hsz
        refine ih s1 hb ?_
        rw [c1, c2, hsz1]
        omega
      · rename_i s1 heq
        rw [heq] at hsz
        obtain ⟨n1, n2, n3, _⟩ := trim_body_none h pi s1 heq
        exact balance_of_eq n1 n2 hsz n3 hJ
    · exact hJ

theorem balance_trim {s : memory_storage} (h : wf s) (pi : Int)
    (hJ : (s.in_use : Int) = s.buffer_used + (s.buffer_size - s.buffer_limit)) :
    ((s.trim pi).in_use : Int) =
      (s.trim pi).buffer_used + ((s.trim pi).buffer_size - (s.trim pi).buffer_limit) := by
  unfold memory_storage.trim
  split
  · exact hJ
  · exact balance_trim_loop pi _ s h hJ

theorem balance_writev_store {g : memory_storage}
    (hJ : (g.in_use : Int) = g.buffer_used + (g.buffer_size - g.buffer_limit))
    (bufs : List (List Nat)) (piece offset : Int) :
    ((g.writev_store bufs piece offset).2.in_use : Int) =
      (g.writev_store bufs piece offset).2.buffer_used +
        ((g.writev_store bufs piece offset).2.buffer_size -
          (g.writev_store bufs piece offset).2.buffer_limit) := by
  have e1 := in_use_set_buffer_same g (g.piece_at piece).bi
    { g.buffer_at (g.piece_at piece).bi with
      buffer := (writev_loop (g.piece_at piece).length bufs
        (g.buffer_at (g.piece_at piece).bi).buffer offset 0).1 } rfl
  have e2 := in_use_touch
    (now ((g.set_buffer (g.piece_at piece).bi
      { g.buffer_at (g.piece_at piece).bi with
        buffer := (writev_loop (g.piece_at piece).length bufs
          (g.buffer_at (g.piece_at piece).bi).buffer offset 0).1 }).set_piece piece
      { g.piece_at piece with
        size := (g.piece_at piece).size + (writev_loop (g.piece_at piece).length bufs
          (g.buffer_at (g.piece_at piece).bi).buffer offset 0).2 })).2
    (g.piece_at piece).bi
    (now ((g.set_buffer (g.piece_at piece).bi
      { g.buffer_at (g.piece_at piece).bi with
        buffer := (writev_loop (g.piece_at piece).length bufs
          (g.buffer_at (g.piece_at piece).bi).buffer offset 0).1 }).set_piece piece
      { g.piece_at piece with
        size := (g.piece_at piece).size + (writev_loop (g.piece_at piece).length bufs
          (g.buffer_at (g.piece_at piece).bi).buffer offset 0).2 })).1
  have hun : (g.writev_store bufs piece offset).2.in_use = g.in_use :=
    e2.trans ((in_use_of_eq rfl).trans e1)
  have h1 : (g.writev_store bufs piece offset).2.buffer_used = g.buffer_used := rfl
  have h2 : (g.writev_store bufs piece offset).2.buffer_size = g.buffer_size := rfl
  have h3 : (g.writev_store bufs piece offset).2.buffer_limit = g.buffer_limit := rfl
  rw [hun, h1, h2, h3]
  exact hJ

theorem balance_writev {s : memory_storage} (h : wf s) (bufs : List (List Nat))
    (piece offset : Int) (hp : 0 ≤ piece) (hpl : piece < s.piece_count) (ho : 0 ≤ offset)
    (hol : offset ≤ (s.piece_at piece).length)
    (hJ : (s.in_use : Int) = s.buffer_used + (s.buffer_size - s.buffer_limit)) :
    ((s.writev bufs piece offset).2.in_use : Int) =
      (s.writev bufs piece offset).2.buffer_used +
        ((s.writev bufs piece offset).2.buffer_size -
          (s.writev bufs piece offset).2.buffer_limit) := by
  have hG := wf_get_buffer h piece true hp hpl
  have hg := balance_get_buffer h piece true hJ
  have hst := balance_writev_store hg bufs piece offset
  rw [writev_eq]
  split
  · exact hJ
  · split
    · exact hg
    · rename_i hg1
      have hg1t : (s.get_buffer piece true).1 = true := by
        cases hgv : (s.get_buffer piece true).1
        · simp [hgv] at hg1
        · rfl
      have hb := (is_buffered_iff _).mp (get_buffer_true s piece true hg1t)
      obtain ⟨_, _, hs3⟩ := get_buffer_static h piece true hp hpl
      have hpl2 : piece < (s.get_buffer piece true).2.piece_count := by
        have := (get_buffer_static h piece true hp hpl).1
        omega
      have hw := (writev_store_spec hG bufs piece offset hp hpl2 hb ho
        (by rw [(hs3 piece hp).1]; exact hol)).1
      simp only []
      split
      · exact balance_trim hw piece hst
      · exact hst

theorem balance_readv {s : memory_storage} (bufs : List (List Nat)) (piece offset : Int)
    (h : wf s) (hJ : (s.in_use : Int) = s.buffer_used + (s.buffer_size - s.buffer_limit)) :
    ((s.readv bufs piece offset).2.2.in_use : Int) =
      (s.readv bufs piece offset).2.2.buffer_used +
        ((s.readv bufs piece offset).2.2.buffer_size -
          (s.readv bufs piece offset).2.2.buffer_limit) := by
  have hg := balance_get_buffer h piece false hJ
  unfold memory_storage.readv memory_storage.get_read_buffer
  simp only []
  split
  · exact hJ
  · split
    · exact hg
    · split
      · rw [in_use_touch]
        exact hg
      · rw [in_use_touch]
        exact hg

theorem balance_read {s : memory_storage} (read_buf : List Nat) (size piece offset : Int)
    (h : wf s) (hJ : (s.in_use : Int) = s.buffer_used + (s.buffer_size - s.buffer_limit)) :
    ((s.read read_buf size piece offset).2.2.in_use : Int) =
      (s.read read_buf size piece offset).2.2.buffer_used +
        ((s.read read_buf size piece offset).2.2.buffer_size -
          (s.read read_buf size piece offset).2.2.buffer_limit) := by
  have h0 : wf { s with is_reading := true } :=
    wf_of_eq h rfl rfl rfl rfl rfl rfl rfl rfl rfl rfl rfl rfl
  have hJ0 : ((({ s with is_reading := true } : memory_storage)).in_use : Int) =
      (({ s with is_reading := true } : memory_storage)).buffer_used +
        ((({ s with is_reading := true } : memory_storage)).buffer_size -
          (({ s with is_reading := true } : memory_storage)).buffer_limit) :=
    balance_of_eq (s := s) (t := { s with is_reading := true }) rfl rfl rfl rfl hJ
  have hg := balance_get_buffer h0 piece false hJ0
  have hr : (((memory_storage.get_buffer { s with is_reading := true } piece
      false).2.restore_piece piece).in_use : Int) =
      ((memory_storage.get_buffer { s with is_reading := true } piece
        false).2.restore_piece piece).buffer_used +
      (((memory_storage.get_buffer { s with is_reading := true } piece
        false).2.restore_piece piece).buffer_size -
      ((memory_storage.get_buffer { s with is_reading := true } piece
        false).2.restore_piece piece).buffer_limit) := by
    obtain ⟨_, f2, f3, f4, f5, _⟩ := restore_piece_frame
      (memory_storage.get_buffer { s with is_reading := true } piece false).2 piece
    exact balance_of_eq f2 f3 f5 f4 hg
  unfold memory_storage.read memory_storage.get_read_buffer
  simp only []
  split
  · exact hJ
  · split
    · exact hr
    · split
      · exact hr
      · split
        · exact hg
        · split_ifs
          all_goals (rw [in_use_touch]; exact hg)

theorem balance_construct (C N pl : Int) (piece_size : Int → Int) (clock : Nat)
    (ticks : List Nat) :
    ((memory_storage.construct C N pl piece_size clock ticks).in_use : Int) =
      (memory_storage.construct C N pl piece_size clock ticks).buffer_used +
        ((memory_storage.construct C N pl piece_size clock ticks).buffer_size -
          (memory_storage.construct C N pl piece_size clock ticks).buffer_limit) := by
  obtain ⟨c1, c2, _, c4, _⟩ := construct_fields C N pl piece_size clock ticks
  have hin : (memory_storage.construct C N pl piece_size clock ticks).in_use = 0 := by
    unfold memory_storage.in_use
    rw [List.countP_eq_zero]
    intro b hb
    rw [(c4 b hb).2]
    simp
  have hu := used_construct C N pl piece_size clock ticks
  have hle := unprotected_le_in_use (memory_storage.construct C N pl piece_size clock ticks)
  rw [c1, c2, hin] at *
  omega

theorem balance_protection_update (s : memory_storage) (l : List Int)
    (hJ : (s.in_use : Int) = s.buffer_used + (s.buffer_size - s.buffer_limit)) :
    (((s.update_reader_pieces l).in_use : Int) = (s.update_reader_pieces l).buffer_used +
      ((s.update_reader_pieces l).buffer_size - (s.update_reader_pieces l).buffer_limit)) ∧
    (((s.update_reserved_pieces l).in_use : Int) = (s.update_reserved_pieces l).buffer_used +
      ((s.update_reserved_pieces l).buffer_size - (s.update_reserved_pieces l).buffer_limit)) ∧
    (((s.set_lookbehind_pieces l).in_use : Int) = (s.set_lookbehind_pieces l).buffer_used +
      ((s.set_lookbehind_pieces l).buffer_size - (s.set_lookbehind_pieces l).buffer_limit)) ∧
    ((s.clear_lookbehind.in_use : Int) = s.clear_lookbehind.buffer_used +
      (s.clear_lookbehind.buffer_size - s.clear_lookbehind.buffer_limit)) := by
  refine ⟨?_, ?_, ?_, ?_⟩
  · unfold memory_storage.update_reader_pieces
    split
    · exact hJ
    · exact balance_of_eq rfl rfl rfl rfl hJ
  · unfold memory_storage.update_reserved_pieces
    split
    · exact hJ
    · exact balance_of_eq rfl rfl rfl rfl hJ
  · unfold memory_storage.set_lookbehind_pieces
    split
    · exact hJ
    · exact balance_of_eq rfl rfl rfl rfl hJ
  · unfold memory_storage.clear_lookbehind
    split
    · exact hJ
    · exact balance_of_eq rfl rfl rfl rfl hJ

theorem reachable_of_unresized {s : memory_storage} (h : reachable_unresized s) :
    reachable s := by
  induction h with
  | construct memory_size num_pieces piece_length piece_size clock ticks hcap hlen hnum hsize =>
    exact reachable.construct memory_size num_pieces piece_length piece_size clock ticks hcap
      hlen hnum hsize
  | step s o _ hpre _ ih => exact reachable.step s o ih hpre

/-- Without `set_memory_size`, every slot in use is accounted for once: by
`buffer_used` or by the amount `buffer_limit` has dropped below `buffer_size`. -/
theorem unresized_balance {s : memory_storage} (h : reachable_unresized s) :
    (s.in_use : Int) = s.buffer_used + (s.buffer_size - s.buffer_limit) := by
  induction h with
  | construct memory_size num_pieces piece_length piece_size clock ticks hcap hlen hnum hsize =>
    exact balance_construct _ _ _ _ _ _
  | step s o hs hpre hq ih =>
    have hw := reachable_wf (reachable_of_unresized hs)
    cases o with
    | writev bufs piece offset =>
      exact balance_writev hw bufs piece offset hpre.1 hpre.2.1 hpre.2.2.1 hpre.2.2.2 ih
    | readv bufs piece offset => exact balance_readv bufs piece offset hw ih
    | read read_buf size piece offset => exact balance_read read_buf size piece offset hw ih
    | update_reader_pieces l => exact (balance_protection_update s l ih).1
    | update_reserved_pieces l => exact (balance_protection_update s l ih).2.1
    | set_lookbehind_pieces l => exact (balance_protection_update s l ih).2.2.1
    | clear_lookbehind => exact (balance_protection_update s [] ih).2.2.2
    | set_memory_size sz => exact absurd hq (by simp [op.is_set_memory_size])
    | set_torrent_handle t => exact ih
    | picker_priorities prios => exact ih
    | clock_ticks ticks => exact ih

theorem scenario35_unresized : reachable_unresized scenario35 :=
  reachable_unresized.step _ (op.writev [[3, 4]] 0 2)
    (reachable_unresized.step _ (op.update_reserved_pieces [])
      (reachable_unresized.step _ (op.writev [[5, 6, 7, 8]] 1 0)
        (reachable_unresized.step _ (op.writev [[1, 2]] 0 0)
          (reachable_unresized.step _ (op.update_reserved_pieces [0, 1])
            (reachable_unresized.construct 0 4 4 (fun _ => 4) 0 (List.replicate 40 1)
              (by decide) (by decide) (by decide) (by intro i _ _; simp))
            trivial rfl)
          ⟨by decide, by decide, by decide, by decide⟩ rfl)
        ⟨by decide, by decide, by decide, by decide⟩ rfl)
      trivial rfl)
    ⟨by decide, by decide, by decide, by decide⟩ rfl

theorem scenario35_limit_unresized : reachable_unresized scenario35_limit :=
  reachable_unresized.step _ (op.writev [[5, 6, 7, 8]] 1 0)
    (reachable_unresized.step _ (op.update_reserved_pieces [1]) scenario35_unresized
      trivial rfl)
    ⟨by decide, by decide, by decide, by decide⟩ rfl

/-- Claim C34: in every state reached from construction without
`set_memory_size` (by `writev`, `readv`, `read`, the protection updates, and
the calls of the environment), the number of slots in use equals
`buffer_used + (buffer_size - buffer_limit)`. -/
theorem in_use_balance (s : memory_storage) (hs : reachable_unresized s) :
    reachable s ∧ (s.in_use : Int) = s.buffer_used + (s.buffer_size - s.buffer_limit) :=
  ⟨reachable_of_unresized hs, unresized_balance hs⟩

/-- In `scenario35` one of the two slots is in use, `buffer_limit` has dropped
from 2 to 0 and `buffer_used` stands at -1: `1 = -1 + (2 - 0)`. -/
theorem in_use_balance_witness :
    scenario35.in_use = 1 ∧ scenario35.buffer_size = 2 ∧ scenario35.buffer_limit = 0 ∧
    ((scenario35.in_use : Int) =
      scenario35.buffer_used + (scenario35.buffer_size - scenario35.buffer_limit)) :=
  ⟨by decide, by decide, by decide, (in_use_balance scenario35 scenario35_unresized).2⟩

/-! ## The sign of the two counters -/

/-- When the protection lists are only replaced while no slot is in use, neither
counter is negative. -/
theorem settled_counters_nonneg {s : memory_storage} (h : reachable_settled s) :
    0 ≤ s.buffer_used ∧ 0 ≤ s.buffer_limit := by
  have hu := settled_used h
  have hw := reachable_wf (reachable_of_settled h)
  have hq := hw.quota
  have hl := hw.buffers_len
  have hle := in_use_le s
  constructor
  · omega
  · omega

/-- Claim C35, the divergence: `scenario35` and `scenario35_limit` are reached
from a construction with capacity 0 by `update_reserved_pieces` and `writev`
only. In `scenario35` piece 1 was reserved, written (paid for by
`buffer_limit--`), unreserved and evicted (`buffer_used--`): `buffer_used` is
-1. In `scenario35_limit` piece 1 was reserved and written once more:
`buffer_limit` is -1 and `buffer_used` is -2. -/
theorem counters_go_negative :
    reachable scenario35 ∧ 0 ≤ scenario35.capacity ∧
    (scenario35.piece_at 1).bi = -1 ∧ scenario35.in_use = 1 ∧
    scenario35.buffer_limit = 0 ∧ scenario35.buffer_used = -1 ∧
    reachable scenario35_limit ∧
    scenario35_limit.buffer_limit = -1 ∧ scenario35_limit.buffer_used = -2 :=
  ⟨reachable_of_unresized scenario35_unresized, by decide, by decide, by decide, by decide,
    by decide, reachable_of_unresized scenario35_limit_unresized, by decide, by decide⟩

namespace daemon

/-! ## The daemon variant: lookbehind pieces are kept as reservations -/

theorem get_bit_set (bs : List Bool) (k j : Nat) (v : Bool) :
    get_bit (bs.set k v) (j : Int) =
      if k = j ∧ j < bs.length then v else get_bit bs (j : Int) := by
  unfold get_bit
  rw [Int.toNat_natCast, List.getD_eq_getElem?_getD, List.getD_eq_getElem?_getD,
    List.getElem?_set]
  by_cases hkj : k = j
  · subst hkj
    by_cases hl : k < bs.length
    · simp [hl]
    · have : bs[k]? = none := List.getElem?_eq_none (by omega)
      simp [hl, this]
  · simp [hkj]

theorem get_bit_lt {bs : List Bool} {j : Nat} (h : get_bit bs (j : Int) = true) :
    j < bs.length := by
  unfold get_bit at h
  rw [Int.toNat_natCast, List.getD_eq_getElem?_getD] at h
  by_contra hn
  have : bs[j]? = none := List.getElem?_eq_none (by omega)
  rw [this] at h
  simp at h

theorem clear_reservations_spec (lookbehind : List Bool) :
    ∀ (idxs : List Nat) (reserved : List Bool),
      (clear_reservations lookbehind idxs reserved).length = reserved.length ∧
      ∀ j : Nat, get_bit (clear_reservations lookbehind idxs reserved) (j : Int) =
        (get_bit reserved (j : Int) &&
          !(decide (j ∈ idxs) && get_bit lookbehind (j : Int))) := by
  intro idxs
  induction idxs with
  | nil =>
    intro reserved
    exact ⟨rfl, fun j => by simp [clear_reservations]⟩
  | cons i rest ih =>
    intro reserved
    unfold clear_reservations
    split
    · rename_i hb
      obtain ⟨h1, h2⟩ := ih (clear_bit reserved (i : Int))
      refine ⟨?_, ?_⟩
      · rw [h1]
        simp [clear_bit]
      · intro j
        rw [h2 j]
        unfold clear_bit
        rw [Int.toNat_natCast, get_bit_set]
        by_cases hij : i = j
        · subst hij
          by_cases hl : i < reserved.length
          · simp [hb, hl]
          · have hf : get_bit reserved (i : Int) = false := by
              cases hg : get_bit reserved (i : Int)
              · rfl
              · exact absurd (get_bit_lt hg) hl
            simp [hb, hl, hf]
        · have hji : ¬ j = i := fun h => hij h.symm
          simp [hij, hji]
    · rename_i hb
      obtain ⟨h1, h2⟩ := ih reserved
      refine ⟨h1, ?_⟩
      intro j
      rw [h2 j]
      by_cases hij : j = i
      · subst hij
        simp at hb
        simp [hb]
      · simp [hij]

theorem max_piece_loop_ge : ∀ (l : List Int) (m : Int),
    m ≤ max_piece_loop l m ∧ ∀ p ∈ l, p ≤ max_piece_loop l m := by
  intro l
  induction l with
  | nil => intro m; exact ⟨le_refl _, by intro p hp; simp at hp⟩
  | cons a rest ih =>
    intro m
    unfold max_piece_loop
    have hm : m ≤ (if a > m then a else m) ∧ a ≤ (if a > m then a else m) := by
      split <;> omega
    generalize (if a > m then a else m) = m2 at hm
    obtain ⟨h1, h2⟩ := ih m2
    refine ⟨by omega, ?_⟩
    intro p hp
    rcases List.mem_cons.mp hp with rfl | hp
    · omega
    · exact h2 p hp

theorem set_loop_spec (N : Int) : ∀ (l : List Int) (r : List Bool × List Bool),
    (set_loop N l r).1.length = r.1.length ∧ (set_loop N l r).2.length = r.2.length ∧
    ∀ j : Nat,
      get_bit (set_loop N l r).1 (j : Int) = (get_bit r.1 (j : Int) ||
        (decide (j < r.1.length) && decide ((j : Int) < N) && decide ((j : Int) ∈ l))) ∧
      get_bit (set_loop N l r).2 (j : Int) = (get_bit r.2 (j : Int) ||
        (decide (j < r.2.length) && decide ((j : Int) < N) && decide ((j : Int) ∈ l))) := by
  intro l
  induction l with
  | nil =>
    intro r
    exact ⟨rfl, rfl, fun j => by simp [set_loop]⟩
  | cons a rest ih =>
    intro r
    unfold set_loop
    split
    · rename_i ha
      obtain ⟨h1, h2, h3⟩ := ih (set_bit r.1 a, set_bit r.2 a)
      refine ⟨?_, ?_, ?_⟩
      · rw [h1]
        simp [set_bit]
      · rw [h2]
        simp [set_bit]
      · intro j
        obtain ⟨g1, g2⟩ := h3 j
        rw [g1, g2]
        simp only [set_bit, List.length_set, get_bit_set]
        have hc : ((a.toNat : Nat) : Int) = a := by omega
        by_cases haj : a.toNat = j
        · have hja : (j : Int) = a := by omega
          have hjN : (j : Int) < N := by omega
          by_cases hl1 : j < r.1.length <;> by_cases hl2 : j < r.2.length <;>
            simp [haj, hja, hl1, hl2, ha.2]
        · have hja : ¬ (j : Int) = a := by omega
          simp [haj, hja]
    · rename_i ha
      obtain ⟨h1, h2, h3⟩ := ih r
      refine ⟨h1, h2, ?_⟩
      intro j
      obtain ⟨g1, g2⟩ := h3 j
      rw [g1, g2]
      have hja : (j : Int) = a → ¬ ((j : Int) < N) := by
        intro h
        omega
      by_cases hjN : (j : Int) < N
      · have : ¬ (j : Int) = a := fun h => hja h hjN
        simp [hjN, this]
      · simp [hjN]

theorem get_bit_replicate_false (n : Nat) (i : Int) :
    get_bit (List.replicate n false) i = false := by
  unfold get_bit
  rw [List.getD_eq_getElem?_getD]
  by_cases h : i.toNat < n
  · simp [List.getElem?_replicate, h]
  · simp [List.getElem?_replicate, h]

/-- After `clear_lookbehind` no lookbehind piece is left, and a reserved bit is
set exactly when it was set before and the piece was not a lookbehind piece
below `m_num_pieces`. -/
theorem clear_lookbehind_spec (s : memory_storage) :
    s.clear_lookbehind.m_reserved_pieces.length = s.m_reserved_pieces.length ∧
    s.clear_lookbehind.m_lookbehind_pieces = [] ∧
    s.clear_lookbehind.m_num_pieces = s.m_num_pieces ∧
    ∀ j : Nat, get_bit s.clear_lookbehind.m_reserved_pieces (j : Int) =
      (get_bit s.m_reserved_pieces (j : Int) &&
        !(decide ((j : Int) < s.m_num_pieces) && get_bit s.m_lookbehind_pieces (j : Int))) := by
  obtain ⟨h1, h2⟩ := clear_reservations_spec s.m_lookbehind_pieces
    (List.range (min s.m_num_pieces (s.m_lookbehind_pieces.length : Int)).toNat)
    s.m_reserved_pieces
  refine ⟨h1, rfl, rfl, ?_⟩
  intro j
  show get_bit (clear_reservations s.m_lookbehind_pieces
    (List.range (min s.m_num_pieces (s.m_lookbehind_pieces.length : Int)).toNat)
    s.m_reserved_pieces) (j : Int) = _
  rw [h2 j]
  cases hb : get_bit s.m_lookbehind_pieces (j : Int)
  · simp
  · have hl := get_bit_lt hb
    have hiff : (j ∈ List.range (min s.m_num_pieces
        (s.m_lookbehind_pieces.length : Int)).toNat) ↔ (j : Int) < s.m_num_pieces := by
      rw [List.mem_range]
      omega
    simp only [Bool.and_true, hiff]

/-- After `set_lookbehind_pieces(l)` the lookbehind pieces are the entries of `l`
below `m_num_pieces`, and each of them is marked reserved as well. -/
theorem set_lookbehind_pieces_spec (s : memory_storage) (l : List Int) :
    (s.set_lookbehind_pieces l).m_reserved_pieces.length = s.m_reserved_pieces.length ∧
    (s.set_lookbehind_pieces l).m_num_pieces = s.m_num_pieces ∧
    ∀ j : Nat,
      get_bit (s.set_lookbehind_pieces l).m_lookbehind_pieces (j : Int) =
        (decide ((j : Int) < s.m_num_pieces) && decide ((j : Int) ∈ l)) ∧
      get_bit (s.set_lookbehind_pieces l).m_reserved_pieces (j : Int) =
        ((get_bit s.m_reserved_pieces (j : Int) &&
          !(decide ((j : Int) < s.m_num_pieces) && get_bit s.m_lookbehind_pieces (j : Int))) ||
        (decide (j < s.m_reserved_pieces.length) && decide ((j : Int) < s.m_num_pieces) &&
          decide ((j : Int) ∈ l))) := by
  obtain ⟨c1, _, _, c4⟩ := clear_lookbehind_spec s
  have c1b : (clear_reservations s.m_lookbehind_pieces
    (List.range (min s.m_num_pieces (s.m_lookbehind_pieces.length : Int)).toNat)
    s.m_reserved_pieces).length = s.m_reserved_pieces.length := c1
  have c4b : ∀ j : Nat, get_bit (clear_reservations s.m_lookbehind_pieces
    (List.range (min s.m_num_pieces (s.m_lookbehind_pieces.length : Int)).toNat)
    s.m_reserved_pieces) (j : Int) = (get_bit s.m_reserved_pieces (j : Int) &&
        !(decide ((j : Int) < s.m_num_pieces) && get_bit s.m_lookbehind_pieces (j : Int))) := c4
  unfold memory_storage.set_lookbehind_pieces
  simp only []
  split
  · rename_i he
    have hl : l = [] := List.isEmpty_iff.mp he
    subst hl
    refine ⟨c1b, rfl, ?_⟩
    intro j
    refine ⟨?_, ?_⟩
    · simp [get_bit]
    · rw [c4b j]
      simp
  · obtain ⟨m0, mall⟩ := max_piece_loop_ge l 0
    have hres : (if max_piece_loop l 0 ≥ ((([] : List Bool).length : Nat) : Int) then
        resize [] (max_piece_loop l 0 + 1) false else []) =
        List.replicate (max_piece_loop l 0 + 1).toNat false := by
      rw [if_pos (by simpa using m0)]
      simp [resize]
    rw [hres]
    obtain ⟨s1, s2, s3⟩ := set_loop_spec s.m_num_pieces l
      (List.replicate (max_piece_loop l 0 + 1).toNat false,
        clear_reservations s.m_lookbehind_pieces
          (List.range (min s.m_num_pieces (s.m_lookbehind_pieces.length : Int)).toNat)
          s.m_reserved_pieces)
    refine ⟨s2.trans c1b, rfl, ?_⟩
    intro j
    obtain ⟨g1, g2⟩ := s3 j
    refine ⟨?_, ?_⟩
    · show get_bit (set_loop s.m_num_pieces l _).1 (j : Int) = _
      rw [g1]
      simp only [get_bit_replicate_false, Bool.false_or, List.length_replicate]
      by_cases hjl : (j : Int) ∈ l
      · have := mall _ hjl
        have hlt : j < (max_piece_loop l 0 + 1).toNat := by omega
        simp [hjl, hlt]
      · simp [hjl]
    · show get_bit (set_loop s.m_num_pieces l _).2 (j : Int) = _
      rw [g2]
      simp only [c4b j, c1b]

/-- Claim C33, as amended: after `set_lookbehind_pieces(l)` followed by
`clear_lookbehind()` on the daemon variant, no lookbehind piece is left and the
reserved bit of a piece is set exactly when it was set before and the piece is
neither a former lookbehind piece below `m_num_pieces` nor an entry of `l`
below `m_num_pieces`. -/
theorem set_then_clear_reserved (s : memory_storage) (l : List Int) :
    ((s.set_lookbehind_pieces l).clear_lookbehind).m_reserved_pieces.length =
      s.m_reserved_pieces.length ∧
    ((s.set_lookbehind_pieces l).clear_lookbehind).m_lookbehind_pieces = [] ∧
    ∀ j : Nat,
      get_bit ((s.set_lookbehind_pieces l).clear_lookbehind).m_reserved_pieces (j : Int) =
        (get_bit s.m_reserved_pieces (j : Int) &&
          !(decide ((j : Int) < s.m_num_pieces) &&
            (get_bit s.m_lookbehind_pieces (j : Int) || decide ((j : Int) ∈ l)))) := by
  obtain ⟨a1, a2, a3⟩ := set_lookbehind_pieces_spec s l
  obtain ⟨b1, b2, _, b4⟩ := clear_lookbehind_spec (s.set_lookbehind_pieces l)
  refine ⟨b1.trans a1, b2, ?_⟩
  intro j
  rw [b4 j, (a3 j).1, (a3 j).2, a2]
  have hin : get_bit s.m_reserved_pieces (j : Int) = true →
      decide (j < s.m_reserved_pieces.length) = true := by
    intro h
    simpa using get_bit_lt h
  revert hin
  generalize get_bit s.m_reserved_pieces (j : Int) = r
  generalize decide (j < s.m_reserved_pieces.length) = inr
  generalize decide ((j : Int) < s.m_num_pieces) = jn
  generalize get_bit s.m_lookbehind_pieces (j : Int) = lb
  generalize decide ((j : Int) ∈ l) = jl
  revert r inr jn lb jl
  decide

/-- Counterexample to C33 as stated: with four pieces and piece 0 reserved,
`set_lookbehind_pieces({0})` followed by `clear_lookbehind()` leaves piece 0
unreserved. -/
theorem reserved_lost_after_clear :
    scenario33.m_reserved_pieces = [true, false, false, false] ∧
    (scenario33.set_lookbehind_pieces [0]).m_reserved_pieces = [true, false, false, false] ∧
    (scenario33.set_lookbehind_pieces [0]).m_lookbehind_pieces = [true] ∧
    ((scenario33.set_lookbehind_pieces [0]).clear_lookbehind).m_reserved_pieces =
      [false, false, false, false] ∧
    ((scenario33.set_lookbehind_pieces [0]).clear_lookbehind).m_reserved_pieces ≠
      scenario33.m_reserved_pieces := by
  decide

end daemon

/-! ## What changes the difference between `buffer_used` and the unprotected slots in use -/

/-- The allocation of `get_buffer` keeps the difference between `buffer_used` and
the number of unprotected in-use slots. -/
theorem drift_get_buffer {d : Int} {s : memory_storage} (h : wf s) (pidx : Int) (w : Bool)
    (hJ : s.buffer_used = (s.unprotected_in_use : Int) + d) :
    (s.get_buffer pidx w).2.buffer_used = ((s.get_buffer pidx w).2.unprotected_in_use : Int) + d := by
  cases w with
  | false => rw [get_buffer_read]; exact hJ
  | true =>
    by_cases hb : (s.piece_at pidx).is_buffered = true
    · rw [get_buffer_buffered s pidx true hb]; exact hJ
    · simp only [Bool.not_eq_true] at hb
      by_cases hr : (s.is_reading && !s.is_readered (s.piece_at pidx).index) = true
      · rw [get_buffer_refused s pidx hb hr]
        obtain ⟨_, f2, f3, _, _, _, _, _, _, f10, f11, _⟩ :=
          restore_piece_frame s (s.piece_at pidx).index
        rw [f3, unprotected_of_eq f2 f10 f11]
        exact hJ
      · have hr2 : ¬ (s.is_reading = true ∧ s.is_readered (s.piece_at pidx).index = false) := by
          simpa using hr
        cases hf : s.find_free with
        | none => rw [get_buffer_full s pidx hb hr2 hf]; exact hJ
        | some i =>
          obtain ⟨a1, _, a3, a4⟩ := get_buffer_alloc s pidx i hb hr2 hf
          obtain ⟨hil, hfree⟩ := find_free_some hf
          have hbl := h.buffers_len
          have hprot := protection_get_buffer s pidx true
          unfold memory_storage.protection at hprot
          simp only [Prod.mk.injEq] at hprot
          have hu : (s.get_buffer pidx true).2.unprotected_in_use =
              (s.set_buffer (i : Int) { s.buffer_at (i : Int) with
                is_used := true, pi := (s.piece_at pidx).index,
                accessed := (now s).1 }).unprotected_in_use := by
            refine unprotected_of_eq (s := s.set_buffer (i : Int) { s.buffer_at (i : Int) with
                is_used := true, pi := (s.piece_at pidx).index,
                accessed := (now s).1 }) ?_ hprot.2.1 hprot.2.2.1
            rw [a1]
            show _ = s.buffers.set (i : Int).toNat _
            rw [Int.toNat_natCast]
          have hadd := unprotected_set_buffer_add s (i : Int) { s.buffer_at (i : Int) with
            is_used := true, pi := (s.piece_at pidx).index, accessed := (now s).1 }
            (by omega) (by omega)
          rw [hfree] at hadd
          simp only [Bool.false_and, Bool.false_eq_true, if_false, Nat.add_zero, Bool.true_and]
            at hadd
          rw [hu, hadd]
          cases hp : (bitset_test s.reserved_pieces (s.piece_at pidx).index ||
              bitset_test s.lookbehind_pieces (s.piece_at pidx).index)
          · rw [(a4 hp).2]
            simp
            omega
          · rw [(a3 hp).2]
            simp
            omega

/-- Evicting a slot that passes the eligibility test of `find_last_buffer` keeps
the difference between `buffer_used` and the number of unprotected in-use
slots. -/
theorem drift_remove_piece {d : Int} {s : memory_storage} (h : wf s) (pi bi : Int) (cr : Bool)
    (hi : 0 ≤ bi) (hil : bi < s.buffer_size)
    (hel : eligible s pi cr (s.buffer_at bi) = true)
    (hJ : s.buffer_used = (s.unprotected_in_use : Int) + d) :
    (s.remove_piece bi).buffer_used = ((s.remove_piece bi).unprotected_in_use : Int) + d := by
  have hbl := h.buffers_len
  have hused := eligible_used hel
  obtain ⟨hr, hl, _⟩ := eligible_not_protected hel
  have hbi := h.buf bi hi hil
  have hpne : (s.buffer_at bi).pi ≠ -1 := hbi.2.2.1.mp hused
  obtain ⟨hp, hpl, _⟩ := hbi.2.2.2 hpne
  rw [is_reserved_eq_test h _ hp hpl] at hr
  rw [is_lookbehind_eq_test h _ hp hpl] at hl
  obtain ⟨_, f2, f3, _, _, _, _, f8⟩ := remove_piece_frame s bi
  have hu : (s.remove_piece bi).unprotected_in_use =
      (s.set_buffer bi ((s.buffer_at bi).reset (now s).1)).unprotected_in_use :=
    unprotected_of_eq (s := s.set_buffer bi ((s.buffer_at bi).reset (now s).1))
      (remove_piece_buffers s bi) f2 f3
  have hadd := unprotected_set_buffer_add s bi ((s.buffer_at bi).reset (now s).1) hi (by omega)
  have hnew : ((s.buffer_at bi).reset (now s).1).is_used = false := rfl
  rw [hused, hr, hl, hnew] at hadd
  simp only [Bool.or_self, Bool.not_false, Bool.and_self, if_true,
    Bool.false_and, Bool.false_eq_true, if_false, Nat.add_zero] at hadd
  rw [hu, f8]
  omega

theorem drift_trim_body {d : Int} {s : memory_storage} (h : wf s) (pi : Int)
    (hJ : s.buffer_used = (s.unprotected_in_use : Int) + d) :
    (s.trim_body pi).2.buffer_used = ((s.trim_body pi).2.unprotected_in_use : Int) + d := by
  have key : ∀ (t : memory_storage) (cr : Bool), wf t →
      t.buffer_used = (t.unprotected_in_use : Int) + d → (t.find_last_buffer pi cr).1 ≠ -1 →
      ((t.find_last_buffer pi cr).2.remove_piece (t.find_last_buffer pi cr).1).buffer_used =
        (((t.find_last_buffer pi cr).2.remove_piece
          (t.find_last_buffer pi cr).1).unprotected_in_use : Int) + d := by
    intro t cr ht hJt hne
    obtain ⟨h1, h2, h3⟩ := find_last_buffer_victim ht pi cr hne
    exact drift_remove_piece (s := (now t).2) (wf_now ht) pi _ cr h1 h2 h3 hJt
  unfold memory_storage.trim_body
  by_cases he : bitset_empty s.reader_pieces = true
  · simp only [he, Bool.not_true, Bool.false_eq_true, if_false, ne_eq, not_true_eq_false]
    split
    · rename_i hne
      exact key s false h hJ hne
    · exact hJ
  · simp only [Bool.not_eq_true] at he
    simp only [he, Bool.not_false, if_true]
    split
    · rename_i hne
      exact key s true h hJ hne
    · split
      · rename_i hne
        exact key (now s).2 false (wf_now h) hJ hne
      · exact hJ

theorem drift_trim_loop {d : Int} (pi : Int) : ∀ (fuel : Nat) (s : memory_storage), wf s →
    s.buffer_used = (s.unprotected_in_use : Int) + d →
    (trim_loop fuel s pi).buffer_used = ((trim_loop fuel s pi).unprotected_in_use : Int) + d := by
  intro fuel
  induction fuel with
  | zero => intro s _ hJ; exact hJ
  | succ n ih =>
    intro s h hJ
    unfold trim_loop
    split
    · have hb := wf_trim_body h pi
      have hu := drift_trim_body h pi hJ
      split
      · rename_i bi s1 heq
        rw [heq] at hb hu
        exact ih s1 hb hu
      · rename_i s1 heq
        rw [heq] at hu
        exact hu
    · exact hJ

theorem drift_trim {d : Int} {s : memory_storage} (h : wf s) (pi : Int)
    (hJ : s.buffer_used = (s.unprotected_in_use : Int) + d) :
    (s.trim pi).buffer_used = ((s.trim pi).unprotected_in_use : Int) + d := by
  unfold memory_storage.trim
  split
  · exact hJ
  · exact drift_trim_loop pi _ s h hJ

theorem drift_writev_store {d : Int} {g : memory_storage}
    (hJ : g.buffer_used = (g.unprotected_in_use : Int) + d) (bufs : List (List Nat))
    (piece offset : Int) :
    (g.writev_store bufs piece offset).2.buffer_used =
      ((g.writev_store bufs piece offset).2.unprotected_in_use : Int) + d := by
  have e1 := unprotected_set_buffer_same g (g.piece_at piece).bi
    { g.buffer_at (g.piece_at piece).bi with
      buffer := (writev_loop (g.piece_at piece).length bufs
        (g.buffer_at (g.piece_at piece).bi).buffer offset 0).1 } rfl rfl
  have e2 := unprotected_touch
    (now ((g.set_buffer (g.piece_at piece).bi
      { g.buffer_at (g.piece_at piece).bi with
        buffer := (writev_loop (g.piece_at piece).length bufs
          (g.buffer_at (g.piece_at piece).bi).buffer offset 0).1 }).set_piece piece
      { g.piece_at piece with
        size := (g.piece_at piece).size + (writev_loop (g.piece_at piece).length bufs
          (g.buffer_at (g.piece_at piece).bi).buffer offset 0).2 })).2
    (g.piece_at piece).bi
    (now ((g.set_buffer (g.piece_at piece).bi
      { g.buffer_at (g.piece_at piece).bi with
        buffer := (writev_loop (g.piece_at piece).length bufs
          (g.buffer_at (g.piece_at piece).bi).buffer offset 0).1 }).set_piece piece
      { g.piece_at piece with
        size := (g.piece_at piece).size + (writev_loop (g.piece_at piece).length bufs
          (g.buffer_at (g.piece_at piece).bi).buffer offset 0).2 })).1
  have hun : (g.writev_store bufs piece offset).2.unprotected_in_use = g.unprotected_in_use :=
    e2.trans ((unprotected_of_eq rfl rfl rfl).trans e1)
  rw [hun]
  exact hJ

theorem drift_writev {d : Int} {s : memory_storage} (h : wf s) (bufs : List (List Nat))
    (piece offset : Int) (hp : 0 ≤ piece) (hpl : piece < s.piece_count) (ho : 0 ≤ offset)
    (hol : offset ≤ (s.piece_at piece).length)
    (hJ : s.buffer_used = (s.unprotected_in_use : Int) + d) :
    (s.writev bufs piece offset).2.buffer_used =
      ((s.writev bufs piece offset).2.unprotected_in_use : Int) + d := by
  have hG := wf_get_buffer h piece true hp hpl
  have hg := drift_get_buffer h piece true hJ
  have hst := drift_writev_store hg bufs piece offset
  rw [writev_eq]
  split
  · exact hJ
  · split
    · exact hg
    · rename_i hg1
      have hg1t : (s.get_buffer piece true).1 = true := by
        cases hgv : (s.get_buffer piece true).1
        · simp [hgv] at hg1
        · rfl
      have hb := (is_buffered_iff _).mp (get_buffer_true s piece true hg1t)
      obtain ⟨_, _, hs3⟩ := get_buffer_static h piece true hp hpl
      have hpl' : piece < (s.get_buffer piece true).2.piece_count := by
        have := (get_buffer_static h piece true hp hpl).1
        omega
      have hw := (writev_store_spec hG bufs piece offset hp hpl' hb ho
        (by rw [(hs3 piece hp).1]; exact hol)).1
      simp only []
      split
      · exact drift_trim hw piece hst
      · exact hst

theorem drift_readv {d : Int} {s : memory_storage} (bufs : List (List Nat)) (piece offset : Int)
    (h : wf s) (hJ : s.buffer_used = (s.unprotected_in_use : Int) + d) :
    (s.readv bufs piece offset).2.2.buffer_used =
      ((s.readv bufs piece offset).2.2.unprotected_in_use : Int) + d := by
  have hg := drift_get_buffer h piece false hJ
  unfold memory_storage.readv memory_storage.get_read_buffer
  simp only []
  split
  · exact hJ
  · split
    · exact hg
    · split
      · rw [unprotected_touch]
        exact hg
      · rw [unprotected_touch]
        exact hg

theorem drift_read {d : Int} {s : memory_storage} (read_buf : List Nat) (size piece offset : Int)
    (h : wf s) (hJ : s.buffer_used = (s.unprotected_in_use : Int) + d) :
    (s.read read_buf size piece offset).2.2.buffer_used =
      ((s.read read_buf size piece offset).2.2.unprotected_in_use : Int) + d := by
  have h0 : wf { s with is_reading := true } :=
    wf_of_eq h rfl rfl rfl rfl rfl rfl rfl rfl rfl rfl rfl rfl
  have hJ0 : (({ s with is_reading := true } : memory_storage)).buffer_used =
      ((({ s with is_reading := true } : memory_storage)).unprotected_in_use : Int) + d := by
    rw [unprotected_of_eq (s := s) (t := { s with is_reading := true }) rfl rfl rfl]
    exact hJ
  have hg := drift_get_buffer h0 piece false hJ0
  have hr : ((memory_storage.get_buffer { s with is_reading := true } piece false).2.restore_piece
      piece).buffer_used = (((memory_storage.get_buffer { s with is_reading := true } piece
        false).2.restore_piece piece).unprotected_in_use : Int) + d := by
    obtain ⟨_, f2, f3, _, _, _, _, _, _, f10, f11, _⟩ := restore_piece_frame
      (memory_storage.get_buffer { s with is_reading := true } piece false).2 piece
    rw [f3, unprotected_of_eq f2 f10 f11]
    exact hg
  unfold memory_storage.read memory_storage.get_read_buffer
  simp only []
  split
  · exact hJ
  · split
    · exact hr
    · split
      · exact hr
      · split
        · exact hg
        · split_ifs
          all_goals (rw [unprotected_touch]; exact hg)

theorem drift_push_buffers {d : Int} (k : Nat) (i : Int) (s : memory_storage)
    (hJ : s.buffer_used = (s.unprotected_in_use : Int) + d) :
    (push_buffers k i s).buffer_used = ((push_buffers k i s).unprotected_in_use : Int) + d := by
  obtain ⟨L, h1, _, h3, _, _, _, _, _, _, h10, _, _, h13, h14, _⟩ := push_buffers_spec k i s
  have hL : L.countP (fun b => b.is_used && !(bitset_test s.reserved_pieces b.pi ||
      bitset_test s.lookbehind_pieces b.pi)) = 0 := by
    apply countP_unused_zero
    · intro b hb
      simp only [Bool.and_eq_true] at hb
      exact hb.1
    · intro j b hj
      exact (h3 j b hj).2.2.2.1
  have hu : (push_buffers k i s).unprotected_in_use = s.unprotected_in_use := by
    unfold memory_storage.unprotected_in_use
    rw [h1, h13, h14, List.countP_append, hL]
    rfl
  rw [h10, hu]
  exact hJ

theorem drift_set_memory_size {d : Int} {s : memory_storage} (sz : Int)
    (hJ : s.buffer_used = (s.unprotected_in_use : Int) + d) :
    (s.set_memory_size sz).buffer_used = ((s.set_memory_size sz).unprotected_in_use : Int) + d := by
  have key : ∀ n : Int,
      (if s.buffer_size = n then
          { s with capacity := sz, buffer_size := n, buffer_limit := n }
        else push_buffers (n - s.buffer_size).toNat s.buffer_size
          { s with capacity := sz, buffer_size := n, buffer_limit := n }).buffer_used =
      (((if s.buffer_size = n then
          { s with capacity := sz, buffer_size := n, buffer_limit := n }
        else push_buffers (n - s.buffer_size).toNat s.buffer_size
          { s with capacity := sz, buffer_size := n, buffer_limit := n }).unprotected_in_use :
            Nat) : Int) + d := by
    intro n
    have h0 : ({ s with capacity := sz, buffer_size := n, buffer_limit := n } :
        memory_storage).buffer_used =
        ((({ s with capacity := sz, buffer_size := n, buffer_limit := n } :
          memory_storage).unprotected_in_use : Nat) : Int) + d := by
      rw [unprotected_of_eq (s := s)
        (t := { s with capacity := sz, buffer_size := n, buffer_limit := n }) rfl rfl rfl]
      exact hJ
    split
    · exact h0
    · exact drift_push_buffers _ _ _ h0
  unfold memory_storage.set_memory_size
  by_cases h : sz ≤ s.capacity
  · rw [if_pos h]; exact hJ
  · rw [if_neg h]
    exact key _

theorem drift_of_eq {s t : memory_storage} {d : Int} (e1 : t.buffers = s.buffers)
    (e2 : t.reserved_pieces = s.reserved_pieces)
    (e3 : t.lookbehind_pieces = s.lookbehind_pieces) (e4 : t.buffer_used = s.buffer_used)
    (hJ : s.buffer_used = (s.unprotected_in_use : Int) + d) :
    t.buffer_used = (t.unprotected_in_use : Int) + d := by
  rw [e4, unprotected_of_eq e1 e2 e3]
  exact hJ

/-- A change of the protection bit-sets that leaves the protection of every
piece holding a slot as it was leaves the number of unprotected in-use slots as
it was. -/
theorem unprotected_of_resident_protection {s t : memory_storage} (e1 : t.buffers = s.buffers)
    (h : ∀ b ∈ s.buffers, b.is_used = true →
      (bitset_test t.reserved_pieces b.pi || bitset_test t.lookbehind_pieces b.pi) =
        (bitset_test s.reserved_pieces b.pi || bitset_test s.lookbehind_pieces b.pi)) :
    t.unprotected_in_use = s.unprotected_in_use := by
  unfold memory_storage.unprotected_in_use
  rw [e1]
  apply List.countP_congr
  intro b hb
  cases hu : b.is_used
  · simp
  · rw [h b hb hu]

/-- The protection updates leave `buffer_used` and the slots as they were. -/
theorem protection_update_frame (s : memory_storage) (o : op)
    (ho : o.is_protection_update = true) :
    (o.run s).buffer_used = s.buffer_used ∧ (o.run s).buffers = s.buffers := by
  cases o with
  | update_reserved_pieces l =>
    show (s.update_reserved_pieces l).buffer_used = _ ∧ (s.update_reserved_pieces l).buffers = _
    unfold memory_storage.update_reserved_pieces
    split <;> exact ⟨rfl, rfl⟩
  | set_lookbehind_pieces l =>
    show (s.set_lookbehind_pieces l).buffer_used = _ ∧ (s.set_lookbehind_pieces l).buffers = _
    unfold memory_storage.set_lookbehind_pieces
    split <;> exact ⟨rfl, rfl⟩
  | clear_lookbehind =>
    show s.clear_lookbehind.buffer_used = _ ∧ s.clear_lookbehind.buffers = _
    unfold memory_storage.clear_lookbehind
    split <;> exact ⟨rfl, rfl⟩
  | writev bufs piece offset => exact absurd ho (by simp [op.is_protection_update])
  | readv bufs piece offset => exact absurd ho (by simp [op.is_protection_update])
  | read read_buf size piece offset => exact absurd ho (by simp [op.is_protection_update])
  | update_reader_pieces l => exact absurd ho (by simp [op.is_protection_update])
  | set_memory_size sz => exact absurd ho (by simp [op.is_protection_update])
  | set_torrent_handle t => exact absurd ho (by simp [op.is_protection_update])
  | picker_priorities prios => exact absurd ho (by simp [op.is_protection_update])
  | clock_ticks ticks => exact absurd ho (by simp [op.is_protection_update])

/-- Every call other than a protection update keeps the difference between
`buffer_used` and the number of in-use slots holding an unprotected piece. -/
theorem drift_step {s : memory_storage} (hw : wf s) (o : op) (hpre : o.pre s) {d : Int}
    (ho : o.is_protection_update = false)
    (hJ : s.buffer_used = (s.unprotected_in_use : Int) + d) :
    (o.run s).buffer_used = ((o.run s).unprotected_in_use : Int) + d := by
  cases o with
  | writev bufs piece offset =>
    exact drift_writev hw bufs piece offset hpre.1 hpre.2.1 hpre.2.2.1 hpre.2.2.2 hJ
  | readv bufs piece offset => exact drift_readv bufs piece offset hw hJ
  | read read_buf size piece offset => exact drift_read read_buf size piece offset hw hJ
  | update_reader_pieces l =>
    have key : (s.update_reader_pieces l).buffer_used =
        ((s.update_reader_pieces l).unprotected_in_use : Int) + d := by
      unfold memory_storage.update_reader_pieces
      split
      · exact hJ
      · exact drift_of_eq (s := s) rfl rfl rfl rfl hJ
    exact key
  | update_reserved_pieces l => exact absurd ho (by simp [op.is_protection_update])
  | set_lookbehind_pieces l => exact absurd ho (by simp [op.is_protection_update])
  | clear_lookbehind => exact absurd ho (by simp [op.is_protection_update])
  | set_memory_size sz => exact drift_set_memory_size sz hJ
  | set_torrent_handle t => exact drift_of_eq (s := s) rfl rfl rfl rfl hJ
  | picker_priorities prios => exact drift_of_eq (s := s) rfl rfl rfl rfl hJ
  | clock_ticks ticks => exact drift_of_eq (s := s) rfl rfl rfl rfl hJ

/-- Along a run, `buffer_used` moves away from the number of in-use slots holding
an unprotected piece by exactly what the protection updates took from that
number. -/
theorem drift_run : ∀ (ops : List op) (s : memory_storage) (d : Int), reachable s →
    pre_all s ops → s.buffer_used = (s.unprotected_in_use : Int) + d →
    reachable (run_all s ops) ∧
    (run_all s ops).buffer_used =
      ((run_all s ops).unprotected_in_use : Int) + d + protection_drift s ops := by
  intro ops
  induction ops with
  | nil =>
    intro s d hs _ hJ
    exact ⟨hs, by simp only [run_all, protection_drift]; omega⟩
  | cons o rest ih =>
    intro s d hs hpre hJ
    have hw := reachable_wf hs
    have hs1 : reachable (o.run s) := reachable.step s o hs hpre.1
    cases ho : o.is_protection_update
    · obtain ⟨r1, r2⟩ := ih (o.run s) d hs1 hpre.2 (drift_step hw o hpre.1 ho hJ)
      refine ⟨r1, ?_⟩
      show (run_all (o.run s) rest).buffer_used = _
      rw [r2]
      simp only [run_all, protection_drift, ho, Bool.false_eq_true, if_false]
      omega
    · obtain ⟨f1, _⟩ := protection_update_frame s o ho
      obtain ⟨r1, r2⟩ := ih (o.run s)
        (d + ((s.unprotected_in_use : Int) - ((o.run s).unprotected_in_use : Int))) hs1 hpre.2
        (by rw [f1, hJ]; omega)
      refine ⟨r1, ?_⟩
      show (run_all (o.run s) rest).buffer_used = _
      rw [r2]
      simp only [run_all, protection_drift, ho, if_true]
      omega

theorem keeps_drift_zero : ∀ (ops : List op) (s : memory_storage),
    keeps_resident_protection s ops → protection_drift s ops = 0 := by
  intro ops
  induction ops with
  | nil => intro s _; rfl
  | cons o rest ih =>
    intro s hk
    have hrest := ih (o.run s) hk.2
    cases ho : o.is_protection_update
    · simp only [protection_drift, ho, Bool.false_eq_true, if_false, hrest]
      omega
    · obtain ⟨_, f2⟩ := protection_update_frame s o ho
      have hc := unprotected_of_resident_protection f2 (hk.1 ho)
      simp only [protection_drift, ho, if_true, hrest, hc]
      omega

/-- Claim C26, as amended: in the state reached from construction by any
sequence of public operations, `buffer_used` equals the number of in-use slots
whose piece is in neither `reserved_pieces` nor `lookbehind_pieces`, plus the
number of such slots that the protection updates of the sequence took away
(minus those they added). The two numbers are equal exactly when these changes
cancel, and in particular whenever no protection update changed the protection
of a piece that held a slot. -/
theorem buffer_used_drift (memory_size num_pieces piece_length : Int) (piece_size : Int → Int)
    (clock : Nat) (ticks : List Nat) (ops : List op)
    (hcap : 0 ≤ memory_size) (hlen : 0 < piece_length) (hnum : 0 ≤ num_pieces)
    (hsize : ∀ i : Int, 0 ≤ i → i < num_pieces →
      0 ≤ piece_size i ∧ piece_size i ≤ piece_length)
    (hpre : pre_all
      (memory_storage.construct memory_size num_pieces piece_length piece_size clock ticks) ops) :
    reachable (run_all
      (memory_storage.construct memory_size num_pieces piece_length piece_size clock ticks)
      ops) ∧
    (run_all (memory_storage.construct memory_size num_pieces piece_length piece_size clock
        ticks) ops).buffer_used =
      ((run_all (memory_storage.construct memory_size num_pieces piece_length piece_size clock
        ticks) ops).unprotected_in_use : Int) +
      protection_drift
        (memory_storage.construct memory_size num_pieces piece_length piece_size clock ticks)
        ops ∧
    ((run_all (memory_storage.construct memory_size num_pieces piece_length piece_size clock
        ticks) ops).buffer_used =
      ((run_all (memory_storage.construct memory_size num_pieces piece_length piece_size clock
        ticks) ops).unprotected_in_use : Int) ↔
      protection_drift
        (memory_storage.construct memory_size num_pieces piece_length piece_size clock ticks)
        ops = 0) ∧
    (keeps_resident_protection
        (memory_storage.construct memory_size num_pieces piece_length piece_size clock ticks)
        ops →
      (run_all (memory_storage.construct memory_size num_pieces piece_length piece_size clock
        ticks) ops).buffer_used =
      ((run_all (memory_storage.construct memory_size num_pieces piece_length piece_size clock
        ticks) ops).unprotected_in_use : Int)) := by
  have hc := reachable.construct memory_size num_pieces piece_length piece_size clock ticks
    hcap hlen hnum hsize
  have h0 := used_construct memory_size num_pieces piece_length piece_size clock ticks
  obtain ⟨r1, r2⟩ := drift_run ops _ 0 hc hpre (by rw [h0]; omega)
  refine ⟨r1, by rw [r2]; omega, by rw [r2]; omega, ?_⟩
  intro hk
  rw [r2, keeps_drift_zero ops _ hk]
  omega

/-- With four pieces of length 4 and capacity 16: piece 2 is written, piece 0 is
reserved while only piece 2 holds a slot, and piece 0 is written. No resident
piece changed its protection, and `buffer_used = 1` counts the one unprotected
slot in use (that of piece 2). -/
theorem buffer_used_drift_witness :
    (run_all (memory_storage.construct 16 4 4 (fun _ => 4) 0 (List.replicate 40 1))
      [op.writev [[1, 2, 3, 4]] 2 0, op.update_reserved_pieces [0],
        op.writev [[5, 6, 7, 8]] 0 0]).in_use = 2 ∧
    (run_all (memory_storage.construct 16 4 4 (fun _ => 4) 0 (List.replicate 40 1))
      [op.writev [[1, 2, 3, 4]] 2 0, op.update_reserved_pieces [0],
        op.writev [[5, 6, 7, 8]] 0 0]).unprotected_in_use = 1 ∧
    (run_all (memory_storage.construct 16 4 4 (fun _ => 4) 0 (List.replicate 40 1))
      [op.writev [[1, 2, 3, 4]] 2 0, op.update_reserved_pieces [0],
        op.writev [[5, 6, 7, 8]] 0 0]).buffer_used =
      ((run_all (memory_storage.construct 16 4 4 (fun _ => 4) 0 (List.replicate 40 1))
        [op.writev [[1, 2, 3, 4]] 2 0, op.update_reserved_pieces [0],
          op.writev [[5, 6, 7, 8]] 0 0]).unprotected_in_use : Int) :=
  ⟨by decide, by decide,
    (buffer_used_drift 16 4 4 (fun _ => 4) 0 (List.replicate 40 1)
      [op.writev [[1, 2, 3, 4]] 2 0, op.update_reserved_pieces [0],
        op.writev [[5, 6, 7, 8]] 0 0]
      (by decide) (by decide) (by decide) (by intro i _ _; simp)
      ⟨⟨by decide, by decide, by decide, by decide⟩, trivial,
        ⟨by decide, by decide, by decide, by decide⟩, trivial⟩).2.2.2
      ⟨fun h => absurd h (by decide), fun _ => by decide, fun h => absurd h (by decide),
        trivial⟩⟩

/-! ## What a call does to the record of a piece -/

theorem remove_piece_piece_at {s : memory_storage} (h : wf s) (bi : Int)
    (hi : 0 ≤ bi) (hil : bi < s.buffer_size) (hused : (s.buffer_at bi).is_used = true)
    (q : Int) (hq : 0 ≤ q) :
    (s.remove_piece bi).piece_at q =
      if q = (s.buffer_at bi).pi then (s.piece_at (s.buffer_at bi).pi).reset
      else s.piece_at q := by
  have hbi := h.buf bi hi hil
  have hpne : (s.buffer_at bi).pi ≠ -1 := hbi.2.2.1.mp hused
  obtain ⟨hp, hpl, _⟩ := hbi.2.2.2 hpne
  have hpcl := h.pieces_len
  obtain ⟨hpc, _⟩ := remove_piece_pieces s bi ⟨hpne, hpl⟩
  unfold memory_storage.piece_at
  rw [hpc]
  exact getD_set_int s.pieces (s.buffer_at bi).pi q _ default hp (by omega) hq

/-- One pass of the loop of `trim` leaves the record of a piece as it was or
resets it. -/
theorem trim_body_piece {s : memory_storage} (h : wf s) (pi q : Int) (hq : 0 ≤ q) :
    (s.trim_body pi).2.piece_at q = s.piece_at q ∨
      (s.trim_body pi).2.piece_at q = (s.piece_at q).reset := by
  have key : ∀ (t : memory_storage) (cr : Bool), wf t → t.piece_at q = s.piece_at q →
      (t.find_last_buffer pi cr).1 ≠ -1 →
      ((t.find_last_buffer pi cr).2.remove_piece (t.find_last_buffer pi cr).1).piece_at q =
          s.piece_at q ∨
        ((t.find_last_buffer pi cr).2.remove_piece (t.find_last_buffer pi cr).1).piece_at q =
          (s.piece_at q).reset := by
    intro t cr ht hpq hne
    obtain ⟨h1, h2, h3⟩ := find_last_buffer_victim ht pi cr hne
    have hr := remove_piece_piece_at (s := (now t).2) (wf_now ht) _ h1 h2 (eligible_used h3) q hq
    have e : (t.find_last_buffer pi cr).2 = (now t).2 := rfl
    rw [e, hr]
    have e2 : (now t).2.piece_at q = s.piece_at q := hpq
    split
    · rename_i hqe
      right
      rw [← hqe, e2]
    · left
      exact e2
  unfold memory_storage.trim_body
  by_cases he : bitset_empty s.reader_pieces = true
  · simp only [he, Bool.not_true, Bool.false_eq_true, if_false, ne_eq, not_true_eq_false]
    split
    · rename_i hne
      exact key s false h rfl hne
    · left; rfl
  · simp only [Bool.not_eq_true] at he
    simp only [he, Bool.not_false, if_true]
    split
    · rename_i hne
      exact key s true h rfl hne
    · split
      · rename_i hne
        exact key (now s).2 false (wf_now h) rfl hne
      · left; rfl

theorem trim_loop_piece (pi q : Int) (hq : 0 ≤ q) : ∀ (fuel : Nat) (s : memory_storage), wf s →
    ((trim_loop fuel s pi).piece_at q = s.piece_at q ∨
      (trim_loop fuel s pi).piece_at q = (s.piece_at q).reset) := by
  intro fuel
  induction fuel with
  | zero => intro s _; left; rfl
  | succ n ih =>
    intro s h
    unfold trim_loop
    split
    · have hb := wf_trim_body h pi
      have hp := trim_body_piece h pi q hq
      split
      · rename_i bi s1 heq
        rw [heq] at hb hp
        have hp1 : s1.piece_at q = s.piece_at q ∨ s1.piece_at q = (s.piece_at q).reset := hp
        rcases ih s1 hb with h2 | h2
        · rw [h2]; exact hp1
        · rw [h2]
          rcases hp1 with h1 | h1
          · right; rw [h1]
          · right; rw [h1]; rfl
      · rename_i s1 heq
        rw [heq] at hp
        exact hp
    · left; rfl

theorem trim_piece {s : memory_storage} (h : wf s) (pi q : Int) (hq : 0 ≤ q) :
    (s.trim pi).piece_at q = s.piece_at q ∨ (s.trim pi).piece_at q = (s.piece_at q).reset := by
  unfold memory_storage.trim
  split
  · left; rfl
  · exact trim_loop_piece pi q hq _ s h

theorem get_buffer_piece_other {s : memory_storage} (h : wf s) (pidx : Int) (w : Bool)
    (hp : 0 ≤ pidx) (hpl : pidx < s.piece_count) (q : Int) (hq : 0 ≤ q) (hne : q ≠ pidx) :
    (s.get_buffer pidx w).2.piece_at q = s.piece_at q := by
  cases w with
  | false => rw [get_buffer_read]
  | true =>
    by_cases hb : (s.piece_at pidx).is_buffered = true
    · rw [get_buffer_buffered s pidx true hb]
    · simp only [Bool.not_eq_true] at hb
      by_cases hr : (s.is_reading && !s.is_readered (s.piece_at pidx).index) = true
      · rw [get_buffer_refused s pidx hb hr, piece_at_restore_piece]
      · have hr2 : ¬ (s.is_reading = true ∧ s.is_readered (s.piece_at pidx).index = false) := by
          simpa using hr
        cases hf : s.find_free with
        | none => rw [get_buffer_full s pidx hb hr2 hf]
        | some i =>
          obtain ⟨_, a2, _, _⟩ := get_buffer_alloc s pidx i hb hr2 hf
          have hpcl := h.pieces_len
          unfold memory_storage.piece_at
          rw [a2, getD_set_int s.pieces pidx q _ default hp (by omega) hq, if_neg hne]

theorem writev_store_piece_other (g : memory_storage) (bufs : List (List Nat))
    (piece offset : Int) (hp : 0 ≤ piece) (hpl : piece < (g.pieces.length : Int))
    (q : Int) (hq : 0 ≤ q) (hne : q ≠ piece) :
    (g.writev_store bufs piece offset).2.piece_at q = g.piece_at q := by
  have e : (g.writev_store bufs piece offset).2.pieces =
      g.pieces.set piece.toNat { g.piece_at piece with
        size := (g.piece_at piece).size + (writev_loop (g.piece_at piece).length bufs
          (g.buffer_at (g.piece_at piece).bi).buffer offset 0).2 } := rfl
  unfold memory_storage.piece_at
  rw [e, getD_set_int g.pieces piece q _ default hp hpl hq, if_neg hne]

/-- A `writev` on another piece leaves the record of a piece as it was or
resets it (when the piece is evicted). -/
theorem writev_piece_other {s : memory_storage} (h : wf s) (bufs : List (List Nat))
    (piece offset : Int) (hp : 0 ≤ piece) (hpl : piece < s.piece_count) (ho : 0 ≤ offset)
    (hol : offset ≤ (s.piece_at piece).length) (q : Int) (hq : 0 ≤ q) (hne : q ≠ piece) :
    (s.writev bufs piece offset).2.piece_at q = s.piece_at q ∨
      (s.writev bufs piece offset).2.piece_at q = (s.piece_at q).reset := by
  have hG := wf_get_buffer h piece true hp hpl
  have hg := get_buffer_piece_other h piece true hp hpl q hq hne
  have hpc := (get_buffer_static h piece true hp hpl).1
  have hst := writev_store_piece_other (s.get_buffer piece true).2 bufs piece offset hp
    (by rw [hG.pieces_len, hpc]; exact hpl) q hq hne
  rw [writev_eq]
  split
  · left; rfl
  · split
    · left; exact hg
    · rename_i hg1
      have hg1t : (s.get_buffer piece true).1 = true := by
        cases hgv : (s.get_buffer piece true).1
        · simp [hgv] at hg1
        · rfl
      have hb := (is_buffered_iff _).mp (get_buffer_true s piece true hg1t)
      obtain ⟨_, _, hs3⟩ := get_buffer_static h piece true hp hpl
      have hw := (writev_store_spec hG bufs piece offset hp (by rw [hpc]; exact hpl) hb ho
        (by rw [(hs3 piece hp).1]; exact hol)).1
      simp only []
      split
      · rcases trim_piece hw piece q hq with ht | ht
        · left; rw [ht, hst, hg]
        · right; rw [ht, hst, hg]
      · left; rw [hst, hg]

/-- A `writev` on a piece either is refused (the piece has no slot before and
after, nothing is counted, the call returns 0) or leaves the piece with a slot
and with `size` grown by the value returned, which is the length of a byte
range starting at `offset` and ending within the piece. -/
theorem writev_piece_self {s : memory_storage} (h : wf s) (bufs : List (List Nat))
    (piece offset : Int) (hp : 0 ≤ piece) (hpl : piece < s.piece_count) (ho : 0 ≤ offset)
    (hol : offset ≤ (s.piece_at piece).length) :
    ((s.writev bufs piece offset).2.piece_at piece).length = (s.piece_at piece).length ∧
    (((s.writev bufs piece offset).1 = 0 ∧
        ((s.writev bufs piece offset).2.piece_at piece).bi = -1 ∧
        ((s.writev bufs piece offset).2.piece_at piece).size = (s.piece_at piece).size ∧
        (s.piece_at piece).bi = -1) ∨
      (((s.writev bufs piece offset).2.piece_at piece).bi ≠ -1 ∧
        ((s.writev bufs piece offset).2.piece_at piece).size =
          (s.piece_at piece).size + (s.writev bufs piece offset).1 ∧
        0 ≤ (s.writev bufs piece offset).1 ∧
        offset + (s.writev bufs piece offset).1 ≤ (s.piece_at piece).length)) := by
  cases hg : (s.get_buffer piece true).1
  · obtain ⟨r1, r2⟩ := writev_refused_record h bufs piece offset hp hpl hg
    refine ⟨r1, Or.inl ?_⟩
    have e : s.writev bufs piece offset = (0, (s.get_buffer piece true).2) := by
      rw [writev_eq]
      simp only [h.init, hg, Bool.not_true, Bool.false_eq_true, if_false, Bool.not_false,
        if_true]
    have hnb := get_buffer_false s piece true hg
    have hbi : ((s.get_buffer piece true).2.piece_at piece).bi = -1 := by
      by_contra hc
      have := (is_buffered_iff _).mpr hc
      rw [hnb] at this
      exact absurd this (by simp)
    have hsb : (s.piece_at piece).bi = -1 := by
      by_contra hc
      have hb := (is_buffered_iff _).mpr hc
      rw [get_buffer_buffered s piece true hb] at hg
      exact absurd hg (by simp)
    refine ⟨by rw [e], ?_, r2, hsb⟩
    rw [e]
    exact hbi
  · obtain ⟨w1, w2, w3, w4, _, w6⟩ := writev_success h bufs piece offset hp hpl ho hol hg
    obtain ⟨r1, _, _⟩ := writev_piece_record h bufs piece offset hp hpl ho hol hg
    have hL := (h.pc piece hp hpl).2.2.1
    rw [writev_loop_spec (s.piece_at piece).length bufs _ offset 0 ho hol
      (by rw [w6]; exact hL)] at w1
    simp only [zero_add] at w1
    refine ⟨r1, Or.inr ⟨by rw [w2]; exact w3, w4, ?_, ?_⟩⟩
    · rw [w1]; omega
    · rw [w1]; omega

theorem readv_pieces {s : memory_storage} (hs : never_completed s) (bufs : List (List Nat))
    (piece offset : Int) : (s.readv bufs piece offset).2.2.pieces = s.pieces := by
  have hc := (never_completed_piece_at hs piece).1
  unfold memory_storage.readv memory_storage.get_read_buffer
  rw [get_buffer_read]
  simp only [hc, Bool.false_and, Bool.false_eq_true, if_false]
  split
  · rfl
  · split
    · rfl
    · rfl

theorem read_pieces {s : memory_storage} (hs : never_completed s) (read_buf : List Nat)
    (size piece offset : Int) : (s.read read_buf size piece offset).2.2.pieces = s.pieces := by
  have h0 : never_completed { s with is_reading := true } := never_completed_of_pieces rfl hs
  have hg := never_completed_get_buffer h0 piece false
  have hc := (never_completed_piece_at hg piece).1
  have hgp : (memory_storage.get_buffer { s with is_reading := true } piece false).2.pieces =
      s.pieces := by
    rw [get_buffer_read]
  unfold memory_storage.read memory_storage.get_read_buffer
  simp only [hc, Bool.false_and, Bool.false_eq_true, if_false]
  split_ifs
  all_goals first
    | rfl
    | exact hgp
    | exact (restore_piece_frame _ _).1.trans hgp

/-- Every call other than `writev` leaves the piece records as they were. -/
theorem run_pieces_other {s : memory_storage} (hs : never_completed s) (o : op)
    (ho : ∀ bufs piece offset, o ≠ op.writev bufs piece offset) :
    (o.run s).pieces = s.pieces := by
  cases o with
  | writev bufs piece offset => exact absurd rfl (ho bufs piece offset)
  | readv bufs piece offset => exact readv_pieces hs bufs piece offset
  | read read_buf size piece offset => exact read_pieces hs read_buf size piece offset
  | update_reader_pieces l =>
    show (s.update_reader_pieces l).pieces = _
    unfold memory_storage.update_reader_pieces
    split <;> rfl
  | update_reserved_pieces l =>
    show (s.update_reserved_pieces l).pieces = _
    unfold memory_storage.update_reserved_pieces
    split <;> rfl
  | set_lookbehind_pieces l =>
    show (s.set_lookbehind_pieces l).pieces = _
    unfold memory_storage.set_lookbehind_pieces
    split <;> rfl
  | clear_lookbehind =>
    show s.clear_lookbehind.pieces = _
    unfold memory_storage.clear_lookbehind
    split <;> rfl
  | set_memory_size sz =>
    show (s.set_memory_size sz).pieces = _
    by_cases h : sz ≤ s.capacity
    · unfold memory_storage.set_memory_size
      rw [if_pos h]
    · exact (set_memory_size_fields s sz (by omega)).2.2.2.1
  | set_torrent_handle t => rfl
  | picker_priorities prios => rfl
  | clock_ticks ticks => rfl

/-! ## The bytes counted in the size of a piece -/

theorem ranges_total_append (l : List (Int × Int)) (r : Int × Int) :
    ranges_total (l ++ [r]) = ranges_total l + (r.2 - r.1) := by
  induction l with
  | nil => simp [ranges_total]
  | cons a rest ih =>
    show (a.2 - a.1) + ranges_total (rest ++ [r]) = (a.2 - a.1) + ranges_total rest + (r.2 - r.1)
    rw [ih]
    omega

theorem run_piece_count (s : memory_storage) (o : op) :
    (o.run s).piece_count = s.piece_count := by
  cases o with
  | writev bufs piece offset =>
    exact congrArg (fun x => x.2.2.2) (protection_writev s bufs piece offset)
  | readv bufs piece offset =>
    exact congrArg (fun x => x.2.2.2) (protection_readv s bufs piece offset)
  | read read_buf size piece offset =>
    exact congrArg (fun x => x.2.2.2) (protection_read s read_buf size piece offset)
  | update_reader_pieces l =>
    show (s.update_reader_pieces l).piece_count = _
    unfold memory_storage.update_reader_pieces
    split <;> rfl
  | update_reserved_pieces l =>
    show (s.update_reserved_pieces l).piece_count = _
    unfold memory_storage.update_reserved_pieces
    split <;> rfl
  | set_lookbehind_pieces l =>
    show (s.set_lookbehind_pieces l).piece_count = _
    unfold memory_storage.set_lookbehind_pieces
    split <;> rfl
  | clear_lookbehind =>
    show s.clear_lookbehind.piece_count = _
    unfold memory_storage.clear_lookbehind
    split <;> rfl
  | set_memory_size sz =>
    exact congrArg (fun x => x.2.2.2) (protection_set_memory_size s sz)
  | set_torrent_handle t => rfl
  | picker_priorities prios => rfl
  | clock_ticks ticks => rfl

theorem counted_in_kept {s t : memory_storage} {p : Int} {acc : List (Int × Int)}
    (hk : t.piece_at p = s.piece_at p) (h : counted_in s p acc) :
    counted_in t p (if (t.piece_at p).bi = -1 then [] else acc) := by
  obtain ⟨h1, h2, h3⟩ := h
  unfold counted_in
  rw [hk]
  split
  · rename_i hb
    rw [h2 hb] at h1
    exact ⟨h1, fun _ => rfl, by intro r hr; simp at hr⟩
  · exact ⟨h1, h2, h3⟩

theorem counted_in_reset {s t : memory_storage} {p : Int} (acc : List (Int × Int))
    (hk : t.piece_at p = (s.piece_at p).reset) :
    counted_in t p (if (t.piece_at p).bi = -1 then [] else acc) := by
  have hb : (t.piece_at p).bi = -1 := by rw [hk]; rfl
  have hz : (t.piece_at p).size = 0 := by rw [hk]; rfl
  rw [if_pos hb]
  exact ⟨hz, fun _ => rfl, by intro r hr; simp at hr⟩

/-- One call keeps the account of `pieces[p].size`: the range of a `writev` on
`p` is added, and the account is emptied when `p` is left without a slot. -/
theorem counted_in_step {s : memory_storage} (hs : reachable s) (o : op) (hpre : o.pre s)
    (p : Int) (hp : 0 ≤ p) (hpl : p < s.piece_count) (acc : List (Int × Int))
    (h : counted_in s p acc) :
    ((o.run s).piece_at p).length = (s.piece_at p).length ∧
    counted_in (o.run s) p (counted_ranges p s [o] acc) := by
  have hw := reachable_wf hs
  have hn := reachable_never_completed hs
  have kept : ∀ X : List (Int × Int), X = acc → (o.run s).piece_at p = s.piece_at p →
      ((o.run s).piece_at p).length = (s.piece_at p).length ∧
      counted_in (o.run s) p (if ((o.run s).piece_at p).bi = -1 then [] else X) := by
    intro X hX hk
    rw [hX]
    exact ⟨by rw [hk], counted_in_kept hk h⟩
  have other : (∀ bufs piece offset, o ≠ op.writev bufs piece offset) →
      (o.run s).piece_at p = s.piece_at p := by
    intro ho
    unfold memory_storage.piece_at
    rw [run_pieces_other hn o ho]
  cases o with
  | writev bufs piece offset =>
    by_cases hpp : piece = p
    · subst hpp
      obtain ⟨hl, hcase⟩ := writev_piece_self hw bufs piece offset hpre.1 hpre.2.1 hpre.2.2.1
        hpre.2.2.2
      refine ⟨hl, ?_⟩
      show counted_in (s.writev bufs piece offset).2 piece
        (if ((s.writev bufs piece offset).2.piece_at piece).bi = -1 then []
          else if piece = piece then acc ++ [(offset, offset + (s.writev bufs piece offset).1)]
            else acc)
      obtain ⟨h1, h2, h3⟩ := h
      rcases hcase with ⟨_, c2, c3, c4⟩ | ⟨c1, c2, c3, c4⟩
      · rw [if_pos c2]
        rw [h2 c4] at h1
        exact ⟨by rw [c3, h1], fun _ => rfl, by intro r hr; simp at hr⟩
      · rw [if_neg c1, if_pos rfl]
        refine ⟨?_, fun hb => absurd hb c1, ?_⟩
        · rw [c2, h1, ranges_total_append]
          simp
        · intro r hr
          rw [hl]
          rcases List.mem_append.mp hr with hr | hr
          · exact h3 r hr
          · simp only [List.mem_singleton] at hr
            subst hr
            exact ⟨hpre.2.2.1, by simp only; omega, c4⟩
    · have hne : p ≠ piece := fun e => hpp e.symm
      have hcase := writev_piece_other hw bufs piece offset hpre.1 hpre.2.1 hpre.2.2.1
        hpre.2.2.2 p hp hne
      show ((s.writev bufs piece offset).2.piece_at p).length = _ ∧
        counted_in (s.writev bufs piece offset).2 p
        (if ((s.writev bufs piece offset).2.piece_at p).bi = -1 then []
          else if piece = p then acc ++ [(offset, offset + (s.writev bufs piece offset).1)]
            else acc)
      rw [if_neg hpp]
      rcases hcase with hk | hk
      · exact ⟨by rw [hk], counted_in_kept hk h⟩
      · exact ⟨by rw [hk]; rfl, counted_in_reset acc hk⟩
  | readv bufs piece offset => exact kept _ rfl (other (by intro a b c hc; cases hc))
  | read read_buf size piece offset => exact kept _ rfl (other (by intro a b c hc; cases hc))
  | update_reader_pieces l => exact kept _ rfl (other (by intro a b c hc; cases hc))
  | update_reserved_pieces l => exact kept _ rfl (other (by intro a b c hc; cases hc))
  | set_lookbehind_pieces l => exact kept _ rfl (other (by intro a b c hc; cases hc))
  | clear_lookbehind => exact kept _ rfl (other (by intro a b c hc; cases hc))
  | set_memory_size sz => exact kept _ rfl (other (by intro a b c hc; cases hc))
  | set_torrent_handle t => exact kept _ rfl (other (by intro a b c hc; cases hc))
  | picker_priorities prios => exact kept _ rfl (other (by intro a b c hc; cases hc))
  | clock_ticks ticks => exact kept _ rfl (other (by intro a b c hc; cases hc))

theorem counted_in_run (p : Int) (hp : 0 ≤ p) : ∀ (ops : List op) (s : memory_storage)
    (acc : List (Int × Int)), reachable s → p < s.piece_count → pre_all s ops →
    counted_in s p acc →
    reachable (run_all s ops) ∧
    ((run_all s ops).piece_at p).length = (s.piece_at p).length ∧
    counted_in (run_all s ops) p (counted_ranges p s ops acc) := by
  intro ops
  induction ops with
  | nil =>
    intro s acc hs _ _ h
    exact ⟨hs, rfl, h⟩
  | cons o rest ih =>
    intro s acc hs hpl hpre h
    obtain ⟨hl, hc⟩ := counted_in_step hs o hpre.1 p hp hpl acc h
    have hs1 : reachable (o.run s) := reachable.step s o hs hpre.1
    obtain ⟨r1, r2, r3⟩ := ih (o.run s) (counted_ranges p s [o] acc) hs1
      (by rw [run_piece_count]; exact hpl) hpre.2 hc
    exact ⟨r1, r2.trans hl, r3⟩

/-- Byte ranges within `[0, L)` that share no byte hold at most `L` bytes. -/
theorem disjoint_total_le (L : Int) (hL : 0 ≤ L) : ∀ l : List (Int × Int),
    (∀ r ∈ l, 0 ≤ r.1 ∧ r.1 ≤ r.2 ∧ r.2 ≤ L) → l.Pairwise ranges_disjoint →
    ranges_total l ≤ L := by
  have key : ∀ l : List (Int × Int),
      (∀ r ∈ l, 0 ≤ r.1 ∧ r.1 ≤ r.2 ∧ r.2 ≤ L) → l.Pairwise ranges_disjoint →
      ∃ U : Finset Nat, (∀ x : Nat, x ∈ U ↔ ∃ r ∈ l, r.1 ≤ (x : Int) ∧ (x : Int) < r.2) ∧
        (U.card : Int) = ranges_total l := by
    intro l
    induction l with
    | nil =>
      intro _ _
      exact ⟨∅, by intro x; simp, rfl⟩
    | cons r rest ih =>
      intro hv hd
      rw [List.pairwise_cons] at hd
      obtain ⟨U, hU, hc⟩ := ih (fun r2 hr2 => hv r2 (List.mem_cons_of_mem _ hr2)) hd.2
      obtain ⟨v1, v2, v3⟩ := hv r (List.mem_cons_self _ _)
      have hdis : Disjoint (Finset.Ico r.1.toNat r.2.toNat) U := by
        rw [Finset.disjoint_left]
        intro x hx hxU
        rw [Finset.mem_Ico] at hx
        obtain ⟨r2, hr2, hx1, hx2⟩ := (hU x).mp hxU
        have hdd := hd.1 r2 hr2
        unfold ranges_disjoint at hdd
        omega
      refine ⟨Finset.Ico r.1.toNat r.2.toNat ∪ U, ?_, ?_⟩
      · intro x
        rw [Finset.mem_union, Finset.mem_Ico, hU x]
        constructor
        · rintro (hx | ⟨r2, hr2, hx⟩)
          · exact ⟨r, List.mem_cons_self _ _, by omega, by omega⟩
          · exact ⟨r2, List.mem_cons_of_mem _ hr2, hx⟩
        · rintro ⟨r2, hr2, hx1, hx2⟩
          rcases List.mem_cons.mp hr2 with rfl | hr2
          · left; omega
          · right; exact ⟨r2, hr2, hx1, hx2⟩
      · rw [Finset.card_union_of_disjoint hdis, Nat.card_Ico]
        show _ = (r.2 - r.1) + ranges_total rest
        rw [← hc]
        push_cast
        omega
  intro l hv hd
  obtain ⟨U, hU, hc⟩ := key l hv hd
  have hsub : U ⊆ Finset.range L.toNat := by
    intro x hx
    obtain ⟨r, hr, hx1, hx2⟩ := (hU x).mp hx
    obtain ⟨_, _, v3⟩ := hv r hr
    rw [Finset.mem_range]
    omega
  have hle := Finset.card_le_card hsub
  rw [Finset.card_range] at hle
  omega

theorem construct_piece_at (C N pl : Int) (piece_size : Int → Int) (clock : Nat)
    (ticks : List Nat) (p : Int) (hp : 0 ≤ p) (hpl : p < N) :
    (memory_storage.construct C N pl piece_size clock ticks).piece_at p =
      memory_piece.mk_new p (piece_size p) := by
  obtain ⟨L, _, _, _, h4, _⟩ :=
    push_buffers_spec (if ceil_div C pl + 2 > N then N else ceil_div C pl + 2).toNat 0
      { reader_pieces := []
        reserved_pieces := []
        lookbehind_pieces := []
        capacity := C
        piece_count := N
        piece_length := pl
        pieces := (List.range N.toNat).map
          (fun (i : Nat) => memory_piece.mk_new (i : Int) (piece_size (i : Int)))
        buffer_size := (if ceil_div C pl + 2 > N then N else ceil_div C pl + 2)
        buffer_limit := (if ceil_div C pl + 2 > N then N else ceil_div C pl + 2)
        buffer_used := 0
        buffer_reserved := 0
        buffers := []
        m_handle := none
        is_initialized := false
        is_reading := false
        clock := clock
        ticks := ticks }
  have hpieces : (memory_storage.construct C N pl piece_size clock ticks).pieces =
      (List.range N.toNat).map
        (fun (i : Nat) => memory_piece.mk_new (i : Int) (piece_size (i : Int))) := h4
  unfold memory_storage.piece_at
  rw [hpieces, List.getD_eq_getElem?_getD, List.getElem?_map,
    List.getElem?_range (by omega : p.toNat < N.toNat)]
  have hc : ((p.toNat : Nat) : Int) = p := by omega
  simp only [Option.map_some', Option.getD_some, hc]

/-- Claim C27, as amended: in the state reached from construction by any
sequence of public operations, `pieces[p].size` is the number of bytes in the
ranges copied into `p` by the `writev` calls made since the slot that `p` holds
was allocated, each range counted as often as it was written, while
`pieces[p].length` never changes. So `size ≤ length` holds exactly when these
ranges hold at most `length` bytes, and in particular whenever they share no
byte, in whatever order they were written. -/
theorem size_counts_written (memory_size num_pieces piece_length : Int)
    (piece_size : Int → Int) (clock : Nat) (ticks : List Nat) (ops : List op) (p : Int)
    (hcap : 0 ≤ memory_size) (hlen : 0 < piece_length) (hnum : 0 ≤ num_pieces)
    (hsize : ∀ i : Int, 0 ≤ i → i < num_pieces →
      0 ≤ piece_size i ∧ piece_size i ≤ piece_length)
    (hpre : pre_all
      (memory_storage.construct memory_size num_pieces piece_length piece_size clock ticks) ops)
    (hp : 0 ≤ p) (hpl : p < num_pieces) :
    reachable (run_all
      (memory_storage.construct memory_size num_pieces piece_length piece_size clock ticks)
      ops) ∧
    ((run_all (memory_storage.construct memory_size num_pieces piece_length piece_size clock
      ticks) ops).piece_at p).length = piece_size p ∧
    ((run_all (memory_storage.construct memory_size num_pieces piece_length piece_size clock
      ticks) ops).piece_at p).size =
      ranges_total (counted_ranges p
        (memory_storage.construct memory_size num_pieces piece_length piece_size clock ticks)
        ops []) ∧
    (∀ r ∈ counted_ranges p
        (memory_storage.construct memory_size num_pieces piece_length piece_size clock ticks)
        ops [], 0 ≤ r.1 ∧ r.1 ≤ r.2 ∧ r.2 ≤ piece_size p) ∧
    (((run_all (memory_storage.construct memory_size num_pieces piece_length piece_size clock
        ticks) ops).piece_at p).size ≤
      ((run_all (memory_storage.construct memory_size num_pieces piece_length piece_size clock
        ticks) ops).piece_at p).length ↔
      ranges_total (counted_ranges p
        (memory_storage.construct memory_size num_pieces piece_length piece_size clock ticks)
        ops []) ≤ piece_size p) ∧
    ((counted_ranges p
        (memory_storage.construct memory_size num_pieces piece_length piece_size clock ticks)
        ops []).Pairwise ranges_disjoint →
      ((run_all (memory_storage.construct memory_size num_pieces piece_length piece_size clock
        ticks) ops).piece_at p).size ≤
      ((run_all (memory_storage.construct memory_size num_pieces piece_length piece_size clock
        ticks) ops).piece_at p).length) := by
  have hc := reachable.construct memory_size num_pieces piece_length piece_size clock ticks
    hcap hlen hnum hsize
  have h0 := construct_piece_at memory_size num_pieces piece_length piece_size clock ticks p
    hp hpl
  have hN := (construct_fields memory_size num_pieces piece_length piece_size clock
    ticks).2.2.2.2.2.1
  have hl0 : ((memory_storage.construct memory_size num_pieces piece_length piece_size clock
      ticks).piece_at p).length = piece_size p := by rw [h0]; rfl
  have hinit : counted_in
      (memory_storage.construct memory_size num_pieces piece_length piece_size clock ticks)
      p [] := by
    refine ⟨by rw [h0]; rfl, fun _ => rfl, by intro r hr; simp at hr⟩
  obtain ⟨r1, r2, r3, r4, r5⟩ := counted_in_run p hp ops _ [] hc (by rw [hN]; exact hpl) hpre
    hinit
  rw [hl0] at r2
  rw [r2] at r5
  refine ⟨r1, r2, r3, r5, by rw [r2, r3], ?_⟩
  intro hd
  rw [r2, r3]
  exact disjoint_total_le (piece_size p) (hsize p hp hpl).1 _ r5 hd

/-- With four pieces of length 4 and capacity 16, the bytes of piece 0 arrive
out of order: `[2, 4)` first, then `[0, 2)`. The two ranges share no byte and
`pieces[0].size = 4 = pieces[0].length`. -/
theorem size_counts_written_witness :
    counted_ranges 0 (memory_storage.construct 16 4 4 (fun _ => 4) 0 (List.replicate 40 1))
      [op.writev [[3, 4]] 0 2, op.writev [[1, 2]] 0 0] [] = [(2, 4), (0, 2)] ∧
    ((run_all (memory_storage.construct 16 4 4 (fun _ => 4) 0 (List.replicate 40 1))
      [op.writev [[3, 4]] 0 2, op.writev [[1, 2]] 0 0]).piece_at 0).size = 4 ∧
    ((run_all (memory_storage.construct 16 4 4 (fun _ => 4) 0 (List.replicate 40 1))
      [op.writev [[3, 4]] 0 2, op.writev [[1, 2]] 0 0]).piece_at 0).size ≤
    ((run_all (memory_storage.construct 16 4 4 (fun _ => 4) 0 (List.replicate 40 1))
      [op.writev [[3, 4]] 0 2, op.writev [[1, 2]] 0 0]).piece_at 0).length := by
  have hr : counted_ranges 0
      (memory_storage.construct 16 4 4 (fun _ => 4) 0 (List.replicate 40 1))
      [op.writev [[3, 4]] 0 2, op.writev [[1, 2]] 0 0] [] = [(2, 4), (0, 2)] := by decide
  have h := size_counts_written 16 4 4 (fun _ => 4) 0 (List.replicate 40 1)
    [op.writev [[3, 4]] 0 2, op.writev [[1, 2]] 0 0] 0
    (by decide) (by decide) (by decide) (by intro i _ _; simp)
    ⟨⟨by decide, by decide, by decide, by decide⟩,
      ⟨by decide, by decide, by decide, by decide⟩, trivial⟩
    (by decide) (by decide)
  refine ⟨hr, by decide, h.2.2.2.2.2 ?_⟩
  rw [hr]
  simp [ranges_disjoint]

end libtorrent
